import Mathlib

/-!
# StarRocks data-stream receiver: sender queue

A shallow embedding of `be/src/runtime/data_stream_recvr.cc`
(`DataStreamRecvr::SenderQueue` and the parts of `DataStreamRecvr` it touches),
followed by theorems about it.

Conventions of the embedding.

* Every region of the source that runs under `_lock` is one atomic function of
  the state.  A member function that takes the lock more than once
  (`add_chunks`, `add_chunks_and_keep_order`, `cancel`) is the composition of
  its regions; the regions are separate definitions so that an interleaving
  can be stated on them.
* `google::protobuf::Closure*` is a `Closure` identifier; `Closure::Run()` is
  recorded by appending the identifier to the `ran` list of the result.
* Hash maps (`std::unordered_map`, `phmap::flat_hash_map`) are association
  lists; iteration follows list order, which is one of the orders the
  containers allow.
* Integers are `Int`.  The one narrowing conversion of the source
  (`const int32_t sequence = request.sequence()`) is `toInt32`.
* Timers, profile counters, logging, memory-tracker switches and condition
  variable notifications have no effect on the modelled state and are dropped.
-/

namespace StarRocks

/-! ## Status (`common/status.h`) -/

/-- The status codes the receiver uses, from `TStatusCode`. -/
inductive TStatusCode where
  | CANCELLED
  | INTERNAL_ERROR
  | CORRUPTION
  | MEM_ALLOC_FAILED
  | NOT_FOUND
  | NOT_IMPLEMENTED_ERROR
  deriving DecidableEq, Repr

/-- The heap state of a non-OK `Status`: code and message. -/
structure StatusState where
  code : TStatusCode
  msg : String
  deriving DecidableEq, Repr

/-- `Status`: `_state == nullptr` is OK (`none`), otherwise a code and a message. -/
abbrev Status := Option StatusState

/-- `Status::OK()`. -/
def Status.OK : Status := none

/-- `Status::Cancelled(msg)`. -/
def Status.Cancelled (msg : String) : Status := some ⟨TStatusCode.CANCELLED, msg⟩

/-- `Status::InternalError(msg)`. -/
def Status.InternalError (msg : String) : Status := some ⟨TStatusCode.INTERNAL_ERROR, msg⟩

/-- `Status::ok()`: `_state == nullptr`. -/
def Status.ok (s : Status) : Bool := s.isNone

/-- `Status::is_cancelled()`: `code() == TStatusCode::CANCELLED`. -/
def Status.is_cancelled (s : Status) : Bool :=
  match s with
  | some st => decide (st.code = TStatusCode.CANCELLED)
  | none => false

/-! ## Association lists standing for the hash maps -/

/-- `m.find(k)`: the value bound to `k`, if any. -/
def mfind {K V : Type} [DecidableEq K] : List (K × V) → K → Option V
  | [], _ => none
  | (k', v) :: m, k => if k' = k then some v else mfind m k

/-- `m[k] = v` (also `emplace` on an absent key): rebind `k`, or add it. -/
def minsert {K V : Type} [DecidableEq K] : List (K × V) → K → V → List (K × V)
  | [], k, v => [(k, v)]
  | (k', v') :: m, k, v => if k' = k then (k, v) :: m else (k', v') :: minsert m k v

/-- `m.erase(k)`. -/
def merase {K V : Type} [DecidableEq K] : List (K × V) → K → List (K × V)
  | [], _ => []
  | (k', v') :: m, k => if k' = k then merase m k else (k', v') :: merase m k

/-! ## Wire messages and chunks -/

/-- `google::protobuf::Closure*`: the completion callback of one RPC. -/
abbrev Closure := Nat

/-- `vectorized::Chunk`, the columnar container; its content is whatever
`Chunk::deserialize` produced. -/
structure Chunk where
  payload : List Nat
  deriving DecidableEq, Repr

/-- `CompressionTypePB`. -/
inductive CompressionTypePB where
  | NO_COMPRESSION
  | other (id : Nat)
  deriving DecidableEq, Repr

/-- `ChunkPB`, the fields the receiver reads. -/
structure ChunkPB where
  data : List Nat
  compress_type : CompressionTypePB
  uncompressed_size : Nat
  serialized_size : Nat
  slot_id_map : List Int
  tuple_id_map : List Int
  is_nulls : List Bool
  is_consts : List Bool
  deriving DecidableEq, Repr

/-- `PTransmitChunkParams`, the fields the receiver reads.  `be_number` is an
`int32`, `sequence` an `int64`. -/
structure PTransmitChunkParams where
  sender_id : Int
  be_number : Int
  sequence : Int
  chunks : List ChunkPB
  deriving DecidableEq, Repr

/-- Conversion of an `int64` to `int32` (two's complement wrap), as performed by
`const int32_t sequence = request.sequence();`. -/
def toInt32 (x : Int) : Int := (x + 2147483648) % 4294967296 - 2147483648

/-! ## Chunk meta -/

/-- `PrimitiveType`, as far as `_build_chunk_meta` distinguishes values. -/
inductive PrimitiveType where
  | INVALID_TYPE
  | TYPE_BOOLEAN
  | other (id : Nat)
  deriving DecidableEq, Repr

/-- `TypeDescriptor`; default constructed it is `INVALID_TYPE`. -/
structure TypeDescriptor where
  type : PrimitiveType
  deriving DecidableEq, Repr

/-- `SlotDescriptor`: `id()` and `type()`. -/
structure SlotDescriptor where
  id : Int
  type : TypeDescriptor
  deriving DecidableEq, Repr

/-- `TupleDescriptor`: `slots()`. -/
structure TupleDescriptor where
  slots : List SlotDescriptor
  deriving DecidableEq, Repr

/-- `vectorized::RuntimeChunkMeta`, with the fields `_build_chunk_meta` fills. -/
structure RuntimeChunkMeta where
  slot_id_to_index : List (Int × Int)
  tuple_id_to_index : List (Int × Int)
  is_nulls : List Bool
  is_consts : List Bool
  types : List TypeDescriptor
  deriving DecidableEq, Repr

/-- `std::vector::resize(n)` with default value `d`. -/
def vresize {α : Type} (l : List α) (n : Nat) (d : α) : List α :=
  (l ++ List.replicate n d).take n

/-- `v[i] = x` for an index read from a map; an index outside the vector
(undefined behaviour in the source) writes nothing. -/
def vset {α : Type} (l : List α) (i : Int) (x : α) : List α :=
  if 0 ≤ i then l.set i.toNat x else l

/-- The loop `for (i = 0; i < m.size(); i += 2) insert(m[i], m[i + 1])` read as a
list of pairs.  With an odd length the source reads `m[size]`, outside the
field; the model reads `0` there. -/
def flat_pairs : List Int → List (Int × Int)
  | [] => []
  | [a] => [(a, 0)]
  | a :: b :: rest => (a, b) :: flat_pairs rest

/-- Modelled from the spec: the container of `slot_id_to_index` and
`tuple_id_to_index` is declared in `column/chunk.h`, which is not among the
sources; the spec calls it a mapping `id → column_index`.  `init` is taken to
reserve space only and `insert` on a present key to rebind it.  The pairs are
inserted in order. -/
def insert_pairs (m : List (Int × Int)) (ps : List (Int × Int)) : List (Int × Int) :=
  ps.foldl (fun acc p => minsert acc p.1 p.2) m

/-- The inner loops of `_build_chunk_meta` for one tuple descriptor: for each
entry of the slot map, the first slot with that id gives the type of the column
and counts one column. -/
def assign_slot_types (slots : List SlotDescriptor) :
    List (Int × Int) → List TypeDescriptor × Nat → List TypeDescriptor × Nat
  | [], acc => acc
  | kv :: rest, (types, column_index) =>
    match slots.find? (fun slot => decide (kv.1 = slot.id)) with
    | some slot => assign_slot_types slots rest (vset types kv.2 slot.type, column_index + 1)
    | none => assign_slot_types slots rest (types, column_index)

/-- The loop over the tuple-id map: every entry is a boolean column and counts
one column. -/
def assign_tuple_types :
    List (Int × Int) → List TypeDescriptor × Nat → List TypeDescriptor × Nat
  | [], acc => acc
  | kv :: rest, (types, column_index) =>
    assign_tuple_types rest (vset types kv.2 ⟨PrimitiveType.TYPE_BOOLEAN⟩, column_index + 1)

/-- `SenderQueue::_build_chunk_meta` (lines 257-306).  Returns the status and the
chunk meta as the call leaves it: the meta is written before the final
column-count check, so a failing call may leave it modified. -/
def _build_chunk_meta (row_desc : List TupleDescriptor) (meta : RuntimeChunkMeta)
    (pb_chunk : ChunkPB) : Status × RuntimeChunkMeta :=
  if pb_chunk.is_nulls.isEmpty || pb_chunk.slot_id_map.isEmpty then
    (Status.InternalError "pb_chunk meta could not be empty", meta)
  else
    let slot_id_to_index := insert_pairs meta.slot_id_to_index (flat_pairs pb_chunk.slot_id_map)
    let tuple_id_to_index := insert_pairs meta.tuple_id_to_index (flat_pairs pb_chunk.tuple_id_map)
    let is_nulls := pb_chunk.is_nulls
    let is_consts := pb_chunk.is_consts
    let types0 := vresize meta.types pb_chunk.is_nulls.length (⟨PrimitiveType.INVALID_TYPE⟩ : TypeDescriptor)
    let acc1 := row_desc.foldl
      (fun acc tuple_desc => assign_slot_types tuple_desc.slots slot_id_to_index acc) (types0, 0)
    let acc2 := assign_tuple_types tuple_id_to_index acc1
    let meta1 : RuntimeChunkMeta :=
      { slot_id_to_index := slot_id_to_index, tuple_id_to_index := tuple_id_to_index,
        is_nulls := is_nulls, is_consts := is_consts, types := acc2.1 }
    if acc2.2 ≠ is_nulls.length then
      (Status.InternalError "build chunk meta error", meta1)
    else
      (Status.OK, meta1)

/-! ## Collaborators outside the repository sources -/

/-- The collaborators `_deserialize_chunk` calls: `Chunk::deserialize`
(arguments: buffer, size, meta, serialized size) and
`get_block_compression_codec`, whose codec offers `decompress` (arguments:
input, size of the output buffer).  A `std::bad_alloc` turned into
`MemoryAllocFailed` by `TRY_CATCH_BAD_ALLOC` is one of the errors they may return. -/
structure Collaborators where
  chunk_deserialize : List Nat → Nat → RuntimeChunkMeta → Nat → Except StatusState Chunk
  get_block_compression_codec :
    CompressionTypePB → Except StatusState (List Nat → Nat → Except StatusState (List Nat))

/-- `SenderQueue::_deserialize_chunk` (lines 504-529). -/
def _deserialize_chunk (env : Collaborators) (meta : RuntimeChunkMeta) (pchunk : ChunkPB) :
    Except StatusState Chunk :=
  if pchunk.compress_type = CompressionTypePB.NO_COMPRESSION then
    env.chunk_deserialize pchunk.data pchunk.data.length meta pchunk.serialized_size
  else
    match env.get_block_compression_codec pchunk.compress_type with
    | Except.error e => Except.error e
    | Except.ok decompress =>
      match decompress pchunk.data pchunk.uncompressed_size with
      | Except.error e => Except.error e
      | Except.ok uncompressed_buffer =>
        env.chunk_deserialize uncompressed_buffer pchunk.uncompressed_size meta
          pchunk.serialized_size

/-! ## Queue and receiver state -/

/-- `SenderQueue::ChunkItem` (lines 112-120). -/
structure ChunkItem where
  chunk_bytes : Int
  chunk_ptr : Chunk
  closure : Option Closure
  deriving DecidableEq, Repr

/-- `ChunkQueue`, a `std::list<ChunkItem>`. -/
abbrev ChunkQueue := List ChunkItem

/-- The data members of `SenderQueue` protected by `_lock` (lines 132-156). -/
structure SenderQueue where
  _is_cancelled : Bool
  _num_remaining_senders : Int
  _chunk_queue : ChunkQueue
  _chunk_meta : RuntimeChunkMeta
  _sender_eos_set : List Int
  _packet_seq_map : List (Int × Int)
  _max_processed_sequences : List (Int × Int)
  _buffered_chunk_queues : List (Int × List (Int × ChunkQueue))
  deriving DecidableEq, Repr

/-- The members of `DataStreamRecvr` a sender queue reaches through `_recvr`. -/
structure Recvr where
  _total_buffer_limit : Int
  _num_buffered_bytes : Int
  _row_desc : List TupleDescriptor
  deriving DecidableEq, Repr

/-- Modelled from the spec: `DataStreamRecvr::exceeds_limit` is declared in
`runtime/data_stream_recvr.h`, which is not among the sources; the spec gives
`exceeds_limit(x) := total_buffered_bytes + x > limit`. -/
def Recvr.exceeds_limit (r : Recvr) (batch_size : Int) : Bool :=
  decide (r._num_buffered_bytes + batch_size > r._total_buffer_limit)

/-- The empty chunk meta of a new queue. -/
def RuntimeChunkMeta.empty : RuntimeChunkMeta :=
  { slot_id_to_index := [], tuple_id_to_index := [], is_nulls := [], is_consts := [], types := [] }

/-- `SenderQueue::SenderQueue(parent_recvr, num_senders)` (lines 159-160). -/
def SenderQueue.new (num_senders : Int) : SenderQueue :=
  { _is_cancelled := false, _num_remaining_senders := num_senders, _chunk_queue := [],
    _chunk_meta := RuntimeChunkMeta.empty, _sender_eos_set := [], _packet_seq_map := [],
    _max_processed_sequences := [], _buffered_chunk_queues := [] }

/-! ## Pulling chunks -/

/-- Result of `get_chunk`, `get_chunk_for_pipeline` and `_do_get_chunk`: the
returned status, the state afterwards, the value written to `*chunk` (`none`:
not written) and the closures run, in order. -/
structure GetResult where
  status : Status
  recvr : Recvr
  queue : SenderQueue
  chunk : Option Chunk
  ran : List Closure
  deriving DecidableEq, Repr

/-- Result of `try_get_chunk`, which returns a `bool`. -/
structure TryResult where
  ret : Bool
  recvr : Recvr
  queue : SenderQueue
  chunk : Option Chunk
  ran : List Closure
  deriving DecidableEq, Repr

/-- `closure->Run()` guarded by `closure != nullptr`. -/
def run_closure (closure : Option Closure) : List Closure :=
  match closure with
  | some c => [c]
  | none => []

/-- `SenderQueue::has_output` (lines 162-165). -/
def has_output (q : SenderQueue) : Bool :=
  !q._is_cancelled && !q._chunk_queue.isEmpty

/-- `SenderQueue::is_finished` (lines 167-170). -/
def is_finished (q : SenderQueue) : Bool :=
  q._is_cancelled || (decide (q._num_remaining_senders = 0) && q._chunk_queue.isEmpty)

/-- `SenderQueue::has_chunk` (lines 172-183). -/
def has_chunk (q : SenderQueue) : Bool :=
  if q._is_cancelled then true
  else if q._chunk_queue.isEmpty && decide (q._num_remaining_senders > 0) then false
  else true

/-- `SenderQueue::try_get_chunk` (lines 186-206).  The `DCHECK_EQ` of the empty
branch does not change what a release build returns. -/
def try_get_chunk (r : Recvr) (q : SenderQueue) : TryResult :=
  if q._is_cancelled then
    { ret := false, recvr := r, queue := q, chunk := none, ran := [] }
  else
    match q._chunk_queue with
    | [] => { ret := false, recvr := r, queue := q, chunk := none, ran := [] }
    | front :: rest =>
      { ret := true,
        recvr := { r with _num_buffered_bytes := r._num_buffered_bytes - front.chunk_bytes },
        queue := { q with _chunk_queue := rest },
        chunk := some front.chunk_ptr,
        ran := run_closure front.closure }

/-- `SenderQueue::_do_get_chunk` (lines 225-255). -/
def _do_get_chunk (r : Recvr) (q : SenderQueue) : GetResult :=
  if q._is_cancelled then
    { status := Status.Cancelled "Cancelled SenderQueue::get_chunk",
      recvr := r, queue := q, chunk := none, ran := [] }
  else
    match q._chunk_queue with
    | [] => { status := Status.OK, recvr := r, queue := q, chunk := none, ran := [] }
    | front :: rest =>
      { status := Status.OK,
        recvr := { r with _num_buffered_bytes := r._num_buffered_bytes - front.chunk_bytes },
        queue := { q with _chunk_queue := rest },
        chunk := some front.chunk_ptr,
        ran := run_closure front.closure }

/-- The condition of the wait loop of `get_chunk` (line 211). -/
def get_chunk_waits (q : SenderQueue) : Bool :=
  !q._is_cancelled && q._chunk_queue.isEmpty && decide (q._num_remaining_senders > 0)

/-- `SenderQueue::get_chunk` (lines 208-218).  While the wait condition holds the
call stays in `_data_arrival_cv.wait` and returns nothing: `none`. -/
def get_chunk (r : Recvr) (q : SenderQueue) : Option GetResult :=
  if get_chunk_waits q then none else some (_do_get_chunk r q)

/-- `SenderQueue::get_chunk_for_pipeline` (lines 220-223). -/
def get_chunk_for_pipeline (r : Recvr) (q : SenderQueue) : GetResult :=
  _do_get_chunk r q

/-! ## Adding chunks -/

/-- Result of `add_chunks` and `add_chunks_and_keep_order`: the returned status,
the state afterwards, the caller's `done` afterwards and the closures run.
`done` is the `Closure**` argument: `none` is a null `done`, `some none` a null
`*done`, `some (some c)` the closure `c`. -/
structure AddResult where
  status : Status
  recvr : Recvr
  queue : SenderQueue
  done : Option (Option Closure)
  ran : List Closure
  deriving DecidableEq, Repr

/-- Outcome of a locked region that may return from the member function. -/
inductive Region where
  | returned (status : Status) (queue : SenderQueue)
  | proceed (queue : SenderQueue)
  deriving DecidableEq, Repr

/-- A default-constructed `ChunkPB`. -/
def ChunkPB.empty : ChunkPB :=
  { data := [], compress_type := CompressionTypePB.NO_COMPRESSION, uncompressed_size := 0,
    serialized_size := 0, slot_id_map := [], tuple_id_map := [], is_nulls := [], is_consts := [] }

/-- `request.chunks(0)`.  The source requires `chunks_size() > 0` by a `DCHECK`;
on an empty request the model reads a default-constructed `ChunkPB`. -/
def first_chunk (request : PTransmitChunkParams) : ChunkPB :=
  request.chunks.headD ChunkPB.empty

/-- The step `if (_chunk_meta.types.empty()) RETURN_IF_ERROR(_build_chunk_meta(pchunk))`
shared by both add functions (lines 346-350 and 434-438). -/
def build_meta_if_empty (r : Recvr) (q : SenderQueue) (request : PTransmitChunkParams) : Region :=
  if q._chunk_meta.types.isEmpty then
    match _build_chunk_meta r._row_desc q._chunk_meta (first_chunk request) with
    | (none, meta) => Region.proceed { q with _chunk_meta := meta }
    | (some e, meta) => Region.returned (some e) { q with _chunk_meta := meta }
  else Region.proceed q

/-- The duplicate test of `add_chunks` (lines 322-330): the source is known,
its recorded sequence is not below the request's, and the call is not in
pipeline mode. -/
def packet_already_exists (q : SenderQueue) (be_number sequence : Int) (is_pipeline : Bool) :
    Bool :=
  match mfind q._packet_seq_map be_number with
  | some second => decide (second ≥ sequence) && !is_pipeline
  | none => false

/-- First locked region of `add_chunks` (lines 315-351).  Both branches of the
lookup that do not return store the request's sequence (`iter->second = sequence`
or `emplace`). -/
def add_chunks_lock1 (r : Recvr) (q : SenderQueue) (request : PTransmitChunkParams)
    (is_pipeline : Bool) : Region :=
  let be_number := request.be_number
  let sequence := request.sequence
  if q._is_cancelled then Region.returned Status.OK q
  else if packet_already_exists q be_number sequence is_pipeline then Region.returned Status.OK q
  else
    let q1 := { q with _packet_seq_map := minsert q._packet_seq_map be_number sequence }
    if q1._num_remaining_senders ≤ 0 then Region.returned Status.OK q1
    else build_meta_if_empty r q1 request

/-- The deserialization loop run without the lock (lines 353-367 and 441-455):
the items built, each with a null closure, and `total_chunk_bytes`; the first
failing chunk ends the member function with its error. -/
def deserialize_chunks (env : Collaborators) (meta : RuntimeChunkMeta) :
    List ChunkPB → Except StatusState (ChunkQueue × Int)
  | [] => Except.ok ([], 0)
  | pchunk :: rest =>
    match _deserialize_chunk env meta pchunk with
    | Except.error e => Except.error e
    | Except.ok chunk =>
      match deserialize_chunks env meta rest with
      | Except.error e => Except.error e
      | Except.ok (items, total) =>
        Except.ok
          ({ chunk_bytes := pchunk.data.length, chunk_ptr := chunk, closure := none } :: items,
            (pchunk.data.length : Int) + total)

/-- `queue.back().closure = c`. -/
def set_back_closure : ChunkQueue → Option Closure → ChunkQueue
  | [], _ => []
  | [item], c => [{ item with closure := c }]
  | item :: next :: rest, c => item :: set_back_closure (next :: rest) c

/-- The test `!chunks.empty() && done != nullptr && _recvr->exceeds_limit(total_chunk_bytes)`
(lines 384 and 471). -/
def takes_closure (r : Recvr) (chunks : ChunkQueue) (done : Option (Option Closure))
    (total_chunk_bytes : Int) : Bool :=
  !chunks.isEmpty && done.isSome && r.exceeds_limit total_chunk_bytes

/-- Second locked region of `add_chunks` (lines 371-390). -/
def add_chunks_lock2 (r : Recvr) (q : SenderQueue) (chunks : ChunkQueue) (total_chunk_bytes : Int)
    (done : Option (Option Closure)) : AddResult :=
  if q._is_cancelled then
    { status := Status.OK, recvr := r, queue := q, done := done, ran := [] }
  else
    let chunk_queue := q._chunk_queue ++ chunks
    let r1 := { r with _num_buffered_bytes := r._num_buffered_bytes + total_chunk_bytes }
    if takes_closure r chunks done total_chunk_bytes then
      { status := Status.OK, recvr := r1,
        queue := { q with _chunk_queue := set_back_closure chunk_queue done.join },
        done := some none, ran := [] }
    else
      { status := Status.OK, recvr := r1, queue := { q with _chunk_queue := chunk_queue },
        done := done, ran := [] }

/-- `SenderQueue::add_chunks` (lines 308-393), its regions run without another
thread in between. -/
def add_chunks (env : Collaborators) (r : Recvr) (q : SenderQueue)
    (request : PTransmitChunkParams) (done : Option (Option Closure)) (is_pipeline : Bool) :
    AddResult :=
  match add_chunks_lock1 r q request is_pipeline with
  | Region.returned status q1 =>
    { status := status, recvr := r, queue := q1, done := done, ran := [] }
  | Region.proceed q1 =>
    match deserialize_chunks env q1._chunk_meta request.chunks with
    | Except.error e => { status := some e, recvr := r, queue := q1, done := done, ran := [] }
    | Except.ok (chunks, total_chunk_bytes) => add_chunks_lock2 r q1 chunks total_chunk_bytes done

/-- The drain loop of `add_chunks_and_keep_order` (lines 486-497): while the map
of one source holds `max_processed_sequence + 1`, append that batch to the ready
queue, erase it and advance the counter.  Every round erases a key, so the
number of entries bounds the rounds; `fuel` is that bound. -/
def drain_loop : Nat → List (Int × ChunkQueue) → Int → ChunkQueue →
    List (Int × ChunkQueue) × Int × ChunkQueue
  | 0, chunk_queues, max_processed_sequence, chunk_queue =>
    (chunk_queues, max_processed_sequence, chunk_queue)
  | fuel + 1, chunk_queues, max_processed_sequence, chunk_queue =>
    match mfind chunk_queues (max_processed_sequence + 1) with
    | none => (chunk_queues, max_processed_sequence, chunk_queue)
    | some unprocessed_chunk_queue =>
      drain_loop fuel (merase chunk_queues (max_processed_sequence + 1))
        (max_processed_sequence + 1) (chunk_queue ++ unprocessed_chunk_queue)

/-- First locked region of `add_chunks_and_keep_order` (lines 402-415). -/
def add_chunks_and_keep_order_lock1 (q : SenderQueue) (request : PTransmitChunkParams) : Region :=
  let be_number := request.be_number
  if q._is_cancelled then Region.returned Status.OK q
  else
    let max_processed_sequences :=
      match mfind q._max_processed_sequences be_number with
      | none => minsert q._max_processed_sequences be_number (-1)
      | some _ => q._max_processed_sequences
    let buffered_chunk_queues :=
      match mfind q._buffered_chunk_queues be_number with
      | none => minsert q._buffered_chunk_queues be_number []
      | some _ => q._buffered_chunk_queues
    Region.proceed { q with _max_processed_sequences := max_processed_sequences,
                            _buffered_chunk_queues := buffered_chunk_queues }

/-- Second locked region of `add_chunks_and_keep_order` (lines 418-439). -/
def add_chunks_and_keep_order_lock2 (r : Recvr) (q : SenderQueue)
    (request : PTransmitChunkParams) : Region :=
  if q._is_cancelled then Region.returned Status.OK q
  else if q._num_remaining_senders ≤ 0 then Region.returned Status.OK q
  else build_meta_if_empty r q request

/-- Third locked region of `add_chunks_and_keep_order` (lines 459-500).
`operator[]` on an absent source yields an empty map, respectively the counter
`0`; `sequence` is the `int32_t` local of line 400. -/
def add_chunks_and_keep_order_lock3 (r : Recvr) (q : SenderQueue)
    (request : PTransmitChunkParams) (local_chunk_queue : ChunkQueue) (total_chunk_bytes : Int)
    (done : Option (Option Closure)) : AddResult :=
  let be_number := request.be_number
  let sequence := toInt32 request.sequence
  if q._is_cancelled then
    { status := Status.OK, recvr := r, queue := q, done := done, ran := [] }
  else
    let chunk_queues := (mfind q._buffered_chunk_queues be_number).getD []
    let take := takes_closure r local_chunk_queue done total_chunk_bytes
    let local1 := if take then set_back_closure local_chunk_queue done.join else local_chunk_queue
    let done1 := if take then some none else done
    let chunk_queues1 := minsert chunk_queues sequence local1
    let max_processed_sequence := (mfind q._max_processed_sequences be_number).getD 0
    let drained := drain_loop chunk_queues1.length chunk_queues1 max_processed_sequence q._chunk_queue
    { status := Status.OK,
      recvr := { r with _num_buffered_bytes := r._num_buffered_bytes + total_chunk_bytes },
      queue := { q with
        _chunk_queue := drained.2.2,
        _max_processed_sequences := minsert q._max_processed_sequences be_number drained.2.1,
        _buffered_chunk_queues := minsert q._buffered_chunk_queues be_number drained.1 },
      done := done1, ran := [] }

/-- `SenderQueue::add_chunks_and_keep_order` (lines 395-502), its regions run
without another thread in between. -/
def add_chunks_and_keep_order (env : Collaborators) (r : Recvr) (q : SenderQueue)
    (request : PTransmitChunkParams) (done : Option (Option Closure)) : AddResult :=
  match add_chunks_and_keep_order_lock1 q request with
  | Region.returned status q1 =>
    { status := status, recvr := r, queue := q1, done := done, ran := [] }
  | Region.proceed q1 =>
    match add_chunks_and_keep_order_lock2 r q1 request with
    | Region.returned status q2 =>
      { status := status, recvr := r, queue := q2, done := done, ran := [] }
    | Region.proceed q2 =>
      match deserialize_chunks env q2._chunk_meta request.chunks with
      | Except.error e => { status := some e, recvr := r, queue := q2, done := done, ran := [] }
      | Except.ok (local_chunk_queue, total_chunk_bytes) =>
        add_chunks_and_keep_order_lock3 r q2 request local_chunk_queue total_chunk_bytes done

/-! ## End of stream, cancel, close -/

/-- `SenderQueue::decrement_senders` (lines 531-545). -/
def decrement_senders (q : SenderQueue) (be_number : Int) : SenderQueue :=
  if be_number ∈ q._sender_eos_set then q
  else { q with _sender_eos_set := be_number :: q._sender_eos_set,
                _num_remaining_senders := q._num_remaining_senders - 1 }

/-- Result of `cancel` and `close`: the queue afterwards and the closures run. -/
structure DrainResult where
  queue : SenderQueue
  ran : List Closure
  deriving DecidableEq, Repr

/-- The loop `for (auto& item : chunk_queue) if (item.closure != nullptr) item.closure->Run();`. -/
def run_queue_closures : ChunkQueue → List Closure
  | [] => []
  | item :: rest => run_closure item.closure ++ run_queue_closures rest

/-- The loop over the batches of one source in `cancel` and `close`. -/
def run_source_closures : List (Int × ChunkQueue) → List Closure
  | [] => []
  | entry :: rest => run_queue_closures entry.2 ++ run_source_closures rest

/-- The loop over `_buffered_chunk_queues` in `cancel` and `close`. -/
def run_buffered_closures : List (Int × List (Int × ChunkQueue)) → List Closure
  | [] => []
  | entry :: rest => run_source_closures entry.2 ++ run_buffered_closures rest

/-- The draining region shared by `cancel` (lines 561-579) and `close`
(lines 590-605): run the closures of the ready queue, clear it, run the closures
of every pending batch, clear the pending map. -/
def drain_queues (q : SenderQueue) : DrainResult :=
  { queue := { q with _chunk_queue := [], _buffered_chunk_queues := [] },
    ran := run_queue_closures q._chunk_queue ++ run_buffered_closures q._buffered_chunk_queues }

/-- `SenderQueue::cancel` (lines 547-580), its two regions run without another
thread in between. -/
def cancel (q : SenderQueue) : DrainResult :=
  if q._is_cancelled then { queue := q, ran := [] }
  else drain_queues { q with _is_cancelled := true }

/-- `SenderQueue::close` (lines 582-607). -/
def close (q : SenderQueue) : DrainResult :=
  drain_queues { q with _is_cancelled := true }

/-! ## Sequences of operations on one queue -/

/-- The operations of a sender queue, with their arguments. -/
inductive Op where
  | add_chunks (request : PTransmitChunkParams) (done : Option (Option Closure))
      (is_pipeline : Bool)
  | add_chunks_and_keep_order (request : PTransmitChunkParams) (done : Option (Option Closure))
  | get_chunk
  | get_chunk_for_pipeline
  | try_get_chunk
  | decrement_senders (be_number : Int)
  | cancel
  | close
  deriving DecidableEq, Repr

/-- A run of operations: the state, the closures whose ownership passed to the
queue (the caller's `*done` was a closure before a call and null after it), and
the closures run so far, both in order of occurrence. -/
structure Run where
  recvr : Recvr
  queue : SenderQueue
  taken : List Closure
  ran : List Closure
  deriving DecidableEq, Repr

/-- The closure an add call took over from its caller, if any. -/
def taken_closure (before after : Option (Option Closure)) : List Closure :=
  match before, after with
  | some (some c), some none => [c]
  | _, _ => []

/-- Record the outcome of an add call in a run. -/
def Run.after_add (s : Run) (done : Option (Option Closure)) (o : AddResult) : Run :=
  { recvr := o.recvr, queue := o.queue, taken := s.taken ++ taken_closure done o.done,
    ran := s.ran ++ o.ran }

/-- One operation applied to a run.  A `get_chunk` that would wait leaves the run
as it is. -/
def Run.step (env : Collaborators) (s : Run) : Op → Run
  | Op.add_chunks request done is_pipeline =>
    s.after_add done (StarRocks.add_chunks env s.recvr s.queue request done is_pipeline)
  | Op.add_chunks_and_keep_order request done =>
    s.after_add done (StarRocks.add_chunks_and_keep_order env s.recvr s.queue request done)
  | Op.get_chunk =>
    match StarRocks.get_chunk s.recvr s.queue with
    | none => s
    | some o => { s with recvr := o.recvr, queue := o.queue, ran := s.ran ++ o.ran }
  | Op.get_chunk_for_pipeline =>
    let o := StarRocks.get_chunk_for_pipeline s.recvr s.queue
    { s with recvr := o.recvr, queue := o.queue, ran := s.ran ++ o.ran }
  | Op.try_get_chunk =>
    let o := StarRocks.try_get_chunk s.recvr s.queue
    { s with recvr := o.recvr, queue := o.queue, ran := s.ran ++ o.ran }
  | Op.decrement_senders be_number =>
    { s with queue := StarRocks.decrement_senders s.queue be_number }
  | Op.cancel =>
    let o := StarRocks.cancel s.queue
    { s with queue := o.queue, ran := s.ran ++ o.ran }
  | Op.close =>
    let o := StarRocks.close s.queue
    { s with queue := o.queue, ran := s.ran ++ o.ran }

/-- A list of operations applied in order. -/
def Run.steps (env : Collaborators) (s : Run) (ops : List Op) : Run :=
  ops.foldl (Run.step env) s

/-- A new receiver with one new queue, as a run with nothing taken or run. -/
def Run.fresh (total_buffer_limit : Int) (row_desc : List TupleDescriptor) (num_senders : Int) :
    Run :=
  { recvr := { _total_buffer_limit := total_buffer_limit, _num_buffered_bytes := 0,
               _row_desc := row_desc },
    queue := SenderQueue.new num_senders, taken := [], ran := [] }

/-! ## Concrete inputs used to evaluate the model -/

/-- Collaborators for evaluation: `Chunk::deserialize` accepts every buffer and
yields the chunk holding its bytes; no compression codec is registered. -/
def plain_env : Collaborators :=
  { chunk_deserialize := fun data _ _ _ => Except.ok { payload := data },
    get_block_compression_codec := fun _ =>
      Except.error { code := TStatusCode.NOT_IMPLEMENTED_ERROR, msg := "unknown compression" } }

/-- A row descriptor with one tuple of one slot, id `1`. -/
def one_slot_desc : List TupleDescriptor :=
  [{ slots := [{ id := 1, type := { type := PrimitiveType.other 5 } }] }]

/-- An uncompressed `ChunkPB` with the given data bytes and the meta of a stream
of one column, slot `1` at index `0`. -/
def plain_chunk (data : List Nat) : ChunkPB :=
  { data := data, compress_type := CompressionTypePB.NO_COMPRESSION, uncompressed_size := 0,
    serialized_size := data.length, slot_id_map := [1, 0], tuple_id_map := [],
    is_nulls := [false], is_consts := [false] }

/-- A request of source `be_number` with the given sequence and chunks. -/
def mk_request (be_number sequence : Int) (chunks : List ChunkPB) : PTransmitChunkParams :=
  { sender_id := 0, be_number := be_number, sequence := sequence, chunks := chunks }

/-- The queue a locked region leaves, whether it returns or not. -/
def Region.queue : Region → SenderQueue
  | Region.returned _ q => q
  | Region.proceed q => q

/-- The closures held by the items of a queue, in order. -/
def held_closures (items : ChunkQueue) : List Closure :=
  items.filterMap (fun i => i.closure)

/-- All items of the pending map, source by source and batch by batch. -/
def pending_items (q : SenderQueue) : ChunkQueue :=
  (q._buffered_chunk_queues.map (fun src => (src.2.map (fun batch => batch.2)).flatten)).flatten

/-- Scenario S3 of the spec: on a new queue of a receiver with limit 100, source
`7` delivers sequences 3, 1, 2 in this order. -/
def s3_run : Run :=
  Run.steps plain_env (Run.fresh 100 one_slot_desc 1)
    [Op.add_chunks_and_keep_order (mk_request 7 3 [plain_chunk [30]]) (some (some 3)),
     Op.add_chunks_and_keep_order (mk_request 7 1 [plain_chunk [10]]) (some (some 1)),
     Op.add_chunks_and_keep_order (mk_request 7 2 [plain_chunk [20]]) (some (some 2))]

/-- The chunks of the ready queue of a run, in delivery order. -/
def Run.ready_chunks (s : Run) : List Chunk :=
  s.queue._chunk_queue.map (fun i => i.chunk_ptr)

/-- The pending batches of one source in a run: sequence key and chunks. -/
def Run.pending_chunks (s : Run) (be_number : Int) : Option (List (Int × List Chunk)) :=
  (mfind s.queue._buffered_chunk_queues be_number).map
    (fun m => m.map (fun batch => (batch.1, batch.2.map (fun i => i.chunk_ptr))))

/-- A retried request in keep-order mode: on a new queue of a receiver with limit
`0`, source `7` delivers sequence `5` twice, each call with its own closure, while
sequence `0` has not arrived; then `last` (cancel or close) ends the stream. -/
def duplicate_pending_run (last : Op) : Run :=
  Run.steps plain_env (Run.fresh 0 one_slot_desc 1)
    [Op.add_chunks_and_keep_order (mk_request 7 5 [plain_chunk [1, 2, 3]]) (some (some 1)),
     Op.add_chunks_and_keep_order (mk_request 7 5 [plain_chunk [1, 2, 3]]) (some (some 2)),
     last]

/-! ## Ordered reassembly: specification -/

/-- The batches the drain loop moves: the values bound to `mx + 1, …, mx + j`. -/
def drained_batches (chunk_queues : List (Int × ChunkQueue)) (mx : Int) (j : Nat) : ChunkQueue :=
  ((List.range j).map (fun (i : Nat) => (mfind chunk_queues (mx + 1 + (i : Int))).getD [])).flatten

/-- The batch `add_chunks_and_keep_order` files under the pending key: the
deserialized items, the last one holding the closure when the call takes it. -/
def keep_order_batch (r : Recvr) (items : ChunkQueue) (done : Option (Option Closure))
    (total : Int) : ChunkQueue :=
  if takes_closure r items done total then set_back_closure items done.join else items

/-- The chunks a request deserializes to under a chunk meta, in request order. -/
def request_chunks (env : Collaborators) (meta : RuntimeChunkMeta)
    (request : PTransmitChunkParams) : List Chunk :=
  request.chunks.filterMap (fun p =>
    match _deserialize_chunk env meta p with
    | Except.ok chunk => some chunk
    | Except.error _ => none)

/-- Invariant of ordered reassembly for one source: `D` lists the sequence
numbers whose requests have been accepted, `reqOf k` is the request with
sequence `k`, `ready0` the chunks the ready queue held at the start.  Some
`m` sequences have been delivered: the counter is `m - 1`, every sequence below
`m` has arrived and `m` has not; the pending map of the source holds exactly the
arrived sequences from `m` on, each with the chunks of its request; the ready
queue holds `ready0` followed by the chunks of sequences `0, …, m - 1`. -/
def Reassembling (env : Collaborators) (src : Int) (reqOf : Nat → PTransmitChunkParams)
    (ready0 : List Chunk) (q : SenderQueue) (D : List Nat) : Prop :=
  q._is_cancelled = false ∧ 0 < q._num_remaining_senders ∧
  (D ≠ [] → q._chunk_meta.types ≠ []) ∧
  ∃ m : Nat,
    (mfind q._max_processed_sequences src).getD (-1) = (m : Int) - 1 ∧
    (∀ k, k < m → k ∈ D) ∧ m ∉ D ∧
    (∀ kn ∈ D, m ≤ kn →
      ∃ items, mfind ((mfind q._buffered_chunk_queues src).getD []) (kn : Int) = some items ∧
        items.map (fun i => i.chunk_ptr) = request_chunks env q._chunk_meta (reqOf kn)) ∧
    (∀ (k : Int) (items : ChunkQueue),
      mfind ((mfind q._buffered_chunk_queues src).getD []) k = some items →
        ∃ kn ∈ D, m ≤ kn ∧ k = (kn : Int)) ∧
    q._chunk_queue.map (fun i => i.chunk_ptr) =
      ready0 ++ ((List.range m).map (fun k => request_chunks env q._chunk_meta (reqOf k))).flatten

/-- A keep-order call as an operation: the request and the caller's `done`. -/
def keep_order_op (c : PTransmitChunkParams × Option (Option Closure)) : Op :=
  Op.add_chunks_and_keep_order c.1 c.2

/-- Every one of the keep-order calls, applied in order, returns OK. -/
def Run.all_ok (env : Collaborators) :
    Run → List (PTransmitChunkParams × Option (Option Closure)) → Bool
  | _, [] => true
  | s, c :: rest =>
    (add_chunks_and_keep_order env s.recvr s.queue c.1 c.2).status.ok &&
      Run.all_ok env (Run.step env s (keep_order_op c)) rest

/-- The keep-order calls of source `7` with sequences `0, …, n - 1` in order, each
with one chunk of one byte and no closure. -/
def in_order_calls (n : Nat) : List (PTransmitChunkParams × Option (Option Closure)) :=
  (List.range n).map (fun (k : Nat) => (mk_request 7 (k : Int) [plain_chunk [1]], none))

/-- The run of `in_order_calls n` on a new queue with one sender, limit 100. -/
def in_order_run (n : Nat) : Run :=
  Run.steps plain_env (Run.fresh 100 one_slot_desc 1) ((in_order_calls n).map keep_order_op)

/-- Sequence numbers that differ by `2^32`: on a new queue with one sender, source
`7` delivers sequence `4294967296` and then sequence `1`; sequence `0` never
arrives. -/
def wrapped_sequence_run : Run :=
  Run.steps plain_env (Run.fresh 100 one_slot_desc 1)
    [Op.add_chunks_and_keep_order (mk_request 7 4294967296 [plain_chunk [42]]) none,
     Op.add_chunks_and_keep_order (mk_request 7 1 [plain_chunk [1]]) none]

/-! ## The receiver and its queues -/

/-- `DataStreamRecvr`, the members the constructor and the queue-level entry
points use; `_sender_queues` holds the queues themselves. -/
structure DataStreamRecvr where
  _total_buffer_limit : Int
  _row_desc : List TupleDescriptor
  _is_merging : Bool
  _num_buffered_bytes : Int
  _is_pipeline : Bool
  _keep_order : Bool
  _sender_queues : List SenderQueue
  deriving DecidableEq, Repr

/-- `DataStreamRecvr::DataStreamRecvr` (lines 667-703): one queue per sender when
merging, one shared queue otherwise.  The loop `for (i = 0; i < num_queues; ++i)`
creates no queue when `num_queues` is not positive. -/
def DataStreamRecvr.new (row_desc : List TupleDescriptor) (num_senders : Int) (is_merging : Bool)
    (total_buffer_limit : Int) (is_pipeline keep_order : Bool) : DataStreamRecvr :=
  let num_queues : Int := if is_merging then num_senders else 1
  let num_sender_per_queue : Int := if is_merging then 1 else num_senders
  { _total_buffer_limit := total_buffer_limit, _row_desc := row_desc, _is_merging := is_merging,
    _num_buffered_bytes := 0, _is_pipeline := is_pipeline, _keep_order := keep_order,
    _sender_queues := List.replicate num_queues.toNat (SenderQueue.new num_sender_per_queue) }

/-- `DataStreamRecvr::has_output` (lines 780-783): `_sender_queues[0]->has_output()`;
`none` when the receiver has no queue. -/
def DataStreamRecvr.has_output (recvr : DataStreamRecvr) : Option Bool :=
  recvr._sender_queues.head?.map StarRocks.has_output

/-- `DataStreamRecvr::is_finished` (lines 785-788): `_sender_queues[0]->is_finished()`;
`none` when the receiver has no queue. -/
def DataStreamRecvr.is_finished (recvr : DataStreamRecvr) : Option Bool :=
  recvr._sender_queues.head?.map StarRocks.is_finished

/-- Pipeline mode, the same source sending a lower sequence after a higher one:
on a new queue with one sender, source `7` delivers sequence `5`, then sequence
`3`, both with `is_pipeline = true`. -/
def pipeline_lower_sequence_ops : List Op :=
  [Op.add_chunks (mk_request 7 5 [plain_chunk [5]]) none true,
   Op.add_chunks (mk_request 7 3 [plain_chunk [3]]) none true]

/-! ## Unordered mode: traces of pulls and of accepted requests -/

/-- The pull operations: `get_chunk`, `get_chunk_for_pipeline`, `try_get_chunk`. -/
def Op.is_pull : Op → Bool
  | Op.get_chunk => true
  | Op.get_chunk_for_pipeline => true
  | Op.try_get_chunk => true
  | _ => false

/-- The operations of a queue in unordered mode that is neither cancelled nor
closed: `add_chunks`, the pulls and `decrement_senders`. -/
def Op.is_unordered : Op → Bool
  | Op.add_chunks _ _ _ => true
  | Op.get_chunk => true
  | Op.get_chunk_for_pipeline => true
  | Op.try_get_chunk => true
  | Op.decrement_senders _ => true
  | _ => false

/-- The chunk an operation returns to the consumer, if it is a pull that
returns one. -/
def pulled_chunk (s : Run) : Op → Option Chunk
  | Op.get_chunk => (get_chunk s.recvr s.queue).bind (fun o => o.chunk)
  | Op.get_chunk_for_pipeline => (get_chunk_for_pipeline s.recvr s.queue).chunk
  | Op.try_get_chunk => (try_get_chunk s.recvr s.queue).chunk
  | _ => none

/-- The chunks returned by the pulls of a list of operations, in order. -/
def Run.pulled (env : Collaborators) : Run → List Op → List Chunk
  | _, [] => []
  | s, op :: rest => (pulled_chunk s op).toList ++ Run.pulled env (Run.step env s op) rest

/-- The chunk list of an `add_chunks` operation when the request is accepted (the
first locked region does not return and every chunk deserializes): the chunks
its `ChunkPB`s deserialize to, in request order.  Empty for a request that is
not accepted and for every other operation. -/
def accepted_chunks (env : Collaborators) (s : Run) : Op → List Chunk
  | Op.add_chunks request _ is_pipeline =>
    match add_chunks_lock1 s.recvr s.queue request is_pipeline with
    | Region.proceed q1 =>
      match deserialize_chunks env q1._chunk_meta request.chunks with
      | Except.ok _ => request_chunks env q1._chunk_meta request
      | Except.error _ => []
    | Region.returned _ _ => []
  | _ => []

/-- The chunk lists of the accepted requests of a list of operations,
concatenated in acceptance order. -/
def Run.accepted (env : Collaborators) : Run → List Op → List Chunk
  | _, [] => []
  | s, op :: rest => accepted_chunks env s op ++ Run.accepted env (Run.step env s op) rest

/-- The bytes of the items of a queue that hold a closure. -/
def held_bytes : ChunkQueue → Int
  | [] => 0
  | item :: rest => (if item.closure.isSome then item.chunk_bytes else 0) + held_bytes rest

/-- An operation a queue can see when every sender waits for its ack: a pull, a
`decrement_senders`, or an `add_chunks` of sender `c` (the closure of a sender is
its number, below `n_senders`) that carries one chunk of at most `chunk_bytes`
bytes and comes while the queue holds no closure of that sender, so that the ack
of its previous request has been run or was never retained. -/
def sender_waits_for_ack (n_senders chunk_bytes : Nat) (s : Run) : Op → Bool
  | Op.add_chunks request (some (some c)) _ =>
    decide (c < n_senders) && !(held_closures s.queue._chunk_queue).contains c &&
      (match request.chunks with
       | [pchunk] => decide (pchunk.data.length ≤ chunk_bytes)
       | _ => false)
  | Op.get_chunk => true
  | Op.get_chunk_for_pipeline => true
  | Op.try_get_chunk => true
  | Op.decrement_senders _ => true
  | _ => false

/-- Every operation of the list, applied in order, is one of
`sender_waits_for_ack`. -/
def obeys_backpressure (env : Collaborators) (n_senders chunk_bytes : Nat) :
    Run → List Op → Bool
  | _, [] => true
  | s, op :: rest =>
    sender_waits_for_ack n_senders chunk_bytes s op &&
      obeys_backpressure env n_senders chunk_bytes (Run.step env s op) rest

/-- A request of sender `b` (source and closure `b`) with sequence `k` and one
chunk of 1 KiB. -/
def kib_request (b k : Nat) : Op :=
  Op.add_chunks (mk_request (b : Int) (k : Int) [plain_chunk (List.replicate 1024 0)])
    (some (some b)) false

/-- Scenario S1 with a slow consumer: limit 50 KiB, three senders, chunks of
1 KiB, nothing pulled.  Sender `0` delivers 51 requests, the last of which takes
the receiver over the limit and has its ack retained; then senders `1` and `2`,
which hold no retained ack, deliver one request each. -/
def s1_slow_consumer_ops : List Op :=
  (List.range 51).map (kib_request 0) ++ [kib_request 1 0, kib_request 2 0]

/-- Invariant of a queue whose senders wait for their ack: the limit is `limit`;
the buffered bytes exceed it by at most the bytes of the items that hold a
closure; no sender has two closures held; every item holding a closure has at
most `chunk_bytes` bytes. -/
def Backpressured (limit : Int) (n_senders chunk_bytes : Nat) (s : Run) : Prop :=
  s.queue._is_cancelled = false ∧
  s.recvr._total_buffer_limit = limit ∧
  s.recvr._num_buffered_bytes ≤ limit + held_bytes s.queue._chunk_queue ∧
  (held_closures s.queue._chunk_queue).Nodup ∧
  (∀ c ∈ held_closures s.queue._chunk_queue, c < n_senders) ∧
  (∀ i ∈ s.queue._chunk_queue,
    0 ≤ i.chunk_bytes ∧ (i.closure.isSome = true → i.chunk_bytes ≤ (chunk_bytes : Int)))

/-! ## Another thread between the locked regions of an add call -/

/-- `SenderQueue::add_chunks` (lines 308-393) with the lock released while the
request is deserialized (lines 353-367): `other` is what other threads did to the
receiver and the queue before the call re-acquires the lock for its second
region.  `add_chunks` is the case where `other` changes nothing. -/
def add_chunks_interleaved (env : Collaborators) (r : Recvr) (q : SenderQueue)
    (request : PTransmitChunkParams) (done : Option (Option Closure)) (is_pipeline : Bool)
    (other : Recvr → SenderQueue → Recvr × SenderQueue) : AddResult :=
  match add_chunks_lock1 r q request is_pipeline with
  | Region.returned status q1 =>
    { status := status, recvr := r, queue := q1, done := done, ran := [] }
  | Region.proceed q1 =>
    match deserialize_chunks env q1._chunk_meta request.chunks with
    | Except.error e => { status := some e, recvr := r, queue := q1, done := done, ran := [] }
    | Except.ok (chunks, total_chunk_bytes) =>
      add_chunks_lock2 (other r q1).1 (other r q1).2 chunks total_chunk_bytes done

/-- `SenderQueue::add_chunks_and_keep_order` (lines 395-502) with the lock
released while the request is deserialized (lines 441-455); `other` as in
`add_chunks_interleaved`. -/
def add_chunks_and_keep_order_interleaved (env : Collaborators) (r : Recvr) (q : SenderQueue)
    (request : PTransmitChunkParams) (done : Option (Option Closure))
    (other : Recvr → SenderQueue → Recvr × SenderQueue) : AddResult :=
  match add_chunks_and_keep_order_lock1 q request with
  | Region.returned status q1 =>
    { status := status, recvr := r, queue := q1, done := done, ran := [] }
  | Region.proceed q1 =>
    match add_chunks_and_keep_order_lock2 r q1 request with
    | Region.returned status q2 =>
      { status := status, recvr := r, queue := q2, done := done, ran := [] }
    | Region.proceed q2 =>
      match deserialize_chunks env q2._chunk_meta request.chunks with
      | Except.error e => { status := some e, recvr := r, queue := q2, done := done, ran := [] }
      | Except.ok (local_chunk_queue, total_chunk_bytes) =>
        add_chunks_and_keep_order_lock3 (other r q2).1 (other r q2).2 request local_chunk_queue
          total_chunk_bytes done

/-- Another thread calling `cancel()` on the queue while the lock is released. -/
def cancel_meanwhile (r : Recvr) (q : SenderQueue) : Recvr × SenderQueue :=
  (r, (cancel q).queue)

/-- No other thread touches the queue while the lock is released. -/
def nothing_meanwhile (r : Recvr) (q : SenderQueue) : Recvr × SenderQueue :=
  (r, q)

/-! ## The receiver-level entry point -/

/-- The members of the receiver a sender queue reaches through `_recvr`. -/
def DataStreamRecvr.view (recvr : DataStreamRecvr) : Recvr :=
  { _total_buffer_limit := recvr._total_buffer_limit,
    _num_buffered_bytes := recvr._num_buffered_bytes,
    _row_desc := recvr._row_desc }

/-- Result of `DataStreamRecvr::add_chunks`: the returned status, the receiver
afterwards, the caller's `done` afterwards and the closures run. -/
structure RecvrAddResult where
  status : Status
  recvr : DataStreamRecvr
  done : Option (Option Closure)
  ran : List Closure
  deriving DecidableEq, Repr

/-- `DataStreamRecvr::add_chunks` (lines 719-734): the request goes to queue
`request.sender_id()` of a merging receiver and to queue `0` otherwise, through
`add_chunks_and_keep_order` when `_keep_order` holds and through `add_chunks`
with `_is_pipeline` otherwise; the status of the queue is returned as it is.
`none`: `_sender_queues[use_sender_id]` is outside the vector. -/
def DataStreamRecvr.add_chunks (env : Collaborators) (recvr : DataStreamRecvr)
    (request : PTransmitChunkParams) (done : Option (Option Closure)) : Option RecvrAddResult :=
  let use_sender_id : Int := if recvr._is_merging then request.sender_id else 0
  if 0 ≤ use_sender_id then
    match recvr._sender_queues[use_sender_id.toNat]? with
    | none => none
    | some queue =>
      let o :=
        if recvr._keep_order then
          StarRocks.add_chunks_and_keep_order env recvr.view queue request done
        else
          StarRocks.add_chunks env recvr.view queue request done recvr._is_pipeline
      some { status := o.status,
             recvr := { recvr with
               _num_buffered_bytes := o.recvr._num_buffered_bytes,
               _sender_queues := recvr._sender_queues.set use_sender_id.toNat o.queue },
             done := o.done, ran := o.ran }
  else none

/-- `Status::Corruption(msg)`. -/
def Status.Corruption (msg : String) : Status := some ⟨TStatusCode.CORRUPTION, msg⟩

/-- Collaborators whose `Chunk::deserialize` rejects every buffer as corrupt. -/
def corrupt_env : Collaborators :=
  { chunk_deserialize := fun _ _ _ _ =>
      Except.error { code := TStatusCode.CORRUPTION, msg := "corrupt chunk" },
    get_block_compression_codec := fun _ =>
      Except.error { code := TStatusCode.NOT_IMPLEMENTED_ERROR, msg := "unknown compression" } }

/-! ## Chunk meta: the columns counted and the first packet -/

/-- The slot-map entries the inner loops of `_build_chunk_meta` count for one
tuple descriptor: the entries whose id is the id of one of its slots. -/
def matched_slot_entries (slots : List SlotDescriptor) (m : List (Int × Int)) : Nat :=
  m.countP (fun kv => (slots.find? (fun slot => decide (kv.1 = slot.id))).isSome)

/-- The value `column_index` has at the final check of `_build_chunk_meta`: for
every tuple descriptor of the row descriptor the slot-map entries matched in
it, plus one for every entry of the tuple-id map. -/
def counted_columns (row_desc : List TupleDescriptor) (slot_map tuple_map : List (Int × Int)) :
    Nat :=
  (row_desc.map (fun tuple_desc => matched_slot_entries tuple_desc.slots slot_map)).sum +
    tuple_map.length

/-- A first chunk whose slot map names two slots, `1` at index `0` and `99` at
index `1`, with one `is_nulls` entry; both id maps have even length. -/
def unmatched_slot_chunk : ChunkPB :=
  { plain_chunk [1] with slot_id_map := [1, 0, 99, 1] }

/-- A chunk that carries data only: no slot map, no nullability. -/
def bare_chunk (data : List Nat) : ChunkPB :=
  { plain_chunk data with slot_id_map := [], is_nulls := [], is_consts := [] }

/-- On a new queue with one sender, source `7` sends a request whose first chunk
carries no metadata and then a request whose first chunk carries it. -/
def late_meta_ops : List Op :=
  [Op.add_chunks (mk_request 7 0 [bare_chunk [1]]) none false,
   Op.add_chunks (mk_request 7 1 [plain_chunk [2]]) none false]

/-! ## Keep-order mode: pending keys and the place of the ack -/

/-- Two requests of source `7` whose 64-bit sequences differ by `2^32`: sequence
`4294967297`, then sequence `1`, on a new queue with one sender; sequence `0` has
not arrived. -/
def shared_pending_key_ops : List Op :=
  [Op.add_chunks_and_keep_order (mk_request 7 4294967297 [plain_chunk [42]]) none,
   Op.add_chunks_and_keep_order (mk_request 7 1 [plain_chunk [1]]) none]

/-- A request that arrives ahead of a missing lower sequence while the receiver
is over its limit (limit `0`): source `7` sends sequence `1` with the closure
`4`; sequence `0` has not arrived. -/
def ack_ahead_ops : List Op :=
  [Op.add_chunks_and_keep_order (mk_request 7 1 [plain_chunk [1, 2]]) (some (some 4))]

/-- A request that fills a gap while the receiver is over its limit (limit `0`):
source `7` sends sequence `1` with the closure `5`, then sequence `0`, two
chunks, with the closure `4`. -/
def ack_gap_fill_ops : List Op :=
  [Op.add_chunks_and_keep_order (mk_request 7 1 [plain_chunk [10]]) (some (some 5)),
   Op.add_chunks_and_keep_order (mk_request 7 0 [plain_chunk [20], plain_chunk [21]])
     (some (some 4))]

/-! ## BinaryPlainPage (`storage/rowset/segment_v2/binary_plain_page.h`) -/

/-- Modelled from the spec: `put_fixed32_le` is declared in `util/coding.h`, which
is not among the sources; the page format (lines 22-31) has 32-bit fixed trailer
fields and the name gives the byte order.  It appends the low 32 bits of `val`
to `buf` as four bytes, least significant first. -/
def put_fixed32_le (buf : List Nat) (val : Nat) : List Nat :=
  buf ++ [val % 256, val / 256 % 256, val / 65536 % 256, val / 16777216 % 256]

/-- Modelled from the spec: `decode_fixed32_le` is declared in `util/coding.h`,
which is not among the sources; it reads the four bytes at `p`, least
significant first, as a `uint32_t`.  A byte outside the buffer (undefined
behaviour in the source) reads as `0`. -/
def decode_fixed32_le (p : List Nat) : Nat :=
  (p.getD 0 0 + 256 * p.getD 1 0 + 65536 * p.getD 2 0 + 16777216 * p.getD 3 0) % 4294967296

/-- `PageBuilderOptions` (declared in `storage/rowset/segment_v2/options.h`), the
field the builder reads. -/
structure PageBuilderOptions where
  data_page_size : Nat
  deriving DecidableEq, Repr

/-- The data members of `BinaryPlainPageBuilder` (lines 160-169).  `_buffer`,
`_first_value` and `_last_value` are byte strings, `_reserved_head_size` a
`uint8_t`, `_size_estimate` and `_next_offset` `size_t` values, `_offsets` a
vector of `uint32_t`. -/
structure BinaryPlainPageBuilder where
  _reserved_head_size : Nat
  _size_estimate : Nat
  _next_offset : Nat
  _buffer : List Nat
  _offsets : List Nat
  _options : PageBuilderOptions
  _first_value : List Nat
  _last_value : List Nat
  _finished : Bool
  deriving DecidableEq, Repr

/-- `BinaryPlainPageBuilder::reset` (lines 115-122).  `faststring::resize` does
not initialise the bytes it adds; the model writes `0`. -/
def BinaryPlainPageBuilder.reset (b : BinaryPlainPageBuilder) : BinaryPlainPageBuilder :=
  { b with _offsets := [], _buffer := vresize b._buffer b._reserved_head_size 0,
           _next_offset := 0, _size_estimate := 4, _finished := false }

/-- The constructor of `BinaryPlainPageBuilder` (lines 57-60). -/
def BinaryPlainPageBuilder.new (options : PageBuilderOptions) : BinaryPlainPageBuilder :=
  BinaryPlainPageBuilder.reset
    { _reserved_head_size := 0, _size_estimate := 0, _next_offset := 0, _buffer := [],
      _offsets := [], _options := options, _first_value := [], _last_value := [],
      _finished := false }

/-- `BinaryPlainPageBuilder::reserve_head` (lines 62-66); the argument is a
`uint8_t`.  `none`: the `CHECK_EQ` fails and the process aborts. -/
def BinaryPlainPageBuilder.reserve_head (b : BinaryPlainPageBuilder) (head_size : Nat) :
    Option BinaryPlainPageBuilder :=
  if b._reserved_head_size = 0 then
    some { b with _reserved_head_size := head_size % 256,
                  _buffer := vresize b._buffer (head_size % 256) 0 }
  else none

/-- `BinaryPlainPageBuilder::is_page_full` (lines 68-71). -/
def BinaryPlainPageBuilder.is_page_full (b : BinaryPlainPageBuilder) : Bool :=
  decide (b._options.data_page_size ≠ 0) && decide (b._size_estimate > b._options.data_page_size)

/-- `BinaryPlainPageBuilder::add_slice` (lines 84-96): the returned `bool` and the
builder afterwards.  `_offsets.push_back(_next_offset)` stores the low 32 bits
of the `size_t`; the two `size_t` sums wrap at `2^64`. -/
def BinaryPlainPageBuilder.add_slice (b : BinaryPlainPageBuilder) (s : List Nat) :
    Bool × BinaryPlainPageBuilder :=
  if b.is_page_full then (false, b)
  else
    (true,
      { b with
        _offsets := b._offsets ++ [b._next_offset % 4294967296],
        _buffer := b._buffer ++ s,
        _next_offset := (b._next_offset + s.length) % 18446744073709551616,
        _size_estimate :=
          ((b._size_estimate + s.length) % 18446744073709551616 + 4) % 18446744073709551616 })

/-- `BinaryPlainPageBuilder::add` (lines 73-82): the number of slices added, which
is the index of the first refused slice or `count`, and the builder afterwards. -/
def BinaryPlainPageBuilder.add :
    BinaryPlainPageBuilder → List (List Nat) → Nat × BinaryPlainPageBuilder
  | b, [] => (0, b)
  | b, s :: rest =>
    match b.add_slice s with
    | (false, b1) => (0, b1)
    | (true, b1) => ((BinaryPlainPageBuilder.add b1 rest).1 + 1,
                     (BinaryPlainPageBuilder.add b1 rest).2)

/-- `BinaryPlainPageBuilder::count` (line 124). -/
def BinaryPlainPageBuilder.count (b : BinaryPlainPageBuilder) : Nat := b._offsets.length

/-- `BinaryPlainPageBuilder::size` (line 126). -/
def BinaryPlainPageBuilder.size (b : BinaryPlainPageBuilder) : Nat := b._size_estimate

/-- `BinaryPlainPageBuilder::get_value` (lines 146-152): the bytes of the slice
returned; `end - off` is a `size_t` difference. -/
def BinaryPlainPageBuilder.get_value (b : BinaryPlainPageBuilder) (idx : Nat) : List Nat :=
  let end_ := if idx + 1 < b._offsets.length then b._offsets.getD (idx + 1) 0 else b._next_offset
  let off := b._offsets.getD idx 0
  (b._buffer.drop (b._reserved_head_size + off)).take
    ((end_ + 18446744073709551616 - off) % 18446744073709551616)

/-- The trailer loop of `finish` (lines 103-105). -/
def put_offsets (buf : List Nat) (offsets : List Nat) : List Nat :=
  offsets.foldl put_fixed32_le buf

/-- `BinaryPlainPageBuilder::finish` (lines 98-113): the builder afterwards; the
`faststring` returned is its `_buffer`.  `_offsets.size()` is passed as a
`uint32_t`. -/
def BinaryPlainPageBuilder.finish (b : BinaryPlainPageBuilder) : BinaryPlainPageBuilder :=
  let b1 : BinaryPlainPageBuilder :=
    { b with
      _buffer :=
        put_fixed32_le (put_offsets b._buffer b._offsets) (b._offsets.length % 4294967296) }
  let b2 :=
    if b1._offsets.isEmpty then b1
    else { b1 with _first_value := b1.get_value 0,
                   _last_value := b1.get_value (b1._offsets.length - 1) }
  { b2 with _finished := true }

/-- The data members of `BinaryPlainPageDecoder` (lines 293-301); `_num_elems`,
`_offsets_pos` and `_cur_idx` are `uint32_t` values. -/
structure BinaryPlainPageDecoder where
  _data : List Nat
  _parsed : Bool
  _num_elems : Nat
  _offsets_pos : Nat
  _cur_idx : Nat
  deriving DecidableEq, Repr

/-- The constructor of `BinaryPlainPageDecoder` (lines 175-178). -/
def BinaryPlainPageDecoder.new (data : List Nat) : BinaryPlainPageDecoder :=
  { _data := data, _parsed := false, _num_elems := 0, _offsets_pos := 0, _cur_idx := 0 }

/-- `BinaryPlainPageDecoder::init` (lines 180-198).  `_num_elems + 1` is a
`uint32_t` sum, the product with `sizeof(uint32_t)` and the difference are
`size_t` values, and the result is stored in a `uint32_t`. -/
def BinaryPlainPageDecoder.init (d : BinaryPlainPageDecoder) :
    Status × BinaryPlainPageDecoder :=
  if d._parsed then (Status.OK, d)
  else if d._data.length < 4 then
    (Status.Corruption
      "file corrupton: not enough bytes for trailer in BinaryPlainPageDecoder .invalid data size",
     d)
  else
    let num_elems := decode_fixed32_le (d._data.drop (d._data.length - 4))
    let offsets_pos :=
      (d._data.length + 18446744073709551616 - (num_elems + 1) % 4294967296 * 4)
        % 18446744073709551616 % 4294967296
    (Status.OK, { d with _num_elems := num_elems, _offsets_pos := offsets_pos, _parsed := true })

/-- `BinaryPlainPageDecoder::seek_to_position_in_page` (lines 200-204). -/
def BinaryPlainPageDecoder.seek_to_position_in_page (d : BinaryPlainPageDecoder) (pos : Nat) :
    Status × BinaryPlainPageDecoder :=
  (Status.OK, { d with _cur_idx := pos % 4294967296 })

/-- `BinaryPlainPageDecoder::count` (lines 234-237). -/
def BinaryPlainPageDecoder.count (d : BinaryPlainPageDecoder) : Nat := d._num_elems

/-- `BinaryPlainPageDecoder::current_index` (lines 239-242). -/
def BinaryPlainPageDecoder.current_index (d : BinaryPlainPageDecoder) : Nat := d._cur_idx

/-- `BinaryPlainPageDecoder::offset_uncheck` (lines 287-291); `idx` is an `int`.
The position is computed as a `size_t` and stored in a `uint32_t`. -/
def BinaryPlainPageDecoder.offset_uncheck (d : BinaryPlainPageDecoder) (idx : Int) : Nat :=
  let pos := ((d._offsets_pos : Int) + idx * 4) % 18446744073709551616 % 4294967296
  decode_fixed32_le (d._data.drop pos.toNat)

/-- `BinaryPlainPageDecoder::offset` (lines 280-285); `idx` is an `int`, converted
to unsigned for the comparison with `_num_elems`. -/
def BinaryPlainPageDecoder.offset (d : BinaryPlainPageDecoder) (idx : Int) : Nat :=
  if (idx % 4294967296).toNat ≥ d._num_elems then d._offsets_pos
  else d.offset_uncheck idx

/-- `BinaryPlainPageDecoder::string_at_index` (lines 246-250): the bytes of the
slice returned.  The `size_t` index becomes an `int` in both calls of `offset`;
the length is a `uint32_t` difference.  Bytes outside the page (undefined
behaviour in the source) are left out. -/
def BinaryPlainPageDecoder.string_at_index (d : BinaryPlainPageDecoder) (idx : Nat) : List Nat :=
  let start_offset := d.offset (toInt32 idx)
  let len := (d.offset (toInt32 idx + 1) + 4294967296 - start_offset) % 4294967296
  (d._data.drop start_offset).take len

/-- Result of `next_batch`: the status, the value of `*n` afterwards, the slices
written to `dst` and the decoder afterwards. -/
structure NextBatchResult where
  status : Status
  n : Nat
  out : List (List Nat)
  decoder : BinaryPlainPageDecoder
  deriving DecidableEq, Repr

/-- `Status::MemoryAllocFailed(msg)`. -/
def Status.MemoryAllocFailed (msg : String) : Status := some ⟨TStatusCode.MEM_ALLOC_FAILED, msg⟩

/-- The copy loop of `next_batch` (lines 216-224), `fetch` elements to go.
`pool_allocate size` tells whether `dst->pool()->allocate(size)` returns memory;
on a null return the call ends with `MemoryAllocFailed` and `*n` keeps the
value `n` the caller passed. -/
def BinaryPlainPageDecoder.copy_loop (pool_allocate : Nat → Bool) (n max_fetch : Nat) :
    Nat → BinaryPlainPageDecoder → List (List Nat) → NextBatchResult
  | 0, d, out => { status := Status.OK, n := max_fetch, out := out, decoder := d }
  | fetch + 1, d, out =>
    let elem := d.string_at_index d._cur_idx
    if elem.length ≠ 0 ∧ pool_allocate elem.length = false then
      { status := Status.MemoryAllocFailed "alloc mem for binary plain page failed",
        n := n, out := out, decoder := d }
    else
      BinaryPlainPageDecoder.copy_loop pool_allocate n max_fetch fetch
        { d with _cur_idx := (d._cur_idx + 1) % 4294967296 } (out ++ [elem])

/-- `BinaryPlainPageDecoder::next_batch(size_t* n, ColumnBlockView* dst)`
(lines 206-228). -/
def BinaryPlainPageDecoder.next_batch (pool_allocate : Nat → Bool) (d : BinaryPlainPageDecoder)
    (n : Nat) : NextBatchResult :=
  if n = 0 ∨ d._cur_idx ≥ d._num_elems then
    { status := Status.OK, n := 0, out := [], decoder := d }
  else
    let max_fetch := min n (d._num_elems - d._cur_idx)
    BinaryPlainPageDecoder.copy_loop pool_allocate n max_fetch max_fetch d []

/-- A pool whose allocations all succeed. -/
def pool_ok : Nat → Bool := fun _ => true

/-- The page a new builder returns for a list of strings: `reserve_head`, `add`,
`finish`.  `none`: `reserve_head` aborts. -/
def build_page (options : PageBuilderOptions) (head_size : Nat) (strings : List (List Nat)) :
    Option (Nat × BinaryPlainPageBuilder) :=
  match (BinaryPlainPageBuilder.new options).reserve_head head_size with
  | none => none
  | some b => some ((b.add strings).1, (b.add strings).2.finish)

/-- The sum of the lengths of the first `i` strings. -/
def length_before (strings : List (List Nat)) (i : Nat) : Nat :=
  ((strings.take i).map List.length).sum

/-- The values `add` pushes to `_offsets` for a list of strings when
`_next_offset` is `start`: the running `size_t` sum, each stored as a `uint32_t`. -/
def offsets_from : Nat → List (List Nat) → List Nat
  | _, [] => []
  | start, s :: rest =>
    start % 4294967296 :: offsets_from ((start + s.length) % 18446744073709551616) rest

/-- A parsed decoder over `data` with `num_elems` elements, the offsets at
`offsets_pos` and the cursor at `cur_idx`. -/
def parsed_decoder (data : List Nat) (num_elems offsets_pos cur_idx : Nat) :
    BinaryPlainPageDecoder :=
  { _data := data, _parsed := true, _num_elems := num_elems, _offsets_pos := offsets_pos,
    _cur_idx := cur_idx }

/-- The bytes of a page without head: the strings, their offsets, their count. -/
def page_bytes (strings : List (List Nat)) : List Nat :=
  strings.flatten ++ (offsets_from 0 strings).flatMap (fun v => put_fixed32_le [] v) ++
    put_fixed32_le [] (offsets_from 0 strings).length

/-! ## Hash partitioning of a chunk (`exec/pipeline/exchange/exchange_sink_operator.h`) -/

/-- The vectors of the shuffle exchange that `ExchangeSinkOperator` declares
(lines 130-143): `_hash_values` and `_row_indexes` hold `uint32_t` values,
`_channel_row_idx_start_points` holds `uint16_t` values. -/
structure ShuffleVectors where
  _hash_values : List Nat
  _channel_row_idx_start_points : List Nat
  _row_indexes : List Nat
  deriving DecidableEq, Repr

/-- Modelled from the spec: the function that fills the shuffle vectors is in
`exchange_sink_operator.cpp`, which is not among the sources.  `channel_idx =
hash mod num_channels` for the row `row`. -/
def channel_of (num_channels : Nat) (hash : List Nat) (row : Nat) : Nat :=
  hash.getD row 0 % num_channels

/-- Modelled from the spec: one more row for channel `c` in a vector of `uint16_t`
counters (the element type the header gives the start points). -/
def bump (counts : List Nat) (c : Nat) : List Nat :=
  counts.set c ((counts.getD c 0 + 1) % 65536)

/-- Modelled from the spec: the first pass of the counting layout, "compute
per-channel row counts": one counter per channel, one increment per row. -/
def count_rows (num_channels : Nat) (hash : List Nat) : List Nat :=
  (List.range hash.length).foldl (fun counts row => bump counts (channel_of num_channels hash row))
    (List.replicate num_channels 0)

/-- Modelled from the spec: "prefix-sum into `start_points`": the running sum
before each channel and, as last item, the sum over all channels, which the
header (lines 134-137) calls the number of rows of the chunk; `uint16_t` sums. -/
def prefix_sum : Nat → List Nat → List Nat
  | acc, [] => [acc]
  | acc, c :: rest => acc :: prefix_sum ((acc + c) % 65536) rest

/-- Modelled from the spec: "scatter row indices into `row_indexes`": every row, in
row order, is written at the next free position of its channel, which starts
at the start point of the channel; the state is the free positions and the
vector of row indexes (`uint32_t` values). -/
def scatter_rows (num_channels : Nat) (hash : List Nat) (rows : Nat)
    (start_points : List Nat) : List Nat × List Nat :=
  (List.range rows).foldl
    (fun (st : List Nat × List Nat) row =>
      (bump st.1 (channel_of num_channels hash row),
        st.2.set (st.1.getD (channel_of num_channels hash row) 0) (row % 4294967296)))
    (start_points, List.replicate hash.length 0)

/-- Modelled from the spec: the two-pass counting layout of a chunk whose rows
have the hash values `hash`, for `num_channels` channels. -/
def hash_partition (num_channels : Nat) (hash : List Nat) : ShuffleVectors :=
  let start_points := prefix_sum 0 (count_rows num_channels hash)
  { _hash_values := hash,
    _channel_row_idx_start_points := start_points,
    _row_indexes := (scatter_rows num_channels hash hash.length start_points).2 }

/-- The slice `row_indexes[start_points[c] .. start_points[c+1]]`, the row set of
channel `c`. -/
def channel_rows (v : ShuffleVectors) (c : Nat) : List Nat :=
  (v._row_indexes.drop (v._channel_row_idx_start_points.getD c 0)).take
    (v._channel_row_idx_start_points.getD (c + 1) 0 - v._channel_row_idx_start_points.getD c 0)

/-- The rows below `n` whose channel is `c`, in row order. -/
def rows_of_channel (num_channels : Nat) (hash : List Nat) (c n : Nat) : List Nat :=
  (List.range n).filter (fun row => decide (channel_of num_channels hash row = c))

/-- The number of rows of the channels below `c`. -/
def channel_start (num_channels : Nat) (hash : List Nat) (c : Nat) : Nat :=
  ((List.range c).map (fun c' => (rows_of_channel num_channels hash c' hash.length).length)).sum

/-! ## BinaryPlainPageBuilder: first and last value, sequences of `add` calls -/

/-- `Status::NotFound(msg)` (`common/status.h`, lines 86-88). -/
def Status.NotFound (msg : String) : Status := some ⟨TStatusCode.NOT_FOUND, msg⟩

/-- `BinaryPlainPageBuilder::get_first_value` (lines 128-135): the status and, on
OK, the bytes of the slice written to `*value`. -/
def BinaryPlainPageBuilder.get_first_value (b : BinaryPlainPageBuilder) :
    Status × Option (List Nat) :=
  if b._offsets.isEmpty then (Status.NotFound "page is empty", none)
  else (Status.OK, some b._first_value)

/-- `BinaryPlainPageBuilder::get_last_value` (lines 137-144): the status and, on
OK, the bytes of the slice written to `*value`. -/
def BinaryPlainPageBuilder.get_last_value (b : BinaryPlainPageBuilder) :
    Status × Option (List Nat) :=
  if b._offsets.isEmpty then (Status.NotFound "page is empty", none)
  else (Status.OK, some b._last_value)

/-- A sequence of `add` calls on a builder, one list of slices per call
(`add_slice` is the call with one slice): the strings the calls accepted, in
order, and the builder afterwards. -/
def BinaryPlainPageBuilder.add_calls (b : BinaryPlainPageBuilder)
    (calls : List (List (List Nat))) : List (List Nat) × BinaryPlainPageBuilder :=
  calls.foldl
    (fun st call => (st.1 ++ call.take (st.2.add call).1, (st.2.add call).2))
    ([], b)

/-! ## Assertions, failed calls, keys that collide -/

/-- The sources passed to `decrement_senders` in a list of operations, in order. -/
def decrement_sources (ops : List Op) : List Int :=
  ops.filterMap (fun op =>
    match op with
    | Op.decrement_senders be_number => some be_number
    | _ => none)

/-- The assertion a call of `try_get_chunk` evaluates (lines 186-195):
`DCHECK_EQ(_num_remaining_senders, 0)` in the branch of an empty ready queue of
a queue that is not cancelled; `true` when the call does not reach it. -/
def try_get_chunk_dcheck (q : SenderQueue) : Bool :=
  if q._is_cancelled then true
  else
    match q._chunk_queue with
    | [] => decide (q._num_remaining_senders = 0)
    | _ :: _ => true

/-- The assertion a call of `decrement_senders` evaluates (lines 531-538):
`DCHECK_GT(_num_remaining_senders, 0)`, after the insertion into the EOS set and
before the decrement; `true` when the source is in the set already and the call
returns before it. -/
def decrement_senders_dcheck (q : SenderQueue) (be_number : Int) : Bool :=
  if be_number ∈ q._sender_eos_set then true
  else decide (q._num_remaining_senders > 0)

/-- The sum of `chunk_bytes` over the items of a queue. -/
def sum_chunk_bytes (items : ChunkQueue) : Int :=
  (items.map (fun i => i.chunk_bytes)).sum

/-- A request whose sequence is already pending: on a new keep-order queue with
one sender and limit 100, source `7` delivers sequence `5` with the chunk
`1 2 3`, then sequence `5` again with the chunk `9`; sequence `0` has not
arrived. -/
def retried_pending_ops : List Op :=
  [Op.add_chunks_and_keep_order (mk_request 7 5 [plain_chunk [1, 2, 3]]) none,
   Op.add_chunks_and_keep_order (mk_request 7 5 [plain_chunk [9]]) none]

/-- Two distinct sequences of one source that differ by `2^32`: on a new
keep-order queue with one sender and limit 100, source `7` delivers sequence
`4294967297` with the chunk `1 2 3` and then sequence `1` with the chunk `9`;
sequence `0` has not arrived. -/
def colliding_sequence_ops : List Op :=
  [Op.add_chunks_and_keep_order (mk_request 7 4294967297 [plain_chunk [1, 2, 3]]) none,
   Op.add_chunks_and_keep_order (mk_request 7 1 [plain_chunk [9]]) none]

/-- The sum of a weight `f` over the items of a queue; `sum_chunk_bytes` is the
sum of the weight `chunk_bytes`. -/
def wsum (f : ChunkItem → Int) (items : ChunkQueue) : Int :=
  (items.map f).sum

/-- The sum of a weight over the batches of the pending map of one source. -/
def msum (f : ChunkItem → Int) (m : List (Int × ChunkQueue)) : Int :=
  wsum f (m.map (fun batch => batch.2)).flatten

/-- The sum of a weight over the pending maps of all sources. -/
def psum (f : ChunkItem → Int) (outer : List (Int × List (Int × ChunkQueue))) : Int :=
  wsum f (outer.map (fun src => (src.2.map (fun batch => batch.2)).flatten)).flatten

/-- The items a queue holds: the ready queue, then the pending batches. -/
def Run.held_items (s : Run) : ChunkQueue :=
  s.queue._chunk_queue ++ pending_items s.queue

/-- No pending map of a source binds a key twice, as is the case for a
`flat_hash_map`. -/
def pending_keys_nodup (q : SenderQueue) : Prop :=
  ∀ src ∈ q._buffered_chunk_queues, (src.2.map (fun batch => batch.1)).Nodup

/-- An operation other than `cancel` and `close`; a keep-order call only when the
`int32_t` value of its sequence is not a key of the pending map of its source. -/
def Op.keeps_keys_apart (q : SenderQueue) : Op → Bool
  | Op.add_chunks_and_keep_order request _ =>
    (mfind ((mfind q._buffered_chunk_queues request.be_number).getD [])
      (toInt32 request.sequence)).isNone
  | Op.cancel => false
  | Op.close => false
  | _ => true

/-- Every operation of the list, applied in order, is one of `keeps_keys_apart`. -/
def keys_stay_apart (env : Collaborators) : Run → List Op → Bool
  | _, [] => true
  | s, op :: rest =>
    op.keeps_keys_apart s.queue && keys_stay_apart env (Run.step env s op) rest

/-- The pending keys the keep-order calls of a list of operations use: source and
`int32_t` value of the sequence, in order. -/
def keep_order_keys (ops : List Op) : List (Int × Int) :=
  ops.filterMap (fun op =>
    match op with
    | Op.add_chunks_and_keep_order request _ => some (request.be_number, toInt32 request.sequence)
    | _ => none)

/-- The operation is `cancel` or `close`. -/
def Op.ends_stream : Op → Bool
  | Op.cancel => true
  | Op.close => true
  | _ => false

end StarRocks

/-! # Theorems -/

namespace StarRocks

/-! ## Lemmas on the association lists -/

theorem mfind_minsert_same {K V : Type} [DecidableEq K] (m : List (K × V)) (k : K) (v : V) :
    mfind (minsert m k v) k = some v := by
  induction m with
  | nil => simp [minsert, mfind]
  | cons e m ih =>
    obtain ⟨k', v'⟩ := e
    by_cases h : k' = k
    · simp [minsert, mfind, h]
    · simp [minsert, mfind, h, ih]

theorem mfind_minsert_other {K V : Type} [DecidableEq K] (m : List (K × V)) (k k2 : K) (v : V)
    (h : k ≠ k2) : mfind (minsert m k v) k2 = mfind m k2 := by
  induction m with
  | nil => simp [minsert, mfind, h]
  | cons e m ih =>
    obtain ⟨k', v'⟩ := e
    by_cases h1 : k' = k
    · subst h1; simp [minsert, mfind, h]
    · by_cases h2 : k' = k2
      · subst h2; simp [minsert, mfind, h1]
      · simp [minsert, mfind, h1, h2, ih]

/-! ## Pulling -/

/-- Claim C8 (successful pull): from a non-cancelled state whose ready queue is
`front :: rest`, `get_chunk` returns (it does not wait) and both `get_chunk` and
`get_chunk_for_pipeline` return OK with the chunk of `front`; the ready queue
becomes `rest`, the buffered bytes decrease by `front.chunk_bytes`, the closure
of `front` is run exactly when `front` holds one, and every other field of the
queue and of the receiver is as before. -/
theorem get_chunk_success (r : Recvr) (q : SenderQueue) (front : ChunkItem) (rest : ChunkQueue)
    (hc : q._is_cancelled = false) (hq : q._chunk_queue = front :: rest) :
    get_chunk r q = some
        { status := Status.OK,
          recvr := { r with _num_buffered_bytes := r._num_buffered_bytes - front.chunk_bytes },
          queue := { q with _chunk_queue := rest },
          chunk := some front.chunk_ptr,
          ran := front.closure.toList } ∧
    get_chunk_for_pipeline r q =
        { status := Status.OK,
          recvr := { r with _num_buffered_bytes := r._num_buffered_bytes - front.chunk_bytes },
          queue := { q with _chunk_queue := rest },
          chunk := some front.chunk_ptr,
          ran := front.closure.toList } := by
  have hrun : run_closure front.closure = front.closure.toList := by
    cases front.closure <;> rfl
  constructor
  · simp [get_chunk, get_chunk_waits, _do_get_chunk, hc, hq, hrun]
  · simp [get_chunk_for_pipeline, _do_get_chunk, hc, hq, hrun]

/-- Witness of C8: a queue holding two items, the first with closure `4`. -/
theorem get_chunk_success_witness :
    ({ SenderQueue.new 1 with _chunk_queue :=
        [{ chunk_bytes := 3, chunk_ptr := ⟨[1, 2, 3]⟩, closure := some 4 },
         { chunk_bytes := 1, chunk_ptr := ⟨[9]⟩, closure := none }] } : SenderQueue)._is_cancelled
      = false ∧
    get_chunk_for_pipeline
        { _total_buffer_limit := 10, _num_buffered_bytes := 4, _row_desc := [] }
        { SenderQueue.new 1 with _chunk_queue :=
          [{ chunk_bytes := 3, chunk_ptr := ⟨[1, 2, 3]⟩, closure := some 4 },
           { chunk_bytes := 1, chunk_ptr := ⟨[9]⟩, closure := none }] } =
      { status := Status.OK,
        recvr := { _total_buffer_limit := 10, _num_buffered_bytes := 1, _row_desc := [] },
        queue := { SenderQueue.new 1 with _chunk_queue :=
          [{ chunk_bytes := 1, chunk_ptr := ⟨[9]⟩, closure := none }] },
        chunk := some ⟨[1, 2, 3]⟩, ran := [4] } :=
  ⟨rfl, (get_chunk_success
    { _total_buffer_limit := 10, _num_buffered_bytes := 4, _row_desc := [] }
    { SenderQueue.new 1 with _chunk_queue :=
      [{ chunk_bytes := 3, chunk_ptr := ⟨[1, 2, 3]⟩, closure := some 4 },
       { chunk_bytes := 1, chunk_ptr := ⟨[9]⟩, closure := none }] }
    { chunk_bytes := 3, chunk_ptr := ⟨[1, 2, 3]⟩, closure := some 4 }
    [{ chunk_bytes := 1, chunk_ptr := ⟨[9]⟩, closure := none }] rfl rfl).2⟩

/-- Claim C9 (pull on a cancelled queue): whatever the ready queue holds, on a
cancelled queue `get_chunk` returns without waiting and both `get_chunk` and
`get_chunk_for_pipeline` return the status `Cancelled` (not OK), write no chunk,
run no closure and leave queue and receiver, hence the buffered bytes, as they
were. -/
theorem get_chunk_cancelled (r : Recvr) (q : SenderQueue) (hc : q._is_cancelled = true) :
    get_chunk r q = some
        { status := Status.Cancelled "Cancelled SenderQueue::get_chunk",
          recvr := r, queue := q, chunk := none, ran := [] } ∧
    get_chunk_for_pipeline r q =
        { status := Status.Cancelled "Cancelled SenderQueue::get_chunk",
          recvr := r, queue := q, chunk := none, ran := [] } ∧
    (Status.Cancelled "Cancelled SenderQueue::get_chunk").is_cancelled = true ∧
    (Status.Cancelled "Cancelled SenderQueue::get_chunk").ok = false := by
  refine ⟨?_, ?_, rfl, rfl⟩
  · simp [get_chunk, get_chunk_waits, _do_get_chunk, hc]
  · simp [get_chunk_for_pipeline, _do_get_chunk, hc]

/-- Witness of C9: a cancelled queue that still holds an item with a closure. -/
theorem get_chunk_cancelled_witness :
    ({ SenderQueue.new 1 with _is_cancelled := true, _chunk_queue :=
        [{ chunk_bytes := 3, chunk_ptr := ⟨[1, 2, 3]⟩, closure := some 4 }] }
      : SenderQueue)._is_cancelled = true ∧
    get_chunk { _total_buffer_limit := 10, _num_buffered_bytes := 3, _row_desc := [] }
        { SenderQueue.new 1 with _is_cancelled := true, _chunk_queue :=
          [{ chunk_bytes := 3, chunk_ptr := ⟨[1, 2, 3]⟩, closure := some 4 }] } =
      some { status := Status.Cancelled "Cancelled SenderQueue::get_chunk",
             recvr := { _total_buffer_limit := 10, _num_buffered_bytes := 3, _row_desc := [] },
             queue := { SenderQueue.new 1 with _is_cancelled := true, _chunk_queue :=
               [{ chunk_bytes := 3, chunk_ptr := ⟨[1, 2, 3]⟩, closure := some 4 }] },
             chunk := none, ran := [] } :=
  ⟨rfl, (get_chunk_cancelled
    { _total_buffer_limit := 10, _num_buffered_bytes := 3, _row_desc := [] }
    { SenderQueue.new 1 with _is_cancelled := true, _chunk_queue :=
      [{ chunk_bytes := 3, chunk_ptr := ⟨[1, 2, 3]⟩, closure := some 4 }] } rfl).1⟩

/-- Claim C10 (`try_get_chunk`): it returns `false` exactly when the queue is
cancelled or the ready queue is empty, and then leaves queue and receiver as
they were, writes no chunk and runs no closure; whenever it returns `true`,
`get_chunk_for_pipeline` on the same state returns OK and the two agree on the
chunk written (which is one), on the resulting queue, on the resulting receiver
(the same decrement of the buffered bytes) and on the closures run. -/
theorem try_get_chunk_contract (r : Recvr) (q : SenderQueue) :
    ((try_get_chunk r q).ret = false ↔ (q._is_cancelled = true ∨ q._chunk_queue = [])) ∧
    ((try_get_chunk r q).ret = false →
      try_get_chunk r q = { ret := false, recvr := r, queue := q, chunk := none, ran := [] }) ∧
    ((try_get_chunk r q).ret = true →
      (get_chunk_for_pipeline r q).status = Status.OK ∧
      (try_get_chunk r q).chunk = (get_chunk_for_pipeline r q).chunk ∧
      (try_get_chunk r q).chunk ≠ none ∧
      (try_get_chunk r q).queue = (get_chunk_for_pipeline r q).queue ∧
      (try_get_chunk r q).recvr = (get_chunk_for_pipeline r q).recvr ∧
      (try_get_chunk r q).ran = (get_chunk_for_pipeline r q).ran) := by
  cases hc : q._is_cancelled
  · cases hq : q._chunk_queue with
    | nil => simp [try_get_chunk, get_chunk_for_pipeline, _do_get_chunk, hc, hq]
    | cons front rest => simp [try_get_chunk, get_chunk_for_pipeline, _do_get_chunk, hc, hq]
  · simp [try_get_chunk, get_chunk_for_pipeline, _do_get_chunk, hc]


/-! ## add_chunks -/

theorem deserialize_chunks_spec (env : Collaborators) (meta : RuntimeChunkMeta) :
    ∀ (chunks : List ChunkPB) (items : ChunkQueue) (total : Int),
      deserialize_chunks env meta chunks = Except.ok (items, total) →
      items.length = chunks.length ∧
      items.map (fun i => i.chunk_bytes) = chunks.map (fun p => (p.data.length : Int)) ∧
      (∀ i ∈ items, i.closure = none) ∧
      total = (chunks.map (fun p => (p.data.length : Int))).sum ∧
      chunks.map (fun p => _deserialize_chunk env meta p) =
        items.map (fun i => Except.ok i.chunk_ptr) := by
  intro chunks
  induction chunks with
  | nil =>
    intro items total h
    simp [deserialize_chunks] at h
    obtain ⟨h1, h2⟩ := h
    subst h1; subst h2; simp
  | cons p rest ih =>
    intro items total h
    simp only [deserialize_chunks] at h
    cases hd : _deserialize_chunk env meta p with
    | error e => simp [hd] at h
    | ok chunk =>
      simp only [hd] at h
      cases hr : deserialize_chunks env meta rest with
      | error e => simp [hr] at h
      | ok pr =>
        obtain ⟨items1, total1⟩ := pr
        simp only [hr] at h
        injection h with h
        injection h with h1 h2
        obtain ⟨a, b, c, d, e⟩ := ih items1 total1 hr
        subst h1; subst h2
        refine ⟨by simp [a], by simp [b], ?_, by simp [d], by simp [hd, e]⟩
        intro i hi
        rcases List.mem_cons.1 hi with h | h
        · subst h; rfl
        · exact c i h

theorem set_back_closure_append_singleton (a : ChunkQueue) (last : ChunkItem) (c : Option Closure) :
    set_back_closure (a ++ [last]) c = a ++ [{ last with closure := c }] := by
  induction a with
  | nil => simp [set_back_closure]
  | cons x a ih =>
    cases a with
    | nil => simp [set_back_closure]
    | cons y a => 
      simp only [List.cons_append] at ih ⊢
      simp [set_back_closure, ih]


theorem build_meta_if_empty_queue (r : Recvr) (q : SenderQueue) (request : PTransmitChunkParams) :
    ∃ meta, build_meta_if_empty r q request = Region.proceed { q with _chunk_meta := meta } ∨
      ∃ e, build_meta_if_empty r q request =
        Region.returned (some e) { q with _chunk_meta := meta } := by
  unfold build_meta_if_empty
  split
  · rcases hb : _build_chunk_meta r._row_desc q._chunk_meta (first_chunk request) with ⟨st, meta⟩
    cases st with
    | none => exact ⟨meta, Or.inl rfl⟩
    | some e => exact ⟨meta, Or.inr ⟨e, rfl⟩⟩
  · exact ⟨q._chunk_meta, Or.inl rfl⟩

/-- What the first locked region of `add_chunks` leaves when it does not return:
the request's sequence recorded, possibly a new chunk meta, nothing else. -/
theorem add_chunks_lock1_proceed (r : Recvr) (q q1 : SenderQueue)
    (request : PTransmitChunkParams) (is_pipeline : Bool)
    (h : add_chunks_lock1 r q request is_pipeline = Region.proceed q1) :
    q._is_cancelled = false ∧
    packet_already_exists q request.be_number request.sequence is_pipeline = false ∧
    0 < q._num_remaining_senders ∧
    q1 = { q with
      _packet_seq_map := minsert q._packet_seq_map request.be_number request.sequence,
      _chunk_meta := q1._chunk_meta } := by
  unfold add_chunks_lock1 at h
  simp only at h
  split at h
  · exact absurd h (by simp)
  · split at h
    · exact absurd h (by simp)
    · split at h
      · exact absurd h (by simp)
      · rename_i h1 h2 h3
        refine ⟨by simpa using h1, by simpa using h2, by simpa using h3, ?_⟩
        obtain ⟨meta, hm | ⟨e, hm⟩⟩ := build_meta_if_empty_queue r
          { q with _packet_seq_map := minsert q._packet_seq_map request.be_number request.sequence }
          request
        · rw [hm] at h
          injection h with h
          subst h
          rfl
        · rw [hm] at h
          exact absurd h (by simp)


/-- A call that finds the queue cancelled, or the request a duplicate in
non-pipeline mode, returns OK and touches nothing. -/
theorem add_chunks_dropped (env : Collaborators) (r : Recvr) (q : SenderQueue)
    (request : PTransmitChunkParams) (done : Option (Option Closure)) (is_pipeline : Bool)
    (h : q._is_cancelled = true ∨
      packet_already_exists q request.be_number request.sequence is_pipeline = true) :
    add_chunks env r q request done is_pipeline =
      { status := Status.OK, recvr := r, queue := q, done := done, ran := [] } := by
  have h1 : add_chunks_lock1 r q request is_pipeline = Region.returned Status.OK q := by
    unfold add_chunks_lock1
    rcases h with h | h
    · simp [h]
    · simp [h]
  simp [add_chunks, h1]

theorem build_meta_if_empty_fields (r : Recvr) (q : SenderQueue)
    (request : PTransmitChunkParams) :
    (build_meta_if_empty r q request).queue =
      { q with _chunk_meta := (build_meta_if_empty r q request).queue._chunk_meta } := by
  obtain ⟨meta, hm | ⟨e, hm⟩⟩ := build_meta_if_empty_queue r q request <;> rw [hm] <;> rfl

/-- The first locked region of `add_chunks` changes at most the sequence map and
the chunk meta; unless the call is dropped, the sequence map records the
request's sequence. -/
theorem add_chunks_lock1_fields (r : Recvr) (q : SenderQueue) (request : PTransmitChunkParams)
    (is_pipeline : Bool) :
    (add_chunks_lock1 r q request is_pipeline).queue =
      { q with
        _packet_seq_map := (add_chunks_lock1 r q request is_pipeline).queue._packet_seq_map,
        _chunk_meta := (add_chunks_lock1 r q request is_pipeline).queue._chunk_meta } ∧
    (q._is_cancelled = false →
      packet_already_exists q request.be_number request.sequence is_pipeline = false →
      (add_chunks_lock1 r q request is_pipeline).queue._packet_seq_map =
        minsert q._packet_seq_map request.be_number request.sequence) := by
  unfold add_chunks_lock1
  simp only
  split
  · exact ⟨rfl, fun h => by simp_all⟩
  · split
    · exact ⟨rfl, fun _ h => by simp_all⟩
    · split
      · exact ⟨rfl, fun _ _ => rfl⟩
      · have h := build_meta_if_empty_fields r
          { q with _packet_seq_map := minsert q._packet_seq_map request.be_number request.sequence }
          request
        constructor
        · rw [h]
        · intro _ _
          rw [h]

/-- `add_chunks` changes the queue its first locked region leaves at most in the
ready queue. -/
theorem add_chunks_fields (env : Collaborators) (r : Recvr) (q : SenderQueue)
    (request : PTransmitChunkParams) (done : Option (Option Closure)) (is_pipeline : Bool) :
    (add_chunks env r q request done is_pipeline).queue =
      { (add_chunks_lock1 r q request is_pipeline).queue with
        _chunk_queue := (add_chunks env r q request done is_pipeline).queue._chunk_queue } := by
  unfold add_chunks
  cases h : add_chunks_lock1 r q request is_pipeline with
  | returned st q1 => rfl
  | proceed q1 =>
    simp only [Region.queue]
    cases hd : deserialize_chunks env q1._chunk_meta request.chunks with
    | error e => rfl
    | ok pr =>
      obtain ⟨chunks, total⟩ := pr
      simp only
      unfold add_chunks_lock2
      split
      · rfl
      · split <;> rfl

/-- After any non-pipeline call the queue is cancelled or holds a sequence for the
source that is not below the request's. -/
theorem add_chunks_then_duplicate (env : Collaborators) (r : Recvr) (q : SenderQueue)
    (request : PTransmitChunkParams) (done : Option (Option Closure)) :
    (add_chunks env r q request done false).queue._is_cancelled = true ∨
    packet_already_exists (add_chunks env r q request done false).queue
      request.be_number request.sequence false = true := by
  by_cases hd : q._is_cancelled = true ∨
      packet_already_exists q request.be_number request.sequence false = true
  · rw [add_chunks_dropped env r q request done false hd]
    exact hd
  · right
    have hc : q._is_cancelled = false := by
      cases h : q._is_cancelled
      · rfl
      · exact absurd (Or.inl h) hd
    have hp : packet_already_exists q request.be_number request.sequence false = false := by
      cases h : packet_already_exists q request.be_number request.sequence false
      · rfl
      · exact absurd (Or.inr h) hd
    have h1 := (add_chunks_lock1_fields r q request false).2 hc hp
    have h2 := add_chunks_fields env r q request done false
    have h3 : (add_chunks env r q request done false).queue._packet_seq_map =
        minsert q._packet_seq_map request.be_number request.sequence := by
      rw [h2]
      exact h1
    simp [packet_already_exists, h3, mfind_minsert_same]

/-- Claim C5 (monotone sequence suppression): when `last_seq[be_number]` is
defined and the request's sequence is not above it, `add_chunks` with
`is_pipeline = false` returns OK, leaves queue (ready queue, `last_seq`) and
receiver (buffered bytes) as they were, leaves the caller's `done` untouched and
runs nothing; this holds for every state, cancelled or not.  Further, for every
state and request, a second non-pipeline delivery of the same request right
after the first is such a no-op, and on a new queue sequence 5 sent twice leaves
its two chunks in the ready queue once. -/
theorem add_chunks_sequence_suppression (env : Collaborators) (r : Recvr) (q : SenderQueue)
    (request : PTransmitChunkParams) (done : Option (Option Closure)) (last_seq : Int)
    (hlast : mfind q._packet_seq_map request.be_number = some last_seq)
    (hseq : request.sequence ≤ last_seq) :
    add_chunks env r q request done false =
      { status := Status.OK, recvr := r, queue := q, done := done, ran := [] } ∧
    (∀ (r0 : Recvr) (q0 : SenderQueue) (done1 done2 : Option (Option Closure)),
      add_chunks env (add_chunks env r0 q0 request done1 false).recvr
          (add_chunks env r0 q0 request done1 false).queue request done2 false =
        { status := Status.OK,
          recvr := (add_chunks env r0 q0 request done1 false).recvr,
          queue := (add_chunks env r0 q0 request done1 false).queue,
          done := done2, ran := [] }) ∧
    (Run.steps plain_env (Run.fresh 100 one_slot_desc 1)
      [Op.add_chunks (mk_request 7 5 [plain_chunk [1], plain_chunk [2]]) (some (some 1)) false,
       Op.add_chunks (mk_request 7 5 [plain_chunk [1], plain_chunk [2]]) (some (some 2)) false]
      ).queue._chunk_queue.map (fun i => i.chunk_ptr) = [⟨[1]⟩, ⟨[2]⟩] := by
  refine ⟨?_, ?_, by decide⟩
  · apply add_chunks_dropped
    right
    simp [packet_already_exists, hlast, hseq]
  · intro r0 q0 done1 done2
    exact add_chunks_dropped env _ _ request done2 false
      (add_chunks_then_duplicate env r0 q0 request done1)

/-- Witness of C5: source `7` has `last_seq = 5` and sends sequence `5`. -/
theorem add_chunks_sequence_suppression_witness :
    mfind ({ SenderQueue.new 2 with _packet_seq_map := [(7, 5)] } : SenderQueue)._packet_seq_map
        (mk_request 7 5 [plain_chunk [1]]).be_number = some 5 ∧
    (mk_request 7 5 [plain_chunk [1]]).sequence ≤ 5 ∧
    add_chunks plain_env
        { _total_buffer_limit := 0, _num_buffered_bytes := 0, _row_desc := one_slot_desc }
        { SenderQueue.new 2 with _packet_seq_map := [(7, 5)] }
        (mk_request 7 5 [plain_chunk [1]]) (some (some 9)) false =
      { status := Status.OK,
        recvr := { _total_buffer_limit := 0, _num_buffered_bytes := 0, _row_desc := one_slot_desc },
        queue := { SenderQueue.new 2 with _packet_seq_map := [(7, 5)] },
        done := some (some 9), ran := [] } :=
  ⟨by decide, by decide,
    (add_chunks_sequence_suppression plain_env
      { _total_buffer_limit := 0, _num_buffered_bytes := 0, _row_desc := one_slot_desc }
      { SenderQueue.new 2 with _packet_seq_map := [(7, 5)] }
      (mk_request 7 5 [plain_chunk [1]]) (some (some 9)) 5 (by decide) (by decide)).1⟩

/-- What an accepted `add_chunks` call does, in terms of the queue its first
locked region leaves and the items deserialized. -/
theorem add_chunks_accepted (env : Collaborators) (r : Recvr) (q q1 : SenderQueue)
    (request : PTransmitChunkParams) (done : Option (Option Closure)) (is_pipeline : Bool)
    (items : ChunkQueue) (total : Int)
    (hacc : add_chunks_lock1 r q request is_pipeline = Region.proceed q1)
    (hdes : deserialize_chunks env q1._chunk_meta request.chunks = Except.ok (items, total)) :
    add_chunks env r q request done is_pipeline = add_chunks_lock2 r q1 items total done ∧
    q1._is_cancelled = false ∧ q1._chunk_queue = q._chunk_queue := by
  obtain ⟨hc, _, _, hq1⟩ := add_chunks_lock1_proceed r q q1 request is_pipeline hacc
  refine ⟨by simp [add_chunks, hacc, hdes], ?_, ?_⟩
  · rw [hq1]; exact hc
  · rw [hq1]

/-- Claim C6 (ack retention rule): for an accepted `add_chunks` call (the first
locked region does not return and every chunk deserializes) with at least one
chunk and the closure `c`, the items appended to the ready queue are the
deserialized items `front ++ [last]`, built without closure; `total` is the sum
of the data sizes of the request's chunks; the call stores `c` in `last` and
nulls the caller's reference exactly when the buffered bytes before the call
plus `total` exceed the limit, and otherwise leaves `last` without closure and
the caller's reference as it was.  Neither `front` nor an item already in the
ready queue is given the closure. -/
theorem add_chunks_ack_retention (env : Collaborators) (r : Recvr) (q q1 : SenderQueue)
    (request : PTransmitChunkParams) (c : Closure) (is_pipeline : Bool)
    (items : ChunkQueue) (total : Int)
    (hacc : add_chunks_lock1 r q request is_pipeline = Region.proceed q1)
    (hdes : deserialize_chunks env q1._chunk_meta request.chunks = Except.ok (items, total))
    (hne : request.chunks ≠ []) :
    total = (request.chunks.map (fun p => (p.data.length : Int))).sum ∧
    ∃ (front : ChunkQueue) (last : ChunkItem),
      items = front ++ [last] ∧
      (∀ i ∈ front, i.closure = none) ∧ last.closure = none ∧
      (add_chunks env r q request (some (some c)) is_pipeline).status = Status.OK ∧
      (add_chunks env r q request (some (some c)) is_pipeline).recvr =
        { r with _num_buffered_bytes := r._num_buffered_bytes + total } ∧
      (add_chunks env r q request (some (some c)) is_pipeline).queue =
        { q1 with _chunk_queue := q._chunk_queue ++ front ++
            [{ last with closure :=
                if r._num_buffered_bytes + total > r._total_buffer_limit then some c else none }] } ∧
      (add_chunks env r q request (some (some c)) is_pipeline).done =
        (if r._num_buffered_bytes + total > r._total_buffer_limit then some none
         else some (some c)) ∧
      (add_chunks env r q request (some (some c)) is_pipeline).ran = [] := by
  obtain ⟨hlen, _, hclo, htot, _⟩ := deserialize_chunks_spec env q1._chunk_meta _ _ _ hdes
  obtain ⟨hadd, hc1, hq1⟩ := add_chunks_accepted env r q q1 request (some (some c)) is_pipeline
    items total hacc hdes
  refine ⟨htot, ?_⟩
  have hitems : items ≠ [] := by
    intro h
    rw [h] at hlen
    exact hne (List.length_eq_zero.1 hlen.symm)
  refine ⟨items.dropLast, items.getLast hitems, (List.dropLast_append_getLast hitems).symm,
    fun i hi => hclo i (List.mem_of_mem_dropLast hi),
    hclo _ (List.getLast_mem hitems), ?_⟩
  rw [hadd]
  unfold add_chunks_lock2
  have hemp : items.isEmpty = false := by
    cases items with
    | nil => exact absurd rfl hitems
    | cons a b => rfl
  have hlast : ({ items.getLast hitems with closure := none } : ChunkItem) = items.getLast hitems := by
    have := hclo _ (List.getLast_mem hitems)
    cases hx : items.getLast hitems
    rw [hx] at this
    simp at this
    simp [this]
  by_cases hover : r._num_buffered_bytes + total > r._total_buffer_limit
  · have ht : takes_closure r items (some (some c)) total = true := by
      simp [takes_closure, Recvr.exceeds_limit, hemp, hover]
    simp only [hc1, ht, hover, if_true, Bool.false_eq_true, if_false, hq1]
    refine ⟨trivial, trivial, ?_, trivial, trivial⟩
    congr 1
    conv_lhs => rw [← List.dropLast_append_getLast hitems]
    rw [← List.append_assoc, set_back_closure_append_singleton]
    rfl
  · have ht : takes_closure r items (some (some c)) total = false := by
      simp [takes_closure, Recvr.exceeds_limit, hemp, hover]
    simp only [hc1, ht, hover, if_false, Bool.false_eq_true, hq1]
    refine ⟨trivial, trivial, ?_, trivial, trivial⟩
    congr 1
    rw [hlast, List.append_assoc, List.dropLast_append_getLast hitems]


/-- Witness of C6: a new queue of a receiver with limit `0` accepts a request of
one chunk of two bytes; the closure is taken. -/
theorem add_chunks_ack_retention_witness :
    add_chunks_lock1 { _total_buffer_limit := 0, _num_buffered_bytes := 0, _row_desc := one_slot_desc }
        (SenderQueue.new 1) (mk_request 7 0 [plain_chunk [1, 2]]) false =
      Region.proceed
        { SenderQueue.new 1 with
          _packet_seq_map := [(7, 0)],
          _chunk_meta := { slot_id_to_index := [(1, 0)], tuple_id_to_index := [],
                           is_nulls := [false], is_consts := [false],
                           types := [{ type := PrimitiveType.other 5 }] } } ∧
    deserialize_chunks plain_env
        { slot_id_to_index := [(1, 0)], tuple_id_to_index := [], is_nulls := [false],
          is_consts := [false], types := [{ type := PrimitiveType.other 5 }] }
        (mk_request 7 0 [plain_chunk [1, 2]]).chunks =
      Except.ok ([{ chunk_bytes := 2, chunk_ptr := ⟨[1, 2]⟩, closure := none }], 2) ∧
    (mk_request 7 0 [plain_chunk [1, 2]]).chunks ≠ [] ∧
    (add_chunks plain_env
        { _total_buffer_limit := 0, _num_buffered_bytes := 0, _row_desc := one_slot_desc }
        (SenderQueue.new 1) (mk_request 7 0 [plain_chunk [1, 2]]) (some (some 9)) false).done =
      some none := by
  have h := add_chunks_ack_retention plain_env
    { _total_buffer_limit := 0, _num_buffered_bytes := 0, _row_desc := one_slot_desc }
    (SenderQueue.new 1)
    { SenderQueue.new 1 with
      _packet_seq_map := [(7, 0)],
      _chunk_meta := { slot_id_to_index := [(1, 0)], tuple_id_to_index := [],
                       is_nulls := [false], is_consts := [false],
                       types := [{ type := PrimitiveType.other 5 }] } }
    (mk_request 7 0 [plain_chunk [1, 2]]) 9 false
    [{ chunk_bytes := 2, chunk_ptr := ⟨[1, 2]⟩, closure := none }] 2
    (by decide) rfl (by decide)
  obtain ⟨_, front, last, _, _, _, _, _, _, hdone, _⟩ := h
  refine ⟨by decide, rfl, by decide, ?_⟩
  rw [hdone]
  decide

/-! ## cancel and close -/

theorem run_queue_closures_eq (items : ChunkQueue) :
    run_queue_closures items = held_closures items := by
  induction items with
  | nil => rfl
  | cons i rest ih =>
    cases h : i.closure <;> simp [run_queue_closures, run_closure, held_closures, h] <;>
      simpa [held_closures] using ih

theorem held_closures_append (a b : ChunkQueue) :
    held_closures (a ++ b) = held_closures a ++ held_closures b := by
  simp [held_closures]

theorem run_source_closures_eq (m : List (Int × ChunkQueue)) :
    run_source_closures m = held_closures ((m.map (fun batch => batch.2)).flatten) := by
  induction m with
  | nil => rfl
  | cons e rest ih =>
    simp [run_source_closures, run_queue_closures_eq, ih, held_closures_append]

theorem run_buffered_closures_eq (m : List (Int × List (Int × ChunkQueue))) :
    run_buffered_closures m =
      held_closures ((m.map (fun src => (src.2.map (fun batch => batch.2)).flatten)).flatten) := by
  induction m with
  | nil => rfl
  | cons e rest ih =>
    simp [run_buffered_closures, run_source_closures_eq, ih, held_closures_append]

theorem held_closures_count (items : ChunkQueue) (c : Closure) :
    (held_closures items).count c = items.countP (fun i => decide (i.closure = some c)) := by
  induction items with
  | nil => rfl
  | cons i rest ih =>
    cases h : i.closure with
    | none => simpa [held_closures, h, List.countP_cons] using ih
    | some d =>
      by_cases hd : d = c
      · subst hd
        simp [held_closures, h, List.countP_cons] 
        simpa [held_closures] using ih
      · simp [held_closures, h, List.countP_cons, hd, List.count_cons]
        simpa [held_closures] using ih

/-- Claim C7 (`cancel`): on a non-cancelled queue `cancel` sets the flag, empties
the ready queue and the pending map and changes no other field; the closures it
runs are those held by the items of the ready queue and of the pending map
before the call, one run for every item holding a closure.  On a cancelled queue
it runs nothing and changes nothing. -/
theorem cancel_contract (q : SenderQueue) :
    (q._is_cancelled = false →
      (cancel q).queue =
        { q with _is_cancelled := true, _chunk_queue := [], _buffered_chunk_queues := [] } ∧
      (cancel q).ran = held_closures (q._chunk_queue ++ pending_items q) ∧
      ∀ c, (cancel q).ran.count c =
        (q._chunk_queue ++ pending_items q).countP (fun i => decide (i.closure = some c))) ∧
    (q._is_cancelled = true → cancel q = { queue := q, ran := [] }) := by
  constructor
  · intro hc
    have hran : (cancel q).ran = held_closures (q._chunk_queue ++ pending_items q) := by
      simp [cancel, hc, drain_queues, run_queue_closures_eq, run_buffered_closures_eq,
        held_closures_append, pending_items]
    refine ⟨by simp [cancel, hc, drain_queues], hran, fun c => ?_⟩
    rw [hran, held_closures_count]
  · intro hc
    simp [cancel, hc]

/-! ## Scenarios evaluated on the model -/

/-- Claim C1 (exactly-once ack), evaluated where it fails: source `7` delivers
sequence `5` twice in keep-order mode while sequence `0` is missing, the receiver
being over its limit, so the queue takes both closures `1` and `2`.  The second
batch replaces the first under the pending key `5`; `cancel` (and likewise
`close`) then runs closure `2` only, and leaves the queue cancelled with ready
queue and pending map empty: closure `1` was taken and is never run. -/
theorem exactly_once_ack_fails_on_duplicate_pending :
    (duplicate_pending_run Op.cancel).taken = [1, 2] ∧
    (duplicate_pending_run Op.cancel).ran = [2] ∧
    (duplicate_pending_run Op.cancel).ran.count 1 = 0 ∧
    (duplicate_pending_run Op.cancel).queue._is_cancelled = true ∧
    (duplicate_pending_run Op.cancel).queue._chunk_queue = [] ∧
    (duplicate_pending_run Op.cancel).queue._buffered_chunk_queues = [] ∧
    (duplicate_pending_run Op.close).taken = [1, 2] ∧
    (duplicate_pending_run Op.close).ran = [2] ∧
    (duplicate_pending_run Op.close).queue._buffered_chunk_queues = [] := by
  decide

/-- Counterexample to C4 as stated: after sequences 3, 1, 2 of source `7` on a new
keep-order queue the ready queue is empty; the three batches are pending and the
counter of the source is still `-1`. -/
theorem s3_delivers_nothing_without_sequence_zero :
    s3_run.ready_chunks = [] ∧
    s3_run.pending_chunks 7 = some [(3, [⟨[30]⟩]), (1, [⟨[10]⟩]), (2, [⟨[20]⟩])] ∧
    mfind s3_run.queue._max_processed_sequences 7 = some (-1) := by
  decide

/-- Claim C4 as amended (scenario S3): after sequences 3, 1, 2 of source `7` on a
new keep-order queue nothing is ready, because the first sequence the queue
expects is `0`; once sequence `0` has arrived as well, the ready queue delivers
the chunks of sequence 0, then 1, then 2, then 3, and nothing is pending. -/
theorem s3_out_of_order_reassembly :
    s3_run.ready_chunks = [] ∧
    (Run.step plain_env s3_run
      (Op.add_chunks_and_keep_order (mk_request 7 0 [plain_chunk [0]]) (some (some 0)))
      ).ready_chunks = [⟨[0]⟩, ⟨[10]⟩, ⟨[20]⟩, ⟨[30]⟩] ∧
    (Run.step plain_env s3_run
      (Op.add_chunks_and_keep_order (mk_request 7 0 [plain_chunk [0]]) (some (some 0)))
      ).pending_chunks 7 = some [] ∧
    mfind (Run.step plain_env s3_run
      (Op.add_chunks_and_keep_order (mk_request 7 0 [plain_chunk [0]]) (some (some 0)))
      ).queue._max_processed_sequences 7 = some 3 := by
  decide

/-! ## Ordered reassembly (`add_chunks_and_keep_order`) -/

theorem mfind_merase_same {K V : Type} [DecidableEq K] (m : List (K × V)) (k : K) :
    mfind (merase m k) k = none := by
  induction m with
  | nil => rfl
  | cons e m ih =>
    obtain ⟨k', v'⟩ := e
    by_cases h : k' = k
    · simp [merase, h, ih]
    · simp [merase, mfind, h, ih]

theorem mfind_merase_other {K V : Type} [DecidableEq K] (m : List (K × V)) (k k2 : K)
    (h : k ≠ k2) : mfind (merase m k) k2 = mfind m k2 := by
  induction m with
  | nil => rfl
  | cons e m ih =>
    obtain ⟨k', v'⟩ := e
    by_cases h1 : k' = k
    · subst h1; simp [merase, mfind, h, ih]
    · by_cases h2 : k' = k2
      · subst h2; simp [merase, mfind, h1]
      · simp [merase, mfind, h1, h2, ih]

theorem merase_length_le {K V : Type} [DecidableEq K] (m : List (K × V)) (k : K) :
    (merase m k).length ≤ m.length := by
  induction m with
  | nil => simp [merase]
  | cons e m ih =>
    obtain ⟨k', v'⟩ := e
    by_cases h : k' = k
    · simp only [merase, h, if_true, List.length_cons]; omega
    · simp only [merase, h, if_false, List.length_cons]; omega

theorem merase_length_lt {K V : Type} [DecidableEq K] (m : List (K × V)) (k : K) (v : V)
    (h : mfind m k = some v) : (merase m k).length < m.length := by
  induction m with
  | nil => simp [mfind] at h
  | cons e m ih =>
    obtain ⟨k', v'⟩ := e
    by_cases h1 : k' = k
    · have := merase_length_le m k
      simp only [merase, h1, if_true, List.length_cons]; omega
    · simp only [mfind, h1, if_false] at h
      have := ih h
      simp only [merase, h1, if_false, List.length_cons]; omega

theorem eq_nil_of_mfind_none {K V : Type} [DecidableEq K] (m : List (K × V))
    (h : ∀ k, mfind m k = none) : m = [] := by
  cases m with
  | nil => rfl
  | cons e m =>
    obtain ⟨k, v⟩ := e
    have := h k
    simp [mfind] at this

/-- The drain loop, given fuel for every entry of the map, moves the batches bound
to `mx + 1, …, mx + j` in this order, where `mx + j + 1` is the first key above
`mx` that is not bound; it advances the counter to `mx + j`, erases exactly the
keys it moved and stops because the next key is missing, not for lack of fuel. -/
theorem drain_loop_spec : ∀ (fuel : Nat) (cq : List (Int × ChunkQueue)) (mx : Int) (rd : ChunkQueue),
    cq.length ≤ fuel →
    ∃ j : Nat,
      (drain_loop fuel cq mx rd).2.1 = mx + j ∧
      (∀ i : Nat, i < j → (mfind cq (mx + 1 + (i : Int))).isSome = true) ∧
      mfind cq (mx + j + 1) = none ∧
      (∀ k : Int, mfind (drain_loop fuel cq mx rd).1 k =
        if mx < k ∧ k ≤ mx + j then none else mfind cq k) ∧
      (drain_loop fuel cq mx rd).2.2 = rd ++ drained_batches cq mx j := by
  intro fuel
  induction fuel with
  | zero =>
    intro cq mx rd h
    have hcq : cq = [] := List.length_eq_zero.1 (Nat.le_zero.1 h)
    subst hcq
    refine ⟨0, by simp [drain_loop], by simp, by simp [mfind], ?_, by simp [drain_loop, drained_batches]⟩
    intro k
    simp [drain_loop, mfind]
  | succ fuel ih =>
    intro cq mx rd h
    cases hf : mfind cq (mx + 1) with
    | none =>
      refine ⟨0, by simp [drain_loop, hf], by simp, by simpa using hf, ?_,
        by simp [drain_loop, hf, drained_batches]⟩
      intro k
      have : ¬ (mx < k ∧ k ≤ mx + ((0 : Nat) : Int)) := by omega
      rw [if_neg this]
      simp [drain_loop, hf]
    | some items =>
      have hlen : (merase cq (mx + 1)).length ≤ fuel := by
        have := merase_length_lt cq (mx + 1) items hf
        omega
      obtain ⟨j, h1, h2, h3, h4, h5⟩ := ih (merase cq (mx + 1)) (mx + 1) (rd ++ items) hlen
      refine ⟨j + 1, ?_, ?_, ?_, ?_, ?_⟩
      · simp only [drain_loop, hf]
        rw [h1]; push_cast; ring
      · intro i hi
        cases i with
        | zero => simp [hf]
        | succ i =>
          have := h2 i (by omega)
          rw [mfind_merase_other _ _ _ (by omega)] at this
          have e : mx + 1 + ((i + 1 : Nat) : Int) = mx + 1 + 1 + (i : Int) := by push_cast; ring
          rw [e]; exact this
      · rw [mfind_merase_other _ _ _ (by omega)] at h3
        have e : mx + ((j + 1 : Nat) : Int) + 1 = mx + 1 + (j : Int) + 1 := by push_cast; ring
        rw [e]; exact h3
      · intro k
        simp only [drain_loop, hf]
        rw [h4 k]
        by_cases hk : k = mx + 1
        · subst hk
          have c1 : ¬ (mx + 1 < mx + 1 ∧ mx + 1 ≤ mx + 1 + (j : Int)) := by omega
          have c2 : mx < mx + 1 ∧ mx + 1 ≤ mx + ((j + 1 : Nat) : Int) := by
            constructor <;> push_cast <;> omega
          rw [if_neg c1, if_pos c2]
          exact mfind_merase_same cq (mx + 1)
        · rw [mfind_merase_other _ _ _ (Ne.symm hk)]
          by_cases hr : mx + 1 < k ∧ k ≤ mx + 1 + (j : Int)
          · have c2 : mx < k ∧ k ≤ mx + ((j + 1 : Nat) : Int) := by
              constructor <;> push_cast <;> omega
            rw [if_pos hr, if_pos c2]
          · have c2 : ¬ (mx < k ∧ k ≤ mx + ((j + 1 : Nat) : Int)) := by
              push_cast; omega
            rw [if_neg hr, if_neg c2]
      · simp only [drain_loop, hf]
        rw [h5]
        simp only [drained_batches, List.range_succ_eq_map, List.map_cons, List.flatten_cons,
          List.map_map, List.append_assoc]
        congr 2
        · simp [hf]
        · congr 1
          apply List.map_congr_left
          intro i _
          simp only [Function.comp]
          rw [mfind_merase_other _ _ _ (by omega)]
          congr 2
          push_cast; ring

theorem vset_length {α : Type} (l : List α) (i : Int) (x : α) : (vset l i x).length = l.length := by
  unfold vset
  split <;> simp

theorem assign_slot_types_length (slots : List SlotDescriptor) :
    ∀ (m : List (Int × Int)) (acc : List TypeDescriptor × Nat),
      (assign_slot_types slots m acc).1.length = acc.1.length := by
  intro m
  induction m with
  | nil => intro acc; rfl
  | cons kv rest ih =>
    intro acc
    obtain ⟨types, n⟩ := acc
    simp only [assign_slot_types]
    split
    · rw [ih]; simp [vset_length]
    · rw [ih]

theorem assign_tuple_types_length :
    ∀ (m : List (Int × Int)) (acc : List TypeDescriptor × Nat),
      (assign_tuple_types m acc).1.length = acc.1.length := by
  intro m
  induction m with
  | nil => intro acc; rfl
  | cons kv rest ih =>
    intro acc
    obtain ⟨types, n⟩ := acc
    simp only [assign_tuple_types]
    rw [ih]; simp [vset_length]

theorem foldl_assign_slot_types_length (m : List (Int × Int)) :
    ∀ (row_desc : List TupleDescriptor) (acc : List TypeDescriptor × Nat),
      (row_desc.foldl (fun acc tuple_desc => assign_slot_types tuple_desc.slots m acc) acc).1.length
        = acc.1.length := by
  intro row_desc
  induction row_desc with
  | nil => intro acc; rfl
  | cons t rest ih =>
    intro acc
    simp only [List.foldl_cons]
    rw [ih, assign_slot_types_length]

theorem vresize_length {α : Type} (l : List α) (n : Nat) (d : α) : (vresize l n d).length = n := by
  simp [vresize]

/-- Whenever `_build_chunk_meta` passes its first check, it leaves as many types
as the chunk has `is_nulls` entries, hence at least one. -/
theorem _build_chunk_meta_types_length (row_desc : List TupleDescriptor) (meta : RuntimeChunkMeta)
    (pb : ChunkPB) (h : (pb.is_nulls.isEmpty || pb.slot_id_map.isEmpty) = false) :
    (_build_chunk_meta row_desc meta pb).2.types.length = pb.is_nulls.length ∧
    (_build_chunk_meta row_desc meta pb).2.types ≠ [] := by
  have hl : (_build_chunk_meta row_desc meta pb).2.types.length = pb.is_nulls.length := by
    unfold _build_chunk_meta
    simp only [h, Bool.false_eq_true, if_false]
    split <;>
      simp only [assign_tuple_types_length, foldl_assign_slot_types_length, vresize_length]
  refine ⟨hl, ?_⟩
  intro hnil
  rw [hnil] at hl
  have : pb.is_nulls = [] := List.length_eq_zero.1 hl.symm
  simp [this] at h

theorem _build_chunk_meta_ok (row_desc : List TupleDescriptor) (meta : RuntimeChunkMeta)
    (pb : ChunkPB) (h : (_build_chunk_meta row_desc meta pb).1 = none) :
    (pb.is_nulls.isEmpty || pb.slot_id_map.isEmpty) = false := by
  cases hc : (pb.is_nulls.isEmpty || pb.slot_id_map.isEmpty)
  · rfl
  · unfold _build_chunk_meta at h
    simp [hc, Status.InternalError] at h

/-- When the meta step lets the call proceed, the queue has a non-empty type
list afterwards, and an already built meta is kept. -/
theorem build_meta_if_empty_proceed (r : Recvr) (q q2 : SenderQueue)
    (request : PTransmitChunkParams) (h : build_meta_if_empty r q request = Region.proceed q2) :
    q2 = { q with _chunk_meta := q2._chunk_meta } ∧ q2._chunk_meta.types ≠ [] ∧
    (q._chunk_meta.types ≠ [] → q2._chunk_meta = q._chunk_meta) := by
  unfold build_meta_if_empty at h
  split at h
  · rename_i hemp
    rcases hb : _build_chunk_meta r._row_desc q._chunk_meta (first_chunk request) with ⟨st, meta⟩
    rw [hb] at h
    cases st with
    | some e => simp at h
    | none =>
      simp only at h
      injection h with h
      subst h
      have hok := _build_chunk_meta_ok r._row_desc q._chunk_meta (first_chunk request) (by rw [hb])
      have := (_build_chunk_meta_types_length r._row_desc q._chunk_meta (first_chunk request) hok).2
      rw [hb] at this
      refine ⟨rfl, this, ?_⟩
      intro hne
      exact absurd (List.isEmpty_iff.1 hemp) hne
  · rename_i hemp
    injection h with h
    subst h
    refine ⟨rfl, ?_, fun _ => rfl⟩
    intro hnil
    exact hemp (by simp [hnil])

/-- The first locked region of `add_chunks_and_keep_order` on a non-cancelled
queue: the source gets its counter (`-1` when new) and its pending map (empty
when new); nothing else changes. -/
theorem add_chunks_and_keep_order_lock1_spec (q : SenderQueue) (request : PTransmitChunkParams)
    (hc : q._is_cancelled = false) :
    ∃ q1, add_chunks_and_keep_order_lock1 q request = Region.proceed q1 ∧
      q1 = { q with _max_processed_sequences := q1._max_processed_sequences,
                    _buffered_chunk_queues := q1._buffered_chunk_queues } ∧
      mfind q1._max_processed_sequences request.be_number =
        some ((mfind q._max_processed_sequences request.be_number).getD (-1)) ∧
      mfind q1._buffered_chunk_queues request.be_number =
        some ((mfind q._buffered_chunk_queues request.be_number).getD []) ∧
      (∀ b, b ≠ request.be_number →
        mfind q1._max_processed_sequences b = mfind q._max_processed_sequences b ∧
        mfind q1._buffered_chunk_queues b = mfind q._buffered_chunk_queues b) := by
  unfold add_chunks_and_keep_order_lock1
  simp only [hc, Bool.false_eq_true, if_false]
  refine ⟨_, rfl, rfl, ?_, ?_, ?_⟩
  · cases h : mfind q._max_processed_sequences request.be_number with
    | none => simp [mfind_minsert_same]
    | some v => simp [h]
  · cases h : mfind q._buffered_chunk_queues request.be_number with
    | none => simp [mfind_minsert_same]
    | some v => simp [h]
  · intro b hb
    constructor
    · cases h : mfind q._max_processed_sequences request.be_number with
      | none => simp [mfind_minsert_other _ _ _ _ (Ne.symm hb)]
      | some v => simp
    · cases h : mfind q._buffered_chunk_queues request.be_number with
      | none => simp [mfind_minsert_other _ _ _ _ (Ne.symm hb)]
      | some v => simp

/-- What an accepted `add_chunks_and_keep_order` call does.  On a non-cancelled
queue with senders remaining, a call that returns OK has built or kept the chunk
meta, deserialized every chunk, filed the batch under the `int32` value of the
sequence in the pending map of the source and run the drain loop from the
counter of the source; the other sources are untouched. -/
theorem add_chunks_and_keep_order_accepted (env : Collaborators) (r : Recvr) (q : SenderQueue)
    (request : PTransmitChunkParams) (done : Option (Option Closure))
    (hc : q._is_cancelled = false) (hrem : 0 < q._num_remaining_senders)
    (hok : (add_chunks_and_keep_order env r q request done).status = none) :
    ∃ (items : ChunkQueue) (total : Int),
      deserialize_chunks env (add_chunks_and_keep_order env r q request done).queue._chunk_meta
        request.chunks = Except.ok (items, total) ∧
      (add_chunks_and_keep_order env r q request done).queue._chunk_meta.types ≠ [] ∧
      (q._chunk_meta.types ≠ [] →
        (add_chunks_and_keep_order env r q request done).queue._chunk_meta = q._chunk_meta) ∧
      (add_chunks_and_keep_order env r q request done).queue._is_cancelled = false ∧
      (add_chunks_and_keep_order env r q request done).queue._num_remaining_senders =
        q._num_remaining_senders ∧
      (add_chunks_and_keep_order env r q request done).queue._sender_eos_set = q._sender_eos_set ∧
      (add_chunks_and_keep_order env r q request done).queue._packet_seq_map = q._packet_seq_map ∧
      (add_chunks_and_keep_order env r q request done).recvr =
        { r with _num_buffered_bytes := r._num_buffered_bytes + total } ∧
      (add_chunks_and_keep_order env r q request done).done =
        (if takes_closure r items done total then some none else done) ∧
      (add_chunks_and_keep_order env r q request done).ran = [] ∧
      (∀ b, b ≠ request.be_number →
        mfind (add_chunks_and_keep_order env r q request done).queue._max_processed_sequences b =
          mfind q._max_processed_sequences b ∧
        mfind (add_chunks_and_keep_order env r q request done).queue._buffered_chunk_queues b =
          mfind q._buffered_chunk_queues b) ∧
      ((add_chunks_and_keep_order env r q request done).queue._chunk_queue,
        mfind (add_chunks_and_keep_order env r q request done).queue._max_processed_sequences
          request.be_number,
        mfind (add_chunks_and_keep_order env r q request done).queue._buffered_chunk_queues
          request.be_number) =
      (let cq1 := minsert ((mfind q._buffered_chunk_queues request.be_number).getD [])
          (toInt32 request.sequence) (keep_order_batch r items done total)
       let d := drain_loop cq1.length cq1
          ((mfind q._max_processed_sequences request.be_number).getD (-1)) q._chunk_queue
       (d.2.2, some d.2.1, some d.1)) := by
  obtain ⟨q1, h1, hq1, hmx, hbuf, hoth⟩ := add_chunks_and_keep_order_lock1_spec q request hc
  have hc1 : q1._is_cancelled = false := by rw [hq1]; exact hc
  have hrem1 : ¬ q1._num_remaining_senders ≤ 0 := by rw [hq1]; simp; exact hrem
  have h2 : add_chunks_and_keep_order_lock2 r q1 request = build_meta_if_empty r q1 request := by
    unfold add_chunks_and_keep_order_lock2
    simp [hc1, hrem1]
  unfold add_chunks_and_keep_order at hok ⊢
  rw [h1] at hok ⊢
  simp only at hok ⊢
  rw [h2] at hok ⊢
  cases hb : build_meta_if_empty r q1 request with
  | returned st q2 =>
    obtain ⟨meta, hm | ⟨e, hm⟩⟩ := build_meta_if_empty_queue r q1 request
    · rw [hm] at hb; simp at hb
    · rw [hb] at hok
      rw [hm] at hb
      injection hb with hb1 hb2
      subst hb1
      simp at hok
  | proceed q2 =>
    obtain ⟨hq2, hty, hkeep⟩ := build_meta_if_empty_proceed r q1 q2 request hb
    rw [hb] at hok
    simp only at hok ⊢
    cases hd : deserialize_chunks env q2._chunk_meta request.chunks with
    | error e => rw [hd] at hok; simp at hok
    | ok pr =>
      obtain ⟨items, total⟩ := pr
      have hc2 : q2._is_cancelled = false := by rw [hq2]; exact hc1
      have e1 : q2._max_processed_sequences = q1._max_processed_sequences := by rw [hq2]
      have e2 : q2._buffered_chunk_queues = q1._buffered_chunk_queues := by rw [hq2]
      have e3 : q2._chunk_queue = q._chunk_queue := by rw [hq2, hq1]
      have e4 : q2._num_remaining_senders = q._num_remaining_senders := by rw [hq2, hq1]
      have e5 : q2._sender_eos_set = q._sender_eos_set := by rw [hq2, hq1]
      have e6 : q2._packet_seq_map = q._packet_seq_map := by rw [hq2, hq1]
      have e7 : q1._chunk_meta = q._chunk_meta := by rw [hq1]
      simp only [add_chunks_and_keep_order_lock3, hc2, Bool.false_eq_true, if_false]
      refine ⟨items, total, hd, hty, ?_, ?_, ?_, ?_, ?_, ?_, ?_, ?_, ?_, ?_⟩
      · intro hne
        rw [← e7] at hne ⊢
        exact hkeep hne
      · trivial
      · trivial
      · trivial
      · trivial
      · trivial
      · trivial
      · trivial
      · intro b hb
        simp only [e1, e2]
        rw [mfind_minsert_other _ _ _ _ (Ne.symm hb), mfind_minsert_other _ _ _ _ (Ne.symm hb)]
        exact hoth b hb
      · simp only [e1, e2, e3, hmx, hbuf, mfind_minsert_same, Option.getD_some, keep_order_batch]

theorem toInt32_of_int32 (x : Int) (h1 : -2147483648 ≤ x) (h2 : x < 2147483648) :
    toInt32 x = x := by
  unfold toInt32
  omega

theorem set_back_closure_map_chunk (l : ChunkQueue) (c : Option Closure) :
    (set_back_closure l c).map (fun i => i.chunk_ptr) = l.map (fun i => i.chunk_ptr) := by
  induction l with
  | nil => rfl
  | cons x l ih =>
    cases l with
    | nil => rfl
    | cons y l => simp only [set_back_closure, List.map_cons] at ih ⊢; rw [ih]

theorem keep_order_batch_map_chunk (r : Recvr) (items : ChunkQueue)
    (done : Option (Option Closure)) (total : Int) :
    (keep_order_batch r items done total).map (fun i => i.chunk_ptr) =
      items.map (fun i => i.chunk_ptr) := by
  unfold keep_order_batch
  split
  · exact set_back_closure_map_chunk _ _
  · rfl

theorem filterMap_ok_of_map_eq (env : Collaborators) (meta : RuntimeChunkMeta) :
    ∀ (chunks : List ChunkPB) (items : ChunkQueue),
      chunks.map (fun p => _deserialize_chunk env meta p) =
        items.map (fun i => Except.ok i.chunk_ptr) →
      chunks.filterMap (fun p =>
        match _deserialize_chunk env meta p with
        | Except.ok chunk => some chunk
        | Except.error _ => none) = items.map (fun i => i.chunk_ptr) := by
  intro chunks
  induction chunks with
  | nil =>
    intro items h
    cases items with
    | nil => rfl
    | cons a b => simp at h
  | cons p rest ih =>
    intro items h
    cases items with
    | nil => simp at h
    | cons a b =>
      simp only [List.map_cons, List.cons.injEq] at h
      obtain ⟨h6, h7⟩ := h
      simp only [List.filterMap_cons, h6, List.map_cons]
      rw [ih b h7]

theorem deserialize_chunks_request_chunks (env : Collaborators) (meta : RuntimeChunkMeta)
    (request : PTransmitChunkParams) (items : ChunkQueue) (total : Int)
    (h : deserialize_chunks env meta request.chunks = Except.ok (items, total)) :
    items.map (fun i => i.chunk_ptr) = request_chunks env meta request := by
  obtain ⟨_, _, _, _, h5⟩ := deserialize_chunks_spec env meta _ _ _ h
  exact (filterMap_ok_of_map_eq env meta _ _ h5).symm

theorem ne_nil_of_mem_list {α : Type} {a : α} {l : List α} (h : a ∈ l) : l ≠ [] := by
  intro hl; rw [hl] at h; simp at h

/-- One accepted request keeps the reassembly invariant: the request with
sequence `kn`, not seen before and within `int32`, is filed and the drain loop
delivers every sequence that has become contiguous. -/
theorem reassembling_step (env : Collaborators) (src : Int) (reqOf : Nat → PTransmitChunkParams)
    (ready0 : List Chunk) (r : Recvr) (q : SenderQueue) (D : List Nat)
    (hinv : Reassembling env src reqOf ready0 q D)
    (request : PTransmitChunkParams) (done : Option (Option Closure)) (kn : Nat)
    (hreq : request = reqOf kn) (hseq : request.sequence = (kn : Int))
    (hbe : request.be_number = src) (hlt : kn < 2147483648) (hnew : kn ∉ D)
    (hok : (add_chunks_and_keep_order env r q request done).status = none) :
    Reassembling env src reqOf ready0 (add_chunks_and_keep_order env r q request done).queue
      (kn :: D) := by
  obtain ⟨hc, hrem, hmeta, m, hmx, hlow, hm, hd1, hd2, hready⟩ := hinv
  obtain ⟨items, total, hdes, hty, hkeep, hc', hrem', _, _, _, _, _, _, hmain⟩ :=
    add_chunks_and_keep_order_accepted env r q request done hc hrem hok
  generalize add_chunks_and_keep_order env r q request done = o at *
  rw [hbe, hseq, toInt32_of_int32 _ (by omega) (by omega), hmx] at hmain
  simp only [Prod.mk.injEq] at hmain
  obtain ⟨hq', hmx', hpend'⟩ := hmain
  have hmeq : D ≠ [] → o.queue._chunk_meta = q._chunk_meta := fun h => hkeep (hmeta h)
  have hbatch : (keep_order_batch r items done total).map (fun i => i.chunk_ptr) =
      request_chunks env o.queue._chunk_meta (reqOf kn) := by
    rw [keep_order_batch_map_chunk, deserialize_chunks_request_chunks env _ _ _ _ hdes, hreq]
  have hge : m ≤ kn := by
    by_contra h
    exact hnew (hlow kn (by omega))
  generalize hpend : (mfind q._buffered_chunk_queues src).getD [] = pend at *
  generalize hbt : keep_order_batch r items done total = batch at *
  have hcq_kn : mfind (minsert pend (kn : Int) batch) (kn : Int) = some batch :=
    mfind_minsert_same _ _ _
  have hcq_other : ∀ k : Int, k ≠ (kn : Int) →
      mfind (minsert pend (kn : Int) batch) k = mfind pend k :=
    fun k hk => mfind_minsert_other _ _ _ _ (Ne.symm hk)
  obtain ⟨j, hj1, hj2, hj3, hj4, hj5⟩ := drain_loop_spec (minsert pend (kn : Int) batch).length
    (minsert pend (kn : Int) batch) ((m : Int) - 1) q._chunk_queue (le_refl _)
  generalize hdr : drain_loop (minsert pend (kn : Int) batch).length
    (minsert pend (kn : Int) batch) ((m : Int) - 1) q._chunk_queue = d at *
  -- every key the loop moved belongs to an arrived request and holds its chunks
  have hfound : ∀ i : Nat, i < j → (m + i = kn ∨ m + i ∈ D) ∧
      ((mfind (minsert pend (kn : Int) batch) ((m : Int) - 1 + 1 + (i : Int))).getD []).map
        (fun i => i.chunk_ptr) = request_chunks env o.queue._chunk_meta (reqOf (m + i)) := by
    intro i hi
    have hs := hj2 i hi
    have hkey : (m : Int) - 1 + 1 + (i : Int) = ((m + i : Nat) : Int) := by push_cast; ring
    rw [hkey] at hs ⊢
    by_cases hk : m + i = kn
    · rw [hk, hcq_kn]
      exact ⟨Or.inl rfl, hbatch⟩
    · have hne : ((m + i : Nat) : Int) ≠ (kn : Int) := by
        intro h; exact hk (by exact_mod_cast h)
      rw [hcq_other _ hne] at hs ⊢
      obtain ⟨its, hits⟩ := Option.isSome_iff_exists.1 hs
      obtain ⟨kn2, hkn2, _, hk2⟩ := hd2 _ _ hits
      have e : m + i = kn2 := by exact_mod_cast hk2
      obtain ⟨its2, hits2, hch⟩ := hd1 kn2 hkn2 (by omega)
      rw [e, hits2]
      refine ⟨Or.inr hkn2, ?_⟩
      simp only [Option.getD_some]
      rw [hch, hmeq (ne_nil_of_mem_list hkn2)]
  refine ⟨hc', by rw [hrem']; exact hrem, fun _ => hty, m + j, ?_, ?_, ?_, ?_, ?_, ?_⟩
  · rw [hmx']
    simp only [Option.getD_some]
    rw [hj1]; push_cast; ring
  · intro k hk
    by_cases hkm : k < m
    · exact List.mem_cons_of_mem _ (hlow k hkm)
    · obtain ⟨h1, _⟩ := hfound (k - m) (by omega)
      have e : m + (k - m) = k := by omega
      rw [e] at h1
      rcases h1 with h1 | h1
      · rw [h1]; exact List.mem_cons_self _ _
      · exact List.mem_cons_of_mem _ h1
  · intro hmem
    have hkey : (m : Int) - 1 + (j : Int) + 1 = ((m + j : Nat) : Int) := by push_cast; ring
    rw [hkey] at hj3
    rcases List.mem_cons.1 hmem with h | h
    · rw [h, hcq_kn] at hj3
      simp at hj3
    · have hne : ((m + j : Nat) : Int) ≠ (kn : Int) := by
        intro h2
        have : m + j = kn := by exact_mod_cast h2
        rw [this, hcq_kn] at hj3
        simp at hj3
      rw [hcq_other _ hne] at hj3
      obtain ⟨its, hits, _⟩ := hd1 (m + j) h (by omega)
      rw [hits] at hj3
      simp at hj3
  · intro kn2 hkn2 hle
    rw [hpend']
    simp only [Option.getD_some]
    rw [hj4]
    have hcond : ¬ ((m : Int) - 1 < (kn2 : Int) ∧ (kn2 : Int) ≤ (m : Int) - 1 + (j : Int)) := by
      omega
    rw [if_neg hcond]
    by_cases hk : kn2 = kn
    · rw [hk, hcq_kn]
      exact ⟨batch, rfl, hbatch⟩
    · have hne : (kn2 : Int) ≠ (kn : Int) := by
        intro h; exact hk (by exact_mod_cast h)
      rw [hcq_other _ hne]
      have hD : kn2 ∈ D := by
        rcases List.mem_cons.1 hkn2 with h | h
        · exact absurd h hk
        · exact h
      obtain ⟨its, hits, hch⟩ := hd1 kn2 hD (by omega)
      exact ⟨its, hits, by rw [hch, hmeq (ne_nil_of_mem_list hD)]⟩
  · intro k its hits
    rw [hpend'] at hits
    simp only [Option.getD_some] at hits
    rw [hj4] at hits
    by_cases hcond : (m : Int) - 1 < k ∧ k ≤ (m : Int) - 1 + (j : Int)
    · rw [if_pos hcond] at hits
      simp at hits
    · rw [if_neg hcond] at hits
      by_cases hk : k = (kn : Int)
      · exact ⟨kn, List.mem_cons_self _ _, by omega, hk⟩
      · rw [hcq_other _ hk] at hits
        obtain ⟨kn2, hkn2, hle2, hk2⟩ := hd2 _ _ hits
        exact ⟨kn2, List.mem_cons_of_mem _ hkn2, by omega, hk2⟩
  · rw [hq', hj5]
    simp only [List.map_append, hready, List.append_assoc, List.range_add, List.map_map,
      List.flatten_append]
    congr 1
    have hold : (List.map (fun k => request_chunks env q._chunk_meta (reqOf k)) (List.range m)) =
        (List.map (fun k => request_chunks env o.queue._chunk_meta (reqOf k)) (List.range m)) := by
      apply List.map_congr_left
      intro k hk
      have hkD : k ∈ D := hlow k (List.mem_range.1 hk)
      rw [hmeq (ne_nil_of_mem_list hkD)]
    rw [hold]
    congr 1
    simp only [drained_batches, List.map_flatten, List.map_map]
    congr 1
    apply List.map_congr_left
    intro i hi
    simp only [Function.comp]
    exact (hfound i (List.mem_range.1 hi)).2

theorem Run.step_keep_order_queue (env : Collaborators) (s : Run)
    (c : PTransmitChunkParams × Option (Option Closure)) :
    (Run.step env s (keep_order_op c)).queue =
      (add_chunks_and_keep_order env s.recvr s.queue c.1 c.2).queue := rfl

theorem reassembling_steps (env : Collaborators) (src : Int) (reqOf : Nat → PTransmitChunkParams)
    (ready0 : List Chunk) :
    ∀ (calls : List (PTransmitChunkParams × Option (Option Closure))) (s : Run) (D : List Nat),
      Reassembling env src reqOf ready0 s.queue D →
      (∀ c ∈ calls, ∃ kn : Nat, c.1 = reqOf kn ∧ c.1.sequence = (kn : Int) ∧
        c.1.be_number = src ∧ kn < 2147483648 ∧ kn ∉ D) →
      (calls.map (fun c => c.1.sequence)).Nodup →
      Run.all_ok env s calls = true →
      ∃ D', (∀ k : Nat, k ∈ D' ↔ (k ∈ D ∨ (k : Int) ∈ calls.map (fun c => c.1.sequence))) ∧
        Reassembling env src reqOf ready0
          (Run.steps env s (calls.map keep_order_op)).queue D' := by
  intro calls
  induction calls with
  | nil =>
    intro s D hinv _ _ _
    exact ⟨D, by simp, hinv⟩
  | cons c rest ih =>
    intro s D hinv hcalls hnd hok
    obtain ⟨kn, hreq, hseq, hbe, hlt, hnew⟩ := hcalls c (List.mem_cons_self _ _)
    simp only [Run.all_ok, Bool.and_eq_true] at hok
    obtain ⟨hok1, hok2⟩ := hok
    have hst : (add_chunks_and_keep_order env s.recvr s.queue c.1 c.2).status = none := by
      simpa [Status.ok] using hok1
    have hstep := reassembling_step env src reqOf ready0 s.recvr s.queue D hinv c.1 c.2 kn
      hreq hseq hbe hlt hnew hst
    rw [← Run.step_keep_order_queue] at hstep
    simp only [List.map_cons, List.nodup_cons] at hnd
    obtain ⟨hnotin, hnd'⟩ := hnd
    have hcalls' : ∀ c2 ∈ rest, ∃ kn2 : Nat, c2.1 = reqOf kn2 ∧ c2.1.sequence = (kn2 : Int) ∧
        c2.1.be_number = src ∧ kn2 < 2147483648 ∧ kn2 ∉ kn :: D := by
      intro c2 hc2
      obtain ⟨kn2, a, b, c3, d, e⟩ := hcalls c2 (List.mem_cons_of_mem _ hc2)
      refine ⟨kn2, a, b, c3, d, ?_⟩
      intro hmem
      rcases List.mem_cons.1 hmem with h | h
      · apply hnotin
        rw [hseq, ← h, ← b]
        exact List.mem_map_of_mem (fun c => c.1.sequence) hc2
      · exact e h
    obtain ⟨D', hD', hfin⟩ := ih (Run.step env s (keep_order_op c)) (kn :: D) hstep hcalls' hnd' hok2
    refine ⟨D', ?_, ?_⟩
    · intro k
      rw [hD' k]
      simp only [List.mem_cons, List.map_cons]
      constructor
      · rintro ((h | h) | h)
        · right; left; rw [hseq, h]
        · left; exact h
        · right; right; exact h
      · rintro (h | h | h)
        · left; right; exact h
        · left; left; rw [hseq] at h; exact_mod_cast h
        · right; exact h
    · simpa [Run.steps] using hfin

theorem map_getD_range {α : Type} (l : List α) (d : α) :
    (List.range l.length).map (fun k => l.getD k d) = l := by
  apply List.ext_getElem
  · simp
  · intro i h1 h2
    simp [List.getD_eq_getElem?_getD, List.getElem?_eq_getElem h2]

/-- Ordered reassembly is complete within `int32` (the part of C2 the code
delivers).  On a non-cancelled queue with senders remaining and a source with
nothing delivered or pending, let the requests `sorted`, carrying the sequences
`0, …, n - 1` of that source with `1 ≤ n ≤ 2^31`, be passed once each to
`add_chunks_and_keep_order` in any order (`calls`), every call returning OK.
Then the ready queue holds what it held before followed by the chunks of the
requests in sequence order (request order within a request), the pending map of
the source is empty and its counter is `n - 1`; the queue is still open, with
its chunk meta built. -/
theorem keep_order_reassembly_complete (env : Collaborators) (r0 : Recvr) (q0 : SenderQueue)
    (src : Int) (sorted : List PTransmitChunkParams)
    (calls : List (PTransmitChunkParams × Option (Option Closure)))
    (hc : q0._is_cancelled = false) (hrem : 0 < q0._num_remaining_senders)
    (hmx : (mfind q0._max_processed_sequences src).getD (-1) = -1)
    (hpend : (mfind q0._buffered_chunk_queues src).getD [] = [])
    (hperm : (calls.map Prod.fst).Perm sorted)
    (hseq : sorted.map (fun req => req.sequence) =
      (List.range sorted.length).map (fun (k : Nat) => (k : Int)))
    (hbe : ∀ req ∈ sorted, req.be_number = src)
    (hn : 1 ≤ sorted.length) (hn2 : sorted.length ≤ 2147483648)
    (hok : Run.all_ok env { recvr := r0, queue := q0, taken := [], ran := [] } calls = true) :
    (Run.steps env { recvr := r0, queue := q0, taken := [], ran := [] }
        (calls.map keep_order_op)).ready_chunks =
      q0._chunk_queue.map (fun i => i.chunk_ptr) ++
        (sorted.map (request_chunks env
          (Run.steps env { recvr := r0, queue := q0, taken := [], ran := [] }
            (calls.map keep_order_op)).queue._chunk_meta)).flatten ∧
    (mfind (Run.steps env { recvr := r0, queue := q0, taken := [], ran := [] }
        (calls.map keep_order_op)).queue._buffered_chunk_queues src).getD [] = [] ∧
    mfind (Run.steps env { recvr := r0, queue := q0, taken := [], ran := [] }
        (calls.map keep_order_op)).queue._max_processed_sequences src =
      some ((sorted.length : Int) - 1) ∧
    (Run.steps env { recvr := r0, queue := q0, taken := [], ran := [] }
        (calls.map keep_order_op)).queue._is_cancelled = false ∧
    0 < (Run.steps env { recvr := r0, queue := q0, taken := [], ran := [] }
        (calls.map keep_order_op)).queue._num_remaining_senders ∧
    (Run.steps env { recvr := r0, queue := q0, taken := [], ran := [] }
        (calls.map keep_order_op)).queue._chunk_meta.types ≠ [] := by
  have hseqi : ∀ (i : Nat) (h : i < sorted.length), (sorted[i]).sequence = (i : Int) := by
    intro i h
    have := congrArg (fun l => l[i]?) hseq
    simpa [List.getElem?_eq_getElem h, List.getElem?_range h] using this
  have hinit : Reassembling env src (fun k => sorted.getD k (mk_request 0 0 []))
      (q0._chunk_queue.map (fun i => i.chunk_ptr)) q0 [] := by
    refine ⟨hc, hrem, fun h => absurd rfl h, 0, by simpa using hmx, by simp, by simp, by simp,
      ?_, by simp⟩
    intro k items h
    rw [hpend] at h
    simp [mfind] at h
  have hcalls : ∀ c ∈ calls, ∃ kn : Nat, c.1 = (fun k => sorted.getD k (mk_request 0 0 [])) kn ∧
      c.1.sequence = (kn : Int) ∧ c.1.be_number = src ∧ kn < 2147483648 ∧ kn ∉ ([] : List Nat) := by
    intro c hcm
    have hmem : c.1 ∈ sorted := hperm.subset (List.mem_map_of_mem Prod.fst hcm)
    obtain ⟨i, hi, hget⟩ := List.getElem_of_mem hmem
    refine ⟨i, ?_, ?_, hbe _ hmem, by omega, by simp⟩
    · simp [List.getD_eq_getElem?_getD, List.getElem?_eq_getElem hi, hget]
    · rw [← hget]; exact hseqi i hi
  have hnd : (calls.map (fun c => c.1.sequence)).Nodup := by
    have h1 : (calls.map (fun c => c.1.sequence)) = (calls.map Prod.fst).map (fun r => r.sequence) := by
      simp [List.map_map]
    rw [h1]
    refine (hperm.map _).nodup_iff.2 ?_
    rw [hseq]
    exact (List.nodup_range _).map (fun a b h => by exact_mod_cast h)
  obtain ⟨D, hD, hfin⟩ := reassembling_steps env src _ _ calls
    { recvr := r0, queue := q0, taken := [], ran := [] } [] hinit hcalls hnd hok
  generalize Run.steps env { recvr := r0, queue := q0, taken := [], ran := [] }
    (calls.map keep_order_op) = s at *
  obtain ⟨hfc, hfr, hft, m, hm1, hm2, hm3, _, hm5, hm6⟩ := hfin
  have hmemD : ∀ k : Nat, k ∈ D ↔ k < sorted.length := by
    intro k
    rw [hD k]
    have h1 : (calls.map (fun c => c.1.sequence)) = (calls.map Prod.fst).map (fun r => r.sequence) := by
      simp [List.map_map]
    rw [h1, (hperm.map _).mem_iff, hseq]
    simp
  have hmn : m = sorted.length := by
    have h1 : ¬ m < sorted.length := fun h => hm3 ((hmemD m).2 h)
    have h2 : ¬ sorted.length < m := fun h => by
      have := (hmemD _).1 (hm2 _ h)
      omega
    omega
  subst hmn
  refine ⟨?_, ?_, ?_, hfc, hfr, hft (ne_nil_of_mem_list ((hmemD 0).2 (by omega)))⟩
  · unfold Run.ready_chunks
    rw [hm6]
    congr 2
    conv_rhs => rw [← map_getD_range sorted (mk_request 0 0 [])]
    rw [List.map_map]
    rfl
  · apply eq_nil_of_mfind_none
    intro k
    cases h : mfind ((mfind s.queue._buffered_chunk_queues src).getD []) k with
    | none => rfl
    | some items =>
      obtain ⟨kn, hkn, hle, _⟩ := hm5 k items h
      have := (hmemD kn).1 hkn
      omega
  · cases h : mfind s.queue._max_processed_sequences src with
    | none => rw [h] at hm1; simp at hm1; omega
    | some v => rw [h] at hm1; simp at hm1; rw [hm1]

theorem plain_call_ok (r : Recvr) (q : SenderQueue) (k : Int) (d : List Nat)
    (done : Option (Option Closure))
    (hc : q._is_cancelled = false) (hrem : 0 < q._num_remaining_senders)
    (hmeta : q._chunk_meta.types ≠ [] ∨
      (r._row_desc = one_slot_desc ∧ q._chunk_meta = RuntimeChunkMeta.empty)) :
    (add_chunks_and_keep_order plain_env r q (mk_request 7 k [plain_chunk d]) done).status
      = none := by
  obtain ⟨q1, h1, hq1, _⟩ := add_chunks_and_keep_order_lock1_spec q (mk_request 7 k [plain_chunk d]) hc
  have hc1 : q1._is_cancelled = false := by rw [hq1]; exact hc
  have hrem1 : ¬ q1._num_remaining_senders ≤ 0 := by rw [hq1]; simp; exact hrem
  have hm1 : q1._chunk_meta = q._chunk_meta := by rw [hq1]
  have hdes : ∀ meta, deserialize_chunks plain_env meta (mk_request 7 k [plain_chunk d]).chunks =
      Except.ok ([{ chunk_bytes := (d.length : Int), chunk_ptr := ⟨d⟩, closure := none }],
        (d.length : Int) + 0) := fun _ => rfl
  have hb : ∃ q2, build_meta_if_empty r q1 (mk_request 7 k [plain_chunk d]) = Region.proceed q2 ∧
      q2._is_cancelled = false := by
    unfold build_meta_if_empty
    rcases hmeta with h | ⟨h, h2⟩
    · have : q1._chunk_meta.types.isEmpty = false := by
        rw [hm1]
        cases hx : q._chunk_meta.types with
        | nil => exact absurd hx h
        | cons a b => rfl
      simp only [this, Bool.false_eq_true, if_false]
      exact ⟨q1, rfl, hc1⟩
    · rw [hm1, h, h2]
      exact ⟨_, rfl, hc1⟩
  obtain ⟨q2, hb2, hc2⟩ := hb
  unfold add_chunks_and_keep_order
  rw [h1]
  simp only [add_chunks_and_keep_order_lock2, hc1, hrem1, Bool.false_eq_true, if_false, hb2, hdes,
    add_chunks_and_keep_order_lock3, hc2]
  rfl

theorem plain_all_ok : ∀ (calls : List (PTransmitChunkParams × Option (Option Closure))) (s : Run),
    (∀ c ∈ calls, ∃ (k : Int) (d : List Nat), c.1 = mk_request 7 k [plain_chunk d]) →
    s.queue._is_cancelled = false → 0 < s.queue._num_remaining_senders →
    (s.queue._chunk_meta.types ≠ [] ∨
      (s.recvr._row_desc = one_slot_desc ∧ s.queue._chunk_meta = RuntimeChunkMeta.empty)) →
    Run.all_ok plain_env s calls = true := by
  intro calls
  induction calls with
  | nil => intro s _ _ _ _; rfl
  | cons c rest ih =>
    intro s hcalls hc hrem hmeta
    obtain ⟨k, d, hcd⟩ := hcalls c (List.mem_cons_self _ _)
    have hok := plain_call_ok s.recvr s.queue k d c.2 hc hrem hmeta
    rw [← hcd] at hok
    obtain ⟨_, _, _, hty, _, hc', hrem', _⟩ :=
      add_chunks_and_keep_order_accepted plain_env s.recvr s.queue c.1 c.2 hc hrem hok
    simp only [Run.all_ok, Bool.and_eq_true]
    refine ⟨by simp [hok, Status.ok], ?_⟩
    apply ih
    · intro c2 hc2
      exact hcalls c2 (List.mem_cons_of_mem _ hc2)
    · rw [Run.step_keep_order_queue]; exact hc'
    · rw [Run.step_keep_order_queue, hrem']; exact hrem
    · left
      rw [Run.step_keep_order_queue]; exact hty

theorem flatten_map_const_singleton {α β : Type} (c : β) (l : List α) :
    (l.map (fun _ => [c])).flatten = List.replicate l.length c := by
  induction l with
  | nil => rfl
  | cons a l ih => simp [ih, List.replicate_succ]

/-- The state after the in-order calls `0, …, n - 1` with `1 ≤ n ≤ 2^31`: all `n`
chunks are ready, nothing is pending, the counter is `n - 1`. -/
theorem in_order_run_state (n : Nat) (h1 : 1 ≤ n) (h2 : n ≤ 2147483648) :
    (in_order_run n).ready_chunks = List.replicate n ⟨[1]⟩ ∧
    (mfind (in_order_run n).queue._buffered_chunk_queues 7).getD [] = [] ∧
    mfind (in_order_run n).queue._max_processed_sequences 7 = some ((n : Int) - 1) ∧
    (in_order_run n).queue._is_cancelled = false ∧
    0 < (in_order_run n).queue._num_remaining_senders ∧
    (in_order_run n).queue._chunk_meta.types ≠ [] := by
  have hlen : ((in_order_calls n).map Prod.fst).length = n := by simp [in_order_calls]
  have hcomp := keep_order_reassembly_complete plain_env
    { _total_buffer_limit := 100, _num_buffered_bytes := 0, _row_desc := one_slot_desc }
    (SenderQueue.new 1) 7 ((in_order_calls n).map Prod.fst) (in_order_calls n)
    rfl (by decide) rfl rfl (List.Perm.refl _)
    (by rw [hlen]; simp [in_order_calls, List.map_map, mk_request, Function.comp_def])
    (by intro req hreq; simp [in_order_calls, mk_request] at hreq; obtain ⟨a, _, ha⟩ := hreq; rw [← ha])
    (by rw [hlen]; exact h1) (by rw [hlen]; exact h2)
    (plain_all_ok _ _
      (by intro c hc; simp [in_order_calls] at hc; obtain ⟨a, _, ha⟩ := hc; exact ⟨a, [1], by rw [← ha]⟩)
      rfl (by decide) (Or.inr ⟨rfl, rfl⟩))
  rw [hlen] at hcomp
  obtain ⟨c1, c2, c3, c4, c5, c6⟩ := hcomp
  refine ⟨?_, c2, c3, c4, c5, c6⟩
  have : (in_order_run n).ready_chunks = (Run.steps plain_env
      { recvr := { _total_buffer_limit := 100, _num_buffered_bytes := 0, _row_desc := one_slot_desc },
        queue := SenderQueue.new 1, taken := [], ran := [] }
      ((in_order_calls n).map keep_order_op)).ready_chunks := rfl
  rw [this, c1]
  have e : (List.map (request_chunks plain_env
      (Run.steps plain_env
        { recvr := { _total_buffer_limit := 100, _num_buffered_bytes := 0, _row_desc := one_slot_desc },
          queue := SenderQueue.new 1, taken := [], ran := [] }
        ((in_order_calls n).map keep_order_op)).queue._chunk_meta)
      ((in_order_calls n).map Prod.fst)) = (List.range n).map (fun _ => [(⟨[1]⟩ : Chunk)]) := by
    simp only [in_order_calls, List.map_map]
    apply List.map_congr_left
    intro a _
    rfl
  rw [e, flatten_map_const_singleton]
  simp [SenderQueue.new]

theorem in_order_run_succ (n : Nat) :
    in_order_run (n + 1) =
      Run.step plain_env (in_order_run n)
        (keep_order_op (mk_request 7 (n : Int) [plain_chunk [1]], none)) := by
  simp [in_order_run, in_order_calls, List.range_succ, Run.steps, List.foldl_append]

/-- The request with sequence `2^31`, arriving in order after `0, …, 2^31 - 1`, is
filed under the key `-2^31` and not delivered. -/
theorem in_order_run_past_int32 (n : Nat) (hn : n = 2147483648) :
    (in_order_run (n + 1)).ready_chunks = List.replicate n ⟨[1]⟩ ∧
    (in_order_run (n + 1)).pending_chunks 7 = some [(-2147483648, [⟨[1]⟩])] ∧
    mfind (in_order_run (n + 1)).queue._max_processed_sequences 7 = some 2147483647 := by
  obtain ⟨c1, c2, c3, c4, c5, c6⟩ := in_order_run_state n (by omega) (by omega)
  have hok := plain_call_ok (in_order_run n).recvr (in_order_run n).queue (n : Int) [1] none
    c4 c5 (Or.inl c6)
  obtain ⟨items, total, hdes, _, _, _, _, _, _, _, _, _, _, hmain⟩ :=
    add_chunks_and_keep_order_accepted plain_env (in_order_run n).recvr (in_order_run n).queue
      (mk_request 7 (n : Int) [plain_chunk [1]]) none c4 c5 hok
  have hitems : items = [{ chunk_bytes := 1, chunk_ptr := ⟨[1]⟩, closure := none }] := by
    have : deserialize_chunks plain_env
        (add_chunks_and_keep_order plain_env (in_order_run n).recvr (in_order_run n).queue
          (mk_request 7 (n : Int) [plain_chunk [1]]) none).queue._chunk_meta
        (mk_request 7 (n : Int) [plain_chunk [1]]).chunks =
        Except.ok ([{ chunk_bytes := 1, chunk_ptr := ⟨[1]⟩, closure := none }], 1 + 0) := rfl
    rw [this] at hdes
    injection hdes with hdes
    injection hdes with hdes _
    exact hdes.symm
  have hbatch : keep_order_batch (in_order_run n).recvr items none total = items := by
    simp [keep_order_batch, takes_closure]
  have hkey : toInt32 ((mk_request 7 (n : Int) [plain_chunk [1]]).sequence) = -2147483648 := by
    subst hn
    decide
  have hbe : (mk_request 7 (n : Int) [plain_chunk [1]]).be_number = 7 := rfl
  rw [hbe, c2, c3, hbatch, hkey, hitems] at hmain
  have hmiss : mfind ([(-2147483648, [{ chunk_bytes := 1, chunk_ptr := ⟨[1]⟩, closure := none }])]
      : List (Int × ChunkQueue)) ((n : Int) - 1 + 1) = none := by
    subst hn
    decide
  simp only [minsert, Option.getD_some, List.length_singleton, drain_loop, hmiss,
    Prod.mk.injEq] at hmain
  obtain ⟨m1, m2, m3⟩ := hmain
  rw [in_order_run_succ]
  refine ⟨?_, ?_, ?_⟩
  · have : (Run.step plain_env (in_order_run n)
        (keep_order_op (mk_request 7 (n : Int) [plain_chunk [1]], none))).ready_chunks =
        (add_chunks_and_keep_order plain_env (in_order_run n).recvr (in_order_run n).queue
          (mk_request 7 (n : Int) [plain_chunk [1]]) none).queue._chunk_queue.map
          (fun i => i.chunk_ptr) := rfl
    rw [this, m1]
    exact c1
  · have : (Run.step plain_env (in_order_run n)
        (keep_order_op (mk_request 7 (n : Int) [plain_chunk [1]], none))).pending_chunks 7 =
        (mfind (add_chunks_and_keep_order plain_env (in_order_run n).recvr (in_order_run n).queue
          (mk_request 7 (n : Int) [plain_chunk [1]]) none).queue._buffered_chunk_queues 7).map
          (fun m => m.map (fun batch => (batch.1, batch.2.map (fun i => i.chunk_ptr)))) := rfl
    rw [this, m3]
    rfl
  · rw [Run.step_keep_order_queue]
    show mfind (add_chunks_and_keep_order plain_env (in_order_run n).recvr (in_order_run n).queue
          (mk_request 7 (n : Int) [plain_chunk [1]]) none).queue._max_processed_sequences 7 = _
    rw [m2, hn]
    rfl

/-- Claim C2 (ordered reassembly is complete), evaluated where it fails: source `7`
passes the requests with sequences `0, …, 2^31` (`n = 2^31 + 1` of them, one
chunk each) in order to `add_chunks_and_keep_order` on a new queue.  After the
last call the ready queue holds `2^31` chunks, not `2^31 + 1`; the batch of
sequence `2^31` is pending under the key `-2^31`, and the counter of the source
is `2^31 - 1`, not `n - 1 = 2^31`. -/
theorem reassembly_incomplete_past_int32 :
    (in_order_run (2147483648 + 1)).ready_chunks = List.replicate 2147483648 ⟨[1]⟩ ∧
    (in_order_run (2147483648 + 1)).pending_chunks 7 = some [(-2147483648, [⟨[1]⟩])] ∧
    mfind (in_order_run (2147483648 + 1)).queue._max_processed_sequences 7 = some 2147483647 :=
  in_order_run_past_int32 2147483648 rfl

/-- The drain of one accepted keep-order call is contiguous (the part of C3 the
code delivers, in terms of pending keys).  With `mx` the counter of the source
before the call and `pend1` its pending map with the request's batch filed under
the `int32` value of the sequence, the call moves to the tail of the ready queue
exactly the batches bound to `mx + 1, …, mx + j`, in this order, for the `j`
with `mx + j + 1` unbound; it sets the counter to `mx + j` and erases the moved
keys and no other. -/
theorem keep_order_moves_contiguous (env : Collaborators) (r : Recvr) (q : SenderQueue)
    (request : PTransmitChunkParams) (done : Option (Option Closure))
    (hc : q._is_cancelled = false) (hrem : 0 < q._num_remaining_senders)
    (hok : (add_chunks_and_keep_order env r q request done).status = none) :
    ∃ (items : ChunkQueue) (total : Int) (j : Nat),
      deserialize_chunks env (add_chunks_and_keep_order env r q request done).queue._chunk_meta
        request.chunks = Except.ok (items, total) ∧
      mfind (add_chunks_and_keep_order env r q request done).queue._max_processed_sequences
          request.be_number =
        some ((mfind q._max_processed_sequences request.be_number).getD (-1) + (j : Int)) ∧
      (add_chunks_and_keep_order env r q request done).queue._chunk_queue =
        q._chunk_queue ++ drained_batches
          (minsert ((mfind q._buffered_chunk_queues request.be_number).getD [])
            (toInt32 request.sequence) (keep_order_batch r items done total))
          ((mfind q._max_processed_sequences request.be_number).getD (-1)) j ∧
      (∀ i : Nat, i < j →
        (mfind (minsert ((mfind q._buffered_chunk_queues request.be_number).getD [])
            (toInt32 request.sequence) (keep_order_batch r items done total))
          ((mfind q._max_processed_sequences request.be_number).getD (-1) + 1 + (i : Int))).isSome
          = true) ∧
      mfind (minsert ((mfind q._buffered_chunk_queues request.be_number).getD [])
          (toInt32 request.sequence) (keep_order_batch r items done total))
        ((mfind q._max_processed_sequences request.be_number).getD (-1) + (j : Int) + 1) = none ∧
      ∀ k : Int,
        mfind ((mfind (add_chunks_and_keep_order env r q request done).queue._buffered_chunk_queues
            request.be_number).getD []) k =
          if (mfind q._max_processed_sequences request.be_number).getD (-1) < k ∧
              k ≤ (mfind q._max_processed_sequences request.be_number).getD (-1) + (j : Int)
          then none
          else mfind (minsert ((mfind q._buffered_chunk_queues request.be_number).getD [])
            (toInt32 request.sequence) (keep_order_batch r items done total)) k := by
  obtain ⟨items, total, hdes, _, _, _, _, _, _, _, _, _, _, hmain⟩ :=
    add_chunks_and_keep_order_accepted env r q request done hc hrem hok
  simp only [Prod.mk.injEq] at hmain
  obtain ⟨m1, m2, m3⟩ := hmain
  obtain ⟨j, hj1, hj2, hj3, hj4, hj5⟩ := drain_loop_spec
    (minsert ((mfind q._buffered_chunk_queues request.be_number).getD [])
      (toInt32 request.sequence) (keep_order_batch r items done total)).length
    (minsert ((mfind q._buffered_chunk_queues request.be_number).getD [])
      (toInt32 request.sequence) (keep_order_batch r items done total))
    ((mfind q._max_processed_sequences request.be_number).getD (-1)) q._chunk_queue (le_refl _)
  refine ⟨items, total, j, hdes, ?_, ?_, hj2, hj3, ?_⟩
  · rw [m2, hj1]
  · rw [m1, hj5]
  · intro k
    rw [m3]
    simp only [Option.getD_some]
    exact hj4 k

/-- Claim C3 (ordered delivery is sound for arbitrary input), evaluated where it
fails: source `7` delivers sequence `4294967296` and then sequence `1`.  The
first batch is filed under the key `0` and moved to the ready queue at once, the
second follows it: the batches are moved in the order 4294967296, 1, which is not
increasing, and both are moved although no batch with the lower sequence `0` has
arrived.  Nothing is left pending and the counter of the source is `1`. -/
theorem ordered_delivery_fails_on_wrapped_sequence :
    wrapped_sequence_run.ready_chunks = [⟨[42]⟩, ⟨[1]⟩] ∧
    wrapped_sequence_run.pending_chunks 7 = some [] ∧
    mfind wrapped_sequence_run.queue._max_processed_sequences 7 = some 1 := by
  decide

/-! ## Readiness, end of stream and fan-out -/

/-- Claim C11 (`has_chunk`): it returns `true` whenever the ready queue is
non-empty or the queue is cancelled, and it returns `false` exactly when the
queue is not cancelled, the ready queue is empty and `remaining_senders > 0`.
The source function writes no member, so the embedding has no state to return:
the queue after the call is the queue before it. -/
theorem has_chunk_contract (q : SenderQueue) :
    ((q._chunk_queue ≠ [] ∨ q._is_cancelled = true) → has_chunk q = true) ∧
    (has_chunk q = false ↔
      (q._is_cancelled = false ∧ q._chunk_queue = [] ∧ 0 < q._num_remaining_senders)) := by
  cases hc : q._is_cancelled <;> cases hq : q._chunk_queue <;>
    by_cases hr : 0 < q._num_remaining_senders <;> simp [has_chunk, hc, hq, hr]

/-- Claim C12 (`decrement_senders` is idempotent per source): for every queue and
source, a second call for the same source changes nothing, so two calls leave the
state one call leaves; a call for a source in the EOS set returns the queue
unchanged; a call for a source not in the set inserts it and lowers
`remaining_senders` by exactly 1, leaving every other field as it was. -/
theorem decrement_senders_idempotent (q : SenderQueue) (be_number : Int) :
    decrement_senders (decrement_senders q be_number) be_number = decrement_senders q be_number ∧
    (be_number ∈ q._sender_eos_set → decrement_senders q be_number = q) ∧
    (be_number ∉ q._sender_eos_set →
      decrement_senders q be_number =
        { q with _sender_eos_set := be_number :: q._sender_eos_set,
                 _num_remaining_senders := q._num_remaining_senders - 1 } ∧
      be_number ∈ (decrement_senders q be_number)._sender_eos_set ∧
      (decrement_senders q be_number)._sender_eos_set.length = q._sender_eos_set.length + 1) := by
  by_cases h : be_number ∈ q._sender_eos_set
  · simp [decrement_senders, h]
  · simp [decrement_senders, h]

/-- Claim C18 (receiver fan-out): for `num_senders ≥ 1`, a merging receiver owns
exactly `num_senders` queues, each with `remaining_senders = 1`, and a
non-merging receiver owns exactly one queue with `remaining_senders =
num_senders`; in both cases the `remaining_senders` of the queues sum to
`num_senders`, and the buffered-bytes counter starts at 0. -/
theorem receiver_fan_out (row_desc : List TupleDescriptor) (num_senders : Int)
    (total_buffer_limit : Int) (is_pipeline keep_order : Bool) (h : 1 ≤ num_senders) :
    (DataStreamRecvr.new row_desc num_senders true total_buffer_limit is_pipeline keep_order
      )._sender_queues = List.replicate num_senders.toNat (SenderQueue.new 1) ∧
    ((DataStreamRecvr.new row_desc num_senders true total_buffer_limit is_pipeline keep_order
      )._sender_queues.length : Int) = num_senders ∧
    (∀ q ∈ (DataStreamRecvr.new row_desc num_senders true total_buffer_limit is_pipeline
      keep_order)._sender_queues, q._num_remaining_senders = 1) ∧
    (DataStreamRecvr.new row_desc num_senders false total_buffer_limit is_pipeline keep_order
      )._sender_queues = [SenderQueue.new num_senders] ∧
    (SenderQueue.new num_senders)._num_remaining_senders = num_senders ∧
    (∀ is_merging : Bool,
      ((DataStreamRecvr.new row_desc num_senders is_merging total_buffer_limit is_pipeline
        keep_order)._sender_queues.map (fun q => q._num_remaining_senders)).sum = num_senders ∧
      (DataStreamRecvr.new row_desc num_senders is_merging total_buffer_limit is_pipeline
        keep_order)._num_buffered_bytes = 0) := by
  have hnat : ((num_senders.toNat : Nat) : Int) = num_senders := Int.toNat_of_nonneg (by omega)
  refine ⟨rfl, ?_, ?_, rfl, rfl, ?_⟩
  · simp [DataStreamRecvr.new, hnat]
  · intro q hq
    simp only [DataStreamRecvr.new, if_true] at hq
    rw [List.eq_of_mem_replicate hq]
    rfl
  · intro is_merging
    cases is_merging
    · simp [DataStreamRecvr.new, SenderQueue.new]
    · simp [DataStreamRecvr.new, SenderQueue.new, hnat]

/-- Witness of C18: three senders. -/
theorem receiver_fan_out_witness :
    (1 : Int) ≤ 3 ∧
    (DataStreamRecvr.new one_slot_desc 3 true 100 true false)._sender_queues =
      [SenderQueue.new 1, SenderQueue.new 1, SenderQueue.new 1] ∧
    (DataStreamRecvr.new one_slot_desc 3 false 100 true false)._sender_queues =
      [SenderQueue.new 3] :=
  ⟨by decide,
    (receiver_fan_out one_slot_desc 3 100 true false (by decide)).1,
    (receiver_fan_out one_slot_desc 3 100 true false (by decide)).2.2.2.1⟩

/-! ## Frames of the operations -/

theorem SenderQueue.eq_of_senders (a b : SenderQueue)
    (h1 : a._is_cancelled = b._is_cancelled)
    (h2 : a._num_remaining_senders = b._num_remaining_senders)
    (h3 : a._sender_eos_set = b._sender_eos_set) (h4 : a._packet_seq_map = b._packet_seq_map) :
    a = { b with _chunk_meta := a._chunk_meta, _chunk_queue := a._chunk_queue,
                 _max_processed_sequences := a._max_processed_sequences,
                 _buffered_chunk_queues := a._buffered_chunk_queues } := by
  cases a
  cases b
  simp only at h1 h2 h3 h4
  subst h1 h2 h3 h4
  rfl

/-- `add_chunks_and_keep_order` changes at most the chunk meta, the ready queue,
the counters and the pending map, whatever path the call takes. -/
theorem add_chunks_and_keep_order_fields (env : Collaborators) (r : Recvr) (q : SenderQueue)
    (request : PTransmitChunkParams) (done : Option (Option Closure)) :
    (add_chunks_and_keep_order env r q request done).queue =
      { q with
        _chunk_meta := (add_chunks_and_keep_order env r q request done).queue._chunk_meta,
        _chunk_queue := (add_chunks_and_keep_order env r q request done).queue._chunk_queue,
        _max_processed_sequences :=
          (add_chunks_and_keep_order env r q request done).queue._max_processed_sequences,
        _buffered_chunk_queues :=
          (add_chunks_and_keep_order env r q request done).queue._buffered_chunk_queues } := by
  have key : (add_chunks_and_keep_order env r q request done).queue._is_cancelled =
        q._is_cancelled ∧
      (add_chunks_and_keep_order env r q request done).queue._num_remaining_senders =
        q._num_remaining_senders ∧
      (add_chunks_and_keep_order env r q request done).queue._sender_eos_set =
        q._sender_eos_set ∧
      (add_chunks_and_keep_order env r q request done).queue._packet_seq_map =
        q._packet_seq_map := by
    cases hc : q._is_cancelled with
    | true =>
      have : add_chunks_and_keep_order env r q request done =
          { status := Status.OK, recvr := r, queue := q, done := done, ran := [] } := by
        simp [add_chunks_and_keep_order, add_chunks_and_keep_order_lock1, hc]
      rw [this]
      exact ⟨hc, rfl, rfl, rfl⟩
    | false =>
      obtain ⟨q1, h1, hq1, _⟩ := add_chunks_and_keep_order_lock1_spec q request hc
      have hc1 : q1._is_cancelled = false := by rw [hq1]; exact hc
      have f1 : q1._num_remaining_senders = q._num_remaining_senders := by rw [hq1]
      have f2 : q1._sender_eos_set = q._sender_eos_set := by rw [hq1]
      have f3 : q1._packet_seq_map = q._packet_seq_map := by rw [hq1]
      by_cases hrem : q1._num_remaining_senders ≤ 0
      · have : add_chunks_and_keep_order env r q request done =
            { status := Status.OK, recvr := r, queue := q1, done := done, ran := [] } := by
          simp [add_chunks_and_keep_order, h1, add_chunks_and_keep_order_lock2, hc1, hrem]
        rw [this]
        exact ⟨hc1, f1, f2, f3⟩
      · have h2 : add_chunks_and_keep_order_lock2 r q1 request =
            build_meta_if_empty r q1 request := by
          simp [add_chunks_and_keep_order_lock2, hc1, hrem]
        obtain ⟨meta, hm | ⟨e, hm⟩⟩ := build_meta_if_empty_queue r q1 request
        · cases hd : deserialize_chunks env meta request.chunks with
          | error e =>
            have : add_chunks_and_keep_order env r q request done =
                { status := some e, recvr := r, queue := { q1 with _chunk_meta := meta },
                  done := done, ran := [] } := by
              simp [add_chunks_and_keep_order, h1, h2, hm, hd]
            rw [this]
            exact ⟨hc1, f1, f2, f3⟩
          | ok pr =>
            obtain ⟨items, total⟩ := pr
            have : add_chunks_and_keep_order env r q request done =
                add_chunks_and_keep_order_lock3 r { q1 with _chunk_meta := meta } request
                  items total done := by
              simp [add_chunks_and_keep_order, h1, h2, hm, hd]
            rw [this]
            simp only [add_chunks_and_keep_order_lock3, hc1, Bool.false_eq_true, if_false]
            exact ⟨trivial, f1, f2, f3⟩
        · have : add_chunks_and_keep_order env r q request done =
              { status := some e, recvr := r, queue := { q1 with _chunk_meta := meta },
                done := done, ran := [] } := by
            simp [add_chunks_and_keep_order, h1, h2, hm]
          rw [this]
          exact ⟨hc1, f1, f2, f3⟩
  exact SenderQueue.eq_of_senders _ _ key.1 key.2.1 key.2.2.1 key.2.2.2

/-- `add_chunks` changes at most the sequence map, the chunk meta and the ready
queue, whatever path the call takes. -/
theorem add_chunks_frame (env : Collaborators) (r : Recvr) (q : SenderQueue)
    (request : PTransmitChunkParams) (done : Option (Option Closure)) (is_pipeline : Bool) :
    (add_chunks env r q request done is_pipeline).queue =
      { q with
        _packet_seq_map := (add_chunks env r q request done is_pipeline).queue._packet_seq_map,
        _chunk_meta := (add_chunks env r q request done is_pipeline).queue._chunk_meta,
        _chunk_queue := (add_chunks env r q request done is_pipeline).queue._chunk_queue } := by
  have h1 := add_chunks_fields env r q request done is_pipeline
  have h2 := (add_chunks_lock1_fields r q request is_pipeline).1
  rw [h2] at h1
  rw [h1]

/-- Every operation but `decrement_senders` leaves the EOS set and
`remaining_senders` as they were. -/
theorem Run.step_senders (env : Collaborators) (s : Run) (op : Op)
    (h : ∀ b, op ≠ Op.decrement_senders b) :
    (Run.step env s op).queue._sender_eos_set = s.queue._sender_eos_set ∧
    (Run.step env s op).queue._num_remaining_senders = s.queue._num_remaining_senders := by
  cases op with
  | add_chunks request done is_pipeline =>
    simp only [Run.step, Run.after_add]
    rw [add_chunks_frame]
    exact ⟨rfl, rfl⟩
  | add_chunks_and_keep_order request done =>
    simp only [Run.step, Run.after_add]
    rw [add_chunks_and_keep_order_fields]
    exact ⟨rfl, rfl⟩
  | get_chunk =>
    simp only [Run.step, get_chunk]
    split
    · exact ⟨rfl, rfl⟩
    · rename_i o ho
      split at ho
      · simp at ho
      · injection ho with ho
        subst ho
        unfold _do_get_chunk
        split
        · exact ⟨rfl, rfl⟩
        · split <;> exact ⟨rfl, rfl⟩
  | get_chunk_for_pipeline =>
    simp only [Run.step, get_chunk_for_pipeline, _do_get_chunk]
    split
    · exact ⟨rfl, rfl⟩
    · split <;> exact ⟨rfl, rfl⟩
  | try_get_chunk =>
    simp only [Run.step, try_get_chunk]
    split
    · exact ⟨rfl, rfl⟩
    · split <;> exact ⟨rfl, rfl⟩
  | decrement_senders b => exact absurd rfl (h b)
  | cancel =>
    simp only [Run.step, cancel]
    split <;> exact ⟨rfl, rfl⟩
  | close => exact ⟨rfl, rfl⟩

/-- The sender-count invariant along any run: the EOS set has no repeated source
and its size plus `remaining_senders` stays what it was at the start. -/
theorem Run.steps_sender_count (env : Collaborators) :
    ∀ (ops : List Op) (s : Run) (n : Int),
      s.queue._sender_eos_set.Nodup →
      (s.queue._sender_eos_set.length : Int) + s.queue._num_remaining_senders = n →
      (Run.steps env s ops).queue._sender_eos_set.Nodup ∧
      ((Run.steps env s ops).queue._sender_eos_set.length : Int) +
        (Run.steps env s ops).queue._num_remaining_senders = n := by
  intro ops
  induction ops with
  | nil => intro s n h1 h2; exact ⟨h1, h2⟩
  | cons op rest ih =>
    intro s n h1 h2
    simp only [Run.steps, List.foldl_cons]
    apply ih
    · by_cases hd : ∃ b, op = Op.decrement_senders b
      · obtain ⟨b, hb⟩ := hd
        subst hb
        simp only [Run.step, decrement_senders]
        split
        · exact h1
        · rename_i hnot
          exact List.nodup_cons.2 ⟨hnot, h1⟩
      · rw [(Run.step_senders env s op (fun b hb => hd ⟨b, hb⟩)).1]
        exact h1
    · by_cases hd : ∃ b, op = Op.decrement_senders b
      · obtain ⟨b, hb⟩ := hd
        subst hb
        simp only [Run.step, decrement_senders]
        split
        · exact h2
        · simp only [List.length_cons]
          push_cast
          omega
      · rw [(Run.step_senders env s op (fun b hb => hd ⟨b, hb⟩)).1,
          (Run.step_senders env s op (fun b hb => hd ⟨b, hb⟩)).2]
        exact h2

/-- Claim C13 (sender-count invariant): in every state reached from a new queue
built for `num_senders` senders by any sequence of its operations, the EOS set
holds no source twice and its size plus `remaining_senders` equals
`num_senders`. -/
theorem sender_count_invariant (env : Collaborators) (total_buffer_limit : Int)
    (row_desc : List TupleDescriptor) (num_senders : Int) (ops : List Op) :
    (Run.steps env (Run.fresh total_buffer_limit row_desc num_senders) ops
      ).queue._sender_eos_set.Nodup ∧
    ((Run.steps env (Run.fresh total_buffer_limit row_desc num_senders) ops
      ).queue._sender_eos_set.length : Int) +
      (Run.steps env (Run.fresh total_buffer_limit row_desc num_senders) ops
        ).queue._num_remaining_senders = num_senders :=
  Run.steps_sender_count env ops (Run.fresh total_buffer_limit row_desc num_senders) num_senders
    List.nodup_nil (by simp [Run.fresh, SenderQueue.new])

/-! ## `last_seq` and duplicates in `add_chunks` -/

theorem set_back_closure_append (a l : ChunkQueue) (c : Option Closure) (h : l ≠ []) :
    set_back_closure (a ++ l) c = a ++ set_back_closure l c := by
  induction a with
  | nil => rfl
  | cons x a ih =>
    cases hal : a ++ l with
    | nil =>
      have : l = [] := (List.append_eq_nil.1 hal).2
      exact absurd this h
    | cons y rest =>
      rw [hal] at ih
      simp only [List.cons_append, hal, set_back_closure]
      rw [ih]

/-- The second locked region of `add_chunks` on a non-cancelled queue: the batch
goes to the tail of the ready queue, its last item holding the closure when the
call takes it; the items already in the queue are not touched. -/
theorem add_chunks_lock2_spec (r : Recvr) (q : SenderQueue) (items : ChunkQueue) (total : Int)
    (done : Option (Option Closure)) (hc : q._is_cancelled = false) :
    add_chunks_lock2 r q items total done =
      { status := Status.OK,
        recvr := { r with _num_buffered_bytes := r._num_buffered_bytes + total },
        queue := { q with _chunk_queue := q._chunk_queue ++ keep_order_batch r items done total },
        done := if takes_closure r items done total then some none else done,
        ran := [] } := by
  unfold add_chunks_lock2 keep_order_batch
  simp only [hc, Bool.false_eq_true, if_false]
  by_cases ht : takes_closure r items done total = true
  · have hne : items ≠ [] := by
      intro h
      simp [takes_closure, h] at ht
    simp only [ht, if_true]
    rw [set_back_closure_append _ _ _ hne]
  · simp only [ht, Bool.false_eq_true, if_false]

/-- The meta step does not look at the sequence map. -/
theorem build_meta_if_empty_seq_map (r : Recvr) (q : SenderQueue)
    (request : PTransmitChunkParams) (m : List (Int × Int)) (meta : RuntimeChunkMeta)
    (h : build_meta_if_empty r q request = Region.proceed { q with _chunk_meta := meta }) :
    build_meta_if_empty r { q with _packet_seq_map := m } request =
      Region.proceed { q with _packet_seq_map := m, _chunk_meta := meta } := by
  unfold build_meta_if_empty at h ⊢
  simp only at h ⊢
  split at h
  · rename_i hemp
    rw [if_pos hemp]
    rcases hb : _build_chunk_meta r._row_desc q._chunk_meta (first_chunk request) with ⟨st, meta2⟩
    rw [hb] at h
    cases st with
    | some e => simp at h
    | none =>
      simp only at h ⊢
      injection h with h
      have : meta2 = meta := by
        have := congrArg SenderQueue._chunk_meta h
        simpa using this
      rw [this]
  · rename_i hemp
    rw [if_neg hemp]
    injection h with h
    have : q._chunk_meta = meta := by
      have := congrArg SenderQueue._chunk_meta h
      simpa using this
    rw [← this]

/-- An `add_chunks` call in pipeline mode on a non-cancelled queue with senders
remaining, whose meta step proceeds and whose chunks deserialize, whatever the
sequence map holds. -/
theorem add_chunks_pipeline_accepted (env : Collaborators) (r : Recvr) (q : SenderQueue)
    (request : PTransmitChunkParams) (done : Option (Option Closure))
    (meta : RuntimeChunkMeta) (items : ChunkQueue) (total : Int)
    (hc : q._is_cancelled = false) (hrem : 0 < q._num_remaining_senders)
    (hmeta : build_meta_if_empty r q request = Region.proceed { q with _chunk_meta := meta })
    (hdes : deserialize_chunks env meta request.chunks = Except.ok (items, total)) :
    add_chunks env r q request done true =
      { status := Status.OK,
        recvr := { r with _num_buffered_bytes := r._num_buffered_bytes + total },
        queue := { q with
          _packet_seq_map := minsert q._packet_seq_map request.be_number request.sequence,
          _chunk_meta := meta,
          _chunk_queue := q._chunk_queue ++ keep_order_batch r items done total },
        done := if takes_closure r items done total then some none else done,
        ran := [] } := by
  have hdup : packet_already_exists q request.be_number request.sequence true = false := by
    unfold packet_already_exists
    split <;> simp
  have hrem' : ¬ q._num_remaining_senders ≤ 0 := by omega
  have h1 : add_chunks_lock1 r q request true = Region.proceed
      { q with _packet_seq_map := minsert q._packet_seq_map request.be_number request.sequence,
               _chunk_meta := meta } := by
    unfold add_chunks_lock1
    simp only
    rw [if_neg (by simp [hc]), if_neg (by simp [hdup]), if_neg hrem']
    exact build_meta_if_empty_seq_map r q request _ meta hmeta
  unfold add_chunks
  rw [h1]
  simp only [hdes]
  exact add_chunks_lock2_spec r
    { q with _packet_seq_map := minsert q._packet_seq_map request.be_number request.sequence,
             _chunk_meta := meta } items total done hc

/-- Counterexample to C19 as stated: in pipeline mode source `7` sends sequence `5`
and then sequence `3`; `last_seq[7]` is `5` after the first call and `3` after
the second. -/
theorem last_seq_decreases_in_pipeline_mode :
    mfind (Run.steps plain_env (Run.fresh 100 one_slot_desc 1)
      (pipeline_lower_sequence_ops.take 1)).queue._packet_seq_map 7 = some 5 ∧
    mfind (Run.steps plain_env (Run.fresh 100 one_slot_desc 1)
      pipeline_lower_sequence_ops).queue._packet_seq_map 7 = some 3 := by
  decide

/-- Claim C19 as amended (`last_seq` across one `add_chunks` call): for a source
whose `last_seq` is `v` before the call, in non-pipeline mode the value after the
call is defined and at least `v`; in pipeline mode the value after the call is
the request's sequence when the queue is not cancelled and the source is the
request's `be_number` (it may be below `v`), and `v` otherwise. -/
theorem last_seq_after_add_chunks (env : Collaborators) (r : Recvr) (q : SenderQueue)
    (request : PTransmitChunkParams) (done : Option (Option Closure)) (is_pipeline : Bool)
    (src v : Int) (h : mfind q._packet_seq_map src = some v) :
    (is_pipeline = false →
      ∃ v2, mfind (add_chunks env r q request done is_pipeline).queue._packet_seq_map src
          = some v2 ∧ v ≤ v2) ∧
    (is_pipeline = true →
      mfind (add_chunks env r q request done is_pipeline).queue._packet_seq_map src =
        some (if q._is_cancelled = false ∧ src = request.be_number then request.sequence
              else v)) := by
  have hfields := add_chunks_fields env r q request done is_pipeline
  have hseqmap : (add_chunks env r q request done is_pipeline).queue._packet_seq_map =
      (add_chunks_lock1 r q request is_pipeline).queue._packet_seq_map := by
    rw [hfields]
  by_cases hdrop : q._is_cancelled = true ∨
      packet_already_exists q request.be_number request.sequence is_pipeline = true
  · rw [add_chunks_dropped env r q request done is_pipeline hdrop]
    constructor
    · intro _
      exact ⟨v, h, le_refl _⟩
    · intro hp
      subst hp
      have hcanc : q._is_cancelled = true := by
        rcases hdrop with h1 | h1
        · exact h1
        · unfold packet_already_exists at h1
          split at h1 <;> simp at h1
      simp [hcanc, h]
  · have hc : q._is_cancelled = false := by
      cases hx : q._is_cancelled
      · rfl
      · exact absurd (Or.inl hx) hdrop
    have hp : packet_already_exists q request.be_number request.sequence is_pipeline = false := by
      cases hx : packet_already_exists q request.be_number request.sequence is_pipeline
      · rfl
      · exact absurd (Or.inr hx) hdrop
    rw [hseqmap, (add_chunks_lock1_fields r q request is_pipeline).2 hc hp]
    by_cases hsrc : src = request.be_number
    · subst hsrc
      rw [mfind_minsert_same]
      constructor
      · intro hnp
        subst hnp
        refine ⟨request.sequence, rfl, ?_⟩
        simp only [packet_already_exists, h, Bool.not_false, Bool.and_true,
          decide_eq_false_iff_not] at hp
        omega
      · intro _
        simp [hc]
    · rw [mfind_minsert_other _ _ _ _ (Ne.symm hsrc), h]
      constructor
      · intro _
        exact ⟨v, rfl, le_refl _⟩
      · intro _
        simp [hsrc]

/-- Witness of C19 as amended: `last_seq[7] = 5`, and source `7` sends sequence
`9` in non-pipeline mode. -/
theorem last_seq_after_add_chunks_witness :
    mfind ({ SenderQueue.new 1 with _packet_seq_map := [(7, 5)] } : SenderQueue)._packet_seq_map 7
      = some 5 ∧
    mfind (add_chunks plain_env
        { _total_buffer_limit := 100, _num_buffered_bytes := 0, _row_desc := one_slot_desc }
        { SenderQueue.new 1 with _packet_seq_map := [(7, 5)] }
        (mk_request 7 9 [plain_chunk [1]]) none false).queue._packet_seq_map 7 = some 9 := by
  refine ⟨by decide, ?_⟩
  obtain ⟨v2, h1, _⟩ := (last_seq_after_add_chunks plain_env
    { _total_buffer_limit := 100, _num_buffered_bytes := 0, _row_desc := one_slot_desc }
    { SenderQueue.new 1 with _packet_seq_map := [(7, 5)] }
    (mk_request 7 9 [plain_chunk [1]]) none false 7 5 (by decide)).1 rfl
  decide

theorem build_meta_if_empty_built (r : Recvr) (q : SenderQueue) (request : PTransmitChunkParams)
    (h : q._chunk_meta.types ≠ []) :
    build_meta_if_empty r q request = Region.proceed { q with _chunk_meta := q._chunk_meta } := by
  unfold build_meta_if_empty
  have : q._chunk_meta.types.isEmpty = false := by
    cases hx : q._chunk_meta.types with
    | nil => exact absurd hx h
    | cons a b => rfl
  simp [this]

theorem set_back_closure_map_bytes (l : ChunkQueue) (c : Option Closure) :
    (set_back_closure l c).map (fun i => i.chunk_bytes) = l.map (fun i => i.chunk_bytes) := by
  induction l with
  | nil => rfl
  | cons x l ih =>
    cases l with
    | nil => rfl
    | cons y l => simp only [set_back_closure, List.map_cons] at ih ⊢; rw [ih]

theorem keep_order_batch_map_bytes (r : Recvr) (items : ChunkQueue)
    (done : Option (Option Closure)) (total : Int) :
    (keep_order_batch r items done total).map (fun i => i.chunk_bytes) =
      items.map (fun i => i.chunk_bytes) := by
  unfold keep_order_batch
  split
  · exact set_back_closure_map_bytes _ _
  · rfl

/-- Claim C20 (pipeline mode accepts duplicates): on a non-cancelled queue with
senders remaining, an `add_chunks` call with `is_pipeline = true` whose meta step
proceeds and whose chunks all deserialize returns OK, appends one item per chunk
of the request to the tail of the ready queue (the chunks of the request, in
order, with their data sizes as `chunk_bytes`) and adds the sum of these sizes
to the buffered bytes, whatever `last_seq[be_number]` is, hence also when the
request's sequence is not above it.  The call leaves `last_seq[be_number]` equal
to the request's sequence, and the same request delivered again right away is
appended a second time and counted a second time. -/
theorem pipeline_accepts_duplicates (env : Collaborators) (r : Recvr) (q : SenderQueue)
    (request : PTransmitChunkParams) (done : Option (Option Closure))
    (meta : RuntimeChunkMeta) (items : ChunkQueue) (total : Int)
    (hc : q._is_cancelled = false) (hrem : 0 < q._num_remaining_senders)
    (hmeta : build_meta_if_empty r q request = Region.proceed { q with _chunk_meta := meta })
    (hdes : deserialize_chunks env meta request.chunks = Except.ok (items, total)) :
    total = (request.chunks.map (fun p => (p.data.length : Int))).sum ∧
    (add_chunks env r q request done true).status = Status.OK ∧
    (∃ batch : ChunkQueue,
      (add_chunks env r q request done true).queue._chunk_queue = q._chunk_queue ++ batch ∧
      batch.map (fun i => i.chunk_ptr) = request_chunks env meta request ∧
      batch.map (fun i => i.chunk_bytes) = request.chunks.map (fun p => (p.data.length : Int))) ∧
    (add_chunks env r q request done true).recvr._num_buffered_bytes =
      r._num_buffered_bytes + total ∧
    mfind (add_chunks env r q request done true).queue._packet_seq_map request.be_number =
      some request.sequence ∧
    ∀ done2 : Option (Option Closure),
      (add_chunks env (add_chunks env r q request done true).recvr
        (add_chunks env r q request done true).queue request done2 true).status = Status.OK ∧
      (∃ batch1 batch2 : ChunkQueue,
        (add_chunks env (add_chunks env r q request done true).recvr
          (add_chunks env r q request done true).queue request done2 true).queue._chunk_queue =
          q._chunk_queue ++ batch1 ++ batch2 ∧
        batch1.map (fun i => i.chunk_ptr) = request_chunks env meta request ∧
        batch2.map (fun i => i.chunk_ptr) = request_chunks env meta request) ∧
      (add_chunks env (add_chunks env r q request done true).recvr
        (add_chunks env r q request done true).queue request done2 true).recvr._num_buffered_bytes =
        r._num_buffered_bytes + total + total := by
  obtain ⟨_, hbytes, _, htot, _⟩ := deserialize_chunks_spec env meta _ _ _ hdes
  have hchunks := deserialize_chunks_request_chunks env meta request items total hdes
  have h1 := add_chunks_pipeline_accepted env r q request done meta items total hc hrem hmeta hdes
  have hty : meta.types ≠ [] := (build_meta_if_empty_proceed r q _ request hmeta).2.1
  rw [h1]
  refine ⟨htot, rfl, ⟨_, rfl, ?_, ?_⟩, rfl, mfind_minsert_same _ _ _, ?_⟩
  · rw [keep_order_batch_map_chunk, hchunks]
  · rw [keep_order_batch_map_bytes, hbytes]
  · intro done2
    have h2 := add_chunks_pipeline_accepted env
      { r with _num_buffered_bytes := r._num_buffered_bytes + total }
      { q with
        _packet_seq_map := minsert q._packet_seq_map request.be_number request.sequence,
        _chunk_meta := meta,
        _chunk_queue := q._chunk_queue ++ keep_order_batch r items done total }
      request done2 meta items total hc hrem
      (build_meta_if_empty_built _ _ request hty) hdes
    rw [h2]
    refine ⟨rfl, ⟨_, _, rfl, ?_, ?_⟩, rfl⟩
    · rw [keep_order_batch_map_chunk, hchunks]
    · rw [keep_order_batch_map_chunk, hchunks]

/-- Witness of C20: `last_seq[7] = 5` on a queue whose meta is built, and source
`7` sends sequence `5` again in pipeline mode. -/
theorem pipeline_accepts_duplicates_witness :
    (add_chunks plain_env
        { _total_buffer_limit := 100, _num_buffered_bytes := 2, _row_desc := one_slot_desc }
        { SenderQueue.new 1 with
          _packet_seq_map := [(7, 5)],
          _chunk_queue := [{ chunk_bytes := 2, chunk_ptr := ⟨[8, 9]⟩, closure := none }],
          _chunk_meta := { slot_id_to_index := [(1, 0)], tuple_id_to_index := [],
                           is_nulls := [false], is_consts := [false],
                           types := [{ type := PrimitiveType.other 5 }] } }
        (mk_request 7 5 [plain_chunk [8, 9]]) none true).recvr._num_buffered_bytes = 2 + 2 := by
  have h := pipeline_accepts_duplicates plain_env
    { _total_buffer_limit := 100, _num_buffered_bytes := 2, _row_desc := one_slot_desc }
    { SenderQueue.new 1 with
      _packet_seq_map := [(7, 5)],
      _chunk_queue := [{ chunk_bytes := 2, chunk_ptr := ⟨[8, 9]⟩, closure := none }],
      _chunk_meta := { slot_id_to_index := [(1, 0)], tuple_id_to_index := [],
                       is_nulls := [false], is_consts := [false],
                       types := [{ type := PrimitiveType.other 5 }] } }
    (mk_request 7 5 [plain_chunk [8, 9]]) none
    { slot_id_to_index := [(1, 0)], tuple_id_to_index := [],
      is_nulls := [false], is_consts := [false], types := [{ type := PrimitiveType.other 5 }] }
    [{ chunk_bytes := 2, chunk_ptr := ⟨[8, 9]⟩, closure := none }] 2
    rfl (by decide) rfl rfl
  exact h.2.2.2.1

/-! ## Unordered mode: FIFO delivery and release of held closures -/

/-- A pull on a non-cancelled queue with an empty ready queue returns no chunk,
runs nothing and leaves the run as it is. -/
theorem pull_step_empty (env : Collaborators) (s : Run) (op : Op)
    (hc : s.queue._is_cancelled = false) (hp : op.is_pull = true)
    (hq : s.queue._chunk_queue = []) :
    Run.step env s op = s ∧ pulled_chunk s op = none := by
  cases op <;> simp [Op.is_pull] at hp
  · by_cases hw : get_chunk_waits s.queue = true
    · simp [Run.step, pulled_chunk, get_chunk, hw]
    · simp [Run.step, pulled_chunk, get_chunk, hw, _do_get_chunk, hc, hq, Status.OK]
  · simp [Run.step, pulled_chunk, get_chunk_for_pipeline, _do_get_chunk, hc, hq]
  · simp [Run.step, pulled_chunk, try_get_chunk, hc, hq]

/-- A pull on a non-cancelled queue with a non-empty ready queue returns the
chunk of the front item, pops it, subtracts its bytes and runs its closure if it
holds one. -/
theorem pull_step_front (env : Collaborators) (s : Run) (op : Op) (front : ChunkItem)
    (rest : ChunkQueue)
    (hc : s.queue._is_cancelled = false) (hp : op.is_pull = true)
    (hq : s.queue._chunk_queue = front :: rest) :
    Run.step env s op =
      { s with
        recvr := { s.recvr with
          _num_buffered_bytes := s.recvr._num_buffered_bytes - front.chunk_bytes },
        queue := { s.queue with _chunk_queue := rest },
        ran := s.ran ++ front.closure.toList } ∧
    pulled_chunk s op = some front.chunk_ptr := by
  have hrun : run_closure front.closure = front.closure.toList := by
    cases front.closure <;> rfl
  cases op <;> simp [Op.is_pull] at hp
  · simp [Run.step, pulled_chunk, get_chunk, get_chunk_waits, _do_get_chunk, hc, hq, hrun]
  · simp [Run.step, pulled_chunk, get_chunk_for_pipeline, _do_get_chunk, hc, hq, hrun]
  · simp [Run.step, pulled_chunk, try_get_chunk, hc, hq, hrun]

/-- An `add_chunks` operation on a non-cancelled queue appends a batch to the tail
of the ready queue (empty unless the request is accepted) whose chunks are the
chunk list of the request; it runs no closure and leaves the queue
non-cancelled. -/
theorem add_step_appends (env : Collaborators) (s : Run) (request : PTransmitChunkParams)
    (done : Option (Option Closure)) (is_pipeline : Bool)
    (hc : s.queue._is_cancelled = false) :
    ∃ batch : ChunkQueue,
      (Run.step env s (Op.add_chunks request done is_pipeline)).queue._chunk_queue =
        s.queue._chunk_queue ++ batch ∧
      batch.map (fun i => i.chunk_ptr) =
        accepted_chunks env s (Op.add_chunks request done is_pipeline) ∧
      (Run.step env s (Op.add_chunks request done is_pipeline)).ran = s.ran ∧
      (Run.step env s (Op.add_chunks request done is_pipeline)).queue._is_cancelled = false := by
  have hfr := add_chunks_frame env s.recvr s.queue request done is_pipeline
  have hcanc : (add_chunks env s.recvr s.queue request done is_pipeline).queue._is_cancelled
      = false := by rw [hfr]; exact hc
  cases h1 : add_chunks_lock1 s.recvr s.queue request is_pipeline with
  | returned st q1 =>
    refine ⟨[], ?_, ?_, ?_, hcanc⟩
    · have := (add_chunks_lock1_fields s.recvr s.queue request is_pipeline).1
      rw [h1] at this
      simp only [Region.queue] at this
      simp only [Run.step, Run.after_add, add_chunks, h1, List.append_nil]
      rw [this]
    · simp [accepted_chunks, h1]
    · simp [Run.step, Run.after_add, add_chunks, h1]
  | proceed q1 =>
    obtain ⟨_, _, _, hq1⟩ := add_chunks_lock1_proceed s.recvr s.queue q1 request is_pipeline h1
    have hcq : q1._chunk_queue = s.queue._chunk_queue := by rw [hq1]
    have hc1 : q1._is_cancelled = false := by rw [hq1]; exact hc
    cases hd : deserialize_chunks env q1._chunk_meta request.chunks with
    | error e =>
      refine ⟨[], ?_, ?_, ?_, hcanc⟩
      · simp [Run.step, Run.after_add, add_chunks, h1, hd, hcq]
      · simp [accepted_chunks, h1, hd]
      · simp [Run.step, Run.after_add, add_chunks, h1, hd]
    | ok pr =>
      obtain ⟨items, total⟩ := pr
      have hadd : add_chunks env s.recvr s.queue request done is_pipeline =
          add_chunks_lock2 s.recvr q1 items total done := by
        simp [add_chunks, h1, hd]
      rw [add_chunks_lock2_spec _ _ _ _ _ hc1] at hadd
      refine ⟨keep_order_batch s.recvr items done total, ?_, ?_, ?_, hcanc⟩
      · simp [Run.step, Run.after_add, hadd, hcq]
      · rw [keep_order_batch_map_chunk,
          deserialize_chunks_request_chunks env _ _ _ _ hd]
        simp [accepted_chunks, h1, hd]
      · simp [Run.step, Run.after_add, hadd]

/-- Conservation of chunks along a run of unordered operations on a non-cancelled
queue: what the pulls returned, followed by what is still ready, is what was
ready at the start followed by the chunk lists of the accepted requests. -/
theorem Run.pulled_append_ready (env : Collaborators) :
    ∀ (ops : List Op) (s : Run), s.queue._is_cancelled = false →
      (∀ op ∈ ops, op.is_unordered = true) →
      (Run.steps env s ops).queue._is_cancelled = false ∧
      Run.pulled env s ops ++ (Run.steps env s ops).ready_chunks =
        s.ready_chunks ++ Run.accepted env s ops := by
  intro ops
  induction ops with
  | nil => intro s hc _; simp [Run.steps, Run.pulled, Run.accepted, hc]
  | cons op rest ih =>
    intro s hc hops
    have hop := hops op (List.mem_cons_self _ _)
    have hrest : ∀ o ∈ rest, o.is_unordered = true :=
      fun o ho => hops o (List.mem_cons_of_mem _ ho)
    have key : (Run.step env s op).queue._is_cancelled = false ∧
        (pulled_chunk s op).toList ++ (Run.step env s op).ready_chunks =
          s.ready_chunks ++ accepted_chunks env s op := by
      by_cases hp : op.is_pull = true
      · have hacc : accepted_chunks env s op = [] := by
          cases op <;> simp [Op.is_pull] at hp <;> rfl
        cases hq : s.queue._chunk_queue with
        | nil =>
          obtain ⟨h1, h2⟩ := pull_step_empty env s op hc hp hq
          rw [h1, h2, hacc]
          exact ⟨hc, by simp⟩
        | cons front tail =>
          obtain ⟨h1, h2⟩ := pull_step_front env s op front tail hc hp hq
          rw [h1, h2, hacc]
          exact ⟨hc, by simp [Run.ready_chunks, hq]⟩
      · cases op with
        | add_chunks request done is_pipeline =>
          obtain ⟨batch, h1, h2, _, h4⟩ := add_step_appends env s request done is_pipeline hc
          refine ⟨h4, ?_⟩
          simp only [pulled_chunk, Option.toList, List.nil_append, Run.ready_chunks]
          rw [h1, List.map_append, h2]
        | decrement_senders b =>
          exact ⟨by simpa [Run.step, decrement_senders] using (by split <;> exact hc),
            by simp [Run.step, pulled_chunk, accepted_chunks, Run.ready_chunks, decrement_senders]
               split <;> rfl⟩
        | add_chunks_and_keep_order _ _ => simp [Op.is_unordered] at hop
        | get_chunk => simp [Op.is_pull] at hp
        | get_chunk_for_pipeline => simp [Op.is_pull] at hp
        | try_get_chunk => simp [Op.is_pull] at hp
        | cancel => simp [Op.is_unordered] at hop
        | close => simp [Op.is_unordered] at hop
    obtain ⟨k1, k2⟩ := key
    obtain ⟨i1, i2⟩ := ih (Run.step env s op) k1 hrest
    refine ⟨by simpa [Run.steps] using i1, ?_⟩
    simp only [Run.pulled, Run.accepted, Run.steps, List.foldl_cons, List.append_assoc]
    have i2' : Run.pulled env (Run.step env s op) rest ++
        (List.foldl (Run.step env) (Run.step env s op) rest).ready_chunks =
        (Run.step env s op).ready_chunks ++ Run.accepted env (Run.step env s op) rest := i2
    rw [i2', ← List.append_assoc, k2, List.append_assoc]

theorem held_closures_cons (item : ChunkItem) (rest : ChunkQueue) :
    held_closures (item :: rest) = item.closure.toList ++ held_closures rest := by
  cases h : item.closure <;> simp [held_closures, h]

/-- Pulling as many times as there are items in a prefix of the ready queue pops
exactly that prefix, whatever `add_chunks` and `decrement_senders` operations are
interleaved: the rest of the queue comes to the front, followed by what was
added, and the closures run are those of the prefix, in order. -/
theorem Run.steps_pop_prefix (env : Collaborators) :
    ∀ (ops : List Op) (s : Run) (pre rest : ChunkQueue),
      s.queue._is_cancelled = false → s.queue._chunk_queue = pre ++ rest →
      (∀ op ∈ ops, op.is_unordered = true) → ops.countP Op.is_pull = pre.length →
      (Run.steps env s ops).queue._is_cancelled = false ∧
      (∃ tail, (Run.steps env s ops).queue._chunk_queue = rest ++ tail) ∧
      (Run.steps env s ops).ran = s.ran ++ held_closures pre := by
  intro ops
  induction ops with
  | nil =>
    intro s pre rest hc hq _ hk
    have : pre = [] := List.length_eq_zero.1 (by simpa using hk.symm)
    subst this
    exact ⟨hc, ⟨[], by simpa [Run.steps] using hq⟩, by simp [Run.steps, held_closures]⟩
  | cons op ops ih =>
    intro s pre rest hc hq hops hk
    have hop := hops op (List.mem_cons_self _ _)
    have hrest : ∀ o ∈ ops, o.is_unordered = true :=
      fun o ho => hops o (List.mem_cons_of_mem _ ho)
    simp only [Run.steps, List.foldl_cons]
    by_cases hp : op.is_pull = true
    · rw [List.countP_cons_of_pos _ _ hp] at hk
      cases pre with
      | nil => simp at hk
      | cons front pre =>
        obtain ⟨h1, _⟩ := pull_step_front env s op front (pre ++ rest) hc hp (by simpa using hq)
        rw [h1]
        obtain ⟨a, b, c⟩ := ih
          { s with
            recvr := { s.recvr with
              _num_buffered_bytes := s.recvr._num_buffered_bytes - front.chunk_bytes },
            queue := { s.queue with _chunk_queue := pre ++ rest },
            ran := s.ran ++ front.closure.toList }
          pre rest hc rfl hrest (by simpa using hk)
        refine ⟨a, b, ?_⟩
        rw [Run.steps] at c
        rw [c, held_closures_cons, List.append_assoc]
    · rw [List.countP_cons_of_neg _ _ hp] at hk
      cases op with
      | add_chunks request done is_pipeline =>
        obtain ⟨batch, h1, _, h3, h4⟩ := add_step_appends env s request done is_pipeline hc
        obtain ⟨a, ⟨tail, b⟩, c⟩ := ih (Run.step env s (Op.add_chunks request done is_pipeline))
          pre (rest ++ batch) h4 (by rw [h1, hq, List.append_assoc]) hrest hk
        rw [Run.steps] at a b c
        exact ⟨a, ⟨batch ++ tail, by rw [b, List.append_assoc]⟩, by rw [c, h3]⟩
      | decrement_senders b =>
        have hst : (Run.step env s (Op.decrement_senders b)).queue._chunk_queue =
            s.queue._chunk_queue ∧
            (Run.step env s (Op.decrement_senders b)).queue._is_cancelled =
              s.queue._is_cancelled ∧
            (Run.step env s (Op.decrement_senders b)).ran = s.ran := by
          simp only [Run.step, decrement_senders]
          split <;> simp
        obtain ⟨a, b2, c⟩ := ih (Run.step env s (Op.decrement_senders b)) pre rest
          (by rw [hst.2.1]; exact hc) (by rw [hst.1]; exact hq) hrest hk
        rw [Run.steps] at a b2 c
        exact ⟨a, b2, by rw [c, hst.2.2]⟩
      | add_chunks_and_keep_order _ _ => simp [Op.is_unordered] at hop
      | get_chunk => simp [Op.is_pull] at hp
      | get_chunk_for_pipeline => simp [Op.is_pull] at hp
      | try_get_chunk => simp [Op.is_pull] at hp
      | cancel => simp [Op.is_unordered] at hop
      | close => simp [Op.is_unordered] at hop

/-- Claim C14 (ack release after finitely many pulls): in unordered mode, let a
non-cancelled queue hold `item`, with the closure `c`, at position `k` of the
ready queue (`pre`, of length `k`, ahead of it).  After any operations of
unordered mode containing exactly `k` pulls (of any of the three kinds, with
`add_chunks` and `decrement_senders` interleaved at will) the queue is still
open, `item` is at the front, and the closures run so far are exactly those held
by the `k` items of `pre`: `c` has not been run for `item`.  The next pull,
whatever its kind, returns the chunk of `item` and runs `c`, and nothing else.
Hence any such run with as many pulls as the ready queue has items runs the
closure of every item that holds one. -/
theorem ack_released_by_pull (env : Collaborators) (s : Run) (pre : ChunkQueue)
    (item : ChunkItem) (post : ChunkQueue) (c : Closure) (ops : List Op)
    (hc : s.queue._is_cancelled = false) (hq : s.queue._chunk_queue = pre ++ item :: post)
    (hclo : item.closure = some c)
    (hops : ∀ op ∈ ops, op.is_unordered = true) (hk : ops.countP Op.is_pull = pre.length) :
    (Run.steps env s ops).queue._is_cancelled = false ∧
    (∃ tail, (Run.steps env s ops).queue._chunk_queue = item :: (post ++ tail)) ∧
    (Run.steps env s ops).ran = s.ran ++ held_closures pre ∧
    (∀ pull : Op, pull.is_pull = true →
      pulled_chunk (Run.steps env s ops) pull = some item.chunk_ptr ∧
      (Run.step env (Run.steps env s ops) pull).ran = s.ran ++ held_closures pre ++ [c]) ∧
    (∀ ops2 : List Op, (∀ op ∈ ops2, op.is_unordered = true) →
      ops2.countP Op.is_pull = s.queue._chunk_queue.length →
      (Run.steps env s ops2).ran = s.ran ++ held_closures s.queue._chunk_queue) := by
  obtain ⟨h1, ⟨tail, h2⟩, h3⟩ := Run.steps_pop_prefix env ops s pre (item :: post) hc hq hops hk
  refine ⟨h1, ⟨tail, by simpa using h2⟩, h3, ?_, ?_⟩
  · intro pull hp
    obtain ⟨a, b⟩ := pull_step_front env (Run.steps env s ops) pull item (post ++ tail) h1 hp
      (by simpa using h2)
    refine ⟨b, ?_⟩
    rw [a]
    simp [h3, hclo]
  · intro ops2 hops2 hk2
    exact (Run.steps_pop_prefix env ops2 s s.queue._chunk_queue [] hc (by simp) hops2 hk2).2.2

/-- Witness of C14: the closure `4` is held at position 1; one pull leaves it
unrun, the second pull runs it. -/
theorem ack_released_by_pull_witness :
    (Run.step plain_env (Run.steps plain_env
        { recvr := { _total_buffer_limit := 0, _num_buffered_bytes := 2, _row_desc := [] },
          queue := { SenderQueue.new 1 with _chunk_queue :=
            [{ chunk_bytes := 1, chunk_ptr := ⟨[8]⟩, closure := none },
             { chunk_bytes := 1, chunk_ptr := ⟨[9]⟩, closure := some 4 }] },
          taken := [4], ran := [] }
        [Op.get_chunk]) Op.try_get_chunk).ran = [] ++ held_closures
          [{ chunk_bytes := 1, chunk_ptr := ⟨[8]⟩, closure := none }] ++ [4] :=
  ((ack_released_by_pull plain_env
    { recvr := { _total_buffer_limit := 0, _num_buffered_bytes := 2, _row_desc := [] },
      queue := { SenderQueue.new 1 with _chunk_queue :=
        [{ chunk_bytes := 1, chunk_ptr := ⟨[8]⟩, closure := none },
         { chunk_bytes := 1, chunk_ptr := ⟨[9]⟩, closure := some 4 }] },
      taken := [4], ran := [] }
    [{ chunk_bytes := 1, chunk_ptr := ⟨[8]⟩, closure := none }]
    { chunk_bytes := 1, chunk_ptr := ⟨[9]⟩, closure := some 4 } [] 4 [Op.get_chunk]
    rfl rfl rfl (by decide) (by decide)).2.2.2.1 Op.try_get_chunk rfl).2

/-! ## Backpressure -/

/-- The two outcomes of `add_chunks` on a non-cancelled queue: nothing is
enqueued and the byte counter is as before, or the request is accepted and its
batch is appended and counted. -/
theorem add_chunks_outcome (env : Collaborators) (r : Recvr) (q : SenderQueue)
    (request : PTransmitChunkParams) (done : Option (Option Closure)) (is_pipeline : Bool)
    (hc : q._is_cancelled = false) :
    ((add_chunks env r q request done is_pipeline).recvr = r ∧
      (add_chunks env r q request done is_pipeline).queue._chunk_queue = q._chunk_queue) ∨
    (∃ (meta : RuntimeChunkMeta) (items : ChunkQueue) (total : Int),
      deserialize_chunks env meta request.chunks = Except.ok (items, total) ∧
      (add_chunks env r q request done is_pipeline).recvr =
        { r with _num_buffered_bytes := r._num_buffered_bytes + total } ∧
      (add_chunks env r q request done is_pipeline).queue._chunk_queue =
        q._chunk_queue ++ keep_order_batch r items done total) := by
  cases h1 : add_chunks_lock1 r q request is_pipeline with
  | returned st q1 =>
    left
    have := (add_chunks_lock1_fields r q request is_pipeline).1
    rw [h1] at this
    simp only [Region.queue] at this
    simp only [add_chunks, h1]
    exact ⟨trivial, by rw [this]⟩
  | proceed q1 =>
    obtain ⟨_, _, _, hq1⟩ := add_chunks_lock1_proceed r q q1 request is_pipeline h1
    have hcq : q1._chunk_queue = q._chunk_queue := by rw [hq1]
    have hc1 : q1._is_cancelled = false := by rw [hq1]; exact hc
    cases hd : deserialize_chunks env q1._chunk_meta request.chunks with
    | error e =>
      left
      simp [add_chunks, h1, hd, hcq]
    | ok pr =>
      obtain ⟨items, total⟩ := pr
      right
      have hadd : add_chunks env r q request done is_pipeline =
          add_chunks_lock2 r q1 items total done := by
        simp [add_chunks, h1, hd]
      rw [add_chunks_lock2_spec _ _ _ _ _ hc1] at hadd
      exact ⟨q1._chunk_meta, items, total, hd, by rw [hadd], by rw [hadd, ← hcq]⟩

theorem held_bytes_append (a b : ChunkQueue) :
    held_bytes (a ++ b) = held_bytes a + held_bytes b := by
  induction a with
  | nil => simp [held_bytes]
  | cons x a ih =>
    show (if x.closure.isSome then x.chunk_bytes else 0) + held_bytes (a ++ b) = _
    rw [ih]
    simp only [held_bytes]
    ring

theorem held_bytes_le (cb : Nat) (l : ChunkQueue)
    (h : ∀ i ∈ l, 0 ≤ i.chunk_bytes ∧ (i.closure.isSome = true → i.chunk_bytes ≤ (cb : Int))) :
    0 ≤ held_bytes l ∧ held_bytes l ≤ ((held_closures l).length : Int) * (cb : Int) := by
  induction l with
  | nil => simp [held_bytes, held_closures]
  | cons x l ih =>
    obtain ⟨i1, i2⟩ := ih (fun i hi => h i (List.mem_cons_of_mem _ hi))
    obtain ⟨x1, x2⟩ := h x (List.mem_cons_self _ _)
    rw [held_closures_cons]
    cases hx : x.closure with
    | none =>
      simp only [held_bytes, hx, Option.isSome_none, Bool.false_eq_true, if_false, zero_add,
        Option.toList, List.nil_append]
      exact ⟨i1, i2⟩
    | some c =>
      have := x2 (by simp [hx])
      simp only [held_bytes, hx, Option.isSome_some, if_true, Option.toList,
        List.singleton_append, List.length_cons]
      push_cast
      constructor
      · omega
      · nlinarith

theorem nodup_bounded_length (l : List Nat) (n : Nat) (h1 : l.Nodup) (h2 : ∀ c ∈ l, c < n) :
    l.length ≤ n := by
  have hsub : l ⊆ List.range n := fun c hc => List.mem_range.2 (h2 c hc)
  have := (List.Nodup.subperm h1 hsub).length_le
  simpa using this

theorem Backpressured.step (env : Collaborators) (limit : Int) (n cb : Nat) (s : Run) (op : Op)
    (hinv : Backpressured limit n cb s) (hop : sender_waits_for_ack n cb s op = true) :
    Backpressured limit n cb (Run.step env s op) := by
  obtain ⟨hc, hl, hb, hnd, hlt, hit⟩ := hinv
  by_cases hp : op.is_pull = true
  · cases hq : s.queue._chunk_queue with
    | nil =>
      rw [(pull_step_empty env s op hc hp hq).1]
      exact ⟨hc, hl, hb, hnd, hlt, hit⟩
    | cons front rest =>
      rw [(pull_step_front env s op front rest hc hp hq).1]
      rw [hq] at hb hnd hlt hit
      rw [held_closures_cons] at hnd hlt
      obtain ⟨f1, f2⟩ := hit front (List.mem_cons_self _ _)
      refine ⟨hc, hl, ?_, (List.nodup_append.1 hnd).2.1, fun c hcm => hlt c (List.mem_append_right _ hcm),
        fun i hi => hit i (List.mem_cons_of_mem _ hi)⟩
      show s.recvr._num_buffered_bytes - front.chunk_bytes ≤ limit + held_bytes rest
      simp only [held_bytes] at hb
      split at hb <;> omega
  · cases op with
    | add_chunks request done is_pipeline =>
      cases done with
      | none => simp [sender_waits_for_ack] at hop
      | some d =>
        cases d with
        | none => simp [sender_waits_for_ack] at hop
        | some c =>
          simp only [sender_waits_for_ack, Bool.and_eq_true, decide_eq_true_eq,
            Bool.not_eq_true', List.contains_eq_any_beq] at hop
          obtain ⟨⟨hcn, hnot⟩, hchunk⟩ := hop
          have hcnot : c ∉ held_closures s.queue._chunk_queue := by
            intro hmem
            have : (held_closures s.queue._chunk_queue).any (fun x => c == x) = true :=
              List.any_eq_true.2 ⟨c, hmem, by simp⟩
            rw [this] at hnot
            exact absurd hnot (by simp)
          have hfr := add_chunks_frame env s.recvr s.queue request (some (some c)) is_pipeline
          have hcanc : (Run.step env s (Op.add_chunks request (some (some c)) is_pipeline)
              ).queue._is_cancelled = false := by
            show (add_chunks env s.recvr s.queue request (some (some c)) is_pipeline
              ).queue._is_cancelled = false
            rw [hfr]; exact hc
          have hstep_q : (Run.step env s (Op.add_chunks request (some (some c)) is_pipeline)).queue
              = (add_chunks env s.recvr s.queue request (some (some c)) is_pipeline).queue := rfl
          have hstep_r : (Run.step env s (Op.add_chunks request (some (some c)) is_pipeline)).recvr
              = (add_chunks env s.recvr s.queue request (some (some c)) is_pipeline).recvr := rfl
          rcases add_chunks_outcome env s.recvr s.queue request (some (some c)) is_pipeline hc
            with ⟨h1, h2⟩ | ⟨meta, items, total, hd, h1, h2⟩
          · refine ⟨hcanc, ?_, ?_, ?_, ?_, ?_⟩
            · rw [hstep_r, h1]; exact hl
            · rw [hstep_r, hstep_q, h1, h2]; exact hb
            · rw [hstep_q, h2]; exact hnd
            · rw [hstep_q, h2]; exact hlt
            · rw [hstep_q, h2]; exact hit
          · -- one chunk, so one item without closure
            cases hch : request.chunks with
            | nil => rw [hch] at hchunk; simp at hchunk
            | cons pchunk more =>
              cases more with
              | cons p2 m2 => rw [hch] at hchunk; simp at hchunk
              | nil =>
                rw [hch] at hchunk hd
                simp only [decide_eq_true_eq] at hchunk
                obtain ⟨hlen, hbytes, hclo, htot, _⟩ := deserialize_chunks_spec env meta _ _ _ hd
                cases items with
                | nil => simp at hlen
                | cons item more =>
                  cases more with
                  | cons i2 m2 => simp at hlen
                  | nil =>
                    have hib : item.chunk_bytes = (pchunk.data.length : Int) := by
                      simpa using hbytes
                    have hic : item.closure = none := hclo item (List.mem_cons_self _ _)
                    have htotal : total = (pchunk.data.length : Int) := by simpa using htot
                    have hexc : takes_closure s.recvr [item] (some (some c)) total =
                        decide (s.recvr._num_buffered_bytes + total > limit) := by
                      simp [takes_closure, Recvr.exceeds_limit, hl]
                    have hfb := held_bytes_le cb s.queue._chunk_queue hit
                    by_cases hover : s.recvr._num_buffered_bytes + total > limit
                    · have hbatch : keep_order_batch s.recvr [item] (some (some c)) total =
                          [{ item with closure := some c }] := by
                        simp [keep_order_batch, hexc, hover, set_back_closure]
                      rw [hbatch] at h2
                      refine ⟨hcanc, ?_, ?_, ?_, ?_, ?_⟩
                      · rw [hstep_r, h1]; exact hl
                      · rw [hstep_r, hstep_q, h1, h2, held_bytes_append]
                        simp only [held_bytes, Option.isSome_some, if_true]
                        omega
                      · rw [hstep_q, h2, held_closures_append]
                        simp only [held_closures, List.filterMap_cons, List.filterMap_nil]
                        exact List.nodup_append.2 ⟨hnd, List.nodup_singleton c,
                          fun a ha hb => hcnot (by rw [List.mem_singleton] at hb; exact hb ▸ ha)⟩
                      · rw [hstep_q, h2, held_closures_append]
                        intro c2 hc2
                        rcases List.mem_append.1 hc2 with h | h
                        · exact hlt c2 h
                        · simp [held_closures] at h
                          rw [h]; exact hcn
                      · rw [hstep_q, h2]
                        intro i hi
                        rcases List.mem_append.1 hi with h | h
                        · exact hit i h
                        · simp only [List.mem_singleton] at h
                          rw [h]
                          simp only [hib]
                          exact ⟨by omega, fun _ => by exact_mod_cast hchunk⟩
                    · have hbatch : keep_order_batch s.recvr [item] (some (some c)) total =
                          [item] := by
                        simp [keep_order_batch, hexc, hover]
                      rw [hbatch] at h2
                      have hh : held_bytes [item] = 0 := by simp [held_bytes, hic]
                      have hhc : held_closures [item] = [] := by simp [held_closures, hic]
                      refine ⟨hcanc, ?_, ?_, ?_, ?_, ?_⟩
                      · rw [hstep_r, h1]; exact hl
                      · rw [hstep_r, hstep_q, h1, h2, held_bytes_append, hh]
                        show s.recvr._num_buffered_bytes + total ≤ _
                        omega
                      · rw [hstep_q, h2, held_closures_append, hhc, List.append_nil]; exact hnd
                      · rw [hstep_q, h2, held_closures_append, hhc, List.append_nil]; exact hlt
                      · rw [hstep_q, h2]
                        intro i hi
                        rcases List.mem_append.1 hi with h | h
                        · exact hit i h
                        · simp only [List.mem_singleton] at h
                          rw [h]
                          exact ⟨by omega, fun hs => by simp [hic] at hs⟩
    | decrement_senders b =>
      have hst : Run.step env s (Op.decrement_senders b) =
          { s with queue := { s.queue with
              _sender_eos_set := (decrement_senders s.queue b)._sender_eos_set,
              _num_remaining_senders := (decrement_senders s.queue b)._num_remaining_senders } } := by
        simp only [Run.step, decrement_senders]
        split <;> rfl
      rw [hst]
      exact ⟨hc, hl, hb, hnd, hlt, hit⟩
    | add_chunks_and_keep_order _ _ => simp [sender_waits_for_ack] at hop
    | get_chunk => simp [Op.is_pull] at hp
    | get_chunk_for_pipeline => simp [Op.is_pull] at hp
    | try_get_chunk => simp [Op.is_pull] at hp
    | cancel => simp [sender_waits_for_ack] at hop
    | close => simp [sender_waits_for_ack] at hop

theorem Backpressured.steps (env : Collaborators) (limit : Int) (n cb : Nat) (ops : List Op) :
    ∀ s : Run, Backpressured limit n cb s → obeys_backpressure env n cb s ops = true →
      Backpressured limit n cb (Run.steps env s ops) := by
  induction ops with
  | nil => intro s h _; exact h
  | cons op rest ih =>
    intro s h hops
    simp only [obeys_backpressure, Bool.and_eq_true] at hops
    exact ih (Run.step env s op) (Backpressured.step env limit n cb s op h hops.1) hops.2

theorem Backpressured.fresh (limit : Int) (row_desc : List TupleDescriptor) (num_senders : Int)
    (n cb : Nat) (hlimit : 0 ≤ limit) :
    Backpressured limit n cb (Run.fresh limit row_desc num_senders) := by
  refine ⟨rfl, rfl, ?_, ?_, ?_, ?_⟩
  · show (0 : Int) ≤ limit + held_bytes []
    simp only [held_bytes]; omega
  · show (held_closures []).Nodup
    simp [held_closures]
  · intro c hc
    have : c ∈ held_closures [] := hc
    simp [held_closures] at this
  · intro i hi
    have : i ∈ ([] : ChunkQueue) := hi
    simp at this

set_option maxRecDepth 1000000 in
set_option maxHeartbeats 4000000 in
theorem s1_slow_consumer_run :
    obeys_backpressure plain_env 3 1024 (Run.fresh 51200 one_slot_desc 3) s1_slow_consumer_ops
      = true ∧
    (Run.steps plain_env (Run.fresh 51200 one_slot_desc 3) s1_slow_consumer_ops
      ).recvr._num_buffered_bytes = 54272 ∧
    held_closures (Run.steps plain_env (Run.fresh 51200 one_slot_desc 3) s1_slow_consumer_ops
      ).queue._chunk_queue = [0, 1, 2] := by
  decide

/-- C16, counterexample: scenario S1 (limit 50 KiB = 51200 bytes, three senders,
chunks of 1 KiB) with a consumer that pulls nothing.  Every request carries one
chunk and is issued while the queue holds no ack of its sender, yet the buffered
bytes reach 54272 = limit + 3 chunks, above limit + one chunk = 52224: the ack
of sender 0 is retained at 52224 bytes, and senders 1 and 2, whose acks are not
retained, still deliver one chunk each. -/
theorem s1_buffer_exceeds_limit_plus_one_chunk :
    obeys_backpressure plain_env 3 1024 (Run.fresh 51200 one_slot_desc 3) s1_slow_consumer_ops
      = true ∧
    (Run.steps plain_env (Run.fresh 51200 one_slot_desc 3) s1_slow_consumer_ops
      ).recvr._num_buffered_bytes = 51200 + 3 * 1024 ∧
    ¬ (Run.steps plain_env (Run.fresh 51200 one_slot_desc 3) s1_slow_consumer_ops
      ).recvr._num_buffered_bytes ≤ 51200 + 1024 := by
  obtain ⟨h1, h2, _⟩ := s1_slow_consumer_run
  refine ⟨h1, ?_, ?_⟩
  · rw [h2]; decide
  · rw [h2]; decide

/-- C16, amended: on a new queue of `n_senders` senders with a limit `0 ≤ limit`,
after any list of pulls, `decrement_senders` and `add_chunks` calls in which
every request carries one chunk of at most `chunk_bytes` bytes and comes while
the queue holds no ack of its sender, the buffered bytes are at most the limit
plus the bytes of the items that hold an ack, at most one such item per sender:
at most `limit + n_senders * chunk_bytes`.  Every prefix of such a list is such
a list, so the bound holds in every state the run passes through. -/
theorem buffered_bytes_bound_under_backpressure (env : Collaborators) (limit : Int)
    (row_desc : List TupleDescriptor) (n_senders chunk_bytes : Nat) (ops : List Op)
    (hlimit : 0 ≤ limit)
    (hops : obeys_backpressure env n_senders chunk_bytes
      (Run.fresh limit row_desc (n_senders : Int)) ops = true) :
    (Run.steps env (Run.fresh limit row_desc (n_senders : Int)) ops).recvr._num_buffered_bytes
      ≤ limit + held_bytes
        (Run.steps env (Run.fresh limit row_desc (n_senders : Int)) ops).queue._chunk_queue ∧
    (held_closures
      (Run.steps env (Run.fresh limit row_desc (n_senders : Int)) ops).queue._chunk_queue).length
      ≤ n_senders ∧
    (Run.steps env (Run.fresh limit row_desc (n_senders : Int)) ops).recvr._num_buffered_bytes
      ≤ limit + (n_senders : Int) * (chunk_bytes : Int) := by
  obtain ⟨_, _, hb, hnd, hlt, hit⟩ := Backpressured.steps env limit n_senders chunk_bytes ops _
    (Backpressured.fresh limit row_desc (n_senders : Int) n_senders chunk_bytes hlimit) hops
  have hlen := nodup_bounded_length _ n_senders hnd hlt
  obtain ⟨_, hh⟩ := held_bytes_le chunk_bytes _ hit
  refine ⟨hb, hlen, ?_⟩
  have hmul : ((held_closures (Run.steps env (Run.fresh limit row_desc (n_senders : Int)) ops
      ).queue._chunk_queue).length : Int) * (chunk_bytes : Int)
      ≤ (n_senders : Int) * (chunk_bytes : Int) :=
    Int.mul_le_mul_of_nonneg_right (by exact_mod_cast hlen) (by positivity)
  omega

/-- C16, witness: the bound at scenario S1 with a consumer that pulls nothing. -/
theorem buffered_bytes_bound_under_backpressure_witness :
    (0 : Int) ≤ 51200 ∧
    obeys_backpressure plain_env 3 1024 (Run.fresh 51200 one_slot_desc ((3 : Nat) : Int))
      s1_slow_consumer_ops = true ∧
    (Run.steps plain_env (Run.fresh 51200 one_slot_desc ((3 : Nat) : Int)) s1_slow_consumer_ops
      ).recvr._num_buffered_bytes ≤ 51200 + ((3 : Nat) : Int) * ((1024 : Nat) : Int) :=
  ⟨by decide, s1_slow_consumer_run.1,
    (buffered_bytes_bound_under_backpressure plain_env 51200 one_slot_desc 3 1024
      s1_slow_consumer_ops (by decide) s1_slow_consumer_run.1).2.2⟩

/-! ## Cancel found at the relock, errors of deserialization, end of stream -/

theorem add_chunks_interleaved_nothing (env : Collaborators) (r : Recvr) (q : SenderQueue)
    (request : PTransmitChunkParams) (done : Option (Option Closure)) (is_pipeline : Bool) :
    add_chunks_interleaved env r q request done is_pipeline nothing_meanwhile =
      add_chunks env r q request done is_pipeline := by
  unfold add_chunks_interleaved add_chunks nothing_meanwhile
  rfl

theorem add_chunks_and_keep_order_interleaved_nothing (env : Collaborators) (r : Recvr)
    (q : SenderQueue) (request : PTransmitChunkParams) (done : Option (Option Closure)) :
    add_chunks_and_keep_order_interleaved env r q request done nothing_meanwhile =
      add_chunks_and_keep_order env r q request done := by
  unfold add_chunks_and_keep_order_interleaved add_chunks_and_keep_order nothing_meanwhile
  rfl

/-- Counterexample to C21 as stated: on a new queue, source `7` sends one chunk
with the closure `4` while another thread cancels the queue during the
deserialization.  In both modes the call returns OK, runs no closure and leaves
`*done` the closure `4`: the ack is not run by the call. -/
theorem relock_cancel_leaves_ack_to_caller :
    (add_chunks_interleaved plain_env (Run.fresh 0 one_slot_desc 1).recvr
      (Run.fresh 0 one_slot_desc 1).queue (mk_request 7 0 [plain_chunk [1, 2]]) (some (some 4))
      false cancel_meanwhile).ran = [] ∧
    (add_chunks_interleaved plain_env (Run.fresh 0 one_slot_desc 1).recvr
      (Run.fresh 0 one_slot_desc 1).queue (mk_request 7 0 [plain_chunk [1, 2]]) (some (some 4))
      false cancel_meanwhile).done = some (some 4) ∧
    (add_chunks_interleaved plain_env (Run.fresh 0 one_slot_desc 1).recvr
      (Run.fresh 0 one_slot_desc 1).queue (mk_request 7 0 [plain_chunk [1, 2]]) (some (some 4))
      false cancel_meanwhile).queue._is_cancelled = true ∧
    (add_chunks_and_keep_order_interleaved plain_env (Run.fresh 0 one_slot_desc 1).recvr
      (Run.fresh 0 one_slot_desc 1).queue (mk_request 7 0 [plain_chunk [1, 2]]) (some (some 4))
      cancel_meanwhile).ran = [] ∧
    (add_chunks_and_keep_order_interleaved plain_env (Run.fresh 0 one_slot_desc 1).recvr
      (Run.fresh 0 one_slot_desc 1).queue (mk_request 7 0 [plain_chunk [1, 2]]) (some (some 4))
      cancel_meanwhile).done = some (some 4) := by
  decide

/-- Claim C21 as amended (cancel found at the relock): when the state an add call
finds on re-acquiring the lock after the deserialization is cancelled, the call
returns OK and leaves the receiver and the queue exactly as it found them, so
nothing is appended to ready or pending and the buffered bytes are unchanged;
it runs no closure and leaves the caller's `done` as it was passed, so the ack
stays with the caller.  Stated for the locked regions that follow the
deserialization and for the whole calls with any activity `other` of other
threads that leaves the queue cancelled. -/
theorem cancel_observed_after_relock (env : Collaborators) (r : Recvr) (q : SenderQueue)
    (request : PTransmitChunkParams) (chunks : ChunkQueue) (total : Int)
    (done : Option (Option Closure))
    (hc : q._is_cancelled = true) :
    add_chunks_lock2 r q chunks total done =
      { status := Status.OK, recvr := r, queue := q, done := done, ran := [] } ∧
    add_chunks_and_keep_order_lock3 r q request chunks total done =
      { status := Status.OK, recvr := r, queue := q, done := done, ran := [] } ∧
    (∀ (r0 : Recvr) (q0 q1 : SenderQueue) (is_pipeline : Bool)
      (other : Recvr → SenderQueue → Recvr × SenderQueue),
      add_chunks_lock1 r0 q0 request is_pipeline = Region.proceed q1 →
      deserialize_chunks env q1._chunk_meta request.chunks = Except.ok (chunks, total) →
      other r0 q1 = (r, q) →
      add_chunks_interleaved env r0 q0 request done is_pipeline other =
        { status := Status.OK, recvr := r, queue := q, done := done, ran := [] }) ∧
    (∀ (r0 : Recvr) (q0 q1 q2 : SenderQueue)
      (other : Recvr → SenderQueue → Recvr × SenderQueue),
      add_chunks_and_keep_order_lock1 q0 request = Region.proceed q1 →
      add_chunks_and_keep_order_lock2 r0 q1 request = Region.proceed q2 →
      deserialize_chunks env q2._chunk_meta request.chunks = Except.ok (chunks, total) →
      other r0 q2 = (r, q) →
      add_chunks_and_keep_order_interleaved env r0 q0 request done other =
        { status := Status.OK, recvr := r, queue := q, done := done, ran := [] }) := by
  have h2 : add_chunks_lock2 r q chunks total done =
      { status := Status.OK, recvr := r, queue := q, done := done, ran := [] } := by
    simp [add_chunks_lock2, hc]
  have h3 : add_chunks_and_keep_order_lock3 r q request chunks total done =
      { status := Status.OK, recvr := r, queue := q, done := done, ran := [] } := by
    simp [add_chunks_and_keep_order_lock3, hc]
  refine ⟨h2, h3, ?_, ?_⟩
  · intro r0 q0 q1 is_pipeline other hl hd ho
    unfold add_chunks_interleaved
    rw [hl]
    simp only
    rw [hd]
    simp only
    rw [ho]
    exact h2
  · intro r0 q0 q1 q2 other hl1 hl2 hd ho
    unfold add_chunks_and_keep_order_interleaved
    rw [hl1]
    simp only
    rw [hl2]
    simp only
    rw [hd]
    simp only
    rw [ho]
    exact h3

/-- Witness of C21 as amended: a cancelled queue found at the relock with one item
to append. -/
theorem cancel_observed_after_relock_witness :
    add_chunks_lock2 (Run.fresh 0 one_slot_desc 1).recvr
      { SenderQueue.new 1 with _is_cancelled := true }
      [{ chunk_bytes := 2, chunk_ptr := ⟨[1, 2]⟩, closure := none }] 2 (some (some 4)) =
      { status := Status.OK, recvr := (Run.fresh 0 one_slot_desc 1).recvr,
        queue := { SenderQueue.new 1 with _is_cancelled := true },
        done := some (some 4), ran := [] } :=
  (cancel_observed_after_relock plain_env (Run.fresh 0 one_slot_desc 1).recvr
    { SenderQueue.new 1 with _is_cancelled := true }
    (mk_request 7 0 [plain_chunk [1, 2]])
    [{ chunk_bytes := 2, chunk_ptr := ⟨[1, 2]⟩, closure := none }] 2 (some (some 4)) rfl).1

/-- Counterexample to C22 as stated: `Chunk::deserialize` rejects the chunk of the
first request of a non-merging receiver as corrupt.  The receiver's `add_chunks`
returns the Corruption status, and afterwards its queue is not cancelled; the
caller keeps the closure `4`, and nothing was run. -/
theorem corruption_leaves_queue_uncancelled :
    (DataStreamRecvr.add_chunks corrupt_env
        (DataStreamRecvr.new one_slot_desc 1 false 100 false false)
        (mk_request 7 0 [plain_chunk [1]]) (some (some 4))).map
      (fun o => (o.status, o.recvr._sender_queues.map (fun q => q._is_cancelled), o.done, o.ran))
      = some (Status.Corruption "corrupt chunk", [false], some (some 4), []) := by
  decide

theorem add_chunks_and_keep_order_lock1_cancelled (q q1 : SenderQueue)
    (request : PTransmitChunkParams)
    (h : add_chunks_and_keep_order_lock1 q request = Region.proceed q1) :
    q._is_cancelled = false := by
  cases hc : q._is_cancelled
  · rfl
  · simp [add_chunks_and_keep_order_lock1, hc] at h

theorem add_chunks_and_keep_order_lock2_proceed (r : Recvr) (q q2 : SenderQueue)
    (request : PTransmitChunkParams)
    (h : add_chunks_and_keep_order_lock2 r q request = Region.proceed q2) :
    q._is_cancelled = false ∧ 0 < q._num_remaining_senders ∧
    build_meta_if_empty r q request = Region.proceed q2 := by
  unfold add_chunks_and_keep_order_lock2 at h
  cases hc : q._is_cancelled
  · rw [hc] at h
    by_cases hrem : q._num_remaining_senders ≤ 0
    · simp [hrem] at h
    · rw [if_neg (by simp), if_neg hrem] at h
      exact ⟨rfl, by omega, h⟩
  · simp [hc] at h

/-- Claim C22 as amended (an error of deserialization): when a call of the
receiver's `add_chunks` reaches the deserialization and a chunk of the request
fails to deserialize with an error `e` (a Corruption status among others), the
call returns `e` to the caller, runs no closure and leaves the caller's `done`
as it was; the target queue is left as the locked region before the
deserialization left it: not cancelled, with the ready queue and the pending
batches it had, and the buffered bytes of the receiver are unchanged. -/
theorem add_chunks_deserialize_error (env : Collaborators) (recvr : DataStreamRecvr)
    (request : PTransmitChunkParams) (done : Option (Option Closure))
    (queue q1 : SenderQueue) (e : StatusState)
    (hid : 0 ≤ (if recvr._is_merging then request.sender_id else 0))
    (hq : recvr._sender_queues[(if recvr._is_merging then request.sender_id else 0).toNat]?
      = some queue)
    (hk : recvr._keep_order = true → ∃ q0,
      add_chunks_and_keep_order_lock1 queue request = Region.proceed q0 ∧
      add_chunks_and_keep_order_lock2 recvr.view q0 request = Region.proceed q1)
    (hn : recvr._keep_order = false →
      add_chunks_lock1 recvr.view queue request recvr._is_pipeline = Region.proceed q1)
    (hdes : deserialize_chunks env q1._chunk_meta request.chunks = Except.error e) :
    DataStreamRecvr.add_chunks env recvr request done =
      some { status := some e,
             recvr := { recvr with
               _sender_queues := recvr._sender_queues.set
                 (if recvr._is_merging then request.sender_id else 0).toNat q1 },
             done := done, ran := [] } ∧
    q1._is_cancelled = false ∧
    q1._chunk_queue = queue._chunk_queue ∧
    (∀ b, (mfind q1._buffered_chunk_queues b).getD [] =
      (mfind queue._buffered_chunk_queues b).getD []) := by
  cases hko : recvr._keep_order
  · have hl := hn hko
    obtain ⟨hc, _, _, hq1⟩ := add_chunks_lock1_proceed _ _ _ _ _ hl
    have hcall : StarRocks.add_chunks env recvr.view queue request done recvr._is_pipeline =
        { status := some e, recvr := recvr.view, queue := q1, done := done, ran := [] } := by
      unfold StarRocks.add_chunks
      rw [hl]
      simp only
      rw [hdes]
    refine ⟨?_, ?_, ?_, ?_⟩
    · unfold DataStreamRecvr.add_chunks
      simp only
      rw [if_pos hid, hq]
      simp only [hko, Bool.false_eq_true, if_false]
      rw [hcall]
      rfl
    · rw [hq1]; exact hc
    · rw [hq1]
    · intro b; rw [hq1]
  · obtain ⟨q0, hl1, hl2⟩ := hk hko
    have hc := add_chunks_and_keep_order_lock1_cancelled _ _ _ hl1
    obtain ⟨q0x, hl1x, hq0, _, hbuf, hoth⟩ := add_chunks_and_keep_order_lock1_spec queue request hc
    rw [hl1] at hl1x
    cases hl1x
    obtain ⟨hc0, _, hmeta⟩ := add_chunks_and_keep_order_lock2_proceed _ _ _ _ hl2
    obtain ⟨hq1, _, _⟩ := build_meta_if_empty_proceed _ _ _ _ hmeta
    have hcall : StarRocks.add_chunks_and_keep_order env recvr.view queue request done =
        { status := some e, recvr := recvr.view, queue := q1, done := done, ran := [] } := by
      unfold StarRocks.add_chunks_and_keep_order
      rw [hl1]
      simp only
      rw [hl2]
      simp only
      rw [hdes]
    refine ⟨?_, ?_, ?_, ?_⟩
    · unfold DataStreamRecvr.add_chunks
      simp only
      rw [if_pos hid, hq]
      simp only [hko, if_true]
      rw [hcall]
      rfl
    · rw [hq1]; exact hc0
    · rw [hq1, hq0]
    · intro b
      have : q1._buffered_chunk_queues = q0._buffered_chunk_queues := by rw [hq1]
      rw [this]
      by_cases hb : b = request.be_number
      · subst hb; rw [hbuf]; rfl
      · rw [(hoth b hb).2]

/-- Witness of C22 as amended: the first request of a non-merging receiver, its
chunk rejected as corrupt. -/
theorem add_chunks_deserialize_error_witness :
    (DataStreamRecvr.add_chunks corrupt_env
        (DataStreamRecvr.new one_slot_desc 1 false 100 false false)
        (mk_request 7 0 [plain_chunk [1]]) (some (some 4))).map (fun o => o.status) =
      some (Status.Corruption "corrupt chunk") := by
  have h := (add_chunks_deserialize_error corrupt_env
    (DataStreamRecvr.new one_slot_desc 1 false 100 false false)
    (mk_request 7 0 [plain_chunk [1]]) (some (some 4)) (SenderQueue.new 1)
    (add_chunks_lock1 (DataStreamRecvr.new one_slot_desc 1 false 100 false false).view
      (SenderQueue.new 1) (mk_request 7 0 [plain_chunk [1]]) false).queue
    { code := TStatusCode.CORRUPTION, msg := "corrupt chunk" }
    (by decide) (by decide) (by intro h; exact absurd h (by decide)) (by intro _; decide) rfl).1
  rw [h]
  rfl

/-- Claim C30 (end of stream is reported only at end of stream): a blocking
`get_chunk` that returns OK without a chunk was called on a queue that is not
cancelled, has an empty ready queue and `remaining_senders ≤ 0`, and on every
such queue it returns so at once; on a non-cancelled queue with a non-empty
ready queue it returns OK with the chunk at the front; it waits exactly while
the queue is not cancelled, the ready queue is empty and `remaining_senders > 0`. -/
theorem get_chunk_end_of_stream :
    (∀ (r : Recvr) (q : SenderQueue) (o : GetResult),
      get_chunk r q = some o → o.status = Status.OK → o.chunk = none →
      q._is_cancelled = false ∧ q._chunk_queue = [] ∧ q._num_remaining_senders ≤ 0) ∧
    (∀ (r : Recvr) (q : SenderQueue),
      q._is_cancelled = false → q._chunk_queue = [] → q._num_remaining_senders ≤ 0 →
      get_chunk r q =
        some { status := Status.OK, recvr := r, queue := q, chunk := none, ran := [] }) ∧
    (∀ (r : Recvr) (q : SenderQueue) (front : ChunkItem) (rest : ChunkQueue),
      q._is_cancelled = false → q._chunk_queue = front :: rest →
      ∃ o, get_chunk r q = some o ∧ o.status = Status.OK ∧ o.chunk = some front.chunk_ptr) ∧
    (∀ (r : Recvr) (q : SenderQueue),
      get_chunk r q = none ↔
      (q._is_cancelled = false ∧ q._chunk_queue = [] ∧ 0 < q._num_remaining_senders)) := by
  refine ⟨?_, ?_, ?_, ?_⟩
  · intro r q o h hs hch
    unfold get_chunk at h
    by_cases hw : get_chunk_waits q = true
    · simp [hw] at h
    · rw [if_neg hw] at h
      cases h
      cases hc : q._is_cancelled
      · cases hq : q._chunk_queue with
        | nil =>
          refine ⟨rfl, rfl, ?_⟩
          simp [get_chunk_waits, hc, hq] at hw
          exact hw
        | cons front rest => simp [_do_get_chunk, hc, hq] at hch
      · simp [_do_get_chunk, hc, Status.Cancelled, Status.OK] at hs
  · intro r q hc hq hrem
    have hw : get_chunk_waits q = false := by
      simp [get_chunk_waits, hc, hq]; omega
    simp [get_chunk, hw, _do_get_chunk, hc, hq]
  · intro r q front rest hc hq
    have hw : get_chunk_waits q = false := by
      simp [get_chunk_waits, hc, hq]
    refine ⟨_do_get_chunk r q, by simp [get_chunk, hw], ?_, ?_⟩
    · simp [_do_get_chunk, hc, hq]
    · simp [_do_get_chunk, hc, hq]
  · intro r q
    unfold get_chunk
    constructor
    · intro h
      by_cases hw : get_chunk_waits q = true
      · simp only [get_chunk_waits, Bool.and_eq_true, Bool.not_eq_true', decide_eq_true_eq,
          List.isEmpty_iff] at hw
        exact ⟨hw.1.1, hw.1.2, hw.2⟩
      · rw [if_neg hw] at h
        cases h
    · rintro ⟨hc, hq, hrem⟩
      have hw : get_chunk_waits q = true := by
        simp [get_chunk_waits, hc, hq, hrem]
      rw [if_pos hw]

/-! ## Chunk meta -/

theorem assign_slot_types_count (slots : List SlotDescriptor) :
    ∀ (m : List (Int × Int)) (acc : List TypeDescriptor × Nat),
      (assign_slot_types slots m acc).2 = acc.2 + matched_slot_entries slots m := by
  intro m
  induction m with
  | nil => intro acc; simp [assign_slot_types, matched_slot_entries]
  | cons kv rest ih =>
    intro acc
    obtain ⟨types, column_index⟩ := acc
    unfold assign_slot_types
    cases hf : slots.find? (fun slot => decide (kv.1 = slot.id)) with
    | none =>
      simp only
      rw [ih]
      simp [matched_slot_entries, List.countP_cons, hf]
    | some slot =>
      simp only
      rw [ih]
      simp [matched_slot_entries, List.countP_cons, hf]
      omega

theorem foldl_assign_slot_types_count (m : List (Int × Int)) :
    ∀ (row_desc : List TupleDescriptor) (acc : List TypeDescriptor × Nat),
      (row_desc.foldl (fun acc tuple_desc => assign_slot_types tuple_desc.slots m acc) acc).2
        = acc.2 + (row_desc.map (fun tuple_desc => matched_slot_entries tuple_desc.slots m)).sum := by
  intro row_desc
  induction row_desc with
  | nil => intro acc; simp
  | cons td rest ih =>
    intro acc
    simp only [List.foldl_cons, List.map_cons, List.sum_cons]
    rw [ih, assign_slot_types_count]
    omega

theorem assign_tuple_types_count :
    ∀ (m : List (Int × Int)) (acc : List TypeDescriptor × Nat),
      (assign_tuple_types m acc).2 = acc.2 + m.length := by
  intro m
  induction m with
  | nil => intro acc; simp [assign_tuple_types]
  | cons kv rest ih =>
    intro acc
    obtain ⟨types, column_index⟩ := acc
    unfold assign_tuple_types
    rw [ih]
    simp only [List.length_cons]
    omega

/-- Counterexample to C23 as stated: for the row descriptor with the one slot `1`,
a first chunk with the slot map `1 → 0, 99 → 1` (even length), an empty tuple
map and one `is_nulls` entry makes `_build_chunk_meta` return OK, since the one
matched entry is the one column counted; the slot map then has two entries, the
tuple map none, and `is_nulls` and the type list have length one. -/
theorem chunk_meta_ok_with_unmatched_slot :
    unmatched_slot_chunk.slot_id_map.length % 2 = 0 ∧
    unmatched_slot_chunk.tuple_id_map.length % 2 = 0 ∧
    (_build_chunk_meta one_slot_desc RuntimeChunkMeta.empty unmatched_slot_chunk).1 = Status.OK ∧
    (_build_chunk_meta one_slot_desc RuntimeChunkMeta.empty
      unmatched_slot_chunk).2.slot_id_to_index.length = 2 ∧
    (_build_chunk_meta one_slot_desc RuntimeChunkMeta.empty
      unmatched_slot_chunk).2.tuple_id_to_index.length = 0 ∧
    (_build_chunk_meta one_slot_desc RuntimeChunkMeta.empty
      unmatched_slot_chunk).2.is_nulls.length = 1 ∧
    (_build_chunk_meta one_slot_desc RuntimeChunkMeta.empty
      unmatched_slot_chunk).2.types.length = 1 := by
  decide

/-- Claim C23 as amended (column count of the chunk meta): whenever
`_build_chunk_meta` returns OK, the meta it leaves has `is_nulls` equal to the
chunk's `is_nulls`, a type list of the same length, and this length is the
number of columns the call counted: the slot-map entries matched by a slot of a
tuple descriptor, once per tuple descriptor holding such a slot, plus the
entries of the tuple-id map.  When the matched entries number the entries of the
slot map, the length is the number of entries of the slot-id map plus that of the
tuple-id map. -/
theorem chunk_meta_column_count (row_desc : List TupleDescriptor) (meta : RuntimeChunkMeta)
    (pb : ChunkPB) (h : (_build_chunk_meta row_desc meta pb).1 = Status.OK) :
    (_build_chunk_meta row_desc meta pb).2.is_nulls = pb.is_nulls ∧
    (_build_chunk_meta row_desc meta pb).2.types.length =
      (_build_chunk_meta row_desc meta pb).2.is_nulls.length ∧
    counted_columns row_desc (_build_chunk_meta row_desc meta pb).2.slot_id_to_index
      (_build_chunk_meta row_desc meta pb).2.tuple_id_to_index =
      (_build_chunk_meta row_desc meta pb).2.is_nulls.length ∧
    ((row_desc.map (fun tuple_desc => matched_slot_entries tuple_desc.slots
        (_build_chunk_meta row_desc meta pb).2.slot_id_to_index)).sum =
        (_build_chunk_meta row_desc meta pb).2.slot_id_to_index.length →
      (_build_chunk_meta row_desc meta pb).2.slot_id_to_index.length +
        (_build_chunk_meta row_desc meta pb).2.tuple_id_to_index.length =
        (_build_chunk_meta row_desc meta pb).2.is_nulls.length) := by
  have hne := _build_chunk_meta_ok row_desc meta pb h
  have hlen := (_build_chunk_meta_types_length row_desc meta pb hne).1
  have key : (_build_chunk_meta row_desc meta pb).2.is_nulls = pb.is_nulls ∧
      counted_columns row_desc (_build_chunk_meta row_desc meta pb).2.slot_id_to_index
        (_build_chunk_meta row_desc meta pb).2.tuple_id_to_index = pb.is_nulls.length := by
    unfold _build_chunk_meta at h ⊢
    rw [if_neg (by simp [hne])] at h ⊢
    simp only at h ⊢
    split at h
    · simp [Status.InternalError, Status.OK] at h
    · rename_i hcount
      rw [if_neg hcount]
      simp only [ne_eq, Decidable.not_not] at hcount
      refine ⟨rfl, ?_⟩
      rw [← hcount, assign_tuple_types_count, foldl_assign_slot_types_count]
      simp [counted_columns]
  obtain ⟨k1, k2⟩ := key
  refine ⟨k1, ?_, ?_, ?_⟩
  · rw [hlen, k1]
  · rw [k2, k1]
  · intro hm
    rw [k1, ← k2]
    unfold counted_columns
    rw [hm]

/-- Witness of C23 as amended: the first chunk of a one-column stream. -/
theorem chunk_meta_column_count_witness :
    (_build_chunk_meta one_slot_desc RuntimeChunkMeta.empty (plain_chunk [1])).1 = Status.OK ∧
    (_build_chunk_meta one_slot_desc RuntimeChunkMeta.empty (plain_chunk [1])).2.types.length =
      (_build_chunk_meta one_slot_desc RuntimeChunkMeta.empty (plain_chunk [1])).2.is_nulls.length :=
  ⟨by decide,
    (chunk_meta_column_count one_slot_desc RuntimeChunkMeta.empty (plain_chunk [1])
      (by decide)).2.1⟩

theorem add_chunks_lock1_meta (r : Recvr) (q : SenderQueue) (request : PTransmitChunkParams)
    (is_pipeline : Bool) (h : q._chunk_meta.types ≠ []) :
    (add_chunks_lock1 r q request is_pipeline).queue._chunk_meta = q._chunk_meta := by
  unfold add_chunks_lock1
  simp only
  split
  · rfl
  · split
    · rfl
    · split
      · rfl
      · have hb := build_meta_if_empty_built r
          { q with _packet_seq_map := minsert q._packet_seq_map request.be_number request.sequence }
          request h
        rw [hb]
        rfl

theorem add_chunks_meta (env : Collaborators) (r : Recvr) (q : SenderQueue)
    (request : PTransmitChunkParams) (done : Option (Option Closure)) (is_pipeline : Bool)
    (h : q._chunk_meta.types ≠ []) :
    (add_chunks env r q request done is_pipeline).queue._chunk_meta = q._chunk_meta := by
  rw [add_chunks_fields]
  exact add_chunks_lock1_meta r q request is_pipeline h

theorem add_chunks_and_keep_order_meta (env : Collaborators) (r : Recvr) (q : SenderQueue)
    (request : PTransmitChunkParams) (done : Option (Option Closure))
    (h : q._chunk_meta.types ≠ []) :
    (add_chunks_and_keep_order env r q request done).queue._chunk_meta = q._chunk_meta := by
  cases hc : q._is_cancelled
  · obtain ⟨q1, hl1, hq1, _⟩ := add_chunks_and_keep_order_lock1_spec q request hc
    have hm1 : q1._chunk_meta = q._chunk_meta := by rw [hq1]
    have hc1 : q1._is_cancelled = false := by rw [hq1]; exact hc
    unfold add_chunks_and_keep_order
    rw [hl1]
    simp only
    by_cases hrem : q1._num_remaining_senders ≤ 0
    · have hl2 : add_chunks_and_keep_order_lock2 r q1 request = Region.returned Status.OK q1 := by
        simp [add_chunks_and_keep_order_lock2, hc1, hrem]
      rw [hl2]
      exact hm1
    · have hl2 : add_chunks_and_keep_order_lock2 r q1 request =
          Region.proceed { q1 with _chunk_meta := q1._chunk_meta } := by
        unfold add_chunks_and_keep_order_lock2
        rw [if_neg (by simp [hc1]), if_neg hrem]
        exact build_meta_if_empty_built r q1 request (by rw [hm1]; exact h)
      rw [hl2]
      simp only
      split
      · exact hm1
      · unfold add_chunks_and_keep_order_lock3
        simp only [hc1, Bool.false_eq_true, if_false]
        exact hm1
  · have : add_chunks_and_keep_order env r q request done =
        { status := Status.OK, recvr := r, queue := q, done := done, ran := [] } := by
      simp [add_chunks_and_keep_order, add_chunks_and_keep_order_lock1, hc]
    rw [this]

theorem Run.step_meta (env : Collaborators) (s : Run) (op : Op)
    (h : s.queue._chunk_meta.types ≠ []) :
    (Run.step env s op).queue._chunk_meta = s.queue._chunk_meta := by
  cases op with
  | add_chunks request done is_pipeline =>
    exact add_chunks_meta env s.recvr s.queue request done is_pipeline h
  | add_chunks_and_keep_order request done =>
    exact add_chunks_and_keep_order_meta env s.recvr s.queue request done h
  | get_chunk =>
    simp only [Run.step, get_chunk, _do_get_chunk]
    split <;> [rfl; skip]
    rename_i o ho
    split at ho
    · cases ho
    · cases ho
      split
      · rfl
      · split <;> rfl
  | get_chunk_for_pipeline =>
    simp only [Run.step, get_chunk_for_pipeline, _do_get_chunk]
    split
    · rfl
    · split <;> rfl
  | try_get_chunk =>
    simp only [Run.step, try_get_chunk]
    split
    · rfl
    · split <;> rfl
  | decrement_senders b =>
    simp only [Run.step, decrement_senders]
    split <;> rfl
  | cancel =>
    simp only [Run.step, cancel, drain_queues]
    split <;> rfl
  | close => rfl

theorem Run.steps_meta (env : Collaborators) (ops : List Op) :
    ∀ s : Run, s.queue._chunk_meta.types ≠ [] →
      (Run.steps env s ops).queue._chunk_meta = s.queue._chunk_meta := by
  induction ops with
  | nil => intro s _; rfl
  | cons op rest ih =>
    intro s h
    have hs := Run.step_meta env s op h
    show (Run.steps env (Run.step env s op) rest).queue._chunk_meta = _
    rw [ih (Run.step env s op) (by rw [hs]; exact h), hs]

/-- Counterexample to C24 as stated: on a new queue the first request carries a
chunk without metadata; the call reaches the meta-building step, which returns
an internal error and leaves the chunk meta empty.  The next request carries
the metadata and its call changes the chunk meta. -/
theorem chunk_meta_changes_after_first_meta_step :
    (add_chunks plain_env (Run.fresh 100 one_slot_desc 1).recvr
      (Run.fresh 100 one_slot_desc 1).queue (mk_request 7 0 [bare_chunk [1]]) none false).status
      = Status.InternalError "pb_chunk meta could not be empty" ∧
    (Run.steps plain_env (Run.fresh 100 one_slot_desc 1)
      (late_meta_ops.take 1)).queue._chunk_meta = RuntimeChunkMeta.empty ∧
    (Run.steps plain_env (Run.fresh 100 one_slot_desc 1) late_meta_ops).queue._chunk_meta ≠
      (Run.steps plain_env (Run.fresh 100 one_slot_desc 1)
        (late_meta_ops.take 1)).queue._chunk_meta := by
  decide

/-- Claim C24 as amended (the chunk meta is fixed once it holds a type list): from
a state whose chunk meta has a non-empty type list no sequence of operations on
the queue changes the chunk meta, whatever metadata the requests carry; and the
meta-building step of an add call whose first chunk has a non-empty `is_nulls`
and a non-empty slot map leaves a non-empty type list, whether it returns OK or
the column-count error.  A meta-building step that fails on an empty `is_nulls`
or slot map leaves the meta as it was, for a later call to build. -/
theorem chunk_meta_fixed_once_built (env : Collaborators) (s : Run) (ops : List Op)
    (h : s.queue._chunk_meta.types ≠ []) :
    (Run.steps env s ops).queue._chunk_meta = s.queue._chunk_meta ∧
    (∀ (r : Recvr) (q : SenderQueue) (request : PTransmitChunkParams),
      q._chunk_meta.types = [] →
      (first_chunk request).is_nulls ≠ [] → (first_chunk request).slot_id_map ≠ [] →
      (build_meta_if_empty r q request).queue._chunk_meta.types ≠ []) ∧
    (∀ (r : Recvr) (q : SenderQueue) (request : PTransmitChunkParams),
      q._chunk_meta.types = [] →
      ((first_chunk request).is_nulls = [] ∨ (first_chunk request).slot_id_map = []) →
      (build_meta_if_empty r q request).queue = q) := by
  refine ⟨Run.steps_meta env ops s h, ?_, ?_⟩
  · intro r q request hty hn hs
    have hne : ((first_chunk request).is_nulls.isEmpty ||
        (first_chunk request).slot_id_map.isEmpty) = false := by
      cases h1 : (first_chunk request).is_nulls with
      | nil => exact absurd h1 hn
      | cons a l =>
        cases h2 : (first_chunk request).slot_id_map with
        | nil => exact absurd h2 hs
        | cons b m => rfl
    have hlen := (_build_chunk_meta_types_length r._row_desc q._chunk_meta (first_chunk request)
      hne).2
    unfold build_meta_if_empty
    rw [if_pos (by simp [hty])]
    split
    · rename_i meta heq
      have : (_build_chunk_meta r._row_desc q._chunk_meta (first_chunk request)).2 = meta := by
        rw [heq]
      rw [this] at hlen
      exact hlen
    · rename_i e meta heq
      have : (_build_chunk_meta r._row_desc q._chunk_meta (first_chunk request)).2 = meta := by
        rw [heq]
      rw [this] at hlen
      exact hlen
  · intro r q request hty hempty
    have he : ((first_chunk request).is_nulls.isEmpty ||
        (first_chunk request).slot_id_map.isEmpty) = true := by
      rcases hempty with h1 | h1 <;> simp [h1]
    unfold build_meta_if_empty
    rw [if_pos (by simp [hty])]
    have hb : _build_chunk_meta r._row_desc q._chunk_meta (first_chunk request) =
        (Status.InternalError "pb_chunk meta could not be empty", q._chunk_meta) := by
      unfold _build_chunk_meta
      rw [if_pos he]
    rw [hb]
    rfl

/-- Witness of C24 as amended: after the first request of a one-column stream, a
request carrying another slot map leaves the chunk meta as it is. -/
theorem chunk_meta_fixed_once_built_witness :
    (Run.steps plain_env (Run.fresh 100 one_slot_desc 1)
      [Op.add_chunks (mk_request 7 0 [plain_chunk [1]]) none false]).queue._chunk_meta.types
      ≠ [] ∧
    (Run.steps plain_env
      (Run.steps plain_env (Run.fresh 100 one_slot_desc 1)
        [Op.add_chunks (mk_request 7 0 [plain_chunk [1]]) none false])
      [Op.add_chunks (mk_request 7 1 [unmatched_slot_chunk]) none false]).queue._chunk_meta =
    (Run.steps plain_env (Run.fresh 100 one_slot_desc 1)
      [Op.add_chunks (mk_request 7 0 [plain_chunk [1]]) none false]).queue._chunk_meta :=
  ⟨by decide,
    (chunk_meta_fixed_once_built plain_env
      (Run.steps plain_env (Run.fresh 100 one_slot_desc 1)
        [Op.add_chunks (mk_request 7 0 [plain_chunk [1]]) none false])
      [Op.add_chunks (mk_request 7 1 [unmatched_slot_chunk]) none false] (by decide)).1⟩

/-! ## Keep-order mode: pending keys and the place of the ack -/

/-- Claim C28, the code evaluated at the failing input: source `7` sends sequence
`4294967297 = 2^32 + 1` and then sequence `1`.  The first batch is filed under
the pending key `1`, not `4294967297`; the second request, whose 64-bit
sequence is different, is filed under the same key `1` and replaces the first
batch, whose chunk `42` is in neither the pending map nor the ready queue
afterwards.  A single request with sequence `4294967296` on a new queue is
moved to the ready queue at once although the counter is `-1` and its sequence
is not `0`. -/
theorem pending_key_is_int32_of_sequence :
    (Run.steps plain_env (Run.fresh 100 one_slot_desc 1)
      (shared_pending_key_ops.take 1)).pending_chunks 7 = some [(1, [⟨[42]⟩])] ∧
    (Run.steps plain_env (Run.fresh 100 one_slot_desc 1)
      shared_pending_key_ops).pending_chunks 7 = some [(1, [⟨[1]⟩])] ∧
    (Run.steps plain_env (Run.fresh 100 one_slot_desc 1)
      shared_pending_key_ops).ready_chunks = [] ∧
    (Run.steps plain_env (Run.fresh 100 one_slot_desc 1)
      [Op.add_chunks_and_keep_order (mk_request 7 4294967296 [plain_chunk [42]]) none]
      ).ready_chunks = [⟨[42]⟩] ∧
    mfind (Run.steps plain_env (Run.fresh 100 one_slot_desc 1)
      [Op.add_chunks_and_keep_order (mk_request 7 4294967296 [plain_chunk [42]]) none]
      ).queue._max_processed_sequences 7 = some 0 := by
  decide

theorem drained_batches_succ (cq : List (Int × ChunkQueue)) (mx : Int) (j : Nat) :
    drained_batches cq mx (j + 1) =
      drained_batches cq mx j ++ (mfind cq (mx + 1 + (j : Int))).getD [] := by
  unfold drained_batches
  rw [List.range_succ, List.map_append, List.flatten_append]
  simp

theorem drained_batches_split (cq : List (Int × ChunkQueue)) (mx : Int) (i0 : Nat) :
    ∀ j : Nat, i0 < j →
      ∃ post, drained_batches cq mx j =
        drained_batches cq mx i0 ++ (mfind cq (mx + 1 + (i0 : Int))).getD [] ++ post := by
  intro j
  induction j with
  | zero => intro h; omega
  | succ j ih =>
    intro h
    by_cases hj : i0 = j
    · subst hj
      exact ⟨[], by rw [drained_batches_succ, List.append_nil]⟩
    · obtain ⟨post, hp⟩ := ih (by omega)
      refine ⟨post ++ (mfind cq (mx + 1 + (j : Int))).getD [], ?_⟩
      rw [drained_batches_succ, hp, List.append_assoc]

/-- Counterexample to C29 as stated.  With limit `0` every request is over the
limit and its ack is taken.  (1) Sequence `1` arrives while sequence `0` is
missing: the closure `4` is taken, no item is moved into the ready queue, and
the closure is held by an item of the pending map.  (2) Sequence `1` (closure
`5`) is pending and sequence `0` (two chunks, closure `4`) arrives: the call
moves three items into the empty ready queue; the last of them holds the
closure `5` of the earlier request, and the ack `4` of the call is held by the
second item, the last chunk of its own request. -/
theorem keep_order_ack_not_on_last_ready_item :
    (Run.steps plain_env (Run.fresh 0 one_slot_desc 1) ack_ahead_ops).taken = [4] ∧
    (Run.steps plain_env (Run.fresh 0 one_slot_desc 1) ack_ahead_ops).queue._chunk_queue = [] ∧
    held_closures
      (pending_items (Run.steps plain_env (Run.fresh 0 one_slot_desc 1) ack_ahead_ops).queue)
      = [4] ∧
    (Run.steps plain_env (Run.fresh 0 one_slot_desc 1)
      (ack_gap_fill_ops.take 1)).queue._chunk_queue = [] ∧
    (Run.steps plain_env (Run.fresh 0 one_slot_desc 1) ack_gap_fill_ops).taken = [5, 4] ∧
    (Run.steps plain_env (Run.fresh 0 one_slot_desc 1) ack_gap_fill_ops).queue._chunk_queue.map
      (fun i => (i.chunk_ptr.payload, i.closure)) =
      [([20], none), ([21], some 4), ([10], some 5)] := by
  decide

/-- Claim C29 as amended (place of the ack in keep-order mode): whenever an
accepted `add_chunks_and_keep_order` call takes the request's ack `c`, the item
that holds `c` after the call is the last item of the request's own batch, and no
other item of the batch holds a closure.  The batch is either in the ready
queue, after the batches `pre` of lower sequences the call moved and before the
batches `post` of higher sequences it moved (with no `pre` when the request's
key is the first unprocessed one), or still pending under the request's key
(with nothing moved when the first unprocessed sequence is missing). -/
theorem keep_order_ack_on_own_last_item (env : Collaborators) (r : Recvr) (q : SenderQueue)
    (request : PTransmitChunkParams) (done : Option (Option Closure)) (c : Closure)
    (hc : q._is_cancelled = false) (hrem : 0 < q._num_remaining_senders)
    (hok : (add_chunks_and_keep_order env r q request done).status = none)
    (hdone : done = some (some c))
    (htake : (add_chunks_and_keep_order env r q request done).done = some none) :
    ∃ (front : ChunkQueue) (last : ChunkItem),
      (∀ i ∈ front, i.closure = none) ∧
      (front ++ [last]).map (fun i => i.chunk_ptr) =
        request_chunks env (add_chunks_and_keep_order env r q request done).queue._chunk_meta
          request ∧
      ((∃ pre post : ChunkQueue,
          (add_chunks_and_keep_order env r q request done).queue._chunk_queue =
            q._chunk_queue ++ pre ++ (front ++ [{ last with closure := some c }]) ++ post ∧
          mfind ((mfind (add_chunks_and_keep_order env r q request done).queue._buffered_chunk_queues
            request.be_number).getD []) (toInt32 request.sequence) = none ∧
          (toInt32 request.sequence =
              (mfind q._max_processed_sequences request.be_number).getD (-1) + 1 → pre = [])) ∨
       (∃ pre : ChunkQueue,
          (add_chunks_and_keep_order env r q request done).queue._chunk_queue =
            q._chunk_queue ++ pre ∧
          mfind ((mfind (add_chunks_and_keep_order env r q request done).queue._buffered_chunk_queues
            request.be_number).getD []) (toInt32 request.sequence) =
            some (front ++ [{ last with closure := some c }]) ∧
          toInt32 request.sequence ≠
            (mfind q._max_processed_sequences request.be_number).getD (-1) + 1 ∧
          (mfind ((mfind q._buffered_chunk_queues request.be_number).getD [])
              ((mfind q._max_processed_sequences request.be_number).getD (-1) + 1) = none →
            pre = []))) := by
  subst hdone
  obtain ⟨items, total, hdes, _, _, _, _, _, _, _, hdone2, _, _, htriple⟩ :=
    add_chunks_and_keep_order_accepted env r q request (some (some c)) hc hrem hok
  have htk : takes_closure r items (some (some c)) total = true := by
    cases ht : takes_closure r items (some (some c)) total
    · rw [ht] at hdone2
      rw [hdone2] at htake
      simp at htake
    · rfl
  have hne : items ≠ [] := by
    intro h
    rw [h] at htk
    simp [takes_closure] at htk
  have hsplit : items = items.dropLast ++ [items.getLast hne] :=
    (List.dropLast_append_getLast hne).symm
  obtain ⟨_, _, hclo, _, _⟩ := deserialize_chunks_spec env _ _ _ _ hdes
  have hchunks := deserialize_chunks_request_chunks env _ request items total hdes
  have hbatch : keep_order_batch r items (some (some c)) total =
      items.dropLast ++ [{ items.getLast hne with closure := some c }] := by
    unfold keep_order_batch
    rw [if_pos htk]
    show set_back_closure items (some c) = _
    conv_lhs => rw [hsplit]
    exact set_back_closure_append_singleton _ _ _
  simp only [Prod.mk.injEq] at htriple
  obtain ⟨hready, _, hpend⟩ := htriple
  have hpend2 : (mfind (add_chunks_and_keep_order env r q request (some (some c))).queue._buffered_chunk_queues
      request.be_number).getD [] =
      (drain_loop
        (minsert ((mfind q._buffered_chunk_queues request.be_number).getD [])
          (toInt32 request.sequence) (keep_order_batch r items (some (some c)) total)).length
        (minsert ((mfind q._buffered_chunk_queues request.be_number).getD [])
          (toInt32 request.sequence) (keep_order_batch r items (some (some c)) total))
        ((mfind q._max_processed_sequences request.be_number).getD (-1)) q._chunk_queue).1 := by
    rw [hpend]; rfl
  obtain ⟨j, _, hj2, hj3, hj4, hj5⟩ := drain_loop_spec
    (minsert ((mfind q._buffered_chunk_queues request.be_number).getD [])
      (toInt32 request.sequence) (keep_order_batch r items (some (some c)) total)).length
    (minsert ((mfind q._buffered_chunk_queues request.be_number).getD [])
      (toInt32 request.sequence) (keep_order_batch r items (some (some c)) total))
    ((mfind q._max_processed_sequences request.be_number).getD (-1)) q._chunk_queue (le_refl _)
  refine ⟨items.dropLast, items.getLast hne,
    fun i hi => hclo i (List.mem_of_mem_dropLast hi), ?_, ?_⟩
  · rw [← hsplit]; exact hchunks
  · rw [hready, hpend2, hj5, hj4 (toInt32 request.sequence), mfind_minsert_same, hbatch]
    by_cases hin : (mfind q._max_processed_sequences request.be_number).getD (-1)
        < toInt32 request.sequence ∧ toInt32 request.sequence
        ≤ (mfind q._max_processed_sequences request.be_number).getD (-1) + (j : Int)
    · left
      have hi0 : (toInt32 request.sequence
          - (mfind q._max_processed_sequences request.be_number).getD (-1) - 1).toNat < j := by
        omega
      have hkey : (mfind q._max_processed_sequences request.be_number).getD (-1) + 1 +
          (((toInt32 request.sequence
            - (mfind q._max_processed_sequences request.be_number).getD (-1) - 1).toNat : Nat) : Int)
          = toInt32 request.sequence := by
        omega
      obtain ⟨post, hp⟩ := drained_batches_split
        (minsert ((mfind q._buffered_chunk_queues request.be_number).getD [])
          (toInt32 request.sequence) (keep_order_batch r items (some (some c)) total))
        ((mfind q._max_processed_sequences request.be_number).getD (-1)) _ j hi0
      rw [hkey, mfind_minsert_same, hbatch] at hp
      simp only [Option.getD_some] at hp
      refine ⟨drained_batches
        (minsert ((mfind q._buffered_chunk_queues request.be_number).getD [])
          (toInt32 request.sequence)
          (items.dropLast ++ [{ items.getLast hne with closure := some c }]))
        ((mfind q._max_processed_sequences request.be_number).getD (-1))
        (toInt32 request.sequence
          - (mfind q._max_processed_sequences request.be_number).getD (-1) - 1).toNat,
        post, ?_, if_pos hin, ?_⟩
      · rw [hp]
        simp only [List.append_assoc]
      · intro hfirst
        have : (toInt32 request.sequence
            - (mfind q._max_processed_sequences request.be_number).getD (-1) - 1).toNat = 0 := by
          omega
        rw [this]
        rfl
    · right
      refine ⟨_, rfl, if_neg hin, ?_, ?_⟩
      · intro hfirst
        cases j with
        | zero =>
          simp only [Nat.cast_zero, add_zero] at hj3
          rw [← hfirst, mfind_minsert_same] at hj3
          simp at hj3
        | succ j => exact hin ⟨by omega, by push_cast; omega⟩
      · intro hmiss
        cases j with
        | zero => rfl
        | succ j =>
          exfalso
          have h0 := hj2 0 (by omega)
          have hk : toInt32 request.sequence ≠
              (mfind q._max_processed_sequences request.be_number).getD (-1) + 1 := by
            intro hfirst
            exact hin ⟨by omega, by push_cast; omega⟩
          simp only [Nat.cast_zero, add_zero] at h0
          rw [mfind_minsert_other _ _ _ _ hk, hmiss] at h0
          simp at h0

/-- Witness of C29 as amended: sequence `1` arrives over the limit with the closure
`4` while sequence `0` is missing. -/
theorem keep_order_ack_on_own_last_item_witness :
    (add_chunks_and_keep_order plain_env (Run.fresh 0 one_slot_desc 1).recvr (SenderQueue.new 1)
      (mk_request 7 1 [plain_chunk [1, 2]]) (some (some 4))).done = some none ∧
    ∃ (front : ChunkQueue) (last : ChunkItem),
      (∀ i ∈ front, i.closure = none) ∧
      (front ++ [last]).map (fun i => i.chunk_ptr) = [⟨[1, 2]⟩] := by
  refine ⟨by decide, ?_⟩
  obtain ⟨front, last, h1, h2, _⟩ := keep_order_ack_on_own_last_item plain_env
    (Run.fresh 0 one_slot_desc 1).recvr (SenderQueue.new 1)
    (mk_request 7 1 [plain_chunk [1, 2]]) (some (some 4)) 4
    (by decide) (by decide) (by decide) rfl (by decide)
  exact ⟨front, last, h1, by rw [h2]; decide⟩

/-! ## BinaryPlainPage: layout of the page -/

theorem put_fixed32_le_eq (buf : List Nat) (val : Nat) :
    put_fixed32_le buf val = buf ++ put_fixed32_le [] val := by
  simp [put_fixed32_le]

theorem put_fixed32_le_length (val : Nat) : (put_fixed32_le [] val).length = 4 := by
  simp [put_fixed32_le]

theorem put_offsets_eq (offsets : List Nat) :
    ∀ buf : List Nat,
      put_offsets buf offsets = buf ++ offsets.flatMap (fun v => put_fixed32_le [] v) := by
  induction offsets with
  | nil => intro buf; simp [put_offsets]
  | cons v rest ih =>
    intro buf
    have := ih (put_fixed32_le buf v)
    unfold put_offsets at this ⊢
    rw [List.foldl_cons, this, put_fixed32_le_eq buf v]
    simp

theorem decode_put_fixed32_le (val : Nat) (rest : List Nat) :
    decode_fixed32_le (put_fixed32_le [] val ++ rest) = val % 4294967296 := by
  simp only [put_fixed32_le, decode_fixed32_le, List.nil_append, List.cons_append,
    List.getD_cons_zero, List.getD_cons_succ]
  omega

theorem flatMap_put_length (offsets : List Nat) :
    (offsets.flatMap (fun v => put_fixed32_le [] v)).length = 4 * offsets.length := by
  induction offsets with
  | nil => simp
  | cons v rest ih =>
    rw [List.flatMap_cons, List.length_append, ih, put_fixed32_le_length, List.length_cons]
    omega

theorem offsets_from_length : ∀ (strings : List (List Nat)) (start : Nat),
    (offsets_from start strings).length = strings.length := by
  intro strings
  induction strings with
  | nil => intro start; rfl
  | cons s rest ih => intro start; simp [offsets_from, ih]

theorem length_before_zero (strings : List (List Nat)) : length_before strings 0 = 0 := by
  simp [length_before]

theorem length_before_cons_succ (s : List Nat) (rest : List (List Nat)) (i : Nat) :
    length_before (s :: rest) (i + 1) = s.length + length_before rest i := by
  simp [length_before]

theorem length_before_all (strings : List (List Nat)) :
    length_before strings strings.length = strings.flatten.length := by
  induction strings with
  | nil => rfl
  | cons s rest ih =>
    rw [List.length_cons, length_before_cons_succ, ih]
    simp

theorem length_before_mono (strings : List (List Nat)) :
    ∀ i : Nat, length_before strings i ≤ length_before strings strings.length := by
  induction strings with
  | nil => intro i; simp [length_before]
  | cons s rest ih =>
    intro i
    cases i with
    | zero => rw [length_before_zero]; omega
    | succ i =>
      rw [List.length_cons, length_before_cons_succ, length_before_cons_succ]
      have := ih i
      omega

theorem length_before_succ (strings : List (List Nat)) :
    ∀ i : Nat, i < strings.length →
      length_before strings (i + 1) = length_before strings i + (strings.getD i []).length := by
  induction strings with
  | nil => intro i h; simp at h
  | cons s rest ih =>
    intro i h
    cases i with
    | zero => simp [length_before]
    | succ i =>
      rw [length_before_cons_succ, length_before_cons_succ, ih i (by simpa using h)]
      simp only [List.getD_cons_succ]
      omega

/-- What `add` leaves when every slice is added: the strings appended to the
buffer, their offsets appended to `_offsets`, the sum of their lengths added to
`_next_offset`. -/
theorem BinaryPlainPageBuilder.add_spec : ∀ (strings : List (List Nat))
    (b : BinaryPlainPageBuilder), (b.add strings).1 = strings.length →
    (b.add strings).2._buffer = b._buffer ++ strings.flatten ∧
    (b.add strings).2._offsets = b._offsets ++ offsets_from b._next_offset strings ∧
    (b.add strings).2._next_offset =
      (if strings = [] then b._next_offset
       else (b._next_offset + strings.flatten.length) % 18446744073709551616) ∧
    (b.add strings).2._reserved_head_size = b._reserved_head_size := by
  intro strings
  induction strings with
  | nil => intro b _; simp [BinaryPlainPageBuilder.add, offsets_from]
  | cons s rest ih =>
    intro b h
    unfold BinaryPlainPageBuilder.add at h ⊢
    cases hfull : b.is_page_full
    · have hs : b.add_slice s = (true,
          { b with
            _offsets := b._offsets ++ [b._next_offset % 4294967296],
            _buffer := b._buffer ++ s,
            _next_offset := (b._next_offset + s.length) % 18446744073709551616,
            _size_estimate :=
              ((b._size_estimate + s.length) % 18446744073709551616 + 4)
                % 18446744073709551616 }) := by
        simp [BinaryPlainPageBuilder.add_slice, hfull]
      rw [hs] at h ⊢
      simp only [List.length_cons, Nat.add_right_cancel_iff] at h
      obtain ⟨h1, h2, h3, h4⟩ := ih _ h
      simp only
      refine ⟨?_, ?_, ?_, ?_⟩
      · rw [h1]; simp
      · rw [h2]; simp [offsets_from]
      · rw [h3]
        simp only [reduceCtorEq, if_false, List.flatten_cons, List.length_append]
        split
        · rename_i hr
          subst hr
          simp
        · omega
      · rw [h4]
    · have hs : b.add_slice s = (false, b) := by
        simp [BinaryPlainPageBuilder.add_slice, hfull]
      rw [hs] at h
      simp at h

/-- Without wrap-around the offsets are the sums of the lengths of the strings
before. -/
theorem offsets_from_eq : ∀ (strings : List (List Nat)) (start : Nat),
    start + strings.flatten.length < 4294967296 →
    offsets_from start strings =
      (List.range strings.length).map (fun i => start + length_before strings i) := by
  intro strings
  induction strings with
  | nil => intro start _; rfl
  | cons s rest ih =>
    intro start h
    simp only [List.flatten_cons, List.length_append] at h
    rw [offsets_from, List.length_cons, List.range_succ_eq_map, List.map_cons, List.map_map]
    have h1 : start % 4294967296 = start := Nat.mod_eq_of_lt (by omega)
    have h2 : (start + s.length) % 18446744073709551616 = start + s.length :=
      Nat.mod_eq_of_lt (by omega)
    rw [h1, h2, ih (start + s.length) (by omega), length_before_zero]
    refine congrArg₂ _ rfl ?_
    apply List.map_congr_left
    intro i _
    simp only [Function.comp, length_before_cons_succ]
    omega

theorem BinaryPlainPageBuilder.finish_buffer (b : BinaryPlainPageBuilder) :
    b.finish._buffer =
      put_fixed32_le (put_offsets b._buffer b._offsets) (b._offsets.length % 4294967296) := by
  unfold BinaryPlainPageBuilder.finish
  simp only
  split <;> rfl

/-- The page `finish` returns when every string was added to a new builder: the
reserved head, the strings, the stored offsets and the stored count. -/
theorem build_page_layout (options : PageBuilderOptions) (head_size : Nat)
    (strings : List (List Nat)) (b : BinaryPlainPageBuilder)
    (h : build_page options head_size strings = some (strings.length, b)) :
    b._buffer = List.replicate (head_size % 256) 0 ++ strings.flatten ++
      (offsets_from 0 strings).flatMap (fun v => put_fixed32_le [] v) ++
      put_fixed32_le [] (strings.length % 4294967296) := by
  unfold build_page at h
  have hr : (BinaryPlainPageBuilder.new options).reserve_head head_size =
      some { BinaryPlainPageBuilder.new options with
        _reserved_head_size := head_size % 256,
        _buffer := List.replicate (head_size % 256) 0 } := by
    simp [BinaryPlainPageBuilder.reserve_head, BinaryPlainPageBuilder.new,
      BinaryPlainPageBuilder.reset, vresize]
  rw [hr] at h
  simp only [Option.some.injEq, Prod.mk.injEq] at h
  obtain ⟨hcount, hb⟩ := h
  obtain ⟨h1, h2, _, _⟩ := BinaryPlainPageBuilder.add_spec strings _ hcount
  rw [← hb, BinaryPlainPageBuilder.finish_buffer]
  rw [put_fixed32_le_eq, put_offsets_eq, h1, h2]
  simp [BinaryPlainPageBuilder.new, BinaryPlainPageBuilder.reset, offsets_from_length]

theorem BinaryPlainPageBuilder.add_unlimited : ∀ (strings : List (List Nat))
    (b : BinaryPlainPageBuilder), b._options.data_page_size = 0 →
    (b.add strings).1 = strings.length := by
  intro strings
  induction strings with
  | nil => intro b _; rfl
  | cons s rest ih =>
    intro b h
    unfold BinaryPlainPageBuilder.add
    have hs : b.add_slice s = (true,
        { b with
          _offsets := b._offsets ++ [b._next_offset % 4294967296],
          _buffer := b._buffer ++ s,
          _next_offset := (b._next_offset + s.length) % 18446744073709551616,
          _size_estimate :=
            ((b._size_estimate + s.length) % 18446744073709551616 + 4)
              % 18446744073709551616 }) := by
      simp [BinaryPlainPageBuilder.add_slice, BinaryPlainPageBuilder.is_page_full, h]
    rw [hs]
    simp only [List.length_cons, Nat.add_right_cancel_iff]
    exact ih _ h

theorem build_page_unlimited (head_size : Nat) (strings : List (List Nat)) :
    ∃ b, build_page ⟨0⟩ head_size strings = some (strings.length, b) := by
  unfold build_page
  have hr : (BinaryPlainPageBuilder.new ⟨0⟩).reserve_head head_size =
      some { BinaryPlainPageBuilder.new ⟨0⟩ with
        _reserved_head_size := head_size % 256,
        _buffer := List.replicate (head_size % 256) 0 } := by
    simp [BinaryPlainPageBuilder.reserve_head, BinaryPlainPageBuilder.new,
      BinaryPlainPageBuilder.reset, vresize]
  rw [hr]
  simp only
  rw [BinaryPlainPageBuilder.add_unlimited strings _ rfl]
  exact ⟨_, rfl⟩

theorem drop_put_fixed32_le (val : Nat) (rest : List Nat) :
    (put_fixed32_le [] val ++ rest).drop 4 = rest := by
  simp [put_fixed32_le]

/-- The second offset of a page of two strings whose first string has a length
that is a multiple of `2^32`. -/
theorem second_offset_wraps (N : Nat) (hN : N % 4294967296 = 0) :
    (build_page ⟨0⟩ 0 [List.replicate N 0, []]).map
      (fun p => (p.1, decode_fixed32_le (p.2._buffer.drop (0 + N + 4 * 1)))) = some (2, 0) ∧
    length_before [List.replicate N 0, []] 1 = N := by
  constructor
  · obtain ⟨b, hb⟩ := build_page_unlimited 0 [List.replicate N 0, []]
    have hl := build_page_layout _ _ _ _ hb
    rw [hb]
    simp only [Option.map_some', List.length_cons, List.length_nil]
    rw [hl]
    have hbuf : List.replicate (0 % 256) 0 ++ [List.replicate N 0, []].flatten ++
        (offsets_from 0 [List.replicate N 0, []]).flatMap (fun v => put_fixed32_le [] v) ++
        put_fixed32_le [] ([List.replicate N 0, ([] : List Nat)].length % 4294967296) =
        List.replicate N 0 ++ (put_fixed32_le [] (0 % 4294967296) ++
          (put_fixed32_le []
            ((0 + (List.replicate N 0).length) % 18446744073709551616 % 4294967296) ++
            put_fixed32_le [] 2)) := by
      simp [offsets_from, List.flatMap]
    rw [hbuf]
    have hdrop : ∀ rest : List Nat,
        (List.replicate N 0 ++ rest).drop (0 + N + 4 * 1) = rest.drop 4 := by
      intro rest
      have := @List.drop_append Nat (List.replicate N 0) rest 4
      rw [List.length_replicate] at this
      rw [← this]
      congr 1
      omega
    rw [hdrop, drop_put_fixed32_le, decode_put_fixed32_le, List.length_replicate]
    congr 1
    congr 1
    omega
  · simp [length_before]

/-- Counterexample to C27 as stated: a first string of `2^32` bytes and an empty
second string, both added to a new builder without page limit.  The second
offset of the trailer, the four bytes at position `2^32 + 4`, is `0`; the sum of
the lengths before the second string is `4294967296`. -/
theorem page_offset_wraps_at_4gib :
    (build_page ⟨0⟩ 0 [List.replicate 4294967296 0, []]).map
      (fun p => (p.1, decode_fixed32_le (p.2._buffer.drop (0 + 4294967296 + 4 * 1)))) =
      some (2, 0) ∧
    length_before [List.replicate 4294967296 0, []] 1 = 4294967296 :=
  second_offset_wraps 4294967296 (by norm_num)

/-! ## BinaryPlainPage: reading the page back -/

theorem flatten_slice : ∀ (strings : List (List Nat)) (i : Nat) (rest : List Nat),
    i < strings.length →
    ((strings.flatten ++ rest).drop (length_before strings i)).take (strings.getD i []).length
      = strings.getD i [] := by
  intro strings
  induction strings with
  | nil => intro i rest h; simp at h
  | cons s ss ih =>
    intro i rest h
    cases i with
    | zero =>
      rw [length_before_zero, List.drop_zero, List.flatten_cons, List.append_assoc]
      simp only [List.getD_cons_zero]
      exact List.take_left' rfl
    | succ i =>
      rw [length_before_cons_succ, List.flatten_cons, List.append_assoc, List.drop_append]
      simp only [List.getD_cons_succ]
      exact ih i rest (by simpa using h)

theorem decode_flatMap_drop : ∀ (offs : List Nat) (i : Nat) (rest : List Nat),
    i < offs.length →
    decode_fixed32_le ((offs.flatMap (fun v => put_fixed32_le [] v) ++ rest).drop (4 * i))
      = offs.getD i 0 % 4294967296 := by
  intro offs
  induction offs with
  | nil => intro i rest h; simp at h
  | cons v vs ih =>
    intro i rest h
    cases i with
    | zero =>
      rw [List.flatMap_cons, Nat.mul_zero, List.drop_zero, List.append_assoc,
        decode_put_fixed32_le]
      rfl
    | succ i =>
      rw [List.flatMap_cons, List.append_assoc]
      have h4 : 4 * (i + 1) = (put_fixed32_le [] v).length + 4 * i := by
        rw [put_fixed32_le_length]; omega
      rw [h4, List.drop_append]
      simp only [List.getD_cons_succ]
      exact ih i rest (by simpa using h)

/-- The decoder `init` leaves on a page made of `F.length` bytes of strings, the
offsets `offs` and their count. -/
theorem BinaryPlainPageDecoder.init_of_layout (F offs : List Nat)
    (hn : offs.length + 1 < 4294967296) (hT : F.length < 4294967296) :
    (BinaryPlainPageDecoder.new
      (F ++ offs.flatMap (fun v => put_fixed32_le [] v) ++ put_fixed32_le [] offs.length)).init =
    (Status.OK,
      { _data := F ++ offs.flatMap (fun v => put_fixed32_le [] v) ++ put_fixed32_le [] offs.length,
        _parsed := true, _num_elems := offs.length, _offsets_pos := F.length, _cur_idx := 0 }) := by
  have hlen : (F ++ offs.flatMap (fun v => put_fixed32_le [] v) ++
      put_fixed32_le [] offs.length).length = F.length + 4 * offs.length + 4 := by
    rw [List.length_append, List.length_append, flatMap_put_length, put_fixed32_le_length]
  have hdrop : (F ++ offs.flatMap (fun v => put_fixed32_le [] v) ++
      put_fixed32_le [] offs.length).drop (F.length + 4 * offs.length + 4 - 4) =
      put_fixed32_le [] offs.length := by
    have := @List.drop_append Nat (F ++ offs.flatMap (fun v => put_fixed32_le [] v))
      (put_fixed32_le [] offs.length) 0
    rw [List.length_append, flatMap_put_length, Nat.add_zero, List.drop_zero] at this
    rw [Nat.add_sub_cancel]
    exact this
  have hdec : decode_fixed32_le (put_fixed32_le [] offs.length) = offs.length := by
    have := decode_put_fixed32_le offs.length []
    rw [List.append_nil] at this
    rw [this]
    exact Nat.mod_eq_of_lt (by omega)
  unfold BinaryPlainPageDecoder.init BinaryPlainPageDecoder.new
  simp only [Bool.false_eq_true, if_false]
  rw [hlen, if_neg (by omega), hdrop, hdec]
  congr 2
  omega

theorem BinaryPlainPageDecoder.offset_uncheck_of_layout (F offs : List Nat) (cur i : Nat)
    (hi : i < offs.length) (hpos : F.length + 4 * i < 4294967296) :
    BinaryPlainPageDecoder.offset_uncheck
      { _data := F ++ offs.flatMap (fun v => put_fixed32_le [] v) ++ put_fixed32_le [] offs.length,
        _parsed := true, _num_elems := offs.length, _offsets_pos := F.length, _cur_idx := cur }
      (i : Int) = offs.getD i 0 % 4294967296 := by
  unfold BinaryPlainPageDecoder.offset_uncheck
  simp only
  have hp : (((F.length : Int) + (i : Int) * 4) % 18446744073709551616 % 4294967296).toNat
      = F.length + 4 * i := by
    omega
  rw [hp, List.append_assoc, List.drop_append]
  exact decode_flatMap_drop offs i _ hi

theorem offsets_from_getD (strings : List (List Nat)) (i : Nat)
    (h : strings.flatten.length < 4294967296) (hi : i < strings.length) :
    (offsets_from 0 strings).getD i 0 = length_before strings i := by
  rw [offsets_from_eq strings 0 (by omega)]
  rw [List.getD_eq_getElem?_getD, List.getElem?_map, List.getElem?_range hi]
  simp

theorem init_page_bytes (strings : List (List Nat))
    (hbound : strings.flatten.length + 4 * strings.length < 4294967296 + 4) :
    (BinaryPlainPageDecoder.new (page_bytes strings)).init =
      (Status.OK,
        parsed_decoder (page_bytes strings) strings.length strings.flatten.length 0) := by
  have hT : strings.flatten.length < 4294967296 := by
    cases strings with
    | nil => simp
    | cons s ss => simp only [List.length_cons] at hbound; omega
  have h := BinaryPlainPageDecoder.init_of_layout strings.flatten (offsets_from 0 strings)
    (by rw [offsets_from_length]; omega) hT
  unfold page_bytes parsed_decoder
  rw [h, offsets_from_length]

theorem offset_page_bytes (strings : List (List Nat)) (cur i : Nat)
    (hbound : strings.flatten.length + 4 * strings.length < 4294967296 + 4)
    (hi : i ≤ strings.length) :
    (parsed_decoder (page_bytes strings) strings.length strings.flatten.length cur).offset
      (i : Int) = length_before strings i := by
  have hT : strings.flatten.length < 4294967296 := by
    cases strings with
    | nil => simp
    | cons s ss => simp only [List.length_cons] at hbound; omega
  unfold BinaryPlainPageDecoder.offset
  have hidx : ((i : Int) % 4294967296).toNat = i := by omega
  rw [hidx]
  by_cases hlt : i < strings.length
  · rw [if_neg (by simp [parsed_decoder]; omega)]
    have h := BinaryPlainPageDecoder.offset_uncheck_of_layout strings.flatten
      (offsets_from 0 strings) cur i (by rw [offsets_from_length]; exact hlt) (by omega)
    rw [offsets_from_getD strings i hT hlt] at h
    have hle := length_before_mono strings i
    rw [length_before_all] at hle
    rw [Nat.mod_eq_of_lt (by omega)] at h
    rw [← h]
    unfold page_bytes parsed_decoder
    rw [offsets_from_length]
  · have : i = strings.length := by omega
    rw [if_pos (by simp [parsed_decoder]; omega), this, length_before_all]
    rfl

theorem string_at_index_page_bytes (strings : List (List Nat)) (cur i : Nat)
    (hbound : strings.flatten.length + 4 * strings.length < 4294967296 + 4)
    (hi : i < strings.length) :
    (parsed_decoder (page_bytes strings) strings.length strings.flatten.length cur).string_at_index
      i = strings.getD i [] := by
  unfold BinaryPlainPageDecoder.string_at_index
  have h32 : toInt32 (i : Int) = (i : Int) := toInt32_of_int32 _ (by omega) (by omega)
  have hsucc : ((i : Int) + 1) = ((i + 1 : Nat) : Int) := by push_cast; rfl
  simp only
  rw [h32, hsucc, offset_page_bytes strings cur i hbound (by omega),
    offset_page_bytes strings cur (i + 1) hbound (by omega), length_before_succ strings i hi]
  have hle := length_before_mono strings (i + 1)
  rw [length_before_all, length_before_succ strings i hi] at hle
  have hlen : (length_before strings i + (strings.getD i []).length + 4294967296 -
      length_before strings i) % 4294967296 = (strings.getD i []).length := by
    omega
  rw [hlen]
  have hdata : (parsed_decoder (page_bytes strings) strings.length strings.flatten.length
      cur)._data = strings.flatten ++
        ((offsets_from 0 strings).flatMap (fun v => put_fixed32_le [] v) ++
          put_fixed32_le [] (offsets_from 0 strings).length) := by
    simp [parsed_decoder, page_bytes]
  rw [hdata]
  exact flatten_slice strings i _ hi

theorem copy_loop_page_bytes (strings : List (List Nat)) (pool_allocate : Nat → Bool)
    (n max_fetch : Nat)
    (hbound : strings.flatten.length + 4 * strings.length < 4294967296 + 4)
    (hpool : ∀ size, pool_allocate size = true) :
    ∀ (fetch i : Nat) (out : List (List Nat)), i + fetch = strings.length →
      BinaryPlainPageDecoder.copy_loop pool_allocate n max_fetch fetch
        (parsed_decoder (page_bytes strings) strings.length strings.flatten.length i) out =
      { status := Status.OK, n := max_fetch, out := out ++ strings.drop i,
        decoder :=
          parsed_decoder (page_bytes strings) strings.length strings.flatten.length
            strings.length } := by
  intro fetch
  induction fetch with
  | zero =>
    intro i out h
    have : i = strings.length := by omega
    subst this
    simp [BinaryPlainPageDecoder.copy_loop]
  | succ fetch ih =>
    intro i out h
    unfold BinaryPlainPageDecoder.copy_loop
    have hcur : (parsed_decoder (page_bytes strings) strings.length strings.flatten.length
        i)._cur_idx = i := rfl
    simp only
    rw [hcur, string_at_index_page_bytes strings i i hbound (by omega),
      if_neg (by simp [hpool])]
    have hnext : (i + 1) % 4294967296 = i + 1 := Nat.mod_eq_of_lt (by omega)
    have hd : ({ parsed_decoder (page_bytes strings) strings.length strings.flatten.length i with
        _cur_idx := (i + 1) % 4294967296 } : BinaryPlainPageDecoder) =
        parsed_decoder (page_bytes strings) strings.length strings.flatten.length (i + 1) := by
      rw [hnext]; rfl
    rw [hd, ih (i + 1) _ (by omega)]
    have hdrop : strings.drop i = strings.getD i [] :: strings.drop (i + 1) := by
      have hi : i < strings.length := by omega
      rw [List.drop_eq_getElem_cons hi]
      simp [List.getD_eq_getElem?_getD, List.getElem?_eq_getElem hi]
    rw [hdrop]
    simp

theorem build_page_bytes (options : PageBuilderOptions) (strings : List (List Nat))
    (b : BinaryPlainPageBuilder) (hn : strings.length < 4294967296)
    (hb : build_page options 0 strings = some (strings.length, b)) :
    b._buffer = page_bytes strings := by
  rw [build_page_layout _ _ _ _ hb, Nat.mod_eq_of_lt hn]
  simp [page_bytes, offsets_from_length]

/-- Claim C26 as amended (round trip of the page): for every list of byte
strings all added to a new builder without reserved head, such that every
offset of the trailer lies at a position below `2^32` (total length plus
`4 · (n - 1)` below `2^32`), a decoder over the bytes `finish` returns
initialises with OK at position `0`, reports `count() = n`, returns `s_i` from
`string_at_index(i)` for every `i < n`, and, the allocations of the pool
succeeding, `next_batch` asked for `n` elements returns OK, `n` and exactly
`s_0, …, s_{n-1}` in order. -/
theorem binary_plain_page_round_trip (options : PageBuilderOptions)
    (strings : List (List Nat)) (b : BinaryPlainPageBuilder) (pool_allocate : Nat → Bool)
    (hb : build_page options 0 strings = some (strings.length, b))
    (hbound : strings.flatten.length + 4 * strings.length < 4294967296 + 4)
    (hpool : ∀ size, pool_allocate size = true) :
    (BinaryPlainPageDecoder.new b._buffer).init.1 = Status.OK ∧
    (BinaryPlainPageDecoder.new b._buffer).init.2.current_index = 0 ∧
    (BinaryPlainPageDecoder.new b._buffer).init.2.count = strings.length ∧
    (∀ i, i < strings.length →
      (BinaryPlainPageDecoder.new b._buffer).init.2.string_at_index i = strings.getD i []) ∧
    ((BinaryPlainPageDecoder.new b._buffer).init.2.next_batch pool_allocate
      strings.length).status = Status.OK ∧
    ((BinaryPlainPageDecoder.new b._buffer).init.2.next_batch pool_allocate
      strings.length).n = strings.length ∧
    ((BinaryPlainPageDecoder.new b._buffer).init.2.next_batch pool_allocate
      strings.length).out = strings := by
  have hn : strings.length < 4294967296 := by omega
  rw [build_page_bytes options strings b hn hb, init_page_bytes strings hbound]
  refine ⟨rfl, rfl, rfl, fun i hi => string_at_index_page_bytes strings 0 i hbound hi, ?_⟩
  simp only
  unfold BinaryPlainPageDecoder.next_batch
  by_cases h0 : strings.length = 0
  · have hs : strings = [] := List.length_eq_zero.1 h0
    subst hs
    simp
  · have hcond : ¬ (strings.length = 0 ∨
        (parsed_decoder (page_bytes strings) strings.length strings.flatten.length 0)._cur_idx ≥
        (parsed_decoder (page_bytes strings) strings.length strings.flatten.length
          0)._num_elems) := by
      simp only [parsed_decoder]
      omega
    rw [if_neg hcond]
    have hmin : min strings.length
        ((parsed_decoder (page_bytes strings) strings.length strings.flatten.length
          0)._num_elems -
        (parsed_decoder (page_bytes strings) strings.length strings.flatten.length 0)._cur_idx)
        = strings.length := by
      simp [parsed_decoder]
    simp only
    rw [hmin, copy_loop_page_bytes strings pool_allocate _ _ hbound hpool strings.length 0 []
      (by omega)]
    simp

/-- Witness of C26 as amended: three strings, one of them empty. -/
theorem binary_plain_page_round_trip_witness :
    (build_page ⟨0⟩ 0 [[1, 2, 3], [], [9, 9]]).map
      (fun p => ((BinaryPlainPageDecoder.new p.2._buffer).init.2.next_batch pool_ok 3).out) =
      some [[1, 2, 3], [], [9, 9]] := by
  obtain ⟨b, hb⟩ := build_page_unlimited 0 [[1, 2, 3], [], [9, 9]]
  have h := (binary_plain_page_round_trip ⟨0⟩ [[1, 2, 3], [], [9, 9]] b pool_ok hb
    (by decide) (fun _ => rfl)).2.2.2.2.2.2
  rw [hb, Option.map_some']
  exact congrArg some h

theorem decode_zeros (M : Nat) (rest : List Nat) (h : 4 ≤ M) :
    decode_fixed32_le (List.replicate M 0 ++ rest) = 0 := by
  obtain ⟨k, rfl⟩ : ∃ k, M = k + 4 := ⟨M - 4, by omega⟩
  simp [List.replicate_succ, decode_fixed32_le]

/-- A page of two strings, the first of `N` zero bytes with `2^32 - 5 ≤ N` and
`N + 1 < 2^32`: the position of the second offset wraps around `2^32`, and
`string_at_index(0)` is empty. -/
theorem first_string_lost (N : Nat) (h1 : 4294967291 ≤ N) (h2 : N + 1 < 4294967296) :
    (build_page ⟨0⟩ 0 [List.replicate N 0, [7]]).map
      (fun p => (p.1, (BinaryPlainPageDecoder.new p.2._buffer).init.1,
        (BinaryPlainPageDecoder.new p.2._buffer).init.2.count,
        (BinaryPlainPageDecoder.new p.2._buffer).init.2.string_at_index 0)) =
      some (2, Status.OK, 2, []) ∧
    [List.replicate N 0, [7]].flatten.length = N + 1 ∧
    ([List.replicate N 0, [7]].getD 0 []).length = N := by
  refine ⟨?_, by simp, by simp⟩
  obtain ⟨b, hb⟩ := build_page_unlimited 0 [List.replicate N 0, [7]]
  have hbuf := build_page_bytes ⟨0⟩ _ b (by simp) hb
  rw [hb]
  simp only [Option.map_some', List.length_cons, List.length_nil]
  rw [hbuf]
  have hoffs : offsets_from 0 [List.replicate N 0, [7]] = [0, N] := by
    simp only [offsets_from, List.length_replicate]
    have e1 : (0 + N) % 18446744073709551616 % 4294967296 = N := by omega
    rw [e1]
  have hpage : page_bytes [List.replicate N 0, [7]] =
      (List.replicate N 0 ++ [7]) ++ [0, N].flatMap (fun v => put_fixed32_le [] v) ++
        put_fixed32_le [] [0, N].length := by
    unfold page_bytes
    rw [hoffs]
    simp
  have hF : (List.replicate N 0 ++ [7]).length = N + 1 := by simp
  have hinit := BinaryPlainPageDecoder.init_of_layout (List.replicate N 0 ++ [7]) [0, N]
    (by simp) (by rw [hF]; exact h2)
  rw [hpage, hinit]
  have ho0 := BinaryPlainPageDecoder.offset_uncheck_of_layout (List.replicate N 0 ++ [7]) [0, N]
    0 0 (by simp) (by rw [hF]; omega)
  have ho1 : BinaryPlainPageDecoder.offset_uncheck
      { _data := (List.replicate N 0 ++ [7]) ++ [0, N].flatMap (fun v => put_fixed32_le [] v) ++
          put_fixed32_le [] [0, N].length,
        _parsed := true, _num_elems := [0, N].length,
        _offsets_pos := (List.replicate N 0 ++ [7]).length, _cur_idx := 0 } 1 = 0 := by
    unfold BinaryPlainPageDecoder.offset_uncheck
    simp only
    rw [hF]
    have hp : ((((N + 1 : Nat) : Int) + 1 * 4) % 18446744073709551616 % 4294967296).toNat
        = N + 5 - 4294967296 := by
      omega
    rw [hp, List.append_assoc, List.append_assoc,
      List.drop_append_of_le_length (by rw [List.length_replicate]; omega),
      List.drop_replicate]
    exact decode_zeros _ _ (by omega)
  have hs : BinaryPlainPageDecoder.string_at_index
      { _data := (List.replicate N 0 ++ [7]) ++ [0, N].flatMap (fun v => put_fixed32_le [] v) ++
          put_fixed32_le [] [0, N].length,
        _parsed := true, _num_elems := [0, N].length,
        _offsets_pos := (List.replicate N 0 ++ [7]).length, _cur_idx := 0 } 0 = [] := by
    unfold BinaryPlainPageDecoder.string_at_index BinaryPlainPageDecoder.offset
    have t0 : toInt32 ((0 : Nat) : Int) = 0 := by decide
    rw [t0]
    simp only [Int.zero_add]
    have c0 : ¬ (((0 : Int) % 4294967296).toNat ≥ [0, N].length) := by simp
    have c1 : ¬ (((1 : Int) % 4294967296).toNat ≥ [0, N].length) := by
      simp only [List.length_cons, List.length_nil]
      omega
    rw [if_neg c0, if_neg c1]
    have ho0' := ho0
    simp only [Nat.cast_zero] at ho0'
    rw [ho0', ho1]
    simp
  rw [hs]
  rfl

/-- Counterexample to C26 as stated: two strings of total length `2^32 - 3`, below
`2^32`, both added to a new builder without page limit: `2^32 - 4` zero bytes
and a one-byte string.  The decoder initialises with OK and counts two
elements, but the second offset lies at the position `2^32 + 1`, which wraps to
`1`, and `string_at_index(0)` is the empty string, not the first string. -/
theorem page_round_trip_fails_below_4gib :
    (build_page ⟨0⟩ 0 [List.replicate 4294967292 0, [7]]).map
      (fun p => (p.1, (BinaryPlainPageDecoder.new p.2._buffer).init.1,
        (BinaryPlainPageDecoder.new p.2._buffer).init.2.count,
        (BinaryPlainPageDecoder.new p.2._buffer).init.2.string_at_index 0)) =
      some (2, Status.OK, 2, []) ∧
    [List.replicate 4294967292 0, [7]].flatten.length = 4294967292 + 1 ∧
    ([List.replicate 4294967292 0, [7]].getD 0 []).length = 4294967292 :=
  first_string_lost 4294967292 (by norm_num) (by norm_num)

/-! ## Hash partitioning: the counting layout -/

theorem rows_of_channel_succ (K : Nat) (hash : List Nat) (c n : Nat) :
    rows_of_channel K hash c (n + 1) =
      rows_of_channel K hash c n ++ (if channel_of K hash n = c then [n] else []) := by
  unfold rows_of_channel
  rw [List.range_succ, List.filter_append]
  congr 1
  by_cases h : channel_of K hash n = c
  · simp [List.filter, h]
  · simp [List.filter, h]

theorem rows_of_channel_length_succ (K : Nat) (hash : List Nat) (c n : Nat) :
    (rows_of_channel K hash c (n + 1)).length =
      (rows_of_channel K hash c n).length + (if channel_of K hash n = c then 1 else 0) := by
  rw [rows_of_channel_succ, List.length_append]
  split <;> rfl

theorem rows_of_channel_length_mono (K : Nat) (hash : List Nat) (c n : Nat) :
    ∀ m : Nat, n ≤ m → (rows_of_channel K hash c n).length ≤ (rows_of_channel K hash c m).length := by
  intro m
  induction m with
  | zero => intro h; have : n = 0 := by omega
            subst this; exact le_refl _
  | succ m ih =>
    intro h
    by_cases hn : n = m + 1
    · subst hn; exact le_refl _
    · have := ih (by omega)
      rw [rows_of_channel_length_succ]
      omega

theorem sum_indicator (a : Nat) : ∀ K : Nat,
    ((List.range K).map (fun c => if a = c then 1 else 0)).sum = if a < K then 1 else 0 := by
  intro K
  induction K with
  | zero => simp
  | succ K ih =>
    rw [List.range_succ, List.map_append, List.sum_append, ih]
    simp only [List.map_cons, List.map_nil, List.sum_cons, List.sum_nil]
    split <;> split <;> split <;> omega

theorem channel_of_lt (K : Nat) (hash : List Nat) (row : Nat) (hK : 1 ≤ K) :
    channel_of K hash row < K := by
  unfold channel_of
  exact Nat.mod_lt _ (by omega)

theorem sum_map_add (f g : Nat → Nat) (l : List Nat) :
    (l.map (fun c => f c + g c)).sum = (l.map f).sum + (l.map g).sum := by
  induction l with
  | nil => rfl
  | cons a l ih =>
    simp only [List.map_cons, List.sum_cons, ih]
    omega

/-- Every row below `n` is a row of exactly one channel. -/
theorem rows_of_channel_total (K : Nat) (hash : List Nat) (hK : 1 ≤ K) :
    ∀ n : Nat, ((List.range K).map (fun c => (rows_of_channel K hash c n).length)).sum = n := by
  intro n
  induction n with
  | zero => simp [rows_of_channel]
  | succ n ih =>
    have : (fun c => (rows_of_channel K hash c (n + 1)).length) =
        (fun c => (rows_of_channel K hash c n).length +
          (if channel_of K hash n = c then 1 else 0)) := by
      funext c
      exact rows_of_channel_length_succ K hash c n
    rw [this, sum_map_add, ih, sum_indicator, if_pos (channel_of_lt K hash n hK)]

theorem channel_start_succ (K : Nat) (hash : List Nat) (c : Nat) :
    channel_start K hash (c + 1) =
      channel_start K hash c + (rows_of_channel K hash c hash.length).length := by
  unfold channel_start
  rw [List.range_succ, List.map_append, List.sum_append]
  simp

theorem channel_start_mono (K : Nat) (hash : List Nat) (c : Nat) :
    ∀ c2 : Nat, c ≤ c2 → channel_start K hash c ≤ channel_start K hash c2 := by
  intro c2
  induction c2 with
  | zero => intro h; have : c = 0 := by omega
            subst this; exact le_refl _
  | succ c2 ih =>
    intro h
    by_cases hc : c = c2 + 1
    · subst hc; exact le_refl _
    · have := ih (by omega)
      rw [channel_start_succ]
      omega

theorem channel_start_all (K : Nat) (hash : List Nat) (hK : 1 ≤ K) :
    channel_start K hash K = hash.length :=
  rows_of_channel_total K hash hK hash.length

theorem channel_start_zero (K : Nat) (hash : List Nat) : channel_start K hash 0 = 0 := by
  simp [channel_start]

theorem getD_map_range (K : Nat) (g : Nat → Nat) (c : Nat) (h : c < K) :
    ((List.range K).map g).getD c 0 = g c := by
  rw [List.getD_eq_getElem?_getD, List.getElem?_map, List.getElem?_range h]
  rfl

theorem bump_map_range (K : Nat) (g g2 : Nat → Nat) (c0 : Nat)
    (h1 : c0 < K → g2 c0 = (g c0 + 1) % 65536) (h2 : ∀ c, c ≠ c0 → g2 c = g c) :
    bump ((List.range K).map g) c0 = (List.range K).map g2 := by
  unfold bump
  apply List.ext_getElem?
  intro i
  rw [List.getElem?_set, List.getElem?_map, List.getElem?_map]
  by_cases hi : i < K
  · rw [List.getElem?_range hi]
    by_cases hc : c0 = i
    · subst hc
      rw [if_pos rfl, if_pos (by simpa using hi), getD_map_range K g c0 hi]
      simp only [Option.map_some']
      rw [h1 hi]
    · rw [if_neg hc]
      simp only [Option.map_some']
      rw [h2 i (Ne.symm hc)]
  · have hnone : (List.range K)[i]? = none := by
      rw [List.getElem?_eq_none_iff]; simpa using hi
    rw [hnone]
    by_cases hc : c0 = i
    · subst hc
      rw [if_pos rfl, if_neg (by simpa using hi)]
      rfl
    · rw [if_neg hc]
      rfl

theorem count_rows_spec (K : Nat) (hash : List Nat) : ∀ n : Nat,
    (List.range n).foldl (fun counts row => bump counts (channel_of K hash row))
      (List.replicate K 0) =
    (List.range K).map (fun c => (rows_of_channel K hash c n).length % 65536) := by
  intro n
  induction n with
  | zero =>
    apply List.ext_getElem?
    intro i
    rw [List.range_zero, List.foldl_nil, List.getElem?_map, List.getElem?_replicate]
    by_cases hi : i < K
    · rw [if_pos hi, List.getElem?_range hi]
      rfl
    · have hnone : (List.range K)[i]? = none := by
        rw [List.getElem?_eq_none_iff]; simpa using hi
      rw [if_neg hi, hnone]
      rfl
  | succ n ih =>
    rw [List.range_succ, List.foldl_append, List.foldl_cons, List.foldl_nil, ih]
    apply bump_map_range
    · intro _
      rw [rows_of_channel_length_succ, if_pos rfl]
      omega
    · intro c hc
      rw [rows_of_channel_length_succ, if_neg (Ne.symm hc)]
      rfl

theorem prefix_sum_length : ∀ (l : List Nat) (acc : Nat), (prefix_sum acc l).length = l.length + 1 := by
  intro l
  induction l with
  | nil => intro acc; rfl
  | cons c rest ih => intro acc; simp [prefix_sum, ih]

theorem prefix_sum_getD : ∀ (l : List Nat) (acc i : Nat), i ≤ l.length →
    acc + l.sum < 65536 → (prefix_sum acc l).getD i 0 = acc + (l.take i).sum := by
  intro l
  induction l with
  | nil =>
    intro acc i hi _
    have : i = 0 := by simpa using hi
    subst this
    simp [prefix_sum]
  | cons c rest ih =>
    intro acc i hi hsum
    simp only [List.sum_cons] at hsum
    cases i with
    | zero => simp [prefix_sum]
    | succ i =>
      simp only [prefix_sum, List.getD_cons_succ, List.take_succ_cons, List.sum_cons]
      rw [Nat.mod_eq_of_lt (by omega), ih (acc + c) i (by simpa using hi) (by omega)]
      omega

theorem prefix_sum_lt : ∀ (l : List Nat) (acc : Nat), acc < 65536 →
    ∀ x ∈ prefix_sum acc l, x < 65536 := by
  intro l
  induction l with
  | nil =>
    intro acc h x hx
    simp [prefix_sum] at hx
    omega
  | cons c rest ih =>
    intro acc h x hx
    simp only [prefix_sum, List.mem_cons] at hx
    rcases hx with hx | hx
    · omega
    · exact ih _ (Nat.mod_lt _ (by omega)) x hx

/-- Every start point is a `uint16_t` value. -/
theorem start_points_lt (K : Nat) (hash : List Nat) (c : Nat) :
    (hash_partition K hash)._channel_row_idx_start_points.getD c 0 < 65536 := by
  unfold hash_partition
  simp only
  rw [List.getD_eq_getElem?_getD]
  cases h : (prefix_sum 0 (count_rows K hash))[c]? with
  | none => simp
  | some x =>
    simp only [Option.getD_some]
    exact prefix_sum_lt _ 0 (by omega) x (List.getElem?_mem h)

/-- Without wrap-around the start point of a channel is the number of rows of
the channels before it. -/
theorem start_points_getD (K : Nat) (hash : List Nat) (hK : 1 ≤ K) (hR : hash.length < 65536)
    (c : Nat) (hc : c ≤ K) :
    (hash_partition K hash)._channel_row_idx_start_points.getD c 0 = channel_start K hash c := by
  have hcounts : count_rows K hash =
      (List.range K).map (fun c => (rows_of_channel K hash c hash.length).length) := by
    unfold count_rows
    rw [count_rows_spec]
    apply List.map_congr_left
    intro c2 _
    apply Nat.mod_eq_of_lt
    have h1 := rows_of_channel_total K hash hK hash.length
    have h2 : (rows_of_channel K hash c2 hash.length).length ≤ hash.length := by
      unfold rows_of_channel
      have := List.length_filter_le
        (fun row => decide (channel_of K hash row = c2)) (List.range hash.length)
      simpa using this
    omega
  unfold hash_partition
  simp only
  rw [hcounts, prefix_sum_getD _ 0 c (by simpa using hc)
    (by rw [rows_of_channel_total K hash hK hash.length]; omega)]
  rw [← List.map_take, List.take_range, Nat.min_eq_left hc, Nat.zero_add]
  rfl

theorem start_points_eq (K : Nat) (hash : List Nat) (hK : 1 ≤ K) (hR : hash.length < 65536) :
    (hash_partition K hash)._channel_row_idx_start_points =
      (List.range (K + 1)).map (fun c => (channel_start K hash c + 0) % 65536) := by
  apply List.ext_getElem?
  intro i
  rw [List.getElem?_map]
  by_cases hi : i < K + 1
  · rw [List.getElem?_range hi]
    have hlen : i < (hash_partition K hash)._channel_row_idx_start_points.length := by
      unfold hash_partition
      simp only
      rw [prefix_sum_length]
      unfold count_rows
      rw [count_rows_spec]
      simpa using hi
    have h := start_points_getD K hash hK hR i (by omega)
    rw [List.getD_eq_getElem?_getD, List.getElem?_eq_getElem hlen, Option.getD_some] at h
    rw [List.getElem?_eq_getElem hlen, h]
    have h1 := channel_start_mono K hash i K (by omega)
    rw [channel_start_all K hash hK] at h1
    simp only [Option.map_some', Nat.add_zero]
    rw [Nat.mod_eq_of_lt (by omega)]
  · have hnone : (List.range (K + 1))[i]? = none := by
      rw [List.getElem?_eq_none_iff]; simpa using hi
    rw [hnone, Option.map_none', List.getElem?_eq_none_iff]
    unfold hash_partition
    simp only
    rw [prefix_sum_length]
    unfold count_rows
    rw [count_rows_spec]
    simp only [List.length_map, List.length_range]
    omega

theorem scatter_rows_succ (K : Nat) (hash : List Nat) (n : Nat) (sp : List Nat) :
    scatter_rows K hash (n + 1) sp =
      (bump (scatter_rows K hash n sp).1 (channel_of K hash n),
        (scatter_rows K hash n sp).2.set
          ((scatter_rows K hash n sp).1.getD (channel_of K hash n) 0) (n % 4294967296)) := by
  unfold scatter_rows
  rw [List.range_succ, List.foldl_append, List.foldl_cons, List.foldl_nil]

theorem rows_of_channel_out (K : Nat) (hash : List Nat) (hK : 1 ≤ K) (c n : Nat) (hc : K ≤ c) :
    rows_of_channel K hash c n = [] := by
  unfold rows_of_channel
  rw [List.filter_eq_nil_iff]
  intro row _
  have := channel_of_lt K hash row hK
  simp only [decide_eq_true_eq]
  omega

/-- The free positions after `n` rows: the start of every channel plus the rows
of the channel among the first `n`. -/
theorem scatter_rows_cursor (K : Nat) (hash : List Nat) (hK : 1 ≤ K) (hR : hash.length < 65536) :
    ∀ n : Nat,
      (scatter_rows K hash n (hash_partition K hash)._channel_row_idx_start_points).1 =
        (List.range (K + 1)).map
          (fun c => (channel_start K hash c + (rows_of_channel K hash c n).length) % 65536) := by
  intro n
  induction n with
  | zero =>
    have : scatter_rows K hash 0 (hash_partition K hash)._channel_row_idx_start_points =
        ((hash_partition K hash)._channel_row_idx_start_points,
          List.replicate hash.length 0) := rfl
    rw [this, start_points_eq K hash hK hR]
    rfl
  | succ n ih =>
    rw [scatter_rows_succ, ih]
    apply bump_map_range
    · intro _
      rw [rows_of_channel_length_succ, if_pos rfl]
      omega
    · intro c hc
      rw [rows_of_channel_length_succ, if_neg (Ne.symm hc)]
      rfl

/-- The position the scatter pass gives a row below the number of rows lies in
the slice of its channel. -/
theorem row_position_bounds (K : Nat) (hash : List Nat) (j : Nat) (hj : j < hash.length) :
    channel_start K hash (channel_of K hash j) +
      (rows_of_channel K hash (channel_of K hash j) j).length <
    channel_start K hash (channel_of K hash j + 1) := by
  rw [channel_start_succ]
  have h1 := rows_of_channel_length_succ K hash (channel_of K hash j) j
  rw [if_pos rfl] at h1
  have h2 := rows_of_channel_length_mono K hash (channel_of K hash j) (j + 1) hash.length
    (by omega)
  omega

theorem row_position_ne (K : Nat) (hash : List Nat) (j n : Nat) (hjn : j < n)
    (hn : n < hash.length) :
    channel_start K hash (channel_of K hash j) +
      (rows_of_channel K hash (channel_of K hash j) j).length ≠
    channel_start K hash (channel_of K hash n) +
      (rows_of_channel K hash (channel_of K hash n) n).length := by
  have bj := row_position_bounds K hash j (by omega)
  have bn := row_position_bounds K hash n hn
  rcases Nat.lt_trichotomy (channel_of K hash j) (channel_of K hash n) with h | h | h
  · have := channel_start_mono K hash (channel_of K hash j + 1) (channel_of K hash n) (by omega)
    omega
  · rw [h]
    have h1 := rows_of_channel_length_succ K hash (channel_of K hash j) j
    rw [if_pos rfl, h] at h1
    have h2 := rows_of_channel_length_mono K hash (channel_of K hash n) (j + 1) n (by omega)
    omega
  · have := channel_start_mono K hash (channel_of K hash n + 1) (channel_of K hash j) (by omega)
    omega

theorem scatter_rows_length (K : Nat) (hash : List Nat) (sp : List Nat) :
    ∀ n : Nat, (scatter_rows K hash n sp).2.length = hash.length := by
  intro n
  induction n with
  | zero => simp [scatter_rows]
  | succ n ih => rw [scatter_rows_succ]; simp [ih]

/-- After `n` rows every one of them stands at its position. -/
theorem scatter_rows_placed (K : Nat) (hash : List Nat) (hK : 1 ≤ K)
    (hR : hash.length < 65536) :
    ∀ n : Nat, n ≤ hash.length → ∀ j : Nat, j < n →
      (scatter_rows K hash n (hash_partition K hash)._channel_row_idx_start_points).2[
        channel_start K hash (channel_of K hash j) +
          (rows_of_channel K hash (channel_of K hash j) j).length]? = some j := by
  intro n
  induction n with
  | zero => intro _ j hj; omega
  | succ n ih =>
    intro hn j hj
    have hcur : (scatter_rows K hash n
        (hash_partition K hash)._channel_row_idx_start_points).1.getD (channel_of K hash n) 0 =
        channel_start K hash (channel_of K hash n) +
          (rows_of_channel K hash (channel_of K hash n) n).length := by
      rw [scatter_rows_cursor K hash hK hR n,
        getD_map_range (K + 1) _ _ (by have := channel_of_lt K hash n hK; omega)]
      have b := row_position_bounds K hash n (by omega)
      have m := channel_start_mono K hash (channel_of K hash n + 1) K
        (by have := channel_of_lt K hash n hK; omega)
      rw [channel_start_all K hash hK] at m
      exact Nat.mod_eq_of_lt (by omega)
    rw [scatter_rows_succ]
    simp only
    rw [hcur, List.getElem?_set]
    by_cases hjn : j = n
    · subst hjn
      rw [if_pos rfl, scatter_rows_length]
      have b := row_position_bounds K hash j (by omega)
      have m := channel_start_mono K hash (channel_of K hash j + 1) K
        (by have := channel_of_lt K hash j hK; omega)
      rw [channel_start_all K hash hK] at m
      rw [if_pos (by omega), Nat.mod_eq_of_lt (by omega)]
    · rw [if_neg (Ne.symm (row_position_ne K hash j n (by omega) (by omega)))]
      exact ih (by omega) j (by omega)

/-- The `k`-th row of a channel has `k` rows of the channel before it. -/
theorem rows_of_channel_getElem? (K : Nat) (hash : List Nat) (c : Nat) :
    ∀ (n k j : Nat), (rows_of_channel K hash c n)[k]? = some j →
      j < n ∧ channel_of K hash j = c ∧ (rows_of_channel K hash c j).length = k := by
  intro n
  induction n with
  | zero => intro k j h; simp [rows_of_channel] at h
  | succ n ih =>
    intro k j h
    rw [rows_of_channel_succ] at h
    by_cases hk : k < (rows_of_channel K hash c n).length
    · rw [List.getElem?_append_left hk] at h
      obtain ⟨h1, h2, h3⟩ := ih k j h
      exact ⟨by omega, h2, h3⟩
    · rw [List.getElem?_append_right (by omega)] at h
      by_cases hc : channel_of K hash n = c
      · rw [if_pos hc] at h
        cases hd : k - (rows_of_channel K hash c n).length with
        | zero =>
          rw [hd] at h
          simp only [List.getElem?_cons_zero, Option.some.injEq] at h
          subst h
          exact ⟨by omega, hc, by omega⟩
        | succ d =>
          rw [hd] at h
          simp at h
      · rw [if_neg hc] at h
        simp at h

/-- The slice of a channel is the list of the rows of the channel, in row order. -/
theorem channel_rows_eq (K : Nat) (hash : List Nat) (hK : 1 ≤ K) (hR : hash.length < 65536)
    (c : Nat) (hc : c < K) :
    channel_rows (hash_partition K hash) c = rows_of_channel K hash c hash.length := by
  unfold channel_rows
  rw [start_points_getD K hash hK hR c (by omega),
    start_points_getD K hash hK hR (c + 1) (by omega), channel_start_succ,
    Nat.add_sub_cancel_left]
  apply List.ext_getElem?
  intro k
  rw [List.getElem?_take, List.getElem?_drop]
  by_cases hk : k < (rows_of_channel K hash c hash.length).length
  · rw [if_pos hk, List.getElem?_eq_getElem hk]
    obtain ⟨h1, h2, h3⟩ := rows_of_channel_getElem? K hash c hash.length k _
      (List.getElem?_eq_getElem hk)
    have hp := scatter_rows_placed K hash hK hR hash.length (le_refl _) _ h1
    rw [h2, h3] at hp
    exact hp
  · rw [if_neg hk]
    symm
    rw [List.getElem?_eq_none_iff]
    omega

/-- With one channel and a number of rows that is a multiple of `2^16` both start
points are `0`. -/
theorem start_points_wrap (hash : List Nat) (h : hash.length % 65536 = 0) :
    (hash_partition 1 hash)._channel_row_idx_start_points = [0, 0] := by
  have ht := rows_of_channel_total 1 hash (le_refl 1) hash.length
  have hr : List.range 1 = [0] := rfl
  rw [hr] at ht
  simp only [List.map_cons, List.map_nil, List.sum_cons, List.sum_nil, Nat.add_zero] at ht
  unfold hash_partition
  simp only
  unfold count_rows
  rw [count_rows_spec, hr]
  simp only [List.map_cons, List.map_nil, prefix_sum, ht, h, Nat.zero_add]

/-- Counterexample to C25 as stated: a chunk of `R = 65536` rows, all with hash `0`,
partitioned into `K = 1` channel.  The start points are `uint16_t` values: the
count of the channel wraps to `0`, and `start_points[K]` is `0`, not `R`. -/
theorem partition_start_points_wrap_at_65536_rows :
    (List.replicate 65536 0).length = 65536 ∧
    (hash_partition 1 (List.replicate 65536 0))._channel_row_idx_start_points = [0, 0] ∧
    (hash_partition 1 (List.replicate 65536 0))._channel_row_idx_start_points.getD 1 0
      ≠ 65536 :=
  ⟨List.length_replicate _ _,
    start_points_wrap _ (by rw [List.length_replicate]),
    Nat.ne_of_lt (start_points_lt 1 (List.replicate 65536 0) 1)⟩

/-- Claim C25 as amended (partition coverage): for every chunk of `R < 2^16` rows
with hash values `hash`, partitioned into `K ≥ 1` channels by the two-pass
counting layout, `start_points` has `K + 1` entries, the first `0` and the last
`R`; the slice `row_indexes[start_points[c] .. start_points[c+1]]` of a channel
`c` is the list of the rows with `hash[row] mod K = c`, in row order; the
slices of two channels are disjoint, their sizes sum to `R`, and a row index
below `R` appears once in the slice of its channel and in no other slice. -/
theorem partition_coverage (K : Nat) (hash : List Nat) (hK : 1 ≤ K)
    (hR : hash.length < 65536) :
    (hash_partition K hash)._channel_row_idx_start_points.length = K + 1 ∧
    (hash_partition K hash)._channel_row_idx_start_points.getD 0 0 = 0 ∧
    (hash_partition K hash)._channel_row_idx_start_points.getD K 0 = hash.length ∧
    (∀ c, c < K → channel_rows (hash_partition K hash) c =
      (List.range hash.length).filter (fun row => decide (hash.getD row 0 % K = c))) ∧
    (∀ c c2, c < K → c2 < K → c ≠ c2 →
      List.Disjoint (channel_rows (hash_partition K hash) c)
        (channel_rows (hash_partition K hash) c2)) ∧
    ((List.range K).map (fun c => (channel_rows (hash_partition K hash) c).length)).sum
      = hash.length ∧
    (∀ row c, row < hash.length → c < K →
      (channel_rows (hash_partition K hash) c).count row =
        if c = hash.getD row 0 % K then 1 else 0) := by
  have hslice := channel_rows_eq K hash hK hR
  refine ⟨?_, ?_, ?_, ?_, ?_, ?_, ?_⟩
  · rw [start_points_eq K hash hK hR]
    simp
  · rw [start_points_getD K hash hK hR 0 (by omega), channel_start_zero]
  · rw [start_points_getD K hash hK hR K (le_refl _), channel_start_all K hash hK]
  · intro c hc
    rw [hslice c hc]
    rfl
  · intro c c2 hc hc2 hne x hx hx2
    rw [hslice c hc] at hx
    rw [hslice c2 hc2] at hx2
    unfold rows_of_channel at hx hx2
    rw [List.mem_filter] at hx hx2
    simp only [decide_eq_true_eq] at hx hx2
    exact hne (hx.2.symm.trans hx2.2)
  · have : (List.range K).map (fun c => (channel_rows (hash_partition K hash) c).length) =
        (List.range K).map (fun c => (rows_of_channel K hash c hash.length).length) := by
      apply List.map_congr_left
      intro c hc
      rw [hslice c (List.mem_range.1 hc)]
    rw [this, rows_of_channel_total K hash hK]
  · intro row c hrow hc
    rw [hslice c hc]
    unfold rows_of_channel
    by_cases h : c = hash.getD row 0 % K
    · rw [if_pos h, List.count_filter (by simp [channel_of, h])]
      exact List.count_eq_one_of_mem (List.nodup_range _) (List.mem_range.2 hrow)
    · rw [if_neg h, List.count_eq_zero]
      intro hmem
      rw [List.mem_filter] at hmem
      simp only [decide_eq_true_eq, channel_of] at hmem
      exact h hmem.2.symm

/-- Witness of C25 as amended: seven rows and three channels. -/
theorem partition_coverage_witness :
    (List.range 3).map (channel_rows (hash_partition 3 [5, 7, 9, 1, 0, 3, 4])) =
      [[2, 4, 5], [1, 3, 6], [0]] := by
  have h := (partition_coverage 3 [5, 7, 9, 1, 0, 3, 4] (by decide) (by decide)).2.2.2.1
  have h0 := h 0 (by decide)
  have h1 := h 1 (by decide)
  have h2 := h 2 (by decide)
  simp only [List.range_succ, List.range_zero, List.nil_append, List.cons_append,
    List.map_cons, List.map_nil]
  rw [h0, h1, h2]
  decide

/-! ## Late packets; frame of cancel and close -/

theorem pending_items_eq (q : SenderQueue) :
    pending_items q =
      (q._buffered_chunk_queues.map (fun src => (src.2.map (fun batch => batch.2)).flatten)).flatten :=
  rfl

theorem flatten_minsert_nil {K : Type} [DecidableEq K] :
    ∀ (m : List (K × List (Int × ChunkQueue))) (k : K), mfind m k = none →
      ((minsert m k []).map (fun src => (src.2.map (fun batch => batch.2)).flatten)).flatten =
        (m.map (fun src => (src.2.map (fun batch => batch.2)).flatten)).flatten := by
  intro m
  induction m with
  | nil => intro k _; simp [minsert]
  | cons e rest ih =>
    intro k h
    obtain ⟨k2, v2⟩ := e
    unfold mfind at h
    by_cases hk : k2 = k
    · simp [hk] at h
    · simp only [hk, if_false] at h
      unfold minsert
      rw [if_neg hk]
      simp only [List.map_cons, List.flatten_cons]
      rw [ih k h]

/-- Claim C31 (late packets after end of stream are dropped): on a non-cancelled
queue with `remaining_senders ≤ 0`, `add_chunks` and `add_chunks_and_keep_order`
return OK, leave the receiver, hence the buffered bytes, as it was, leave the
ready queue and the items of the pending map as they were, run no closure and
leave the caller's `done` as it was passed. -/
theorem late_packets_dropped (env : Collaborators) (r : Recvr) (q : SenderQueue)
    (request : PTransmitChunkParams) (done : Option (Option Closure)) (is_pipeline : Bool)
    (hc : q._is_cancelled = false) (hrem : q._num_remaining_senders ≤ 0) :
    ((add_chunks env r q request done is_pipeline).status = Status.OK ∧
      (add_chunks env r q request done is_pipeline).recvr = r ∧
      (add_chunks env r q request done is_pipeline).queue._chunk_queue = q._chunk_queue ∧
      (add_chunks env r q request done is_pipeline).queue._buffered_chunk_queues =
        q._buffered_chunk_queues ∧
      (add_chunks env r q request done is_pipeline).done = done ∧
      (add_chunks env r q request done is_pipeline).ran = []) ∧
    ((add_chunks_and_keep_order env r q request done).status = Status.OK ∧
      (add_chunks_and_keep_order env r q request done).recvr = r ∧
      (add_chunks_and_keep_order env r q request done).queue._chunk_queue = q._chunk_queue ∧
      pending_items (add_chunks_and_keep_order env r q request done).queue = pending_items q ∧
      (∀ b, (mfind (add_chunks_and_keep_order env r q request done).queue._buffered_chunk_queues
          b).getD [] = (mfind q._buffered_chunk_queues b).getD []) ∧
      (add_chunks_and_keep_order env r q request done).done = done ∧
      (add_chunks_and_keep_order env r q request done).ran = []) := by
  constructor
  · have h : add_chunks env r q request done is_pipeline =
        { status := Status.OK, recvr := r, queue := q, done := done, ran := [] } ∨
        add_chunks env r q request done is_pipeline =
        { status := Status.OK, recvr := r,
          queue :=
            { q with
              _packet_seq_map := minsert q._packet_seq_map request.be_number request.sequence },
          done := done, ran := [] } := by
      unfold add_chunks add_chunks_lock1
      simp only
      rw [if_neg (by simp [hc])]
      by_cases hdup : packet_already_exists q request.be_number request.sequence is_pipeline = true
      · left; rw [if_pos hdup]
      · right; rw [if_neg hdup, if_pos hrem]
    rcases h with h | h <;> rw [h] <;> exact ⟨rfl, rfl, rfl, rfl, rfl, rfl⟩
  · obtain ⟨q1, hl1, hq1, _, hbuf, hoth⟩ := add_chunks_and_keep_order_lock1_spec q request hc
    have hcall : add_chunks_and_keep_order env r q request done =
        { status := Status.OK, recvr := r, queue := q1, done := done, ran := [] } := by
      unfold add_chunks_and_keep_order
      rw [hl1]
      simp only
      have hl2 : add_chunks_and_keep_order_lock2 r q1 request = Region.returned Status.OK q1 := by
        unfold add_chunks_and_keep_order_lock2
        have h1 : q1._is_cancelled = false := by rw [hq1]; exact hc
        have h2 : q1._num_remaining_senders ≤ 0 := by rw [hq1]; exact hrem
        rw [if_neg (by simp [h1]), if_pos h2]
      rw [hl2]
    rw [hcall]
    refine ⟨rfl, rfl, by rw [hq1], ?_, ?_, rfl, rfl⟩
    · rw [pending_items_eq, pending_items_eq]
      have hl1' := hl1
      unfold add_chunks_and_keep_order_lock1 at hl1'
      simp only at hl1'
      rw [if_neg (by simp [hc])] at hl1'
      have hq1b : q1._buffered_chunk_queues =
          (match mfind q._buffered_chunk_queues request.be_number with
           | none => minsert q._buffered_chunk_queues request.be_number []
           | some _ => q._buffered_chunk_queues) := by
        cases hl1'
        rfl
      rw [hq1b]
      cases hm : mfind q._buffered_chunk_queues request.be_number with
      | none => exact flatten_minsert_nil _ _ hm
      | some v => rfl
    · intro b
      by_cases hb : b = request.be_number
      · subst hb; rw [hbuf]; rfl
      · rw [(hoth b hb).2]

/-- Witness of C31: the only sender of a queue has closed its channel, and then
one of its packets arrives. -/
theorem late_packets_dropped_witness :
    (add_chunks plain_env (Run.fresh 0 one_slot_desc 1).recvr
      (decrement_senders (SenderQueue.new 1) 7) (mk_request 7 0 [plain_chunk [1]])
      (some (some 4)) false).done = some (some 4) :=
  (late_packets_dropped plain_env (Run.fresh 0 one_slot_desc 1).recvr
    (decrement_senders (SenderQueue.new 1) 7) (mk_request 7 0 [plain_chunk [1]])
    (some (some 4)) false (by decide) (by decide)).1.2.2.2.2.1

/-- Claim C35 (frame of cancel and close): `cancel` and `close` change at most the
cancelled flag, the ready queue and the pending map of the queue; they leave
`remaining_senders`, the EOS set, `last_seq`, `max_processed_sequences` and the
chunk meta as they were, and as operations of a run they leave the receiver,
hence `num_buffered_bytes`, as it was: the bytes of the drained items are not
subtracted, whatever the queues held. -/
theorem cancel_close_frame :
    (∀ q : SenderQueue,
      (cancel q).queue._num_remaining_senders = q._num_remaining_senders ∧
      (cancel q).queue._sender_eos_set = q._sender_eos_set ∧
      (cancel q).queue._packet_seq_map = q._packet_seq_map ∧
      (cancel q).queue._max_processed_sequences = q._max_processed_sequences ∧
      (cancel q).queue._chunk_meta = q._chunk_meta) ∧
    (∀ q : SenderQueue,
      (close q).queue._num_remaining_senders = q._num_remaining_senders ∧
      (close q).queue._sender_eos_set = q._sender_eos_set ∧
      (close q).queue._packet_seq_map = q._packet_seq_map ∧
      (close q).queue._max_processed_sequences = q._max_processed_sequences ∧
      (close q).queue._chunk_meta = q._chunk_meta) ∧
    (∀ (env : Collaborators) (s : Run),
      (Run.step env s Op.cancel).recvr = s.recvr ∧ (Run.step env s Op.close).recvr = s.recvr) ∧
    (∀ (env : Collaborators) (s : Run), s.queue._is_cancelled = false →
      (Run.step env s Op.cancel).queue._chunk_queue = [] ∧
      (Run.step env s Op.cancel).queue._buffered_chunk_queues = [] ∧
      (Run.step env s Op.cancel).recvr._num_buffered_bytes = s.recvr._num_buffered_bytes) ∧
    (∀ (env : Collaborators) (s : Run),
      (Run.step env s Op.close).queue._chunk_queue = [] ∧
      (Run.step env s Op.close).queue._buffered_chunk_queues = [] ∧
      (Run.step env s Op.close).recvr._num_buffered_bytes = s.recvr._num_buffered_bytes) := by
  refine ⟨?_, ?_, ?_, ?_, ?_⟩
  · intro q
    unfold cancel drain_queues
    split <;> exact ⟨rfl, rfl, rfl, rfl, rfl⟩
  · intro q
    exact ⟨rfl, rfl, rfl, rfl, rfl⟩
  · intro env s
    exact ⟨rfl, rfl⟩
  · intro env s hc
    simp only [Run.step, cancel, drain_queues, hc, Bool.false_eq_true, if_false]
    exact ⟨trivial, trivial, trivial⟩
  · intro env s
    exact ⟨rfl, rfl, rfl⟩

/-! ## BinaryPlainPageBuilder: what `add` accepts -/

theorem BinaryPlainPageBuilder.add_slice_refused (b : BinaryPlainPageBuilder) (s : List Nat)
    (h : b.is_page_full = true) : b.add_slice s = (false, b) := by
  simp [BinaryPlainPageBuilder.add_slice, h]

theorem BinaryPlainPageBuilder.add_slice_accepted (b : BinaryPlainPageBuilder) (s : List Nat)
    (h : b.is_page_full = false) :
    b.add_slice s = (true,
      { b with
        _offsets := b._offsets ++ [b._next_offset % 4294967296],
        _buffer := b._buffer ++ s,
        _next_offset := (b._next_offset + s.length) % 18446744073709551616,
        _size_estimate :=
          ((b._size_estimate + s.length) % 18446744073709551616 + 4)
            % 18446744073709551616 }) := by
  simp [BinaryPlainPageBuilder.add_slice, h]

/-- The slices `add` appended are the leading ones: adding only them gives the
same count and the same builder, and when a slice was refused the page was full
at that point. -/
theorem BinaryPlainPageBuilder.add_take : ∀ (strings : List (List Nat))
    (b : BinaryPlainPageBuilder),
    (b.add strings).1 ≤ strings.length ∧
    b.add (strings.take (b.add strings).1) = ((b.add strings).1, (b.add strings).2) ∧
    ((b.add strings).1 < strings.length → (b.add strings).2.is_page_full = true) := by
  intro strings
  induction strings with
  | nil => intro b; simp [BinaryPlainPageBuilder.add]
  | cons s rest ih =>
    intro b
    cases hfull : b.is_page_full
    · have hs := BinaryPlainPageBuilder.add_slice_accepted b s hfull
      have hadd : ∀ l : List (List Nat), b.add (s :: l) =
          (((b.add_slice s).2.add l).1 + 1, ((b.add_slice s).2.add l).2) := by
        intro l
        rw [BinaryPlainPageBuilder.add, hs]
      obtain ⟨h1, h2, h3⟩ := ih (b.add_slice s).2
      rw [hadd rest]
      simp only [List.take_succ_cons, List.length_cons]
      refine ⟨by omega, ?_, ?_⟩
      · rw [hadd, h2]
      · intro hlt
        exact h3 (by omega)
    · have hs := BinaryPlainPageBuilder.add_slice_refused b s hfull
      have hadd : b.add (s :: rest) = (0, b) := by
        rw [BinaryPlainPageBuilder.add, hs]
      rw [hadd]
      simp only [List.take_zero, List.length_cons]
      exact ⟨by omega, rfl, fun _ => hfull⟩

theorem BinaryPlainPageBuilder.add_append : ∀ (xs : List (List Nat))
    (b : BinaryPlainPageBuilder) (ys : List (List Nat)), (b.add xs).1 = xs.length →
    b.add (xs ++ ys) = (xs.length + ((b.add xs).2.add ys).1, ((b.add xs).2.add ys).2) := by
  intro xs
  induction xs with
  | nil => intro b ys _; simp [BinaryPlainPageBuilder.add]
  | cons s rest ih =>
    intro b ys h
    cases hfull : b.is_page_full
    · have hs := BinaryPlainPageBuilder.add_slice_accepted b s hfull
      have hadd : ∀ l : List (List Nat), b.add (s :: l) =
          (((b.add_slice s).2.add l).1 + 1, ((b.add_slice s).2.add l).2) := by
        intro l
        rw [BinaryPlainPageBuilder.add, hs]
      rw [hadd rest] at h
      simp only [List.length_cons, Nat.add_right_cancel_iff] at h
      rw [List.cons_append, hadd (rest ++ ys), hadd rest, ih _ ys h]
      simp only [List.length_cons]
      congr 1
      omega
    · have hs := BinaryPlainPageBuilder.add_slice_refused b s hfull
      rw [BinaryPlainPageBuilder.add, hs] at h
      simp at h

/-- The size estimate after `add` when every slice is added. -/
theorem BinaryPlainPageBuilder.add_size : ∀ (strings : List (List Nat))
    (b : BinaryPlainPageBuilder), (b.add strings).1 = strings.length →
    (b.add strings).2._size_estimate =
      (b._size_estimate + (strings.map (fun s => s.length + 4)).sum) % 18446744073709551616 ∨
    strings = [] := by
  intro strings
  induction strings with
  | nil => intro b _; right; rfl
  | cons s rest ih =>
    intro b h
    left
    cases hfull : b.is_page_full
    · have hs := BinaryPlainPageBuilder.add_slice_accepted b s hfull
      rw [BinaryPlainPageBuilder.add, hs] at h ⊢
      simp only [List.length_cons, Nat.add_right_cancel_iff] at h
      simp only [List.map_cons, List.sum_cons]
      rcases ih _ h with h1 | h1
      · rw [h1]
        simp only
        omega
      · subst h1
        simp only [BinaryPlainPageBuilder.add, List.map_nil, List.sum_nil]
        omega
    · have hs := BinaryPlainPageBuilder.add_slice_refused b s hfull
      rw [BinaryPlainPageBuilder.add, hs] at h
      simp at h

/-- A sequence of `add` calls leaves what one call with the accepted strings
leaves. -/
theorem BinaryPlainPageBuilder.add_calls_eq_add (b : BinaryPlainPageBuilder)
    (calls : List (List (List Nat))) :
    b.add (b.add_calls calls).1 = ((b.add_calls calls).1.length, (b.add_calls calls).2) := by
  have gen : ∀ (calls : List (List (List Nat))) (acc : List (List Nat))
      (b1 : BinaryPlainPageBuilder), b.add acc = (acc.length, b1) →
      b.add (calls.foldl
        (fun st call => (st.1 ++ call.take (st.2.add call).1, (st.2.add call).2)) (acc, b1)).1 =
      ((calls.foldl
        (fun st call => (st.1 ++ call.take (st.2.add call).1, (st.2.add call).2)) (acc, b1)).1.length,
       (calls.foldl
        (fun st call => (st.1 ++ call.take (st.2.add call).1, (st.2.add call).2)) (acc, b1)).2) := by
    intro calls
    induction calls with
    | nil => intro acc b1 h; exact h
    | cons call rest ih =>
      intro acc b1 h
      rw [List.foldl_cons]
      apply ih
      have h1 : (b.add acc).1 = acc.length := by rw [h]
      have h2 : (b.add acc).2 = b1 := by rw [h]
      obtain ⟨hle, htake, _⟩ := BinaryPlainPageBuilder.add_take call b1
      simp only
      rw [BinaryPlainPageBuilder.add_append acc b _ h1, h2, htake, List.length_append,
        List.length_take, Nat.min_eq_left hle]
  exact gen calls [] b rfl

theorem sum_length_add_four (strings : List (List Nat)) :
    (strings.map (fun s => s.length + 4)).sum = strings.flatten.length + 4 * strings.length := by
  induction strings with
  | nil => rfl
  | cons s rest ih =>
    simp only [List.map_cons, List.sum_cons, List.flatten_cons, List.length_append,
      List.length_cons, ih]
    omega

/-- A builder that `reset` leaves as it is: no offsets, the buffer holding the
reserved head only, the size estimate `4`. -/
theorem BinaryPlainPageBuilder.reset_fixed (b : BinaryPlainPageBuilder) (h : b.reset = b) :
    b._offsets = [] ∧ b._buffer.length = b._reserved_head_size ∧ b._next_offset = 0 ∧
      b._size_estimate = 4 := by
  have h1 : b.reset._offsets = b._offsets := by rw [h]
  have h2 : b.reset._buffer = b._buffer := by rw [h]
  have h3 : b.reset._next_offset = b._next_offset := by rw [h]
  have h4 : b.reset._size_estimate = b._size_estimate := by rw [h]
  refine ⟨h1.symm, ?_, h3.symm, h4.symm⟩
  have h5 : (vresize b._buffer b._reserved_head_size 0).length = b._reserved_head_size := by
    simp [vresize]
  have h6 : b.reset._buffer = vresize b._buffer b._reserved_head_size 0 := rfl
  rw [← h2, h6, h5]

theorem BinaryPlainPageBuilder.finish_length (b : BinaryPlainPageBuilder) :
    b.finish._buffer.length = b._buffer.length + 4 * b._offsets.length + 4 := by
  rw [BinaryPlainPageBuilder.finish_buffer, put_fixed32_le_eq, put_offsets_eq,
    List.length_append, List.length_append, flatMap_put_length, put_fixed32_le_length]

/-- Claim C37 (`add` returns the number of leading elements appended): `add`
returns `k ≤ count`, `count()` grows by `k`, the buffer gains the first `k`
strings, and adding only these `k` gives the same builder; when `k < count` the
page was full in the state reached after the first `k`, which is the state
element `k` was tried in.  `is_page_full` holds exactly when
`data_page_size ≠ 0` and `size() > data_page_size`; with `data_page_size = 0`
every element is accepted; a page that is not full accepts a slice of any
length, so one element can take the page past `data_page_size`, as the string of
100 bytes does on a new page of size 10, which then refuses the next. -/
theorem add_returns_leading_count :
    (∀ (b : BinaryPlainPageBuilder) (strings : List (List Nat)),
      (b.add strings).1 ≤ strings.length ∧
      (b.add strings).2.count = b.count + (b.add strings).1 ∧
      (b.add strings).2._buffer = b._buffer ++ (strings.take (b.add strings).1).flatten ∧
      b.add (strings.take (b.add strings).1) = ((b.add strings).1, (b.add strings).2) ∧
      ((b.add strings).1 < strings.length →
        (b.add (strings.take (b.add strings).1)).2.is_page_full = true)) ∧
    (∀ b : BinaryPlainPageBuilder,
      b.is_page_full = true ↔ (b._options.data_page_size ≠ 0 ∧ b.size > b._options.data_page_size)) ∧
    (∀ (b : BinaryPlainPageBuilder) (strings : List (List Nat)),
      b._options.data_page_size = 0 → (b.add strings).1 = strings.length) ∧
    (∀ (b : BinaryPlainPageBuilder) (s : List Nat), b.is_page_full = false →
      (b.add_slice s).1 = true ∧
      (b.add_slice s).2.size = (b.size + s.length + 4) % 18446744073709551616) ∧
    (((BinaryPlainPageBuilder.new ⟨10⟩).add [List.replicate 100 0]).1 = 1 ∧
      ((BinaryPlainPageBuilder.new ⟨10⟩).add [List.replicate 100 0]).2.size = 108 ∧
      (((BinaryPlainPageBuilder.new ⟨10⟩).add [List.replicate 100 0]).2.add [[1]]).1 = 0) := by
  refine ⟨?_, ?_, ?_, ?_, ?_⟩
  · intro b strings
    obtain ⟨hle, htake, hfull⟩ := BinaryPlainPageBuilder.add_take strings b
    have hk : (b.add (strings.take (b.add strings).1)).1 =
        (strings.take (b.add strings).1).length := by
      rw [htake, List.length_take, Nat.min_eq_left hle]
    obtain ⟨h1, h2, _, _⟩ := BinaryPlainPageBuilder.add_spec _ b hk
    rw [htake] at h1 h2
    simp only at h1 h2
    refine ⟨hle, ?_, h1, htake, ?_⟩
    · unfold BinaryPlainPageBuilder.count
      rw [h2, List.length_append, offsets_from_length, List.length_take, Nat.min_eq_left hle]
    · intro hlt
      rw [htake]
      exact hfull hlt
  · intro b
    simp [BinaryPlainPageBuilder.is_page_full, BinaryPlainPageBuilder.size]
  · intro b strings h
    exact BinaryPlainPageBuilder.add_unlimited strings b h
  · intro b s h
    rw [BinaryPlainPageBuilder.add_slice_accepted b s h]
    refine ⟨rfl, ?_⟩
    simp only [BinaryPlainPageBuilder.size]
    omega
  · decide

/-! ## BinaryPlainPageBuilder: size estimate, first and last value -/

/-- Claim C39 (the size estimate is exact): for a builder that `reset` leaves as
it is (a new builder, with or without reserved head, or any builder after
`reset`) and every sequence of `add` calls on it, if the length of the buffer
`finish` returns is a `size_t` value, then `size()` is `4` plus the sum over the
accepted strings of their length plus `4`, and the buffer `finish` returns has
length `reserved_head_size + size()`. -/
theorem size_estimate_exact (b : BinaryPlainPageBuilder) (calls : List (List (List Nat)))
    (hbase : b.reset = b)
    (hfit : (b.add_calls calls).2.finish._buffer.length < 18446744073709551616) :
    (b.add_calls calls).2.size =
      4 + ((b.add_calls calls).1.map (fun s => s.length + 4)).sum ∧
    (b.add_calls calls).2.finish._buffer.length =
      (b.add_calls calls).2._reserved_head_size + (b.add_calls calls).2.size := by
  have heq := BinaryPlainPageBuilder.add_calls_eq_add b calls
  have hk : (b.add (b.add_calls calls).1).1 = (b.add_calls calls).1.length := by rw [heq]
  have h2 : (b.add (b.add_calls calls).1).2 = (b.add_calls calls).2 := by rw [heq]
  obtain ⟨hoff, hbuf, _, hsz⟩ := BinaryPlainPageBuilder.reset_fixed b hbase
  obtain ⟨s1, s2, _, s4⟩ := BinaryPlainPageBuilder.add_spec _ b hk
  have s5 := BinaryPlainPageBuilder.add_size _ b hk
  rw [h2] at s1 s2 s4 s5
  have hlen := BinaryPlainPageBuilder.finish_length (b.add_calls calls).2
  rw [s1, s2, hoff, List.nil_append, offsets_from_length, List.length_append, hbuf] at hlen
  rw [hlen] at hfit ⊢
  have hsum := sum_length_add_four (b.add_calls calls).1
  unfold BinaryPlainPageBuilder.size
  rw [s4]
  rcases s5 with s5 | s5
  · rw [s5, hsz, hsum]
    omega
  · have hb2 : (b.add_calls calls).2 = b := by
      rw [← h2, s5]
      rfl
    rw [hb2, hsz, s5]
    simp

/-- Witness of C39: three strings added in two calls behind a head of two bytes. -/
theorem size_estimate_exact_witness :
    (BinaryPlainPageBuilder.add_calls
      { BinaryPlainPageBuilder.new ⟨0⟩ with _reserved_head_size := 2, _buffer := [0, 0] }
      [[[1, 2, 3], []], [[9, 9]]]).2.size = 4 + (7 + 4 + 6) ∧
    (BinaryPlainPageBuilder.add_calls
      { BinaryPlainPageBuilder.new ⟨0⟩ with _reserved_head_size := 2, _buffer := [0, 0] }
      [[[1, 2, 3], []], [[9, 9]]]).2.finish._buffer.length = 2 + 21 :=
  size_estimate_exact
    { BinaryPlainPageBuilder.new ⟨0⟩ with _reserved_head_size := 2, _buffer := [0, 0] }
    [[[1, 2, 3], []], [[9, 9]]] (by decide) (by decide)

/-- Claim C40 (`init` of the decoder): on an unparsed decoder `init` returns
Corruption exactly when the page has fewer than 4 bytes, and then leaves the
decoder as it was; for every page of at least 4 bytes it returns OK with
`num_elems` the value decoded from the last 4 bytes, least significant byte
first, and the offsets position `size - 4 * (num_elems + 1)` modulo `2^32`,
whatever the page holds: the page `5 0 0 0` is accepted with the offsets
position `2^32 - 20`, outside the page of 4 bytes.  A second `init` returns what
the first returned and changes nothing. -/
theorem decoder_init_contract :
    (∀ data : List Nat,
      ((BinaryPlainPageDecoder.new data).init.1.map (fun st => st.code) =
        some TStatusCode.CORRUPTION ↔ data.length < 4) ∧
      (data.length < 4 →
        (BinaryPlainPageDecoder.new data).init.2 = BinaryPlainPageDecoder.new data)) ∧
    (∀ data : List Nat, 4 ≤ data.length →
      (BinaryPlainPageDecoder.new data).init =
        (Status.OK,
          { _data := data, _parsed := true,
            _num_elems := decode_fixed32_le (data.drop (data.length - 4)),
            _offsets_pos :=
              (((data.length : Int) -
                4 * ((decode_fixed32_le (data.drop (data.length - 4)) : Int) + 1))
                % 4294967296).toNat,
            _cur_idx := 0 }) ∧
      (data.drop (data.length - 4)).length = 4) ∧
    (∀ b0 b1 b2 b3 : Nat, b0 < 256 → b1 < 256 → b2 < 256 → b3 < 256 →
      decode_fixed32_le [b0, b1, b2, b3] = b0 + 256 * b1 + 65536 * b2 + 16777216 * b3) ∧
    (BinaryPlainPageDecoder.new [5, 0, 0, 0]).init =
      (Status.OK,
        { _data := [5, 0, 0, 0], _parsed := true, _num_elems := 5,
          _offsets_pos := 4294967276, _cur_idx := 0 }) ∧
    (∀ d : BinaryPlainPageDecoder, d.init.2.init = d.init) := by
  refine ⟨?_, ?_, ?_, ?_, ?_⟩
  · intro data
    unfold BinaryPlainPageDecoder.init BinaryPlainPageDecoder.new
    simp only [Bool.false_eq_true, if_false]
    by_cases h : data.length < 4
    · rw [if_pos h]
      exact ⟨⟨fun _ => h, fun _ => rfl⟩, fun _ => rfl⟩
    · rw [if_neg h]
      refine ⟨⟨fun hc => ?_, fun hl => absurd hl h⟩, fun hl => absurd hl h⟩
      simp [Status.OK] at hc
  · intro data h
    constructor
    · unfold BinaryPlainPageDecoder.init BinaryPlainPageDecoder.new
      simp only [Bool.false_eq_true, if_false]
      rw [if_neg (by omega)]
      have hlt : decode_fixed32_le (data.drop (data.length - 4)) < 4294967296 := by
        unfold decode_fixed32_le
        exact Nat.mod_lt _ (by decide)
      congr 2
      omega
    · rw [List.length_drop]
      omega
  · intro b0 b1 b2 b3 h0 h1 h2 h3
    simp only [decode_fixed32_le, List.getD_cons_zero, List.getD_cons_succ]
    omega
  · decide
  · intro d
    unfold BinaryPlainPageDecoder.init
    by_cases hp : d._parsed = true
    · simp [hp]
    · have hp2 : d._parsed = false := by simpa using hp
      by_cases hl : d._data.length < 4
      · simp [hp2, hl]
      · simp [hp2, hl]

theorem length_before_le : ∀ (strings : List (List Nat)) (i j : Nat), i ≤ j →
    length_before strings i ≤ length_before strings j := by
  intro strings
  induction strings with
  | nil => intro i j _; simp [length_before]
  | cons s rest ih =>
    intro i j h
    cases i with
    | zero => rw [length_before_zero]; omega
    | succ i =>
      cases j with
      | zero => omega
      | succ j =>
        rw [length_before_cons_succ, length_before_cons_succ]
        have := ih i j (by omega)
        omega

/-- The stored offsets as long as the `size_t` sum does not wrap: the sum of the
lengths before, modulo `2^32`. -/
theorem offsets_from_getD_mod : ∀ (strings : List (List Nat)) (start i : Nat),
    i < strings.length → start + length_before strings i < 18446744073709551616 →
    (offsets_from start strings).getD i 0 = (start + length_before strings i) % 4294967296 := by
  intro strings
  induction strings with
  | nil => intro start i h _; simp at h
  | cons s rest ih =>
    intro start i h h64
    cases i with
    | zero =>
      rw [offsets_from, List.getD_cons_zero, length_before_zero, Nat.add_zero]
    | succ i =>
      rw [length_before_cons_succ] at h64 ⊢
      rw [offsets_from, List.getD_cons_succ,
        Nat.mod_eq_of_lt (show start + s.length < 18446744073709551616 by omega),
        ih (start + s.length) i (by simpa using h) (by omega)]
      congr 1
      omega

/-- The slice `get_value` returns from a buffer made of the reserved head, the
strings and a trailer, when neither end of the string lies at `2^32` or above. -/
theorem BinaryPlainPageBuilder.get_value_of_layout (b : BinaryPlainPageBuilder)
    (H T : List Nat) (acc : List (List Nat)) (i : Nat)
    (hbuf : b._buffer = H ++ acc.flatten ++ T) (hH : H.length = b._reserved_head_size)
    (hoff : b._offsets = offsets_from 0 acc) (hnext : b._next_offset = acc.flatten.length)
    (hi : i < acc.length) (h64 : acc.flatten.length < 18446744073709551616)
    (h1 : length_before acc i < 4294967296)
    (h2 : i + 1 < acc.length → length_before acc (i + 1) < 4294967296) :
    b.get_value i = acc.getD i [] := by
  have hall := length_before_all acc
  have hmono := length_before_mono acc
  have hsucc := length_before_succ acc i hi
  have hoi : (offsets_from 0 acc).getD i 0 = length_before acc i := by
    rw [offsets_from_getD_mod acc 0 i hi (by have := hmono i; omega), Nat.zero_add]
    exact Nat.mod_eq_of_lt h1
  have hend : (if i + 1 < b._offsets.length then b._offsets.getD (i + 1) 0 else b._next_offset)
      = length_before acc (i + 1) := by
    rw [hoff, offsets_from_length]
    by_cases hlt : i + 1 < acc.length
    · rw [if_pos hlt, offsets_from_getD_mod acc 0 (i + 1) hlt
        (by have := hmono (i + 1); omega), Nat.zero_add]
      exact Nat.mod_eq_of_lt (h2 hlt)
    · rw [if_neg hlt, hnext, ← hall]
      have : i + 1 = acc.length := by omega
      rw [this]
  unfold BinaryPlainPageBuilder.get_value
  simp only
  rw [hend, hoff, hoi, hbuf, ← hH, List.append_assoc, List.drop_append, hsucc]
  have hlen : (length_before acc i + (acc.getD i []).length + 18446744073709551616 -
      length_before acc i) % 18446744073709551616 = (acc.getD i []).length := by
    have := hmono (i + 1)
    omega
  rw [hlen]
  exact flatten_slice acc i T hi

theorem BinaryPlainPageBuilder.finish_values (b : BinaryPlainPageBuilder) :
    b.finish._offsets = b._offsets ∧
    (b._offsets ≠ [] →
      b.finish._first_value = BinaryPlainPageBuilder.get_value
        { b with
          _buffer :=
            put_fixed32_le (put_offsets b._buffer b._offsets) (b._offsets.length % 4294967296) }
        0 ∧
      b.finish._last_value = BinaryPlainPageBuilder.get_value
        { b with
          _buffer :=
            put_fixed32_le (put_offsets b._buffer b._offsets) (b._offsets.length % 4294967296) }
        (b._offsets.length - 1)) := by
  unfold BinaryPlainPageBuilder.finish
  simp only
  cases hoff : b._offsets with
  | nil => simp
  | cons o os => simp

/-- The first and the last value of a page of two strings whose first string has
a length that is a multiple of `2^32`. -/
theorem first_value_wraps (N : Nat) (hN : N % 4294967296 = 0)
    (h64 : N + 1 < 18446744073709551616) :
    ((BinaryPlainPageBuilder.new ⟨0⟩).add_calls [[List.replicate N 0, [7]]]).1 =
      [List.replicate N 0, [7]] ∧
    ((BinaryPlainPageBuilder.new ⟨0⟩).add_calls
      [[List.replicate N 0, [7]]]).2.finish.get_first_value = (Status.OK, some []) ∧
    ((BinaryPlainPageBuilder.new ⟨0⟩).add_calls
      [[List.replicate N 0, [7]]]).2.finish.get_last_value =
        (Status.OK, some (List.replicate N 0 ++ [7])) := by
  have heq := BinaryPlainPageBuilder.add_calls_eq_add (BinaryPlainPageBuilder.new ⟨0⟩)
    [[List.replicate N 0, [7]]]
  have hacc : ((BinaryPlainPageBuilder.new ⟨0⟩).add_calls [[List.replicate N 0, [7]]]).1 =
      [List.replicate N 0, [7]] := by
    have hk := BinaryPlainPageBuilder.add_unlimited [List.replicate N 0, [7]]
      (BinaryPlainPageBuilder.new ⟨0⟩) rfl
    unfold BinaryPlainPageBuilder.add_calls
    rw [List.foldl_cons, List.foldl_nil]
    simp only [List.nil_append]
    rw [hk]
    rfl
  rw [hacc] at heq
  have hk : ((BinaryPlainPageBuilder.new ⟨0⟩).add [List.replicate N 0, [7]]).1 =
      [List.replicate N 0, [7]].length := by rw [heq]
  have h2 : ((BinaryPlainPageBuilder.new ⟨0⟩).add [List.replicate N 0, [7]]).2 =
      ((BinaryPlainPageBuilder.new ⟨0⟩).add_calls [[List.replicate N 0, [7]]]).2 := by rw [heq]
  obtain ⟨s1, s2, s3, s4⟩ := BinaryPlainPageBuilder.add_spec _ _ hk
  rw [h2] at s1 s2 s3 s4
  have hb0 : (BinaryPlainPageBuilder.new ⟨0⟩)._buffer = [] := rfl
  have ho0 : (BinaryPlainPageBuilder.new ⟨0⟩)._offsets = [] := rfl
  have hn0 : (BinaryPlainPageBuilder.new ⟨0⟩)._next_offset = 0 := rfl
  have hh0 : (BinaryPlainPageBuilder.new ⟨0⟩)._reserved_head_size = 0 := rfl
  have hoffs : offsets_from 0 [List.replicate N 0, [7]] = [0, 0] := by
    simp only [offsets_from, List.length_replicate, Nat.zero_add, Nat.zero_mod]
    rw [Nat.mod_eq_of_lt (show N < 18446744073709551616 by omega), hN]
  rw [hb0, List.nil_append] at s1
  rw [ho0, hn0, List.nil_append, hoffs] at s2
  rw [hn0] at s3
  rw [hh0] at s4
  have hflat : [List.replicate N 0, [7]].flatten = List.replicate N 0 ++ [7] := by simp
  have hnext : ((BinaryPlainPageBuilder.new ⟨0⟩).add_calls
      [[List.replicate N 0, [7]]]).2._next_offset = N + 1 := by
    rw [s3, if_neg (by simp), hflat, List.length_append, List.length_replicate, Nat.zero_add]
    exact Nat.mod_eq_of_lt h64
  obtain ⟨f1, f2⟩ := BinaryPlainPageBuilder.finish_values
    ((BinaryPlainPageBuilder.new ⟨0⟩).add_calls [[List.replicate N 0, [7]]]).2
  obtain ⟨f3, f4⟩ := f2 (by rw [s2]; simp)
  refine ⟨hacc, ?_, ?_⟩
  · unfold BinaryPlainPageBuilder.get_first_value
    rw [f1, s2, f3]
    simp only [List.isEmpty_cons, Bool.false_eq_true, if_false]
    unfold BinaryPlainPageBuilder.get_value
    simp only
    rw [s2]
    simp
  · unfold BinaryPlainPageBuilder.get_last_value
    rw [f1, s2, f4]
    simp only [List.isEmpty_cons, Bool.false_eq_true, if_false]
    unfold BinaryPlainPageBuilder.get_value
    simp only
    rw [s2, s4, hnext, s1, hflat, put_fixed32_le_eq, put_offsets_eq]
    simp only [List.length_cons, List.length_nil, List.getD_cons_succ, List.getD_cons_zero]
    have hlen : (N + 1 + 18446744073709551616 - 0) % 18446744073709551616 = N + 1 := by omega
    rw [if_neg (by omega), hlen, Nat.add_zero, List.drop_zero, List.append_assoc]
    have htake : ∀ T : List Nat,
        List.take (N + 1) (List.replicate N 0 ++ [7] ++ T) = List.replicate N 0 ++ [7] := by
      intro T
      apply List.take_left'
      rw [List.length_append, List.length_replicate]
      rfl
    rw [htake]

/-- Counterexample to C38 as stated: a string of `2^32` bytes and the string `7`
are both accepted by a new builder without page limit.  After `finish`,
`get_first_value` returns OK with the empty string and `get_last_value` returns
OK with both strings, one after the other. -/
theorem first_value_lost_at_4gib :
    ((BinaryPlainPageBuilder.new ⟨0⟩).add_calls [[List.replicate 4294967296 0, [7]]]).1 =
      [List.replicate 4294967296 0, [7]] ∧
    ((BinaryPlainPageBuilder.new ⟨0⟩).add_calls
      [[List.replicate 4294967296 0, [7]]]).2.finish.get_first_value = (Status.OK, some []) ∧
    ((BinaryPlainPageBuilder.new ⟨0⟩).add_calls
      [[List.replicate 4294967296 0, [7]]]).2.finish.get_last_value =
        (Status.OK, some (List.replicate 4294967296 0 ++ [7])) :=
  first_value_wraps 4294967296 (by norm_num) (by norm_num)

/-- Claim C38 as amended (first and last value): for a builder that `reset`
leaves as it is and every sequence of `add` calls on it that accepted the
strings `s_0..s_{n-1}`, after `finish` both `get_first_value` and
`get_last_value` return NotFound exactly when `n = 0`; when `n > 0`, the strings
before the last have a total length below `2^32` and the length of the finished
buffer is a `size_t` value, they return OK with `s_0` and `s_{n-1}`. -/
theorem first_last_value (b : BinaryPlainPageBuilder) (calls : List (List (List Nat)))
    (hbase : b.reset = b) :
    ((b.add_calls calls).2.finish.get_first_value.1 = Status.NotFound "page is empty" ↔
      (b.add_calls calls).1 = []) ∧
    ((b.add_calls calls).2.finish.get_last_value.1 = Status.NotFound "page is empty" ↔
      (b.add_calls calls).1 = []) ∧
    ((b.add_calls calls).1 ≠ [] →
      length_before (b.add_calls calls).1 ((b.add_calls calls).1.length - 1) < 4294967296 →
      (b.add_calls calls).2.finish._buffer.length < 18446744073709551616 →
      (b.add_calls calls).2.finish.get_first_value =
        (Status.OK, some ((b.add_calls calls).1.getD 0 [])) ∧
      (b.add_calls calls).2.finish.get_last_value =
        (Status.OK, some ((b.add_calls calls).1.getD ((b.add_calls calls).1.length - 1) []))) := by
  have heq := BinaryPlainPageBuilder.add_calls_eq_add b calls
  have hk : (b.add (b.add_calls calls).1).1 = (b.add_calls calls).1.length := by rw [heq]
  have h2 : (b.add (b.add_calls calls).1).2 = (b.add_calls calls).2 := by rw [heq]
  obtain ⟨hoff, hbuf, hnext, _⟩ := BinaryPlainPageBuilder.reset_fixed b hbase
  obtain ⟨s1, s2, s3, s4⟩ := BinaryPlainPageBuilder.add_spec _ b hk
  rw [h2] at s1 s2 s3 s4
  rw [hoff, List.nil_append, hnext] at s2
  rw [hnext] at s3
  obtain ⟨f1, f2⟩ := BinaryPlainPageBuilder.finish_values (b.add_calls calls).2
  have hempty : (b.add_calls calls).2.finish._offsets.isEmpty = true ↔
      (b.add_calls calls).1 = [] := by
    rw [f1, s2, List.isEmpty_iff]
    constructor
    · intro h
      have := congrArg List.length h
      rw [offsets_from_length] at this
      exact List.length_eq_zero.mp this
    · intro h
      rw [h]
      rfl
  refine ⟨?_, ?_, ?_⟩
  · unfold BinaryPlainPageBuilder.get_first_value
    by_cases he : (b.add_calls calls).2.finish._offsets.isEmpty = true
    · rw [if_pos he]
      exact ⟨fun _ => hempty.mp he, fun _ => rfl⟩
    · rw [if_neg he]
      exact ⟨fun h => by simp [Status.OK, Status.NotFound] at h, fun h => absurd (hempty.mpr h) he⟩
  · unfold BinaryPlainPageBuilder.get_last_value
    by_cases he : (b.add_calls calls).2.finish._offsets.isEmpty = true
    · rw [if_pos he]
      exact ⟨fun _ => hempty.mp he, fun _ => rfl⟩
    · rw [if_neg he]
      exact ⟨fun h => by simp [Status.OK, Status.NotFound] at h, fun h => absurd (hempty.mpr h) he⟩
  · intro hne h32 hfit
    have hpos : 0 < (b.add_calls calls).1.length := List.length_pos.mpr hne
    have hne2 : (b.add_calls calls).2._offsets ≠ [] := by
      intro h
      have := congrArg List.length h
      rw [s2, offsets_from_length] at this
      simp at this
      exact hne this
    obtain ⟨f3, f4⟩ := f2 hne2
    have hlen := BinaryPlainPageBuilder.finish_length (b.add_calls calls).2
    rw [s1, List.length_append] at hlen
    have h64 : (b.add_calls calls).1.flatten.length < 18446744073709551616 := by omega
    have hnx : (b.add_calls calls).2._next_offset = (b.add_calls calls).1.flatten.length := by
      rw [s3, if_neg hne, Nat.zero_add]
      exact Nat.mod_eq_of_lt h64
    have hnotempty : ¬ ((b.add_calls calls).2.finish._offsets.isEmpty = true) :=
      fun h => hne (hempty.mp h)
    have hlay : ∀ i, i < (b.add_calls calls).1.length →
        length_before (b.add_calls calls).1 i < 4294967296 →
        (i + 1 < (b.add_calls calls).1.length →
          length_before (b.add_calls calls).1 (i + 1) < 4294967296) →
        BinaryPlainPageBuilder.get_value
          { (b.add_calls calls).2 with
            _buffer :=
              put_fixed32_le (put_offsets (b.add_calls calls).2._buffer
                (b.add_calls calls).2._offsets)
                ((b.add_calls calls).2._offsets.length % 4294967296) } i =
          (b.add_calls calls).1.getD i [] := by
      intro i hi h1 h2'
      have hb1 : put_fixed32_le (put_offsets (b.add_calls calls).2._buffer
          (b.add_calls calls).2._offsets)
          ((b.add_calls calls).2._offsets.length % 4294967296) =
          b._buffer ++ (b.add_calls calls).1.flatten ++
            ((offsets_from 0 (b.add_calls calls).1).flatMap (fun v => put_fixed32_le [] v) ++
              put_fixed32_le [] ((offsets_from 0 (b.add_calls calls).1).length % 4294967296)) := by
        rw [put_fixed32_le_eq, put_offsets_eq, s1, s2]
        simp only [List.append_assoc]
      exact BinaryPlainPageBuilder.get_value_of_layout
        { (b.add_calls calls).2 with
          _buffer :=
            put_fixed32_le (put_offsets (b.add_calls calls).2._buffer
              (b.add_calls calls).2._offsets)
              ((b.add_calls calls).2._offsets.length % 4294967296) }
        b._buffer
        ((offsets_from 0 (b.add_calls calls).1).flatMap (fun v => put_fixed32_le [] v) ++
          put_fixed32_le [] ((offsets_from 0 (b.add_calls calls).1).length % 4294967296))
        (b.add_calls calls).1 i hb1 (by rw [hbuf]; exact s4.symm) s2 hnx hi h64 h1 h2'
    constructor
    · unfold BinaryPlainPageBuilder.get_first_value
      rw [if_neg hnotempty, f3, hlay 0 hpos (by rw [length_before_zero]; omega)
        (fun h1 => lt_of_le_of_lt
          (length_before_le (b.add_calls calls).1 1 _ (by omega)) h32)]
    · unfold BinaryPlainPageBuilder.get_last_value
      have hidx : (b.add_calls calls).2._offsets.length - 1 =
          (b.add_calls calls).1.length - 1 := by
        rw [s2, offsets_from_length]
      rw [if_neg hnotempty, f4, hidx, hlay _ (by omega) h32 (fun h1 => by omega)]

/-- Witness of C38 as amended: three strings accepted in two calls behind a head
of two bytes; the first is `1 2 3`, the last `9 9`. -/
theorem first_last_value_witness :
    (BinaryPlainPageBuilder.add_calls
      { BinaryPlainPageBuilder.new ⟨0⟩ with _reserved_head_size := 2, _buffer := [0, 0] }
      [[[1, 2, 3], []], [[9, 9]]]).2.finish.get_first_value = (Status.OK, some [1, 2, 3]) ∧
    (BinaryPlainPageBuilder.add_calls
      { BinaryPlainPageBuilder.new ⟨0⟩ with _reserved_head_size := 2, _buffer := [0, 0] }
      [[[1, 2, 3], []], [[9, 9]]]).2.finish.get_last_value = (Status.OK, some [9, 9]) :=
  (first_last_value
    { BinaryPlainPageBuilder.new ⟨0⟩ with _reserved_head_size := 2, _buffer := [0, 0] }
    [[[1, 2, 3], []], [[9, 9]]] (by decide)).2.2 (by decide) (by decide) (by decide)

/-! ## The assertions of `try_get_chunk` and `decrement_senders` -/

theorem Run.steps_eos_subset (env : Collaborators) :
    ∀ (ops : List Op) (s : Run) (b : Int),
      b ∈ (Run.steps env s ops).queue._sender_eos_set →
      b ∈ s.queue._sender_eos_set ∨ b ∈ decrement_sources ops := by
  intro ops
  induction ops with
  | nil => intro s b h; exact Or.inl h
  | cons op rest ih =>
    intro s b h
    simp only [Run.steps, List.foldl_cons] at h
    rcases ih (Run.step env s op) b h with h1 | h1
    · by_cases hd : ∃ c, op = Op.decrement_senders c
      · obtain ⟨c, hc⟩ := hd
        subst hc
        simp only [Run.step, decrement_senders] at h1
        split at h1
        · exact Or.inl h1
        · simp only [List.mem_cons] at h1
          rcases h1 with h1 | h1
          · right
            subst h1
            simp [decrement_sources]
          · exact Or.inl h1
      · rw [(Run.step_senders env s op (fun c hc => hd ⟨c, hc⟩)).1] at h1
        exact Or.inl h1
    · right
      unfold decrement_sources at h1 ⊢
      rw [List.filterMap_cons]
      split
      · exact h1
      · exact List.mem_cons_of_mem _ h1

/-- The EOS set of a run from a new queue holds no more sources than were passed
to `decrement_senders`. -/
theorem Run.fresh_eos_length (env : Collaborators) (limit : Int)
    (row_desc : List TupleDescriptor) (n : Int) (ops : List Op) :
    (Run.steps env (Run.fresh limit row_desc n) ops).queue._sender_eos_set.length ≤
      (decrement_sources ops).dedup.length := by
  have hnd := (Run.steps_sender_count env ops (Run.fresh limit row_desc n) n
    List.nodup_nil (by simp [Run.fresh, SenderQueue.new])).1
  apply List.Subperm.length_le
  apply List.Nodup.subperm hnd
  intro b hb
  rcases Run.steps_eos_subset env ops _ b hb with h | h
  · simp [Run.fresh, SenderQueue.new] at h
  · exact List.mem_dedup.2 h

/-- Claim C36 (the assertions hold): in every state a run reaches from a new
queue with `N` senders, at most `N` distinct sources having been passed to
`decrement_senders`, if `has_chunk` returns `true` then the assertion of
`try_get_chunk` called on that state holds: with the queue not cancelled and the
ready queue empty, `remaining_senders = 0`.  Likewise the assertion of a call
`decrement_senders(b)` on that state holds when the sources passed, this one
included, are still at most `N`. -/
theorem dchecks_hold (env : Collaborators) (limit : Int) (row_desc : List TupleDescriptor)
    (N : Nat) (ops : List Op) (h : (decrement_sources ops).dedup.length ≤ N) :
    (has_chunk (Run.steps env (Run.fresh limit row_desc N) ops).queue = true →
      (Run.steps env (Run.fresh limit row_desc N) ops).queue._is_cancelled = false →
      (Run.steps env (Run.fresh limit row_desc N) ops).queue._chunk_queue = [] →
      (Run.steps env (Run.fresh limit row_desc N) ops).queue._num_remaining_senders = 0) ∧
    (has_chunk (Run.steps env (Run.fresh limit row_desc N) ops).queue = true →
      try_get_chunk_dcheck (Run.steps env (Run.fresh limit row_desc N) ops).queue = true) ∧
    (∀ b : Int, (decrement_sources (ops ++ [Op.decrement_senders b])).dedup.length ≤ N →
      decrement_senders_dcheck (Run.steps env (Run.fresh limit row_desc N) ops).queue b = true) := by
  have hinv := Run.steps_sender_count env ops (Run.fresh limit row_desc N) N
    List.nodup_nil (by simp [Run.fresh, SenderQueue.new])
  have hlen := Run.fresh_eos_length env limit row_desc N ops
  have hzero : has_chunk (Run.steps env (Run.fresh limit row_desc N) ops).queue = true →
      (Run.steps env (Run.fresh limit row_desc N) ops).queue._is_cancelled = false →
      (Run.steps env (Run.fresh limit row_desc N) ops).queue._chunk_queue = [] →
      (Run.steps env (Run.fresh limit row_desc N) ops).queue._num_remaining_senders = 0 := by
    intro hhas hc hq
    unfold has_chunk at hhas
    rw [if_neg (by simp [hc]), hq] at hhas
    simp only [List.isEmpty_nil, Bool.true_and] at hhas
    by_cases hpos : (Run.steps env (Run.fresh limit row_desc N) ops).queue._num_remaining_senders > 0
    · simp [hpos] at hhas
    · have := hinv.2
      omega
  refine ⟨hzero, ?_, ?_⟩
  · intro hhas
    unfold try_get_chunk_dcheck
    cases hc : (Run.steps env (Run.fresh limit row_desc N) ops).queue._is_cancelled
    · cases hq : (Run.steps env (Run.fresh limit row_desc N) ops).queue._chunk_queue with
      | nil => simp [hzero hhas hc hq]
      | cons front rest => simp
    · simp
  · intro b hb
    unfold decrement_senders_dcheck
    by_cases hmem : b ∈ (Run.steps env (Run.fresh limit row_desc N) ops).queue._sender_eos_set
    · rw [if_pos hmem]
    · rw [if_neg hmem]
      have hstep : Run.steps env (Run.fresh limit row_desc N) (ops ++ [Op.decrement_senders b]) =
          Run.step env (Run.steps env (Run.fresh limit row_desc N) ops) (Op.decrement_senders b) := by
        simp [Run.steps, List.foldl_append]
      have hlen2 := Run.fresh_eos_length env limit row_desc N (ops ++ [Op.decrement_senders b])
      rw [hstep] at hlen2
      simp only [Run.step, decrement_senders, if_neg hmem, List.length_cons] at hlen2
      have := hinv.2
      simp only [decide_eq_true_eq]
      omega

/-- Witness of C36: the only sender of a queue has closed its channel; `has_chunk`
is `true`, the ready queue is empty and the assertion of `try_get_chunk` holds. -/
theorem dchecks_hold_witness :
    try_get_chunk_dcheck
      (Run.steps plain_env (Run.fresh 0 one_slot_desc (1 : Nat)) [Op.decrement_senders 7]).queue
      = true :=
  (dchecks_hold plain_env 0 one_slot_desc 1 [Op.decrement_senders 7] (by decide)).2.1 (by decide)

/-! ## `add_chunks` that fails -/

/-- Claim C33 (no chunk is lost in keep-order mode), evaluated where it fails:
source `7` delivers sequence `5` while sequence `0` is missing, and then
sequence `5` again.  Before the second call the pending map of the source holds
the item of the first call, with the chunk `1 2 3`; the queue is not cancelled
and has a sender remaining.  The second call returns OK; afterwards the ready
queue is empty and the pending map holds the item of the second call only: the
item of the first call is in neither, and its chunk is in neither. -/
theorem keep_order_loses_pending_batch :
    mfind (Run.steps plain_env (Run.fresh 100 one_slot_desc 1)
      (retried_pending_ops.take 1)).queue._buffered_chunk_queues 7 =
      some [(5, [⟨3, ⟨[1, 2, 3]⟩, none⟩])] ∧
    (Run.steps plain_env (Run.fresh 100 one_slot_desc 1)
      (retried_pending_ops.take 1)).queue._is_cancelled = false ∧
    (Run.steps plain_env (Run.fresh 100 one_slot_desc 1)
      (retried_pending_ops.take 1)).queue._num_remaining_senders = 1 ∧
    (add_chunks_and_keep_order plain_env
      (Run.steps plain_env (Run.fresh 100 one_slot_desc 1) (retried_pending_ops.take 1)).recvr
      (Run.steps plain_env (Run.fresh 100 one_slot_desc 1) (retried_pending_ops.take 1)).queue
      (mk_request 7 5 [plain_chunk [9]]) none).status = Status.OK ∧
    (Run.steps plain_env (Run.fresh 100 one_slot_desc 1)
      retried_pending_ops).queue._chunk_queue = [] ∧
    mfind (Run.steps plain_env (Run.fresh 100 one_slot_desc 1)
      retried_pending_ops).queue._buffered_chunk_queues 7 =
      some [(5, [⟨1, ⟨[9]⟩, none⟩])] ∧
    (⟨3, ⟨[1, 2, 3]⟩, none⟩ : ChunkItem) ∉
      (Run.steps plain_env (Run.fresh 100 one_slot_desc 1) retried_pending_ops).queue._chunk_queue ++
        pending_items (Run.steps plain_env (Run.fresh 100 one_slot_desc 1)
          retried_pending_ops).queue ∧
    (⟨[1, 2, 3]⟩ : Chunk) ∉
      ((Run.steps plain_env (Run.fresh 100 one_slot_desc 1) retried_pending_ops).queue._chunk_queue ++
        pending_items (Run.steps plain_env (Run.fresh 100 one_slot_desc 1)
          retried_pending_ops).queue).map (fun i => i.chunk_ptr) := by
  decide

/-- Claim C34 (buffered-bytes accounting), evaluated where it fails: source `7`
delivers the distinct sequences `4294967297` and `1`, which have the same
`int32_t` value `1`, while sequence `0` is missing.  Both calls add the bytes of
their chunk to `num_buffered_bytes`, which is `4` afterwards; the second batch
replaces the first under the pending key `1`, so the items held in the ready
queue and the pending map afterwards are the one item of the second call, of
`1` byte. -/
theorem buffered_bytes_exceed_held_items :
    (4294967297 : Int) ≠ 1 ∧ toInt32 4294967297 = toInt32 1 ∧
    (Run.steps plain_env (Run.fresh 100 one_slot_desc 1)
      colliding_sequence_ops).recvr._num_buffered_bytes = 4 ∧
    (Run.steps plain_env (Run.fresh 100 one_slot_desc 1)
      colliding_sequence_ops).queue._chunk_queue = [] ∧
    pending_items (Run.steps plain_env (Run.fresh 100 one_slot_desc 1)
      colliding_sequence_ops).queue = [⟨1, ⟨[9]⟩, none⟩] ∧
    sum_chunk_bytes
      ((Run.steps plain_env (Run.fresh 100 one_slot_desc 1)
        colliding_sequence_ops).queue._chunk_queue ++
        pending_items (Run.steps plain_env (Run.fresh 100 one_slot_desc 1)
          colliding_sequence_ops).queue) = 1 := by
  decide

/-! ## Accounting of the buffered bytes where no pending key is shared -/

theorem wsum_nil (f : ChunkItem → Int) : wsum f [] = 0 := rfl

theorem wsum_cons (f : ChunkItem → Int) (i : ChunkItem) (l : ChunkQueue) :
    wsum f (i :: l) = f i + wsum f l := by
  simp [wsum]

theorem wsum_append (f : ChunkItem → Int) (a b : ChunkQueue) :
    wsum f (a ++ b) = wsum f a + wsum f b := by
  simp [wsum]

theorem msum_nil (f : ChunkItem → Int) : msum f [] = 0 := rfl

theorem msum_cons (f : ChunkItem → Int) (k : Int) (v : ChunkQueue)
    (m : List (Int × ChunkQueue)) :
    msum f ((k, v) :: m) = wsum f v + msum f m := by
  simp [msum, wsum_append]

theorem psum_cons (f : ChunkItem → Int) (k : Int) (v : List (Int × ChunkQueue))
    (outer : List (Int × List (Int × ChunkQueue))) :
    psum f ((k, v) :: outer) = msum f v + psum f outer := by
  simp [psum, msum, wsum_append]

theorem msum_minsert_fresh (f : ChunkItem → Int) (v : ChunkQueue) (k : Int) :
    ∀ m : List (Int × ChunkQueue), mfind m k = none →
      msum f (minsert m k v) = msum f m + wsum f v := by
  intro m
  induction m with
  | nil => intro _; simp [minsert, msum_cons, msum_nil]
  | cons e rest ih =>
    intro h
    obtain ⟨k2, v2⟩ := e
    unfold mfind at h
    by_cases hk : k2 = k
    · simp [hk] at h
    · simp only [hk, if_false] at h
      unfold minsert
      rw [if_neg hk, msum_cons, msum_cons, ih h]
      omega

theorem keys_minsert (v : ChunkQueue) (k : Int) :
    ∀ m : List (Int × ChunkQueue),
      (minsert m k v).map (fun batch => batch.1) =
        if mfind m k = none then m.map (fun batch => batch.1) ++ [k]
        else m.map (fun batch => batch.1) := by
  intro m
  induction m with
  | nil => simp [minsert, mfind]
  | cons e rest ih =>
    obtain ⟨k2, v2⟩ := e
    unfold minsert mfind
    by_cases hk : k2 = k
    · simp [hk]
    · simp only [hk, if_false, List.map_cons, ih]
      split <;> simp

theorem mem_keys_of_mfind (k : Int) :
    ∀ m : List (Int × ChunkQueue), k ∈ m.map (fun batch => batch.1) → mfind m k ≠ none := by
  intro m
  induction m with
  | nil => intro h; simp at h
  | cons e rest ih =>
    intro h
    obtain ⟨k2, v2⟩ := e
    unfold mfind
    by_cases hk : k2 = k
    · simp [hk]
    · simp only [hk, if_false]
      simp only [List.map_cons, List.mem_cons] at h
      rcases h with h | h
      · exact absurd h.symm hk
      · exact ih h

theorem nodup_keys_minsert (v : ChunkQueue) (k : Int) (m : List (Int × ChunkQueue))
    (h : (m.map (fun batch => batch.1)).Nodup) :
    ((minsert m k v).map (fun batch => batch.1)).Nodup := by
  rw [keys_minsert]
  split
  · rename_i hnone
    rw [List.nodup_append]
    refine ⟨h, List.nodup_singleton k, ?_⟩
    intro a ha hb
    simp only [List.mem_singleton] at hb
    subst hb
    exact mem_keys_of_mfind a m ha hnone
  · exact h

theorem keys_merase (k : Int) :
    ∀ m : List (Int × ChunkQueue),
      (merase m k).map (fun batch => batch.1) =
        (m.map (fun batch => batch.1)).filter (fun x => decide (x ≠ k)) := by
  intro m
  induction m with
  | nil => rfl
  | cons e rest ih =>
    obtain ⟨k2, v2⟩ := e
    unfold merase
    by_cases hk : k2 = k
    · simp [hk, ih]
    · simp [hk, ih]

theorem merase_of_not_mem (k : Int) :
    ∀ m : List (Int × ChunkQueue), k ∉ m.map (fun batch => batch.1) → merase m k = m := by
  intro m
  induction m with
  | nil => intro _; rfl
  | cons e rest ih =>
    intro h
    obtain ⟨k2, v2⟩ := e
    simp only [List.map_cons, List.mem_cons, not_or] at h
    unfold merase
    rw [if_neg (fun hk => h.1 hk.symm), ih h.2]

theorem msum_merase (f : ChunkItem → Int) (k : Int) (v : ChunkQueue) :
    ∀ m : List (Int × ChunkQueue), (m.map (fun batch => batch.1)).Nodup →
      mfind m k = some v → msum f (merase m k) + wsum f v = msum f m := by
  intro m
  induction m with
  | nil => intro _ h; simp [mfind] at h
  | cons e rest ih =>
    intro hnd h
    obtain ⟨k2, v2⟩ := e
    simp only [List.map_cons, List.nodup_cons] at hnd
    unfold mfind at h
    unfold merase
    by_cases hk : k2 = k
    · simp only [hk, if_true, Option.some.injEq] at h
      subst h
      rw [if_pos hk, msum_cons, merase_of_not_mem k rest (by rw [← hk]; exact hnd.1)]
      omega
    · simp only [hk, if_false] at h
      rw [if_neg hk, msum_cons, msum_cons]
      have := ih hnd.2 h
      omega

theorem drain_loop_sum (f : ChunkItem → Int) :
    ∀ (fuel : Nat) (cq : List (Int × ChunkQueue)) (mx : Int) (rd : ChunkQueue),
      (cq.map (fun batch => batch.1)).Nodup →
      wsum f (drain_loop fuel cq mx rd).2.2 + msum f (drain_loop fuel cq mx rd).1 =
        wsum f rd + msum f cq ∧
      ((drain_loop fuel cq mx rd).1.map (fun batch => batch.1)).Nodup := by
  intro fuel
  induction fuel with
  | zero => intro cq mx rd h; exact ⟨rfl, h⟩
  | succ fuel ih =>
    intro cq mx rd h
    unfold drain_loop
    cases hm : mfind cq (mx + 1) with
    | none => exact ⟨rfl, h⟩
    | some batch =>
      simp only
      have hnd : ((merase cq (mx + 1)).map (fun batch => batch.1)).Nodup := by
        rw [keys_merase]
        exact List.Nodup.filter _ h
      obtain ⟨h1, h2⟩ := ih (merase cq (mx + 1)) (mx + 1) (rd ++ batch) hnd
      refine ⟨?_, h2⟩
      rw [h1, wsum_append]
      have := msum_merase f (mx + 1) batch cq h hm
      omega

theorem psum_minsert (f : ChunkItem → Int) (k : Int) (v : List (Int × ChunkQueue)) :
    ∀ outer : List (Int × List (Int × ChunkQueue)),
      psum f (minsert outer k v) + msum f ((mfind outer k).getD []) = psum f outer + msum f v := by
  intro outer
  induction outer with
  | nil =>
    simp only [minsert, mfind, Option.getD_none, psum_cons, msum_nil]
    omega
  | cons e rest ih =>
    obtain ⟨k2, v2⟩ := e
    unfold minsert mfind
    by_cases hk : k2 = k
    · simp only [hk, if_true, Option.getD_some, psum_cons]
      omega
    · simp only [hk, if_false, psum_cons]
      omega

theorem mem_minsert {K V : Type} [DecidableEq K] (k : K) (v : V) :
    ∀ (m : List (K × V)) (x : K × V), x ∈ minsert m k v → x ∈ m ∨ x = (k, v) := by
  intro m
  induction m with
  | nil => intro x h; simp [minsert] at h; exact Or.inr h
  | cons e rest ih =>
    intro x h
    obtain ⟨k2, v2⟩ := e
    unfold minsert at h
    by_cases hk : k2 = k
    · rw [if_pos hk] at h
      simp only [List.mem_cons] at h ⊢
      rcases h with h | h
      · exact Or.inr h
      · exact Or.inl (Or.inr h)
    · rw [if_neg hk] at h
      simp only [List.mem_cons] at h ⊢
      rcases h with h | h
      · exact Or.inl (Or.inl h)
      · rcases ih x h with h1 | h1
        · exact Or.inl (Or.inr h1)
        · exact Or.inr h1

theorem mem_of_mfind {K V : Type} [DecidableEq K] (k : K) (v : V) :
    ∀ m : List (K × V), mfind m k = some v → (k, v) ∈ m := by
  intro m
  induction m with
  | nil => intro h; simp [mfind] at h
  | cons e rest ih =>
    intro h
    obtain ⟨k2, v2⟩ := e
    unfold mfind at h
    by_cases hk : k2 = k
    · simp only [hk, if_true, Option.some.injEq] at h
      subst h
      subst hk
      exact List.mem_cons_self _ _
    · simp only [hk, if_false] at h
      exact List.mem_cons_of_mem _ (ih h)

theorem minsert_minsert {K V : Type} [DecidableEq K] (k : K) (v w : V) :
    ∀ m : List (K × V), minsert (minsert m k v) k w = minsert m k w := by
  intro m
  induction m with
  | nil => simp [minsert]
  | cons e rest ih =>
    obtain ⟨k2, v2⟩ := e
    by_cases hk : k2 = k
    · simp [hk, minsert]
    · have h1 : ∀ u : V, minsert ((k2, v2) :: rest) k u = (k2, v2) :: minsert rest k u := by
        intro u
        simp [minsert, hk]
      have h3 : minsert ((k2, v2) :: minsert rest k v) k w =
          (k2, v2) :: minsert (minsert rest k v) k w := by
        simp [minsert, hk]
      rw [h1, h3, h1, ih]

theorem pending_items_psum (f : ChunkItem → Int) (q : SenderQueue) :
    wsum f (pending_items q) = psum f q._buffered_chunk_queues := rfl

theorem _do_get_chunk_shape (r : Recvr) (q : SenderQueue) :
    ((_do_get_chunk r q).recvr = r ∧ (_do_get_chunk r q).queue = q) ∨
    ∃ front rest, q._chunk_queue = front :: rest ∧
      (_do_get_chunk r q).recvr =
        { r with _num_buffered_bytes := r._num_buffered_bytes - front.chunk_bytes } ∧
      (_do_get_chunk r q).queue = { q with _chunk_queue := rest } := by
  unfold _do_get_chunk
  split
  · exact Or.inl ⟨rfl, rfl⟩
  · cases hq : q._chunk_queue with
    | nil => exact Or.inl ⟨rfl, rfl⟩
    | cons front rest => exact Or.inr ⟨front, rest, rfl, rfl, rfl⟩

theorem try_get_chunk_shape (r : Recvr) (q : SenderQueue) :
    ((try_get_chunk r q).recvr = r ∧ (try_get_chunk r q).queue = q) ∨
    ∃ front rest, q._chunk_queue = front :: rest ∧
      (try_get_chunk r q).recvr =
        { r with _num_buffered_bytes := r._num_buffered_bytes - front.chunk_bytes } ∧
      (try_get_chunk r q).queue = { q with _chunk_queue := rest } := by
  unfold try_get_chunk
  split
  · exact Or.inl ⟨rfl, rfl⟩
  · cases hq : q._chunk_queue with
    | nil => exact Or.inl ⟨rfl, rfl⟩
    | cons front rest => exact Or.inr ⟨front, rest, rfl, rfl, rfl⟩

/-- The batch built from the chunks a request deserializes to: its bytes sum to
`total_chunk_bytes` and no item has a negative size. -/
theorem deserialized_batch (env : Collaborators) (meta : RuntimeChunkMeta) (r : Recvr)
    (chunks : List ChunkPB) (items : ChunkQueue) (total : Int) (done : Option (Option Closure))
    (h : deserialize_chunks env meta chunks = Except.ok (items, total)) :
    wsum (fun i => i.chunk_bytes) (keep_order_batch r items done total) = total ∧
    ∀ i ∈ keep_order_batch r items done total, 0 ≤ i.chunk_bytes := by
  obtain ⟨_, hbytes, _, htotal, _⟩ := deserialize_chunks_spec env meta chunks items total h
  have hmap := keep_order_batch_map_bytes r items done total
  constructor
  · unfold wsum
    rw [hmap, hbytes, htotal]
  · intro i hi
    have hmem : i.chunk_bytes ∈ (keep_order_batch r items done total).map (fun i => i.chunk_bytes) :=
      List.mem_map_of_mem (fun i => i.chunk_bytes) hi
    rw [hmap, hbytes] at hmem
    obtain ⟨p, _, hp⟩ := List.mem_map.1 hmem
    rw [← hp]
    exact Int.ofNat_nonneg _

/-- What `add_chunks` does to the receiver and the queues: nothing, or the batch
of the request goes to the tail of the ready queue and its bytes are added. -/
theorem add_chunks_shape (env : Collaborators) (r : Recvr) (q : SenderQueue)
    (request : PTransmitChunkParams) (done : Option (Option Closure)) (is_pipeline : Bool) :
    (add_chunks env r q request done is_pipeline).queue._buffered_chunk_queues =
      q._buffered_chunk_queues ∧
    (((add_chunks env r q request done is_pipeline).recvr = r ∧
        (add_chunks env r q request done is_pipeline).queue._chunk_queue = q._chunk_queue) ∨
      ∃ batch : ChunkQueue,
        (add_chunks env r q request done is_pipeline).recvr =
          { r with _num_buffered_bytes :=
              r._num_buffered_bytes + wsum (fun i => i.chunk_bytes) batch } ∧
        (add_chunks env r q request done is_pipeline).queue._chunk_queue =
          q._chunk_queue ++ batch ∧
        ∀ i ∈ batch, 0 ≤ i.chunk_bytes) := by
  constructor
  · rw [add_chunks_frame]
  · cases hc : q._is_cancelled
    · rcases add_chunks_outcome env r q request done is_pipeline hc with h | h
      · exact Or.inl h
      · obtain ⟨meta, items, total, hd, h1, h2⟩ := h
        obtain ⟨hsum, hnn⟩ := deserialized_batch env meta r request.chunks items total done hd
        exact Or.inr ⟨keep_order_batch r items done total, by rw [h1, hsum], h2, hnn⟩
    · rw [add_chunks_dropped env r q request done is_pipeline (Or.inl hc)]
      exact Or.inl ⟨rfl, rfl⟩

/-- What `add_chunks_and_keep_order` does to the receiver and the queues: nothing
but, at most, an empty pending map for a new source; or the batch of the request
is bound to the `int32_t` value of the sequence in the pending map of the
source, the drain loop runs, and the bytes of the batch are added. -/
theorem add_chunks_and_keep_order_shape (env : Collaborators) (r : Recvr) (q : SenderQueue)
    (request : PTransmitChunkParams) (done : Option (Option Closure)) :
    ((add_chunks_and_keep_order env r q request done).recvr = r ∧
      (add_chunks_and_keep_order env r q request done).queue._chunk_queue = q._chunk_queue ∧
      ((add_chunks_and_keep_order env r q request done).queue._buffered_chunk_queues =
          q._buffered_chunk_queues ∨
        (mfind q._buffered_chunk_queues request.be_number = none ∧
          (add_chunks_and_keep_order env r q request done).queue._buffered_chunk_queues =
            minsert q._buffered_chunk_queues request.be_number []))) ∨
    (∃ batch : ChunkQueue,
      (add_chunks_and_keep_order env r q request done).recvr =
        { r with _num_buffered_bytes :=
            r._num_buffered_bytes + wsum (fun i => i.chunk_bytes) batch } ∧
      (∀ i ∈ batch, 0 ≤ i.chunk_bytes) ∧
      (add_chunks_and_keep_order env r q request done).queue._chunk_queue =
        (drain_loop
          (minsert ((mfind q._buffered_chunk_queues request.be_number).getD [])
            (toInt32 request.sequence) batch).length
          (minsert ((mfind q._buffered_chunk_queues request.be_number).getD [])
            (toInt32 request.sequence) batch)
          ((mfind q._max_processed_sequences request.be_number).getD (-1)) q._chunk_queue).2.2 ∧
      (add_chunks_and_keep_order env r q request done).queue._buffered_chunk_queues =
        minsert q._buffered_chunk_queues request.be_number
          (drain_loop
            (minsert ((mfind q._buffered_chunk_queues request.be_number).getD [])
              (toInt32 request.sequence) batch).length
            (minsert ((mfind q._buffered_chunk_queues request.be_number).getD [])
              (toInt32 request.sequence) batch)
            ((mfind q._max_processed_sequences request.be_number).getD (-1)) q._chunk_queue).1) := by
  cases hc : q._is_cancelled
  · obtain ⟨q1, h1, hq1, hmx, hbuf, _⟩ := add_chunks_and_keep_order_lock1_spec q request hc
    have hc1 : q1._is_cancelled = false := by rw [hq1]; exact hc
    have hcq1 : q1._chunk_queue = q._chunk_queue := by rw [hq1]
    have hb1 : q1._buffered_chunk_queues =
        (match mfind q._buffered_chunk_queues request.be_number with
         | none => minsert q._buffered_chunk_queues request.be_number []
         | some _ => q._buffered_chunk_queues) := by
      have h1' := h1
      unfold add_chunks_and_keep_order_lock1 at h1'
      simp only at h1'
      rw [if_neg (by simp [hc])] at h1'
      cases h1'
      rfl
    have hbuf1 : q1._buffered_chunk_queues = q._buffered_chunk_queues ∨
        (mfind q._buffered_chunk_queues request.be_number = none ∧
          q1._buffered_chunk_queues = minsert q._buffered_chunk_queues request.be_number []) := by
      rw [hb1]
      cases hm : mfind q._buffered_chunk_queues request.be_number with
      | none => exact Or.inr ⟨rfl, rfl⟩
      | some v => exact Or.inl rfl
    have hins : ∀ w, minsert q1._buffered_chunk_queues request.be_number w =
        minsert q._buffered_chunk_queues request.be_number w := by
      intro w
      rcases hbuf1 with hb | ⟨_, hb⟩
      · rw [hb]
      · rw [hb, minsert_minsert]
    unfold add_chunks_and_keep_order
    rw [h1]
    simp only
    unfold add_chunks_and_keep_order_lock2
    rw [if_neg (by simp [hc1])]
    by_cases hrem : q1._num_remaining_senders ≤ 0
    · rw [if_pos hrem]
      exact Or.inl ⟨rfl, hcq1, hbuf1⟩
    · rw [if_neg hrem]
      have hfields := build_meta_if_empty_fields r q1 request
      cases hb : build_meta_if_empty r q1 request with
      | returned st q2 =>
        rw [hb] at hfields
        simp only [Region.queue] at hfields
        have e2 : q2._buffered_chunk_queues = q1._buffered_chunk_queues := by rw [hfields]
        have e3 : q2._chunk_queue = q1._chunk_queue := by rw [hfields]
        left
        simp only
        rw [e2, e3]
        exact ⟨trivial, hcq1, hbuf1⟩
      | proceed q2 =>
        rw [hb] at hfields
        simp only [Region.queue] at hfields
        have e1 : q2._max_processed_sequences = q1._max_processed_sequences := by rw [hfields]
        have e2 : q2._buffered_chunk_queues = q1._buffered_chunk_queues := by rw [hfields]
        have e3 : q2._chunk_queue = q1._chunk_queue := by rw [hfields]
        have hc2 : q2._is_cancelled = false := by rw [hfields]; exact hc1
        simp only
        cases hd : deserialize_chunks env q2._chunk_meta request.chunks with
        | error e =>
          left
          simp only
          rw [e2, e3]
          exact ⟨trivial, hcq1, hbuf1⟩
        | ok pr =>
          obtain ⟨items, total⟩ := pr
          right
          obtain ⟨hsum, hnn⟩ :=
            deserialized_batch env q2._chunk_meta r request.chunks items total done hd
          refine ⟨keep_order_batch r items done total, ?_, hnn, ?_, ?_⟩
          · rw [hsum]
            simp only [add_chunks_and_keep_order_lock3, hc2, Bool.false_eq_true, if_false]
          · simp only [add_chunks_and_keep_order_lock3, hc2, Bool.false_eq_true, if_false,
              e1, e2, e3, hcq1, hmx, hbuf, Option.getD_some, keep_order_batch]
          · simp only [add_chunks_and_keep_order_lock3, hc2, Bool.false_eq_true, if_false,
              e1, e2, e3, hcq1, hmx, hbuf, Option.getD_some, keep_order_batch]
            rw [hins]
  · left
    have h1 : add_chunks_and_keep_order_lock1 q request = Region.returned Status.OK q := by
      unfold add_chunks_and_keep_order_lock1
      simp only
      rw [if_pos hc]
    unfold add_chunks_and_keep_order
    rw [h1]
    exact ⟨rfl, rfl, Or.inl rfl⟩

theorem Run.held_wsum (f : ChunkItem → Int) (s : Run) :
    wsum f s.held_items =
      wsum f s.queue._chunk_queue + psum f s.queue._buffered_chunk_queues := by
  unfold Run.held_items
  rw [wsum_append]
  rfl

/-- One operation that keeps the pending keys apart: the items the queue holds
afterwards are the items held before, plus a batch of items of non-negative size
and minus items popped from the front of the ready queue, and the counter of the
receiver moves by the bytes of these. -/
theorem Run.step_accounting (env : Collaborators) (s : Run) (op : Op)
    (hnd : pending_keys_nodup s.queue) (hop : op.keeps_keys_apart s.queue = true) :
    pending_keys_nodup (Run.step env s op).queue ∧
    ∃ added popped rest : ChunkQueue,
      s.queue._chunk_queue = popped ++ rest ∧
      (∀ i ∈ added, 0 ≤ i.chunk_bytes) ∧
      (Run.step env s op).recvr._num_buffered_bytes + wsum (fun i => i.chunk_bytes) popped =
        s.recvr._num_buffered_bytes + wsum (fun i => i.chunk_bytes) added ∧
      (∀ f : ChunkItem → Int,
        wsum f (Run.step env s op).held_items + wsum f popped =
          wsum f s.held_items + wsum f added) := by
  have same : ∀ s' : Run, s'.recvr = s.recvr → s'.queue._chunk_queue = s.queue._chunk_queue →
      s'.queue._buffered_chunk_queues = s.queue._buffered_chunk_queues →
      pending_keys_nodup s'.queue ∧
      ∃ added popped rest : ChunkQueue,
        s.queue._chunk_queue = popped ++ rest ∧
        (∀ i ∈ added, 0 ≤ i.chunk_bytes) ∧
        s'.recvr._num_buffered_bytes + wsum (fun i => i.chunk_bytes) popped =
          s.recvr._num_buffered_bytes + wsum (fun i => i.chunk_bytes) added ∧
        (∀ f : ChunkItem → Int,
          wsum f s'.held_items + wsum f popped = wsum f s.held_items + wsum f added) := by
    intro s' h1 h2 h3
    refine ⟨?_, [], [], s.queue._chunk_queue, rfl, ?_, ?_, ?_⟩
    · unfold pending_keys_nodup
      rw [h3]
      exact hnd
    · intro i hi
      simp at hi
    · rw [h1]
    · intro f
      rw [Run.held_wsum, Run.held_wsum, h2, h3]
  have pop : ∀ (s' : Run) (front : ChunkItem) (rest : ChunkQueue),
      s.queue._chunk_queue = front :: rest →
      s'.recvr = { s.recvr with
        _num_buffered_bytes := s.recvr._num_buffered_bytes - front.chunk_bytes } →
      s'.queue = { s.queue with _chunk_queue := rest } →
      pending_keys_nodup s'.queue ∧
      ∃ added popped rest : ChunkQueue,
        s.queue._chunk_queue = popped ++ rest ∧
        (∀ i ∈ added, 0 ≤ i.chunk_bytes) ∧
        s'.recvr._num_buffered_bytes + wsum (fun i => i.chunk_bytes) popped =
          s.recvr._num_buffered_bytes + wsum (fun i => i.chunk_bytes) added ∧
        (∀ f : ChunkItem → Int,
          wsum f s'.held_items + wsum f popped = wsum f s.held_items + wsum f added) := by
    intro s' front rest hq h1 h2
    refine ⟨?_, [], [front], rest, hq, ?_, ?_, ?_⟩
    · unfold pending_keys_nodup
      rw [h2]
      exact hnd
    · intro i hi
      simp at hi
    · rw [h1]
      simp only [wsum_cons, wsum_nil]
      omega
    · intro f
      rw [Run.held_wsum, Run.held_wsum, h2, hq]
      simp only [wsum_cons, wsum_nil]
      omega
  cases op with
  | add_chunks request done is_pipeline =>
    obtain ⟨hbuf, hsh⟩ := add_chunks_shape env s.recvr s.queue request done is_pipeline
    rcases hsh with ⟨h1, h2⟩ | ⟨batch, h1, h2, hnn⟩
    · exact same _ h1 h2 hbuf
    · refine ⟨?_, batch, [], s.queue._chunk_queue, rfl, hnn, ?_, ?_⟩
      · unfold pending_keys_nodup
        simp only [Run.step, Run.after_add]
        rw [hbuf]
        exact hnd
      · simp only [Run.step, Run.after_add]
        rw [h1, wsum_nil]
        simp only
        omega
      · intro f
        rw [Run.held_wsum, Run.held_wsum]
        simp only [Run.step, Run.after_add]
        rw [h2, hbuf, wsum_append, wsum_nil]
        omega
  | add_chunks_and_keep_order request done =>
    simp only [Op.keeps_keys_apart, Option.isNone_iff_eq_none] at hop
    rcases add_chunks_and_keep_order_shape env s.recvr s.queue request done with
      ⟨h1, h2, h3⟩ | ⟨batch, h1, hnn, h2, h3⟩
    · rcases h3 with h3 | ⟨hnone, h3⟩
      · exact same _ h1 h2 h3
      · refine ⟨?_, [], [], s.queue._chunk_queue, rfl, ?_, ?_, ?_⟩
        · unfold pending_keys_nodup
          simp only [Run.step, Run.after_add]
          rw [h3]
          intro src hsrc
          rcases mem_minsert _ _ _ _ hsrc with hm | hm
          · exact hnd src hm
          · rw [hm]
            exact List.nodup_nil
        · intro i hi
          simp at hi
        · simp only [Run.step, Run.after_add]
          rw [h1]
        · intro f
          rw [Run.held_wsum, Run.held_wsum]
          simp only [Run.step, Run.after_add]
          rw [h2, h3]
          have := psum_minsert f request.be_number [] s.queue._buffered_chunk_queues
          rw [hnone, Option.getD_none, msum_nil] at this
          omega
    · have hcq : (((mfind s.queue._buffered_chunk_queues request.be_number).getD []).map
          (fun batch => batch.1)).Nodup := by
        cases hm : mfind s.queue._buffered_chunk_queues request.be_number with
        | none => exact List.nodup_nil
        | some v => exact hnd _ (mem_of_mfind _ _ _ hm)
      have hcq1 := nodup_keys_minsert batch (toInt32 request.sequence) _ hcq
      refine ⟨?_, batch, [], s.queue._chunk_queue, rfl, hnn, ?_, ?_⟩
      · unfold pending_keys_nodup
        simp only [Run.step, Run.after_add]
        rw [h3]
        intro src hsrc
        rcases mem_minsert _ _ _ _ hsrc with hm | hm
        · exact hnd src hm
        · rw [hm]
          exact (drain_loop_sum (fun _ => 0) _ _ _ _ hcq1).2
      · simp only [Run.step, Run.after_add]
        rw [h1, wsum_nil]
        simp only
        omega
      · intro f
        rw [Run.held_wsum, Run.held_wsum]
        simp only [Run.step, Run.after_add]
        rw [h2, h3, wsum_nil]
        have e1 := psum_minsert f request.be_number
          (drain_loop
            (minsert ((mfind s.queue._buffered_chunk_queues request.be_number).getD [])
              (toInt32 request.sequence) batch).length
            (minsert ((mfind s.queue._buffered_chunk_queues request.be_number).getD [])
              (toInt32 request.sequence) batch)
            ((mfind s.queue._max_processed_sequences request.be_number).getD (-1))
            s.queue._chunk_queue).1
          s.queue._buffered_chunk_queues
        have e2 := (drain_loop_sum f
          (minsert ((mfind s.queue._buffered_chunk_queues request.be_number).getD [])
            (toInt32 request.sequence) batch).length
          (minsert ((mfind s.queue._buffered_chunk_queues request.be_number).getD [])
            (toInt32 request.sequence) batch)
          ((mfind s.queue._max_processed_sequences request.be_number).getD (-1))
          s.queue._chunk_queue hcq1).1
        have e3 := msum_minsert_fresh f batch (toInt32 request.sequence) _ hop
        omega
  | get_chunk =>
    by_cases hw : get_chunk_waits s.queue = true
    · have hstep : Run.step env s Op.get_chunk = s := by
        simp only [Run.step, get_chunk, hw, if_true]
      rw [hstep]
      exact same s rfl rfl rfl
    · have hstep : Run.step env s Op.get_chunk =
          { s with recvr := (_do_get_chunk s.recvr s.queue).recvr,
                   queue := (_do_get_chunk s.recvr s.queue).queue,
                   ran := s.ran ++ (_do_get_chunk s.recvr s.queue).ran } := by
        simp only [Run.step, get_chunk, hw, Bool.false_eq_true, if_false]
      rw [hstep]
      rcases _do_get_chunk_shape s.recvr s.queue with ⟨h1, h2⟩ | ⟨front, rest, hq, h1, h2⟩
      · exact same _ h1 (congrArg SenderQueue._chunk_queue h2)
          (congrArg SenderQueue._buffered_chunk_queues h2)
      · exact pop _ front rest hq h1 h2
  | get_chunk_for_pipeline =>
    have hstep : Run.step env s Op.get_chunk_for_pipeline =
        { s with recvr := (_do_get_chunk s.recvr s.queue).recvr,
                 queue := (_do_get_chunk s.recvr s.queue).queue,
                 ran := s.ran ++ (_do_get_chunk s.recvr s.queue).ran } := rfl
    rw [hstep]
    rcases _do_get_chunk_shape s.recvr s.queue with ⟨h1, h2⟩ | ⟨front, rest, hq, h1, h2⟩
    · exact same _ h1 (congrArg SenderQueue._chunk_queue h2)
        (congrArg SenderQueue._buffered_chunk_queues h2)
    · exact pop _ front rest hq h1 h2
  | try_get_chunk =>
    have hstep : Run.step env s Op.try_get_chunk =
        { s with recvr := (try_get_chunk s.recvr s.queue).recvr,
                 queue := (try_get_chunk s.recvr s.queue).queue,
                 ran := s.ran ++ (try_get_chunk s.recvr s.queue).ran } := rfl
    rw [hstep]
    rcases try_get_chunk_shape s.recvr s.queue with ⟨h1, h2⟩ | ⟨front, rest, hq, h1, h2⟩
    · exact same _ h1 (congrArg SenderQueue._chunk_queue h2)
        (congrArg SenderQueue._buffered_chunk_queues h2)
    · exact pop _ front rest hq h1 h2
  | decrement_senders be_number =>
    apply same
    · rfl
    · simp only [Run.step, decrement_senders]
      split <;> rfl
    · simp only [Run.step, decrement_senders]
      split <;> rfl
  | cancel => simp [Op.keeps_keys_apart] at hop
  | close => simp [Op.keeps_keys_apart] at hop

theorem wsum_negative_part_le (l : ChunkQueue) :
    wsum (fun i => min i.chunk_bytes 0) l ≤ 0 := by
  induction l with
  | nil => exact le_refl _
  | cons i rest ih =>
    rw [wsum_cons]
    have : min i.chunk_bytes 0 ≤ 0 := min_le_right _ _
    omega

theorem wsum_negative_part_of_nonneg (l : ChunkQueue) (h : ∀ i ∈ l, 0 ≤ i.chunk_bytes) :
    wsum (fun i => min i.chunk_bytes 0) l = 0 := by
  induction l with
  | nil => rfl
  | cons i rest ih =>
    rw [wsum_cons, ih (fun j hj => h j (List.mem_cons_of_mem _ hj))]
    have := h i (List.mem_cons_self _ _)
    simp only [Int.add_zero]
    exact min_eq_right this

theorem wsum_nonneg_of_negative_part (l : ChunkQueue)
    (h : wsum (fun i => min i.chunk_bytes 0) l = 0) :
    0 ≤ wsum (fun i => i.chunk_bytes) l := by
  induction l with
  | nil => exact le_refl _
  | cons i rest ih =>
    rw [wsum_cons] at h ⊢
    have h1 := wsum_negative_part_le rest
    have h2 : min i.chunk_bytes 0 ≤ 0 := min_le_right _ _
    have h3 : min i.chunk_bytes 0 = 0 := by omega
    have h4 : 0 ≤ i.chunk_bytes := by
      rcases min_choice i.chunk_bytes 0 with hm | hm
      · rw [hm] at h3; omega
      · exact (min_eq_right_iff.mp hm)
    have := ih (by omega)
    omega

/-- Buffered-bytes accounting where no pending key is shared: in every state
reached from a new receiver by `add_chunks`, `add_chunks_and_keep_order`,
`get_chunk`, `get_chunk_for_pipeline`, `try_get_chunk` and `decrement_senders`,
every keep-order call coming with a sequence whose `int32_t` value is not a
pending key of its source, `num_buffered_bytes` is the sum of `chunk_bytes` over
the items of the ready queue and the pending map, and it is not negative. -/
theorem buffered_bytes_accounting (env : Collaborators) :
    ∀ (ops : List Op) (s : Run),
      s.recvr._num_buffered_bytes = wsum (fun i => i.chunk_bytes) s.held_items →
      wsum (fun i => min i.chunk_bytes 0) s.held_items = 0 →
      pending_keys_nodup s.queue →
      keys_stay_apart env s ops = true →
      (Run.steps env s ops).recvr._num_buffered_bytes =
        sum_chunk_bytes ((Run.steps env s ops).queue._chunk_queue ++
          pending_items (Run.steps env s ops).queue) ∧
      0 ≤ (Run.steps env s ops).recvr._num_buffered_bytes := by
  intro ops
  induction ops with
  | nil =>
    intro s h1 h2 _ _
    refine ⟨h1, ?_⟩
    show 0 ≤ s.recvr._num_buffered_bytes
    rw [h1]
    exact wsum_nonneg_of_negative_part _ h2
  | cons op rest ih =>
    intro s h1 h2 h3 h4
    simp only [keys_stay_apart, Bool.and_eq_true] at h4
    obtain ⟨hnd, added, popped, rest2, hq, hnn, hB, hf⟩ := Run.step_accounting env s op h3 h4.1
    simp only [Run.steps, List.foldl_cons]
    have hneg_added := wsum_negative_part_of_nonneg added hnn
    have hpop : wsum (fun i => min i.chunk_bytes 0) popped = 0 := by
      have e := Run.held_wsum (fun i => min i.chunk_bytes 0) s
      rw [h2, hq, wsum_append] at e
      have a1 := wsum_negative_part_le popped
      have a2 := wsum_negative_part_le rest2
      have a3 : psum (fun i => min i.chunk_bytes 0) s.queue._buffered_chunk_queues ≤ 0 :=
        wsum_negative_part_le _
      omega
    apply ih (Run.step env s op)
    · have := hf (fun i => i.chunk_bytes)
      omega
    · have := hf (fun i => min i.chunk_bytes 0)
      omega
    · exact hnd
    · exact h4.2

/-- The accounting of `buffered_bytes_accounting` from a new receiver. -/
theorem buffered_bytes_accounting_fresh (env : Collaborators) (limit : Int)
    (row_desc : List TupleDescriptor) (num_senders : Int) (ops : List Op)
    (h : keys_stay_apart env (Run.fresh limit row_desc num_senders) ops = true) :
    (Run.steps env (Run.fresh limit row_desc num_senders) ops).recvr._num_buffered_bytes =
      sum_chunk_bytes
        ((Run.steps env (Run.fresh limit row_desc num_senders) ops).queue._chunk_queue ++
          pending_items (Run.steps env (Run.fresh limit row_desc num_senders) ops).queue) ∧
    0 ≤ (Run.steps env (Run.fresh limit row_desc num_senders) ops).recvr._num_buffered_bytes :=
  buffered_bytes_accounting env ops (Run.fresh limit row_desc num_senders) rfl rfl
    (fun src hsrc => by simp [Run.fresh, SenderQueue.new] at hsrc) h

/-- A key that is pending after an operation other than `cancel` and `close` was
pending before it, or is the key of the operation, a keep-order call. -/
theorem Run.step_pending_keys (env : Collaborators) (s : Run) (op : Op)
    (hop : op.ends_stream = false) (b k : Int)
    (h : (mfind ((mfind (Run.step env s op).queue._buffered_chunk_queues b).getD []) k).isSome
      = true) :
    (mfind ((mfind s.queue._buffered_chunk_queues b).getD []) k).isSome = true ∨
      (b, k) ∈ keep_order_keys [op] := by
  have same : (Run.step env s op).queue._buffered_chunk_queues = s.queue._buffered_chunk_queues →
      (mfind ((mfind s.queue._buffered_chunk_queues b).getD []) k).isSome = true ∨
        (b, k) ∈ keep_order_keys [op] := by
    intro he
    rw [he] at h
    exact Or.inl h
  cases op with
  | add_chunks request done is_pipeline =>
    exact same (add_chunks_shape env s.recvr s.queue request done is_pipeline).1
  | add_chunks_and_keep_order request done =>
    have hstep : (Run.step env s (Op.add_chunks_and_keep_order request done)).queue =
        (add_chunks_and_keep_order env s.recvr s.queue request done).queue := rfl
    rw [hstep] at h same
    rcases add_chunks_and_keep_order_shape env s.recvr s.queue request done with
      ⟨_, _, h3⟩ | ⟨batch, _, _, _, h3⟩
    · rcases h3 with h3 | ⟨hnone, h3⟩
      · exact same h3
      · rw [h3] at h
        by_cases hb : b = request.be_number
        · subst hb
          rw [mfind_minsert_same] at h
          simp [mfind] at h
        · rw [mfind_minsert_other _ _ _ _ (Ne.symm hb)] at h
          exact Or.inl h
    · rw [h3] at h
      by_cases hb : b = request.be_number
      · subst hb
        rw [mfind_minsert_same, Option.getD_some] at h
        obtain ⟨j, _, _, _, hfind, _⟩ := drain_loop_spec
          (minsert ((mfind s.queue._buffered_chunk_queues request.be_number).getD [])
            (toInt32 request.sequence) batch).length
          (minsert ((mfind s.queue._buffered_chunk_queues request.be_number).getD [])
            (toInt32 request.sequence) batch)
          ((mfind s.queue._max_processed_sequences request.be_number).getD (-1))
          s.queue._chunk_queue (le_refl _)
        rw [hfind k] at h
        split at h
        · simp at h
        · by_cases hk : k = toInt32 request.sequence
          · right
            subst hk
            simp [keep_order_keys]
          · rw [mfind_minsert_other _ _ _ _ (Ne.symm hk)] at h
            exact Or.inl h
      · rw [mfind_minsert_other _ _ _ _ (Ne.symm hb)] at h
        exact Or.inl h
  | get_chunk =>
    apply same
    by_cases hw : get_chunk_waits s.queue = true
    · simp only [Run.step, get_chunk, hw, if_true]
    · simp only [Run.step, get_chunk, hw, Bool.false_eq_true, if_false]
      rcases _do_get_chunk_shape s.recvr s.queue with ⟨_, h2⟩ | ⟨front, rest, _, _, h2⟩
      · rw [h2]
      · rw [h2]
  | get_chunk_for_pipeline =>
    apply same
    have hstep : (Run.step env s Op.get_chunk_for_pipeline).queue =
        (_do_get_chunk s.recvr s.queue).queue := rfl
    rw [hstep]
    rcases _do_get_chunk_shape s.recvr s.queue with ⟨_, h2⟩ | ⟨front, rest, _, _, h2⟩
    · rw [h2]
    · rw [h2]
  | try_get_chunk =>
    apply same
    have hstep : (Run.step env s Op.try_get_chunk).queue =
        (try_get_chunk s.recvr s.queue).queue := rfl
    rw [hstep]
    rcases try_get_chunk_shape s.recvr s.queue with ⟨_, h2⟩ | ⟨front, rest, _, _, h2⟩
    · rw [h2]
    · rw [h2]
  | decrement_senders be_number =>
    apply same
    simp only [Run.step, decrement_senders]
    split <;> rfl
  | cancel => simp [Op.ends_stream] at hop
  | close => simp [Op.ends_stream] at hop

/-- Keep-order calls whose pending keys are pairwise distinct never meet a key
that is pending. -/
theorem keys_stay_apart_of_distinct (env : Collaborators) :
    ∀ (ops : List Op) (s : Run) (seen : List (Int × Int)),
      (∀ b k, (mfind ((mfind s.queue._buffered_chunk_queues b).getD []) k).isSome = true →
        (b, k) ∈ seen) →
      (seen ++ keep_order_keys ops).Nodup →
      (∀ op ∈ ops, op.ends_stream = false) →
      keys_stay_apart env s ops = true := by
  intro ops
  induction ops with
  | nil => intro s seen _ _ _; rfl
  | cons op rest ih =>
    intro s seen hseen hnd hend
    have hop := hend op (List.mem_cons_self _ _)
    have hsplit : keep_order_keys (op :: rest) = keep_order_keys [op] ++ keep_order_keys rest := by
      unfold keep_order_keys
      rw [← List.filterMap_append]
      rfl
    rw [hsplit, ← List.append_assoc] at hnd
    simp only [keys_stay_apart, Bool.and_eq_true]
    constructor
    · cases op with
      | add_chunks_and_keep_order request done =>
        simp only [Op.keeps_keys_apart]
        cases hm : mfind ((mfind s.queue._buffered_chunk_queues request.be_number).getD [])
            (toInt32 request.sequence) with
        | none => rfl
        | some v =>
          exfalso
          have hin := hseen request.be_number (toInt32 request.sequence) (by rw [hm]; rfl)
          have hnd1 := (List.nodup_append.1 hnd).1
          have hdis := (List.nodup_append.1 hnd1).2.2
          exact hdis hin (by simp [keep_order_keys])
      | cancel => simp [Op.ends_stream] at hop
      | close => simp [Op.ends_stream] at hop
      | add_chunks request done is_pipeline => rfl
      | get_chunk => rfl
      | get_chunk_for_pipeline => rfl
      | try_get_chunk => rfl
      | decrement_senders be_number => rfl
    · apply ih (Run.step env s op) (seen ++ keep_order_keys [op])
      · intro b k hk
        rcases Run.step_pending_keys env s op hop b k hk with h1 | h1
        · exact List.mem_append_left _ (hseen b k h1)
        · exact List.mem_append_right _ h1
      · exact hnd
      · intro op2 hop2
        exact hend op2 (List.mem_cons_of_mem _ hop2)

/-- Buffered-bytes accounting for distinct pending keys: in every state reached
from a new receiver by operations other than `cancel` and `close`, the
keep-order calls using pairwise distinct pairs of source and `int32_t` value of
the sequence, `num_buffered_bytes` is the sum of `chunk_bytes` over the items of
the ready queue and the pending map, and it is not negative. -/
theorem buffered_bytes_accounting_distinct (env : Collaborators) (limit : Int)
    (row_desc : List TupleDescriptor) (num_senders : Int) (ops : List Op)
    (hkeys : (keep_order_keys ops).Nodup) (hend : ∀ op ∈ ops, op.ends_stream = false) :
    (Run.steps env (Run.fresh limit row_desc num_senders) ops).recvr._num_buffered_bytes =
      sum_chunk_bytes
        ((Run.steps env (Run.fresh limit row_desc num_senders) ops).queue._chunk_queue ++
          pending_items (Run.steps env (Run.fresh limit row_desc num_senders) ops).queue) ∧
    0 ≤ (Run.steps env (Run.fresh limit row_desc num_senders) ops).recvr._num_buffered_bytes :=
  buffered_bytes_accounting_fresh env limit row_desc num_senders ops
    (keys_stay_apart_of_distinct env ops (Run.fresh limit row_desc num_senders) []
      (fun b k h => by simp [Run.fresh, SenderQueue.new, mfind] at h)
      (by rw [List.nil_append]; exact hkeys) hend)

/-- The accounting on scenario S3 followed by sequence `0`, two pulls and an
unordered request: the counter is the 3 bytes of the items still held. -/
theorem buffered_bytes_accounting_example :
    (Run.steps plain_env (Run.fresh 100 one_slot_desc 1)
      [Op.add_chunks_and_keep_order (mk_request 7 3 [plain_chunk [30]]) none,
       Op.add_chunks_and_keep_order (mk_request 7 1 [plain_chunk [10]]) none,
       Op.add_chunks_and_keep_order (mk_request 7 0 [plain_chunk [20]]) none,
       Op.get_chunk, Op.try_get_chunk,
       Op.add_chunks (mk_request 8 0 [plain_chunk [1, 2]]) none false]
      ).recvr._num_buffered_bytes = 3 := by
  have h := (buffered_bytes_accounting_distinct plain_env 100 one_slot_desc 1
    [Op.add_chunks_and_keep_order (mk_request 7 3 [plain_chunk [30]]) none,
     Op.add_chunks_and_keep_order (mk_request 7 1 [plain_chunk [10]]) none,
     Op.add_chunks_and_keep_order (mk_request 7 0 [plain_chunk [20]]) none,
     Op.get_chunk, Op.try_get_chunk,
     Op.add_chunks (mk_request 8 0 [plain_chunk [1, 2]]) none false]
    (by decide) (by decide)).1
  rw [h]
  decide

theorem mem_drained_batches (cq : List (Int × ChunkQueue)) (mx : Int) (j : Nat) (k : Int)
    (v : ChunkQueue) (h1 : mx < k) (h2 : k ≤ mx + (j : Int)) (hm : mfind cq k = some v) :
    ∀ x ∈ v, x ∈ drained_batches cq mx j := by
  intro x hx
  unfold drained_batches
  rw [List.mem_flatten]
  refine ⟨v, ?_, hx⟩
  rw [List.mem_map]
  refine ⟨(k - mx - 1).toNat, ?_, ?_⟩
  · rw [List.mem_range]
    omega
  · have hk : mx + 1 + (((k - mx - 1).toNat : Nat) : Int) = k := by omega
    rw [hk, hm]
    rfl

/-- No item is lost by a keep-order call whose key is not pending: for every
accepted `add_chunks_and_keep_order` call (queue not cancelled, senders
remaining, status OK) with a sequence whose `int32_t` value is not a key of the
pending map of its source, every item of the ready queue is still in the ready
queue, every batch that was pending for the source is still pending under its
key or has all its items in the ready queue, and so has the batch of the
request, which holds the chunks of the request. -/
theorem keep_order_keeps_items (env : Collaborators) (r : Recvr) (q : SenderQueue)
    (request : PTransmitChunkParams) (done : Option (Option Closure))
    (hc : q._is_cancelled = false) (hrem : 0 < q._num_remaining_senders)
    (hok : (add_chunks_and_keep_order env r q request done).status = none)
    (hfresh : mfind ((mfind q._buffered_chunk_queues request.be_number).getD [])
      (toInt32 request.sequence) = none) :
    (∀ i ∈ q._chunk_queue, i ∈ (add_chunks_and_keep_order env r q request done).queue._chunk_queue) ∧
    (∀ (k : Int) (batch : ChunkQueue),
      mfind ((mfind q._buffered_chunk_queues request.be_number).getD []) k = some batch →
      mfind ((mfind (add_chunks_and_keep_order env r q request done).queue._buffered_chunk_queues
        request.be_number).getD []) k = some batch ∨
      ∀ i ∈ batch, i ∈ (add_chunks_and_keep_order env r q request done).queue._chunk_queue) ∧
    (∃ batch : ChunkQueue,
      batch.map (fun i => i.chunk_ptr) =
        request_chunks env (add_chunks_and_keep_order env r q request done).queue._chunk_meta
          request ∧
      (mfind ((mfind (add_chunks_and_keep_order env r q request done).queue._buffered_chunk_queues
          request.be_number).getD []) (toInt32 request.sequence) = some batch ∨
        ∀ i ∈ batch, i ∈ (add_chunks_and_keep_order env r q request done).queue._chunk_queue)) := by
  obtain ⟨items, total, j, hd, _, hready, _, _, hfind⟩ :=
    keep_order_moves_contiguous env r q request done hc hrem hok
  refine ⟨?_, ?_, ?_⟩
  · intro i hi
    rw [hready]
    exact List.mem_append_left _ hi
  · intro k batch hk
    have hne : toInt32 request.sequence ≠ k := by
      intro he
      rw [← he, hfresh] at hk
      simp at hk
    rw [hfind k, hready]
    by_cases hdr : (mfind q._max_processed_sequences request.be_number).getD (-1) < k ∧
        k ≤ (mfind q._max_processed_sequences request.be_number).getD (-1) + (j : Int)
    · right
      intro i hi
      apply List.mem_append_right
      exact mem_drained_batches _ _ j k batch hdr.1 hdr.2
        (by rw [mfind_minsert_other _ _ _ _ hne]; exact hk) i hi
    · left
      rw [if_neg hdr, mfind_minsert_other _ _ _ _ hne]
      exact hk
  · refine ⟨keep_order_batch r items done total, ?_, ?_⟩
    · rw [keep_order_batch_map_chunk]
      exact deserialize_chunks_request_chunks env _ request items total hd
    · rw [hfind (toInt32 request.sequence), hready]
      by_cases hdr : (mfind q._max_processed_sequences request.be_number).getD (-1) <
            toInt32 request.sequence ∧
          toInt32 request.sequence ≤
            (mfind q._max_processed_sequences request.be_number).getD (-1) + (j : Int)
      · right
        intro i hi
        apply List.mem_append_right
        exact mem_drained_batches _ _ j _ _ hdr.1 hdr.2 (mfind_minsert_same _ _ _) i hi
      · left
        rw [if_neg hdr, mfind_minsert_same]

/-! ## End of stream after `N` distinct sources -/

/-- Every source passed to `decrement_senders` is in the EOS set afterwards, and
no operation takes a source out of the set. -/
theorem Run.steps_eos_superset (env : Collaborators) :
    ∀ (ops : List Op) (s : Run) (b : Int),
      b ∈ s.queue._sender_eos_set ∨ b ∈ decrement_sources ops →
      b ∈ (Run.steps env s ops).queue._sender_eos_set := by
  intro ops
  induction ops with
  | nil =>
    intro s b h
    rcases h with h | h
    · exact h
    · simp [decrement_sources] at h
  | cons op rest ih =>
    intro s b h
    simp only [Run.steps, List.foldl_cons]
    apply ih (Run.step env s op) b
    by_cases hd : ∃ c, op = Op.decrement_senders c
    · obtain ⟨c, hc⟩ := hd
      subst hc
      have hsrc : decrement_sources (Op.decrement_senders c :: rest) =
          c :: decrement_sources rest := rfl
      rw [hsrc] at h
      have hstep : b ∈ s.queue._sender_eos_set ∨ b = c →
          b ∈ (Run.step env s (Op.decrement_senders c)).queue._sender_eos_set := by
        intro hb
        simp only [Run.step, decrement_senders]
        split
        · rename_i hmem
          rcases hb with hb | hb
          · exact hb
          · rw [hb]; exact hmem
        · rcases hb with hb | hb
          · exact List.mem_cons_of_mem _ hb
          · rw [hb]; exact List.mem_cons_self _ _
      rcases h with h | h
      · exact Or.inl (hstep (Or.inl h))
      · simp only [List.mem_cons] at h
        rcases h with h | h
        · exact Or.inl (hstep (Or.inr h))
        · exact Or.inr h
    · have hsrc : decrement_sources (op :: rest) = decrement_sources rest := by
        unfold decrement_sources
        rw [List.filterMap_cons]
        split
        · rfl
        · rename_i c hc
          exfalso
          cases op with
          | decrement_senders be => exact hd ⟨be, rfl⟩
          | add_chunks _ _ _ => simp at hc
          | add_chunks_and_keep_order _ _ => simp at hc
          | get_chunk => simp at hc
          | get_chunk_for_pipeline => simp at hc
          | try_get_chunk => simp at hc
          | cancel => simp at hc
          | close => simp at hc
      rw [hsrc] at h
      rw [(Run.step_senders env s op (fun c hc => hd ⟨c, hc⟩)).1]
      exact h

/-- The EOS set of a run from a new queue holds exactly as many sources as were
passed to `decrement_senders`, each counted once. -/
theorem Run.fresh_eos_length_eq (env : Collaborators) (limit : Int)
    (row_desc : List TupleDescriptor) (n : Int) (ops : List Op) :
    (Run.steps env (Run.fresh limit row_desc n) ops).queue._sender_eos_set.length =
      (decrement_sources ops).dedup.length := by
  apply Nat.le_antisymm (Run.fresh_eos_length env limit row_desc n ops)
  apply List.Subperm.length_le
  apply List.Nodup.subperm (List.nodup_dedup _)
  intro b hb
  exact Run.steps_eos_superset env ops _ b (Or.inr (List.mem_dedup.1 hb))

/-- Claim C17 (`is_finished` and `has_output`): `is_finished` returns `true`
exactly when the queue is cancelled or `remaining_senders = 0` with an empty
ready queue; `has_output` returns `true` exactly when the queue is not cancelled
and the ready queue is non-empty; the receiver-level functions return what
queue 0 returns, which in a non-merging receiver is its only queue.  In
particular, after any run on the queue of a non-merging receiver with `N`
senders in which the sources passed to `decrement_senders` are `N` distinct ones
and which leaves the ready queue empty, `remaining_senders` is `0`,
`is_finished` is `true` and `has_output` is `false`; in a run of `add_chunks`,
pulls and `decrement_senders` the ready queue is empty once the pulls have
returned as many chunks as were accepted. -/
theorem is_finished_has_output_contract :
    (∀ q : SenderQueue, is_finished q = true ↔
      (q._is_cancelled = true ∨ (q._num_remaining_senders = 0 ∧ q._chunk_queue = []))) ∧
    (∀ q : SenderQueue, has_output q = true ↔
      (q._is_cancelled = false ∧ q._chunk_queue ≠ [])) ∧
    (∀ (recvr : DataStreamRecvr) (q : SenderQueue) (rest : List SenderQueue),
      recvr._sender_queues = q :: rest →
      recvr.is_finished = some (is_finished q) ∧ recvr.has_output = some (has_output q)) ∧
    (∀ (row_desc : List TupleDescriptor) (N : Nat) (limit : Int) (is_pipeline keep_order : Bool),
      (DataStreamRecvr.new row_desc N false limit is_pipeline keep_order)._sender_queues =
        [(Run.fresh limit row_desc N).queue]) ∧
    (∀ (env : Collaborators) (limit : Int) (row_desc : List TupleDescriptor) (N : Nat)
      (ops : List Op),
      (decrement_sources ops).dedup.length = N →
      (Run.steps env (Run.fresh limit row_desc N) ops).queue._chunk_queue = [] →
      (Run.steps env (Run.fresh limit row_desc N) ops).queue._num_remaining_senders = 0 ∧
      is_finished (Run.steps env (Run.fresh limit row_desc N) ops).queue = true ∧
      has_output (Run.steps env (Run.fresh limit row_desc N) ops).queue = false) ∧
    (∀ (env : Collaborators) (limit : Int) (row_desc : List TupleDescriptor) (N : Nat)
      (ops : List Op),
      (∀ op ∈ ops, op.is_unordered = true) →
      (decrement_sources ops).dedup.length = N →
      (Run.pulled env (Run.fresh limit row_desc N) ops).length =
        (Run.accepted env (Run.fresh limit row_desc N) ops).length →
      is_finished (Run.steps env (Run.fresh limit row_desc N) ops).queue = true ∧
      has_output (Run.steps env (Run.fresh limit row_desc N) ops).queue = false) := by
  have last : ∀ (env : Collaborators) (limit : Int) (row_desc : List TupleDescriptor) (N : Nat)
      (ops : List Op),
      (decrement_sources ops).dedup.length = N →
      (Run.steps env (Run.fresh limit row_desc N) ops).queue._chunk_queue = [] →
      (Run.steps env (Run.fresh limit row_desc N) ops).queue._num_remaining_senders = 0 ∧
      is_finished (Run.steps env (Run.fresh limit row_desc N) ops).queue = true ∧
      has_output (Run.steps env (Run.fresh limit row_desc N) ops).queue = false := by
    intro env limit row_desc N ops hsrc hempty
    have hinv := (Run.steps_sender_count env ops (Run.fresh limit row_desc N) N
      List.nodup_nil (by simp [Run.fresh, SenderQueue.new])).2
    rw [Run.fresh_eos_length_eq env limit row_desc N ops, hsrc] at hinv
    have hrem : (Run.steps env (Run.fresh limit row_desc N) ops).queue._num_remaining_senders = 0 := by
      omega
    refine ⟨hrem, ?_⟩
    simp [is_finished, has_output, hrem, hempty]
  refine ⟨?_, ?_, ?_, ?_, last, ?_⟩
  · intro q
    cases hc : q._is_cancelled <;> cases hq : q._chunk_queue <;>
      simp [is_finished, hc, hq]
  · intro q
    cases hc : q._is_cancelled <;> cases hq : q._chunk_queue <;>
      simp [has_output, hc, hq]
  · intro recvr q rest h
    simp [DataStreamRecvr.is_finished, DataStreamRecvr.has_output, h]
  · intro row_desc N limit is_pipeline keep_order
    rfl
  · intro env limit row_desc N ops hops hsrc hlen
    have hcons := (Run.pulled_append_ready env ops (Run.fresh limit row_desc N) rfl hops).2
    have hs : (Run.fresh limit row_desc N).ready_chunks = [] := rfl
    rw [hs, List.nil_append] at hcons
    have hready : (Run.steps env (Run.fresh limit row_desc N) ops).ready_chunks = [] := by
      have := congrArg List.length hcons
      rw [List.length_append, hlen] at this
      exact List.length_eq_zero.1 (by omega)
    have hempty : (Run.steps env (Run.fresh limit row_desc N) ops).queue._chunk_queue = [] := by
      simpa [Run.ready_chunks] using hready
    exact (last env limit row_desc N ops hsrc hempty).2

/-- Witness of C17: on the queue of a receiver with two senders, source `7` sends
a chunk and closes its channel, source `8` closes its channel, source `7` is
passed once more, and the consumer pulls the chunk. -/
theorem is_finished_has_output_contract_witness :
    (Run.steps plain_env (Run.fresh 100 one_slot_desc (2 : Nat))
      [Op.add_chunks (mk_request 7 0 [plain_chunk [1]]) none false, Op.decrement_senders 7,
       Op.decrement_senders 8, Op.decrement_senders 7, Op.get_chunk]
      ).queue._num_remaining_senders = 0 ∧
    is_finished (Run.steps plain_env (Run.fresh 100 one_slot_desc (2 : Nat))
      [Op.add_chunks (mk_request 7 0 [plain_chunk [1]]) none false, Op.decrement_senders 7,
       Op.decrement_senders 8, Op.decrement_senders 7, Op.get_chunk]).queue = true ∧
    has_output (Run.steps plain_env (Run.fresh 100 one_slot_desc (2 : Nat))
      [Op.add_chunks (mk_request 7 0 [plain_chunk [1]]) none false, Op.decrement_senders 7,
       Op.decrement_senders 8, Op.decrement_senders 7, Op.get_chunk]).queue = false :=
  is_finished_has_output_contract.2.2.2.2.1 plain_env 100 one_slot_desc 2
    [Op.add_chunks (mk_request 7 0 [plain_chunk [1]]) none false, Op.decrement_senders 7,
     Op.decrement_senders 8, Op.decrement_senders 7, Op.get_chunk]
    (by decide) (by decide)

/-! ## BinaryPlainPage: layout of pages whose last string crosses 4 GiB -/

/-- The stored offsets are the sums of the lengths of the strings before, as long
as the strings before the last one total less than `2^32` bytes. -/
theorem offsets_from_eq_of_before : ∀ (strings : List (List Nat)) (start : Nat),
    start + length_before strings (strings.length - 1) < 4294967296 →
    offsets_from start strings =
      (List.range strings.length).map (fun i => start + length_before strings i) := by
  intro strings
  induction strings with
  | nil => intro start _; rfl
  | cons s rest ih =>
    intro start h
    rw [offsets_from, List.length_cons, List.range_succ_eq_map, List.map_cons, List.map_map,
      length_before_zero]
    have h1 : start % 4294967296 = start := Nat.mod_eq_of_lt (by omega)
    rw [h1]
    refine congrArg₂ _ rfl ?_
    cases rest with
    | nil => rfl
    | cons s2 rest2 =>
      have hlen : (s :: s2 :: rest2).length - 1 = (s2 :: rest2).length - 1 + 1 := by
        simp
      rw [hlen, length_before_cons_succ] at h
      have h2 : (start + s.length) % 18446744073709551616 = start + s.length :=
        Nat.mod_eq_of_lt (by omega)
      rw [h2, ih (start + s.length) (by omega)]
      apply List.map_congr_left
      intro i _
      simp only [Function.comp, length_before_cons_succ]
      omega

/-- Claim C27 as amended (wire layout of the page): for every list of byte
strings whose strings before the last one have a total length below `2^32`,
fewer than `2^32` of them, all added to a new builder with reserved head size
`h` (a `uint8_t`), the buffer `finish` returns is `h` head bytes, then the
strings one after the other, then for every string the sum of the lengths of
the strings before it as four bytes, least significant first, then the number
of strings as four such bytes; every one of these stored values decodes to
itself.  The last string may be of any length. -/
theorem binary_plain_page_layout (options : PageBuilderOptions) (h : Nat)
    (strings : List (List Nat)) (b : BinaryPlainPageBuilder)
    (hh : h < 256)
    (hb : build_page options h strings = some (strings.length, b))
    (hbefore : length_before strings (strings.length - 1) < 4294967296)
    (hn : strings.length < 4294967296) :
    (b._buffer.take h).length = h ∧
    b._buffer.drop h = strings.flatten ++
      (List.range strings.length).flatMap
        (fun i => put_fixed32_le [] (length_before strings i)) ++
      put_fixed32_le [] strings.length ∧
    (∀ i, i < strings.length →
      decode_fixed32_le (put_fixed32_le [] (length_before strings i)) = length_before strings i) ∧
    decode_fixed32_le (put_fixed32_le [] strings.length) = strings.length := by
  have hl := build_page_layout _ _ _ _ hb
  rw [Nat.mod_eq_of_lt hh, Nat.mod_eq_of_lt hn,
    offsets_from_eq_of_before strings 0 (by omega)] at hl
  have hmap : ((List.range strings.length).map (fun i => 0 + length_before strings i)).flatMap
      (fun v => put_fixed32_le [] v) =
      (List.range strings.length).flatMap
        (fun i => put_fixed32_le [] (length_before strings i)) := by
    simp only [List.flatMap, List.map_map, Nat.zero_add]
    rfl
  rw [hmap] at hl
  refine ⟨?_, ?_, ?_, ?_⟩
  · rw [hl]; simp
  · rw [hl, List.append_assoc, List.append_assoc]
    have := @List.drop_append Nat (List.replicate h 0)
      (strings.flatten ++ ((List.range strings.length).flatMap
        (fun i => put_fixed32_le [] (length_before strings i)) ++
        put_fixed32_le [] strings.length)) 0
    rw [List.length_replicate, Nat.add_zero, List.drop_zero] at this
    rw [this, List.append_assoc]
  · intro i hi
    have h1 := length_before_le strings i (strings.length - 1) (by omega)
    have := decode_put_fixed32_le (length_before strings i) []
    rw [List.append_nil] at this
    rw [this]
    exact Nat.mod_eq_of_lt (by omega)
  · have := decode_put_fixed32_le strings.length []
    rw [List.append_nil] at this
    rw [this]
    exact Nat.mod_eq_of_lt hn

/-- Witness of C27 as amended: three strings, one of them empty, behind a head of
two bytes. -/
theorem binary_plain_page_layout_witness :
    (build_page ⟨0⟩ 2 [[1, 2, 3], [], [9, 9]]).map (fun p => p.2._buffer.drop 2) =
      some ([1, 2, 3, 9, 9] ++ [0, 0, 0, 0, 3, 0, 0, 0, 3, 0, 0, 0] ++ [3, 0, 0, 0]) := by
  obtain ⟨b, hb⟩ := build_page_unlimited 2 [[1, 2, 3], [], [9, 9]]
  have h := (binary_plain_page_layout ⟨0⟩ 2 [[1, 2, 3], [], [9, 9]] b (by decide) hb
    (by decide) (by decide)).2.1
  rw [hb, Option.map_some', h]
  decide

end StarRocks
